import Mathlib

/-!
# lightlang: bit-packed bytecode codec

A shallow embedding of `bytecode.go` (bit writer, bit reader, `WriteBytecode`,
`ReadBytecode`) together with the properties of the container format.

Conventions of the embedding

* Go's machine integers are natural numbers or integers with explicit
  reductions modulo `2^w`; a byte is a natural number below 256.
* A Go `string` is the list of its bytes.
* A Go `interface{}` value is a `Value`; a `float64` is carried by its IEEE-754
  bit pattern (`math.Float64bits`).
* The `io.Writer` under a `BitWriter` is an in-memory byte buffer (`out`), so
  writes do not fail; the `io.Reader` under a `BitReader` is the list of bytes
  that are still unread (`input`).
-/

namespace LightLang

/-! ## Data model -/

/-- Dynamic values held by Go's `interface{}` in instruction operands and constants. -/
inductive Value where
  | nil
  | int (v : Int)
  | int64 (v : Int)
  | float (bits : Nat)
  | str (s : List Nat)
  | bool (b : Bool)
  deriving DecidableEq, Repr

/-- The record `Instruction{Op, Arg, Line}`; `Arg = Value.nil` is the absent operand. -/
structure Instruction where
  Op : Nat
  Arg : Value
  Line : Int
  deriving DecidableEq, Repr

/-- The record `Constant{Value, Type}`; the zero value has `Value = nil`, `Type = ""`. -/
structure Constant where
  Value : Value
  Typ : String
  deriving DecidableEq, Repr

/-- Errors returned by the reader: `io.ErrUnexpectedEOF`, and the two `fmt.Errorf`
values "invalid bytecode file: bad magic" and "incompatible bytecode version: %d.%d". -/
inductive Err where
  | UnexpectedEOF
  | BadMagic
  | IncompatibleVersion (major minor : Nat)
  deriving DecidableEq, Repr

deriving instance DecidableEq for Except

def MagicHeader : Nat := 0x4C4C4243
def VersionMajor : Nat := 3
def VersionMinor : Nat := 0
def VersionCombined : Nat := ((VersionMajor <<< 4) % 256) ||| (VersionMinor &&& 0x0F)

def ConstTypeNumber : Nat := 0
def ConstTypeString : Nat := 1
def ConstTypeFuncPtr : Nat := 2
def ConstTypeBool : Nat := 3
def ConstTypeNil : Nat := 4

def ArgTypeConst : Nat := 0
def ArgTypeInt : Nat := 1
def ArgTypeFloat : Nat := 2
def ArgTypeString : Nat := 3

/-! ## Machine-integer conversions -/

/-- Conversion `uint16(x)` of a Go `int`. -/
def toUint16 (x : Int) : Nat := (x % 65536).toNat

/-- Conversion `uint32(x)` of a Go integer. -/
def toUint32 (x : Int) : Nat := (x % 4294967296).toNat

/-- Conversion `uint64(x)` of a Go signed integer. -/
def toUint64 (x : Int) : Nat := (x % 18446744073709551616).toNat

/-- Conversion `int32(x)` of a Go integer (wraps modulo `2^32`). -/
def toInt32 (x : Int) : Int := (x + 2147483648) % 4294967296 - 2147483648

/-- Conversion `int8(x)` of a Go integer (wraps modulo `2^8`). -/
def toInt8 (x : Int) : Int := (x + 128) % 256 - 128

/-- Bitwise complement `^x` of a `uint32`. -/
def not32 (x : Nat) : Nat := 4294967295 - x % 4294967296

/-! ## IEEE-754 double precision, on bit patterns -/

/-- Biased exponent field of a `float64` bit pattern. -/
def f64Exp (b : Nat) : Nat := (b / 2 ^ 52) % 2048

/-- Fraction field of a `float64` bit pattern. -/
def f64Frac (b : Nat) : Nat := b % 2 ^ 52

/-- Sign bit of a `float64` bit pattern. -/
def f64Neg (b : Nat) : Bool := (b / 2 ^ 63) % 2 = 1

def f64IsNaN (b : Nat) : Bool := f64Exp b = 2047 ∧ f64Frac b ≠ 0

def f64IsZero (b : Nat) : Bool := f64Exp b = 0 ∧ f64Frac b = 0

/-- Significand and binary exponent of a finite `float64`: the magnitude is
`sig * 2^(e - 1075)`. -/
def f64Sig (b : Nat) : Nat := if f64Exp b = 0 then f64Frac b else 2 ^ 52 + f64Frac b

def f64E (b : Nat) : Nat := if f64Exp b = 0 then 1 else f64Exp b

/-- The magnitude of a finite `float64` truncated toward zero. -/
def f64TruncMag (b : Nat) : Nat :=
  if 1075 ≤ f64E b then f64Sig b * 2 ^ (f64E b - 1075) else f64Sig b / 2 ^ (1075 - f64E b)

/-- The exact integer denoted by a `float64`, when it is finite and integer-valued. -/
def f64ToInt? (b : Nat) : Option Int :=
  if f64Exp b = 2047 then none
  else if 1075 ≤ f64E b ∨ f64Sig b % 2 ^ (1075 - f64E b) = 0 then
    some (if f64Neg b then -(f64TruncMag b : Int) else (f64TruncMag b : Int))
  else none

/-- Position of the highest set bit of `n`, for `n < 2^(fuel+1)`. -/
def ilog2 : Nat → Nat → Nat
  | 0, _ => 0
  | fuel + 1, n => if 2 ≤ n then ilog2 fuel (n / 2) + 1 else 0

/-- Conversion `float64(v)` of a Go integer (at most 64 bits wide), rounding to
nearest, ties to even. -/
def f64OfInt (v : Int) : Nat :=
  let n := v.natAbs
  let s := if v < 0 then 2 ^ 63 else 0
  if n = 0 then 0
  else
    let e := ilog2 64 n
    if e ≤ 52 then s + (e + 1023) * 2 ^ 52 + (n * 2 ^ (52 - e) - 2 ^ 52)
    else
      let sh := e - 52
      let q := n / 2 ^ sh
      let r := n % 2 ^ sh
      let half := 2 ^ (sh - 1)
      let q := if half < r ∨ (r = half ∧ q % 2 = 1) then q + 1 else q
      -- a carry out of the significand lands in the exponent field
      s + (e + 1023) * 2 ^ 52 + (q - 2 ^ 52)

/-- Go's `==` on two `float64` values. -/
def f64Eq (a b : Nat) : Bool :=
  !f64IsNaN a && !f64IsNaN b && (a = b || (f64IsZero a && f64IsZero b))

/-- Conversion `int32(f)` of a `float64`: truncation toward zero.  When the
truncated value does not fit (or `f` is a NaN) Go leaves the result to the
implementation; the value chosen here is the one amd64 produces, `-2^31`. -/
def f64ToInt32 (b : Nat) : Int :=
  if f64Exp b = 2047 then -2147483648
  else
    let t : Int := if f64Neg b then -(f64TruncMag b : Int) else (f64TruncMag b : Int)
    if -2147483648 ≤ t ∧ t < 2147483648 then t else -2147483648

/-- Conversion `uint32(f)` of a `float64`: truncation toward zero.  When the
truncated value does not fit Go leaves the result to the implementation; the
value chosen here is the one amd64 produces (the low 32 bits of the conversion
to `int64`, which is `-2^63` when that does not fit either). -/
def f64ToUint32 (b : Nat) : Nat :=
  if f64Exp b = 2047 then 0
  else
    let t : Int := if f64Neg b then -(f64TruncMag b : Int) else (f64TruncMag b : Int)
    if -9223372036854775808 ≤ t ∧ t < 9223372036854775808 then toUint32 t else 0

/-! ## Bit writer -/

/-- The struct `BitWriter`; `out` holds the bytes already handed to the `io.Writer`. -/
structure BitWriter where
  out : List Nat
  buffer : Nat
  bitPos : Nat
  deriving DecidableEq, Repr

def NewBitWriter : BitWriter := { out := [], buffer := 0, bitPos := 0 }

/-- One iteration of the loop of `WriteBits`: appends bit `i` of `value`. -/
def BitWriter.writeBit (bw : BitWriter) (value i : Nat) : BitWriter :=
  let bit := (value >>> i) &&& 1
  let buffer := bw.buffer ||| ((bit <<< bw.bitPos) % 256)
  let bitPos := bw.bitPos + 1
  if bitPos = 8 then { out := bw.out ++ [buffer], buffer := 0, bitPos := 0 }
  else { out := bw.out, buffer := buffer, bitPos := bitPos }

/-- The loop `for i := i; i < i + n; i++` of `WriteBits`. -/
def BitWriter.writeBitsFrom (bw : BitWriter) (value : Nat) : Nat → Nat → BitWriter
  | _, 0 => bw
  | i, n + 1 => (bw.writeBit value i).writeBitsFrom value (i + 1) n

def BitWriter.WriteBits (bw : BitWriter) (value bits : Nat) : BitWriter :=
  bw.writeBitsFrom value 0 bits

def BitWriter.Flush (bw : BitWriter) : BitWriter :=
  if 0 < bw.bitPos then { out := bw.out ++ [bw.buffer], buffer := 0, bitPos := 0 } else bw

def BitWriter.WriteUint32 (bw : BitWriter) (val : Nat) : BitWriter := bw.WriteBits val 32

def BitWriter.WriteUint8 (bw : BitWriter) (val : Nat) : BitWriter := bw.WriteBits val 8

/-- The loop of `WriteVarUint`; a `uint32` needs at most four continuation bytes,
so the counter started at 32 never reaches zero. -/
def BitWriter.writeVarUintLoop : Nat → BitWriter → Nat → BitWriter
  | 0, bw, val => bw.WriteBits val 8
  | fuel + 1, bw, val =>
    if 0x80 ≤ val then
      writeVarUintLoop fuel (bw.WriteBits ((val &&& 0x7F) ||| 0x80) 8) (val >>> 7)
    else bw.WriteBits val 8

def BitWriter.WriteVarUint (bw : BitWriter) (val : Nat) : BitWriter :=
  BitWriter.writeVarUintLoop 32 bw val

def BitWriter.WriteVarUint16 (bw : BitWriter) (val : Nat) : BitWriter :=
  if val < 0x80 then bw.WriteBits val 8
  else (bw.WriteBits ((val &&& 0x7F) ||| 0x80) 8).WriteBits (val >>> 7) 8

def BitWriter.WriteVarInt (bw : BitWriter) (val : Int) : BitWriter :=
  let uval := (toUint32 val <<< 1) % 4294967296
  let uval := if val < 0 then not32 uval else uval
  bw.WriteVarUint uval

/-! ## Bit reader -/

/-- The struct `BitReader`; `input` holds the bytes the `io.Reader` has not delivered yet. -/
structure BitReader where
  input : List Nat
  buffer : Nat
  bitPos : Nat
  eof : Bool
  deriving DecidableEq, Repr

def NewBitReader (bytes : List Nat) : BitReader :=
  { input := bytes, buffer := 0, bitPos := 0, eof := false }

/-- Reader computations: a result and the next reader state, or an error. -/
abbrev Rd (α : Type) := StateT BitReader (Except Err) α

/-- The refill at the head of the loop body of `ReadBits`: when the cursor is at
a byte boundary a fresh byte is pulled, and an exhausted input is the error
`io.ErrUnexpectedEOF`.  The source also sets `eof` there; `ReadBytecode` returns
at the first error, so the reader state after an error is never used again and
an error carries no state. -/
def BitReader.fill (br : BitReader) : Except Err BitReader :=
  if br.bitPos = 0 ∧ br.eof = false then
    match br.input with
    | [] => .error Err.UnexpectedEOF
    | b :: rest => .ok { br with input := rest, buffer := b % 256 }
  else .ok br

/-- One iteration of the loop of `ReadBits`: delivers the next bit. -/
def BitReader.readBit : Rd Nat := fun br =>
  match br.fill with
  | .error e => .error e
  | .ok br => .ok ((br.buffer >>> br.bitPos) &&& 1, { br with bitPos := (br.bitPos + 1) % 8 })

/-- The loop of `ReadBits` from bit index `i`, with `n` iterations left. -/
def BitReader.readBitsFrom : Nat → Nat → Nat → Rd Nat
  | _, 0, result => pure result
  | i, n + 1, result => do
    let bit ← BitReader.readBit
    BitReader.readBitsFrom (i + 1) n (result ||| ((bit <<< i) % 18446744073709551616))

def BitReader.ReadBits (bits : Nat) : Rd Nat := BitReader.readBitsFrom 0 bits 0

def BitReader.ReadUint32 : Rd Nat := do
  let val ← BitReader.ReadBits 32
  pure (val % 4294967296)

def BitReader.ReadUint8 : Rd Nat := do
  let val ← BitReader.ReadBits 8
  pure (val % 256)

/-- The loop of `ReadVarUint`.  Every iteration takes eight bits from the input,
so a counter that starts above the number of unread bytes never reaches zero. -/
def BitReader.readVarUintLoop : Nat → Nat → Nat → Rd Nat
  | 0, _, _ => fun _ => .error Err.UnexpectedEOF
  | fuel + 1, result, shift => do
    let b ← BitReader.ReadUint8
    let result := result ||| (((b &&& 0x7F) <<< shift) % 4294967296)
    if b &&& 0x80 = 0 then pure result
    else BitReader.readVarUintLoop fuel result (shift + 7)

def BitReader.ReadVarUint : Rd Nat := fun br =>
  BitReader.readVarUintLoop (br.input.length + 1) 0 0 br

def BitReader.ReadVarUint16 : Rd Nat := do
  let first ← BitReader.ReadUint8
  if first < 0x80 then pure first
  else do
    let second ← BitReader.ReadUint8
    pure (((first &&& 0x7F) ||| (second <<< 7)) % 65536)

/-! ## Bytecode writer -/

/-- The loop `for _, ch := range []byte(str)`: every byte is written as 8 bits. -/
def BitWriter.writeBytes (bw : BitWriter) : List Nat → BitWriter
  | [] => bw
  | ch :: rest => (bw.WriteBits ch 8).writeBytes rest

/-- The loop `for i := i; i < 64; i++` that writes a `float64` bit by bit. -/
def BitWriter.writeFloat64From (bw : BitWriter) (bits : Nat) : Nat → Nat → BitWriter
  | _, 0 => bw
  | i, n + 1 => (bw.WriteBits ((bits >>> i) &&& 1) 1).writeFloat64From bits (i + 1) n

def BitWriter.writeFloat64 (bw : BitWriter) (bits : Nat) : BitWriter :=
  bw.writeFloat64From bits 0 64

/-- Body of the constant loop of `WriteBytecode`.  `none` is the run-time panic
of the unchecked assertion `c.Value.(string)`. -/
def writeConstant (bw : BitWriter) (c : Constant) : Option BitWriter :=
  if c.Typ = "number" then
    match c.Value with
    | .int val =>
      if -64 ≤ val ∧ val ≤ 63 then
        let bw := bw.WriteBits ConstTypeNumber 3
        let bw := bw.WriteBits 1 1
        let signedVal := toInt8 val
        some (bw.WriteBits (toUint64 signedVal &&& 0x7F) 7)
      else
        let bw := bw.WriteBits ConstTypeNumber 3
        let bw := bw.WriteBits 0 1
        some (bw.writeFloat64 (f64OfInt val))
    | .float fval =>
      let bw := bw.WriteBits ConstTypeNumber 3
      let bw := bw.WriteBits 0 1
      some (bw.writeFloat64 fval)
    | _ =>
      let bw := bw.WriteBits ConstTypeNumber 3
      let bw := bw.WriteBits 0 1
      some (bw.writeFloat64 0)
  else if c.Typ = "string" then
    match c.Value with
    | .str str =>
      let bw :=
        if str.length ≤ 255 then
          let bw := bw.WriteBits ConstTypeString 3
          let bw := bw.WriteBits 1 1
          bw.WriteBits str.length 8
        else
          let bw := bw.WriteBits ConstTypeString 3
          let bw := bw.WriteBits 0 1
          bw.WriteVarUint (str.length % 4294967296)
      some (bw.writeBytes str)
    | _ => none
  else if c.Typ = "funcptr" then
    let bw := bw.WriteBits ConstTypeFuncPtr 3
    let val :=
      match c.Value with
      | .float v => f64ToUint32 v
      | .int v => toUint32 v
      | _ => 0
    some (bw.WriteVarUint val)
  else if c.Typ = "bool" then
    let bw := bw.WriteBits ConstTypeBool 3
    let val := if c.Value = .bool true then 1 else 0
    some (bw.WriteBits val 1)
  else if c.Typ = "nil" then
    some (bw.WriteBits ConstTypeNil 3)
  else some bw

def writeConstants (bw : BitWriter) : List Constant → Option BitWriter
  | [] => some bw
  | c :: rest => (writeConstant bw c).bind fun bw => writeConstants bw rest

/-- Body of the instruction loop of `WriteBytecode`. -/
def writeInstruction (bw : BitWriter) (inst : Instruction) : BitWriter :=
  let opcode := inst.Op % 18446744073709551616 &&& 0x7F
  let hasArg := inst.Arg ≠ .nil
  let opcode := if hasArg then opcode ||| 0x80 else opcode
  let bw := bw.WriteBits opcode 8
  let bw := bw.WriteVarUint16 (toUint16 inst.Line)
  if hasArg then
    match inst.Arg with
    | .float arg =>
      if f64Eq arg (f64OfInt (f64ToInt32 arg)) then
        let val := f64ToInt32 arg
        let bw := bw.WriteBits ArgTypeInt 2
        bw.WriteVarInt val
      else
        let bw := bw.WriteBits ArgTypeFloat 2
        bw.writeFloat64 arg
    | .int arg =>
      let bw := bw.WriteBits ArgTypeInt 2
      bw.WriteVarInt (toInt32 arg)
    | .str arg =>
      let bw := bw.WriteBits ArgTypeString 2
      let bw := bw.WriteVarUint (arg.length % 4294967296)
      bw.writeBytes arg
    | _ => bw
  else bw

def writeInstructions (bw : BitWriter) : List Instruction → BitWriter
  | [] => bw
  | inst :: rest => writeInstructions (writeInstruction bw inst) rest

/-- The function `BytecodeWriter.WriteBytecode` on a fresh writer: the bytes
handed to the `io.Writer`, or `none` when the writer panics. -/
def WriteBytecode (instructions : List Instruction) (constants : List Constant) :
    Option (List Nat) :=
  let bw := NewBitWriter.WriteUint32 MagicHeader
  let bw := bw.WriteUint8 VersionCombined
  let bw := bw.WriteVarUint (constants.length % 4294967296)
  let bw := bw.WriteVarUint (instructions.length % 4294967296)
  (writeConstants bw constants).map fun bw => ((writeInstructions bw instructions).Flush).out

/-! ## Bytecode reader -/

/-- The loop `for j := range strBytes`: reads `n` bytes of 8 bits each. -/
def readBytes : Nat → Rd (List Nat)
  | 0 => pure []
  | n + 1 => do
    let ch ← BitReader.ReadBits 8
    let rest ← readBytes n
    pure (ch % 256 :: rest)

/-- The loop `for i := i; i < 64; i++` that reads a `float64` bit by bit. -/
def readFloat64From : Nat → Nat → Nat → Rd Nat
  | _, 0, bits => pure bits
  | i, n + 1, bits => do
    let bit ← BitReader.ReadBits 1
    readFloat64From (i + 1) n (bits ||| ((bit <<< i) % 18446744073709551616))

def readFloat64 : Rd Nat := readFloat64From 0 64 0

/-- Body of the constant loop of `ReadBytecode`. -/
def readConstant : Rd Constant := do
  let constType ← BitReader.ReadBits 3
  let constType := constType % 256
  if constType = ConstTypeNumber then do
    let isSmall ← BitReader.ReadBits 1
    if isSmall = 1 then do
      let valBits ← BitReader.ReadBits 7
      let val := toInt8 (Int.ofNat valBits)
      let val :=
        if valBits &&& 0x40 ≠ 0 then toInt8 (Int.ofNat ((toUint64 val % 256) ||| 0x80)) else val
      pure { Value := .int val, Typ := "number" }
    else do
      let bits ← readFloat64
      pure { Value := .float bits, Typ := "number" }
  else if constType = ConstTypeString then do
    let isShort ← BitReader.ReadBits 1
    let strLen ← (if isShort = 1 then do
        let lenBits ← BitReader.ReadBits 8
        pure (lenBits % 4294967296)
      else BitReader.ReadVarUint)
    let strBytes ← readBytes strLen
    pure { Value := .str strBytes, Typ := "string" }
  else if constType = ConstTypeFuncPtr then do
    let val ← BitReader.ReadVarUint
    pure { Value := .float (f64OfInt (Int.ofNat val)), Typ := "funcptr" }
  else if constType = ConstTypeBool then do
    let val ← BitReader.ReadBits 1
    pure { Value := .bool (val = 1), Typ := "bool" }
  else if constType = ConstTypeNil then
    pure { Value := .nil, Typ := "nil" }
  else
    pure { Value := .nil, Typ := "" }

def readConstants : Nat → Rd (List Constant)
  | 0 => pure []
  | n + 1 => do
    let c ← readConstant
    let rest ← readConstants n
    pure (c :: rest)

/-- The decoder's inverse of the zigzag map: `int32(uval >> 1)`, complemented
when `uval` is odd. -/
def zigzagDecode (uval : Nat) : Int :=
  let val := toInt32 (Int.ofNat (uval >>> 1))
  if uval &&& 1 ≠ 0 then toInt32 (-val - 1) else val

/-- The operand part of the body of the instruction loop of `ReadBytecode`:
`var arg interface{}; if hasArg { ... }`. -/
def readArg (hasArg : Bool) : Rd Value :=
  if hasArg then do
    let argType ← BitReader.ReadBits 2
    if argType = ArgTypeConst then do
      let idx ← BitReader.ReadVarUint
      pure (Value.float (f64OfInt (Int.ofNat idx)))
    else if argType = ArgTypeInt then do
      let uval ← BitReader.ReadVarUint
      pure (Value.float (f64OfInt (zigzagDecode uval)))
    else if argType = ArgTypeFloat then do
      let bits ← readFloat64
      pure (Value.float bits)
    else if argType = ArgTypeString then do
      let strLen ← BitReader.ReadVarUint
      let strBytes ← readBytes strLen
      pure (Value.str strBytes)
    else pure Value.nil
  else pure Value.nil

/-- Body of the instruction loop of `ReadBytecode`. -/
def readInstruction : Rd Instruction := do
  let opcode ← BitReader.ReadBits 8
  let hasArg : Bool := opcode &&& 0x80 ≠ 0
  let opcode := opcode &&& 0xFFFFFFFFFFFFFF7F
  let line ← BitReader.ReadVarUint16
  let arg ← readArg hasArg
  pure { Op := opcode, Arg := arg, Line := Int.ofNat line }

def readInstructions : Nat → Rd (List Instruction)
  | 0 => pure []
  | n + 1 => do
    let inst ← readInstruction
    let rest ← readInstructions n
    pure (inst :: rest)

/-- The function `BytecodeReader.ReadBytecode` as a reader computation. -/
def readBytecode : Rd (List Instruction × List Constant) := do
  let magic ← BitReader.ReadUint32
  if magic ≠ MagicHeader then throw Err.BadMagic
  else do
    let version ← BitReader.ReadUint8
    let major := version >>> 4
    let minor := version &&& 0x0F
    if major ≠ VersionMajor then throw (Err.IncompatibleVersion major minor)
    else do
      let constantCount ← BitReader.ReadVarUint
      let instructionCount ← BitReader.ReadVarUint
      let constants ← readConstants constantCount
      let instructions ← readInstructions instructionCount
      pure (instructions, constants)

/-- The function `BytecodeReader.ReadBytecode` on a fresh reader over `bytes`. -/
def ReadBytecode (bytes : List Nat) : Except Err (List Instruction × List Constant) :=
  (readBytecode (NewBitReader bytes)).map Prod.fst

/-! ## Bit streams -/

/-- The `n` low bits of `v`, least significant first. -/
def nbits (v : Nat) : Nat → List Bool
  | 0 => []
  | n + 1 => decide (v % 2 = 1) :: nbits (v / 2) n

/-- The number whose binary digits, least significant first, are `bs`. -/
def bval : List Bool → Nat
  | [] => 0
  | b :: bs => (if b then 1 else 0) + 2 * bval bs

/-- The bit stream of a byte sequence: every byte contributes its 8 bits, least
significant first. -/
def bytesBits : List Nat → List Bool
  | [] => []
  | b :: bs => nbits b 8 ++ bytesBits bs

/-- All bits written so far: the emitted bytes followed by the pending bits. -/
def wbits (bw : BitWriter) : List Bool := bytesBits bw.out ++ nbits bw.buffer bw.bitPos

/-- The writer `bw` is in a consistent state and has written exactly `bs`. -/
def WB (bw : BitWriter) (bs : List Bool) : Prop :=
  bw.bitPos < 8 ∧ bw.buffer < 2 ^ bw.bitPos ∧ (∀ b ∈ bw.out, b < 256) ∧ wbits bw = bs

/-- All bits a `BitReader` can still deliver: the unread bits of the current
byte followed by the bits of the unread bytes. -/
def rbits (br : BitReader) : List Bool :=
  nbits (br.buffer >>> br.bitPos) ((8 - br.bitPos) % 8) ++ bytesBits br.input

/-- Consistent reader states: the cursor is inside a byte and no end of input was seen. -/
def RInv (br : BitReader) : Prop := br.bitPos < 8 ∧ br.eof = false

/-- The reader computation `F` decodes the bit string `e` to `a`: started on a
stream that is the first `k` bits of `e ++ rest`, it returns `a` and leaves the
rest of the stream when all of `e` is there, and fails with `UnexpectedEOF`
when the stream ends inside `e`. -/
def Reads {α : Type} (F : Rd α) (e : List Bool) (a : α) : Prop :=
  ∀ (br : BitReader) (k : Nat) (rest : List Bool), RInv br → rbits br = (e ++ rest).take k →
    (e.length ≤ k → ∃ br', F br = .ok (a, br') ∧ RInv br' ∧ rbits br' = rest.take (k - e.length)) ∧
    (k < e.length → F br = .error Err.UnexpectedEOF)

/-- The bits `WriteVarUint` writes for `val`, following its loop. -/
def encVarUintAux : Nat → Nat → List Bool
  | 0, val => nbits val 8
  | fuel + 1, val =>
    if 0x80 ≤ val then nbits ((val &&& 0x7F) ||| 0x80) 8 ++ encVarUintAux fuel (val >>> 7)
    else nbits val 8

def encVarUint (val : Nat) : List Bool := encVarUintAux 32 val

/-- The bytes of the varuint form of `val`: base-128 digits, least significant
first, each but the last with bit 7 set. -/
def varuintBytesAux : Nat → Nat → List Nat
  | 0, val => [val % 256]
  | fuel + 1, val =>
    if 128 ≤ val then (val % 128 + 128) :: varuintBytesAux fuel (val / 128) else [val % 256]

def varuintBytes (val : Nat) : List Nat := varuintBytesAux 32 val

/-- The bits `WriteVarUint16` writes for `val`. -/
def encVarUint16 (val : Nat) : List Bool :=
  if val < 0x80 then nbits val 8 else nbits ((val &&& 0x7F) ||| 0x80) 8 ++ nbits (val >>> 7) 8

/-- The zigzag image `WriteVarInt` hands to `WriteVarUint`. -/
def zigzag (val : Int) : Nat :=
  if val < 0 then not32 ((toUint32 val <<< 1) % 4294967296) else (toUint32 val <<< 1) % 4294967296

/-! ## The bit strings of the container and what the reader makes of them -/

/-- The integer a `funcptr` constant is written as. -/
def funcptrVal : Value → Nat
  | .float v => f64ToUint32 v
  | .int v => toUint32 v
  | _ => 0

/-- The bits the writer emits for one constant. -/
def encConstant (c : Constant) : List Bool :=
  if c.Typ = "number" then
    match c.Value with
    | .int val =>
      if -64 ≤ val ∧ val ≤ 63 then
        nbits 0 3 ++ (nbits 1 1 ++ nbits (toUint64 (toInt8 val) &&& 0x7F) 7)
      else nbits 0 3 ++ (nbits 0 1 ++ nbits (f64OfInt val) 64)
    | .float fval => nbits 0 3 ++ (nbits 0 1 ++ nbits fval 64)
    | _ => nbits 0 3 ++ (nbits 0 1 ++ nbits 0 64)
  else if c.Typ = "string" then
    match c.Value with
    | .str str =>
      if str.length ≤ 255 then nbits 1 3 ++ (nbits 1 1 ++ (nbits str.length 8 ++ bytesBits str))
      else nbits 1 3 ++ (nbits 0 1 ++ (encVarUint (str.length % 4294967296) ++ bytesBits str))
    | _ => []
  else if c.Typ = "funcptr" then nbits 2 3 ++ encVarUint (funcptrVal c.Value)
  else if c.Typ = "bool" then nbits 3 3 ++ nbits (if c.Value = .bool true then 1 else 0) 1
  else if c.Typ = "nil" then nbits 4 3
  else []

/-- The constant the reader rebuilds from `encConstant c`. -/
def decConstant (c : Constant) : Constant :=
  if c.Typ = "number" then
    match c.Value with
    | .int val =>
      if -64 ≤ val ∧ val ≤ 63 then { Value := .int val, Typ := "number" }
      else { Value := .float (f64OfInt val % 2 ^ 64), Typ := "number" }
    | .float fval => { Value := .float (fval % 2 ^ 64), Typ := "number" }
    | _ => { Value := .float 0, Typ := "number" }
  else if c.Typ = "string" then
    match c.Value with
    | .str str => { Value := .str (str.map (· % 256)), Typ := "string" }
    | _ => c
  else if c.Typ = "funcptr" then
    { Value := .float (f64OfInt (Int.ofNat (funcptrVal c.Value))), Typ := "funcptr" }
  else if c.Typ = "bool" then { Value := .bool (decide (c.Value = .bool true)), Typ := "bool" }
  else if c.Typ = "nil" then { Value := .nil, Typ := "nil" }
  else c

/-- Constants the container can carry: the type is one of the five known ones,
and a `string` constant holds a string whose length fits the 32-bit length field. -/
def ConstEnc (c : Constant) : Prop :=
  c.Typ = "number" ∨ (c.Typ = "string" ∧ ∃ s, c.Value = .str s ∧ s.length < 4294967296) ∨
    c.Typ = "funcptr" ∨ c.Typ = "bool" ∨ c.Typ = "nil"

/-- The bits the writer emits for an operand after the line field. -/
def encArg : Value → List Bool
  | .float arg =>
    if f64Eq arg (f64OfInt (f64ToInt32 arg)) then nbits 1 2 ++ encVarUint (zigzag (f64ToInt32 arg))
    else nbits 2 2 ++ nbits arg 64
  | .int arg => nbits 1 2 ++ encVarUint (zigzag (toInt32 arg))
  | .str arg => nbits 3 2 ++ (encVarUint (arg.length % 4294967296) ++ bytesBits arg)
  | _ => []

/-- The operand the reader rebuilds from `encArg`. -/
def decArg : Value → Value
  | .float arg =>
    if f64Eq arg (f64OfInt (f64ToInt32 arg)) then .float (f64OfInt (f64ToInt32 arg))
    else .float (arg % 2 ^ 64)
  | .int arg => .float (f64OfInt (toInt32 arg))
  | .str arg => .str (arg.map (· % 256))
  | v => v

/-- The opcode byte of an instruction. -/
def opByte (inst : Instruction) : Nat :=
  if inst.Arg ≠ .nil then (inst.Op % 18446744073709551616 &&& 0x7F) ||| 0x80
  else inst.Op % 18446744073709551616 &&& 0x7F

/-- The bits the writer emits for one instruction. -/
def encInstruction (inst : Instruction) : List Bool :=
  nbits (opByte inst) 8 ++ (encVarUint16 (toUint16 inst.Line) ++ encArg inst.Arg)

/-- The instruction the reader rebuilds from `encInstruction inst`. -/
def decInstruction (inst : Instruction) : Instruction :=
  { Op := inst.Op % 128, Arg := decArg inst.Arg, Line := Int.ofNat (toUint16 inst.Line % 32768) }

/-- Operands the container can carry: none, a `float64`, an `int`, or a string
whose length fits the 32-bit length field. -/
def ArgEnc : Value → Prop
  | .nil => True
  | .float _ => True
  | .int _ => True
  | .str s => s.length < 4294967296
  | _ => False

def encConstants : List Constant → List Bool
  | [] => []
  | c :: rest => encConstant c ++ encConstants rest

def encInstructions : List Instruction → List Bool
  | [] => []
  | inst :: rest => encInstruction inst ++ encInstructions rest

/-- All bits of the container before the final padding. -/
def encBytecode (instructions : List Instruction) (constants : List Constant) : List Bool :=
  nbits MagicHeader 32 ++ (nbits VersionCombined 8 ++ (encVarUint constants.length ++
    (encVarUint instructions.length ++ (encConstants constants ++ encInstructions instructions))))

/-- Pairs the container can carry. -/
def Encodable (instructions : List Instruction) (constants : List Constant) : Prop :=
  constants.length < 4294967296 ∧ instructions.length < 4294967296 ∧
    (∀ c ∈ constants, ConstEnc c) ∧ (∀ inst ∈ instructions, ArgEnc inst.Arg)

/-! ## Well-formed instructions and constants, and sameness after decoding -/

/-- Operands of the data model: none, a `float64`, an `int` in the 32-bit signed
range, or a byte string (whose length fits the 32-bit length field). -/
def WFArg : Value → Prop
  | .nil => True
  | .float bits => bits < 2 ^ 64
  | .int v => -2 ^ 31 ≤ v ∧ v < 2 ^ 31
  | .str s => s.length < 2 ^ 32 ∧ ∀ b ∈ s, b < 256
  | _ => False

/-- Instructions whose opcode fits 7 bits, whose line is a non-negative number
below `2^14`, and whose operand is one of the data model. -/
def WFInstruction (inst : Instruction) : Prop :=
  inst.Op < 128 ∧ 0 ≤ inst.Line ∧ inst.Line < 2 ^ 14 ∧ WFArg inst.Arg

/-- The value holds the integer `n`, as an `int` or as an integer-valued `float64`. -/
def Value.holdsInt : Value → Int → Prop
  | .int v, n => v = n
  | .float bits, n => bits < 2 ^ 64 ∧ f64ToInt? bits = some n
  | _, _ => False

/-- Constants of the data model: a number holding an `int` in `[-64, 63]` or a
`float64`, a string, a funcptr holding a non-negative integer below `2^32`, a
bool, or nil. -/
def WFConstant (c : Constant) : Prop :=
  (c.Typ = "number" ∧ ((∃ v, c.Value = .int v ∧ -64 ≤ v ∧ v ≤ 63) ∨
      (∃ bits, c.Value = .float bits ∧ bits < 2 ^ 64))) ∨
  (c.Typ = "string" ∧ ∃ s, c.Value = .str s ∧ s.length < 2 ^ 32 ∧ ∀ b ∈ s, b < 256) ∨
  (c.Typ = "funcptr" ∧ ∃ n : Nat, n < 2 ^ 32 ∧ c.Value.holdsInt n) ∨
  (c.Typ = "bool" ∧ ∃ b, c.Value = .bool b) ∨
  (c.Typ = "nil" ∧ c.Value = .nil)

/-- Lines of the 16-bit range whose two-byte form is stable under decoding: all
of `0..65535` except `32768..32895`. -/
def LineStable (line : Int) : Prop :=
  0 ≤ line ∧ line ≤ 65535 ∧ (line < 32768 ∨ 32896 ≤ line)

/-- The decoded operand `a'` is the original operand `a`: both absent, the same
string, or the same number (an `int` or an integer-valued `float64` may come
back as a `float64` of equal value). -/
def ArgSame : Value → Value → Prop
  | .nil, .nil => True
  | .str s, .str s' => s = s'
  | .int v, .float bits' => f64ToInt? bits' = some v
  | .float bits, .float bits' =>
    bits = bits' ∨ ∃ n, f64ToInt? bits = some n ∧ f64ToInt? bits' = some n
  | _, _ => False

/-- Same op, same line, same operand. -/
def InstrSame (inst inst' : Instruction) : Prop :=
  inst'.Op = inst.Op ∧ inst'.Line = inst.Line ∧ ArgSame inst.Arg inst'.Arg

/-- Same type and same value; the value of a funcptr is the integer it holds. -/
def ConstSame (c c' : Constant) : Prop :=
  c'.Typ = c.Typ ∧
    if c.Typ = "funcptr" then ∃ n : Int, c.Value.holdsInt n ∧ c'.Value.holdsInt n
    else c'.Value = c.Value

/-! ## Errors of the reader, growth of the writer -/

/-- The only error the reader computation `F` can return is `UnexpectedEOF`. -/
def EofOnly {α : Type} (F : Rd α) : Prop :=
  ∀ (br : BitReader) (e : Err), F br = .error e → e = Err.UnexpectedEOF

/-- The writer `bw'` has emitted all bytes of `bw`, and possibly more after them. -/
def Extends (bw bw' : BitWriter) : Prop := ∃ l, bw'.out = bw.out ++ l

/-!
# lightlang: bytecode optimizer

A shallow embedding of `optimizer.go`.

* The opcode constants (`OpConstant`, ...) are declared outside the files at
  hand; every function takes them as the parameter `ops`.
* A Go map is the list of its entries.  The order in which a `range` statement
  visits a map is not fixed by Go; every such loop whose result depends on the
  order takes the order from the parameter `ord`.
* A run-time panic is the result `none`.
-/

/-! ## More of IEEE-754 double precision -/

/-- Conversion `int(f)` of a `float64` (Go's `int` has 64 bits): truncation
toward zero.  When the truncated value does not fit (or `f` is a NaN) Go leaves
the result to the implementation; the value chosen here is the one amd64
produces, `-2^63`. -/
def f64ToInt64 (b : Nat) : Int :=
  if f64Exp b = 2047 then -9223372036854775808
  else
    let t : Int := if f64Neg b then -(f64TruncMag b : Int) else (f64TruncMag b : Int)
    if -9223372036854775808 ≤ t ∧ t < 9223372036854775808 then t else -9223372036854775808

def f64IsInf (b : Nat) : Bool := f64Exp b = 2047 ∧ f64Frac b = 0

/-- The magnitude of a finite `float64`, in units of `2^-1074`. -/
def f64Units (b : Nat) : Nat := f64Sig b * 2 ^ (f64E b - 1)

/-- The value of a finite `float64`, in units of `2^-1074`. -/
def f64SignedUnits (b : Nat) : Int :=
  if f64Neg b then -(f64Units b : Int) else (f64Units b : Int)

/-- The `float64` nearest to `± num / den` units of `2^-1074` (`den > 0`), ties
to even; magnitudes beyond the largest finite value round to infinity.  With
`k` the number of bits by which the quotient exceeds 53 bits, the rounded
significand `m` and the exponent field `k + 1` make the bit pattern
`k * 2^52 + m`; a carry out of the significand lands in the exponent field. -/
def f64Round (neg : Bool) (num den : Nat) : Nat :=
  let s := if neg then 2 ^ 63 else 0
  let q := num / den
  let k := if q < 2 ^ 53 then 0 else ilog2 4096 q - 52
  let d := den * 2 ^ k
  let m := num / d
  let r := num % d
  let m := if d < 2 * r ∨ (2 * r = d ∧ m % 2 = 1) then m + 1 else m
  s + min (k * 2 ^ 52 + m) (2047 * 2 ^ 52)

/-- The quiet form of a NaN. -/
def f64Quiet (b : Nat) : Nat := b ||| 2 ^ 51

/-- The NaN an invalid operation produces on amd64. -/
def f64DefaultNaN : Nat := 0xFFF8000000000000

/-- The bit pattern with the sign bit flipped. -/
def f64Negate (b : Nat) : Nat := if f64Neg b then b - 2 ^ 63 else b + 2 ^ 63

def f64Signed (neg : Bool) (magnitude : Nat) : Nat := if neg then 2 ^ 63 + magnitude else magnitude

/-- Go's `a + b` on `float64`.  A NaN operand gives that operand, quieted (the
first one when both are NaNs). -/
def f64Add (a b : Nat) : Nat :=
  if f64IsNaN a then f64Quiet a
  else if f64IsNaN b then f64Quiet b
  else if f64IsInf a then (if f64IsInf b ∧ f64Neg a ≠ f64Neg b then f64DefaultNaN else a)
  else if f64IsInf b then b
  else
    let s := f64SignedUnits a + f64SignedUnits b
    if s = 0 then (if f64Neg a ∧ f64Neg b then 2 ^ 63 else 0)
    else f64Round (decide (s < 0)) s.natAbs 1

/-- Go's `a - b` on `float64`. -/
def f64Sub (a b : Nat) : Nat :=
  if f64IsNaN a then f64Quiet a
  else if f64IsNaN b then f64Quiet b
  else f64Add a (f64Negate b)

/-- Go's `a * b` on `float64`. -/
def f64Mul (a b : Nat) : Nat :=
  let neg := f64Neg a != f64Neg b
  if f64IsNaN a then f64Quiet a
  else if f64IsNaN b then f64Quiet b
  else if f64IsInf a ∨ f64IsInf b then
    (if f64IsZero a ∨ f64IsZero b then f64DefaultNaN else f64Signed neg (2047 * 2 ^ 52))
  else if f64IsZero a ∨ f64IsZero b then f64Signed neg 0
  else f64Round neg (f64Units a * f64Units b) (2 ^ 1074)

/-- Go's `a / b` on `float64`. -/
def f64Div (a b : Nat) : Nat :=
  let neg := f64Neg a != f64Neg b
  if f64IsNaN a then f64Quiet a
  else if f64IsNaN b then f64Quiet b
  else if f64IsInf a then (if f64IsInf b then f64DefaultNaN else f64Signed neg (2047 * 2 ^ 52))
  else if f64IsInf b then f64Signed neg 0
  else if f64IsZero b then
    (if f64IsZero a then f64DefaultNaN else f64Signed neg (2047 * 2 ^ 52))
  else if f64IsZero a then f64Signed neg 0
  else f64Round neg (f64Units a * 2 ^ 1074) (f64Units b)

/-! ## Opcodes, names, maps -/

/-- The opcode constants the optimizer refers to (and `OpHalt`, which ends every
program); their declaration is outside the files at hand. -/
structure OpCodes where
  OpHalt : Nat
  OpConstant : Nat
  OpGetGlobal : Nat
  OpSetGlobal : Nat
  OpGetLocal : Nat
  OpSetLocal : Nat
  OpMakeFunc : Nat
  OpCall : Nat
  OpReturn : Nat
  OpAdd : Nat
  OpSub : Nat
  OpMul : Nat
  OpDiv : Nat
  deriving DecidableEq, Repr

/-- Go constants of one enumeration are pairwise distinct. -/
def OpCodes.Distinct (ops : OpCodes) : Prop :=
  [ops.OpHalt, ops.OpConstant, ops.OpGetGlobal, ops.OpSetGlobal, ops.OpGetLocal, ops.OpSetLocal,
    ops.OpMakeFunc, ops.OpCall, ops.OpReturn, ops.OpAdd, ops.OpSub, ops.OpMul, ops.OpDiv].Nodup

instance (ops : OpCodes) : Decidable ops.Distinct := by
  unfold OpCodes.Distinct; infer_instance

/-- Modelled from the spec: the opcode enumeration, declared outside the files
at hand, numbered in the order in which the spec lists the opcodes (`Halt`,
`Constant`, `GetGlobal`, `SetGlobal`, `GetLocal`, `SetLocal`, `MakeFunc`,
`Call`, `Return`, `Add`, `Sub`, `Mul`, `Div`).  Used for runs on concrete
programs only. -/
def stdOps : OpCodes := ⟨0, 1, 2, 3, 4, 5, 6, 7, 8, 9, 10, 11, 12⟩

/-- The bytes of an ASCII string literal. -/
def ascii (s : String) : List Nat := s.toList.map Char.toNat

/-- The loop of `strconv.Itoa` for a non-negative number: decimal digits, most
significant first. -/
def itoaAux : Nat → Nat → List Nat → List Nat
  | 0, _, acc => acc
  | fuel + 1, n, acc =>
    if n < 10 then (48 + n) :: acc else itoaAux fuel (n / 10) ((48 + n % 10) :: acc)

/-- The function `strconv.Itoa` on a non-negative number. -/
def itoa (n : Nat) : List Nat := itoaAux (n + 1) n []

/-- The keys of the map `builtins.Builtins` (`builtins/builtins.go`). -/
def Builtins : List (List Nat) :=
  ["print", "range", "pairs", "ipairs", "len", "type", "push", "sqrt", "abs", "pow", "sin",
    "cos", "tan", "log", "exp", "floor", "clamp", "lerp", "ceil", "round", "max", "min",
    "substr", "concat", "upper", "lower", "split", "find", "replace", "pop", "keys", "tick",
    "time", "date", "wait", "random", "tostring", "tonumber", "writefile", "readfile",
    "makedir", "gotodir"].map ascii

/-- Lookup `m[k]` in a Go map, with the `exists` flag as the option. -/
def mapGet {κ ν : Type} [DecidableEq κ] : List (κ × ν) → κ → Option ν
  | [], _ => none
  | (k', v) :: rest, k => if k' = k then some v else mapGet rest k

/-- Assignment `m[k] = v` in a Go map. -/
def mapSet {κ ν : Type} [DecidableEq κ] : List (κ × ν) → κ → ν → List (κ × ν)
  | [], k, v => [(k, v)]
  | (k', v') :: rest, k, v => if k' = k then (k, v) :: rest else (k', v') :: mapSet rest k v

/-- The statement `delete(m, k)`. -/
def mapDel {κ ν : Type} [DecidableEq κ] (m : List (κ × ν)) (k : κ) : List (κ × ν) :=
  m.filter fun e => decide (e.1 ≠ k)

/-- The statement `m[k]++` on a map of counters (an absent key counts as 0). -/
def mapIncr {κ : Type} [DecidableEq κ] (m : List (κ × Nat)) (k : κ) : List (κ × Nat) :=
  mapSet m k ((mapGet m k).getD 0 + 1)

/-- The statement `if _, exists := m[k]; !exists { m[k] = 0 }`. -/
def mapInit {κ : Type} [DecidableEq κ] (m : List (κ × Nat)) (k : κ) : List (κ × Nat) :=
  match mapGet m k with
  | some _ => m
  | none => mapSet m k 0

/-- Modelled from the spec: the record `SymbolTable`, declared outside the
files at hand: `Globals` maps a global name to an opaque type tag (of type
`τ`), `Locals` maps a local name to its slot index. -/
structure SymbolTable (τ : Type) where
  Globals : List (List Nat × τ)
  Locals : List (List Nat × Int)

/-- The struct `Optimizer`; `SymbolTable = none` is the nil pointer. -/
structure Optimizer (τ : Type) where
  Instructions : List Instruction
  Constants : List Constant
  SymbolTable : Option (SymbolTable τ)

/-- The orders in which the `range` loops of `doNameScraping` visit their maps:
each field takes the entries of the map and returns them in the order of the
visit. -/
structure IterOrder where
  globalUsage : List (List Nat × Nat) → List (List Nat × Nat)
  localUsage : List (Int × Nat) → List (Int × Nat)
  globalNameMap : List (List Nat × List Nat) → List (List Nat × List Nat)
  oldNameToIdx : List (List Nat × Int) → List (List Nat × Int)

/-- A `range` loop visits every entry of its map exactly once. -/
def IterOrder.Valid (ord : IterOrder) : Prop :=
  (∀ m, (ord.globalUsage m).Perm m) ∧ (∀ m, (ord.localUsage m).Perm m) ∧
  (∀ m, (ord.globalNameMap m).Perm m) ∧ (∀ m, (ord.oldNameToIdx m).Perm m)

/-- Every map is visited in the order in which its keys were inserted. -/
def insertionOrder : IterOrder := ⟨id, id, id, id⟩

/-! ## Arithmetic on constants -/

def isArithmeticOp (ops : OpCodes) (op : Nat) : Bool :=
  op = ops.OpAdd || op = ops.OpSub || op = ops.OpMul || op = ops.OpDiv

/-- The two type switches at the head of `performArithmetic`: the operand as a
`float64`, or `none` for the `default` case. -/
def toFloat : Value → Option Nat
  | .float v => some v
  | .int v => some (f64OfInt v)
  | .int64 v => some (f64OfInt v)
  | _ => none

/-- The tail of `performArithmetic`: an integral result in `[-2^53, 2^53)` is
returned as an `int`, any other as a `float64`. -/
def arithResult (result : Nat) : Value :=
  match f64ToInt? result with
  | some n => if -9007199254740992 ≤ n ∧ n < 9007199254740992 then .int n else .float result
  | none => .float result

/-- The function `performArithmetic`; `none` is the result `(nil, false)`. -/
def performArithmetic (ops : OpCodes) (a b : Value) (op : Nat) : Option Value :=
  match toFloat a with
  | none => none
  | some fa =>
    match toFloat b with
    | none => none
    | some fb =>
      if op = ops.OpAdd then some (arithResult (f64Add fa fb))
      else if op = ops.OpSub then some (arithResult (f64Sub fa fb))
      else if op = ops.OpMul then some (arithResult (f64Mul fa fb))
      else if op = ops.OpDiv then
        (if f64IsZero fb then none else some (arithResult (f64Div fa fb)))
      else none

def getTypeString : Value → String
  | .float _ => "number"
  | .int _ => "number"
  | .int64 _ => "number"
  | .str _ => "string"
  | .bool _ => "bool"
  | .nil => "nil"

/-! ## Constant folding -/

/-- The test of the second loop of `doConstantFolding` on the window
`a, b, c = Instructions[i], Instructions[i+1], Instructions[i+2]`: the value of
the folded constant when the window folds. -/
def foldWindow (ops : OpCodes) (constants : List Constant) (a b c : Instruction) :
    Option Value :=
  if a.Op = ops.OpConstant ∧ b.Op = ops.OpConstant ∧ isArithmeticOp ops c.Op = true then
    match a.Arg, b.Arg with
    | .float idx1, .float idx2 =>
      let constIdx1 := f64ToInt64 idx1
      let constIdx2 := f64ToInt64 idx2
      if 0 ≤ constIdx1 ∧ constIdx1 < constants.length ∧
          0 ≤ constIdx2 ∧ constIdx2 < constants.length then
        match constants[constIdx1.toNat]?, constants[constIdx2.toNat]? with
        | some c1, some c2 => performArithmetic ops c1.Value c2.Value c.Op
        | _, _ => none
      else none
    | _, _ => none
  else none

/-- The second loop of `doConstantFolding`, from the position `i` on: the first
argument bounds the number of iterations left, the second is
`Instructions[i:]` (what lies before `i` is not touched again).  After a fold
the loop looks at the same position again (`i--` followed by `i++`). -/
def foldLoop (ops : OpCodes) :
    Nat → List Instruction → List Constant → List Instruction × List Constant
  | 0, instructions, constants => (instructions, constants)
  | _ + 1, [], constants => ([], constants)
  | fuel + 1, a :: rest, constants =>
    match rest with
    | b :: c :: rest' =>
      match foldWindow ops constants a b c with
      | some result =>
        foldLoop ops fuel
          (⟨ops.OpConstant, .float (f64OfInt constants.length), a.Line⟩ :: rest')
          (constants ++ [⟨result, getTypeString result⟩])
      | none =>
        let r := foldLoop ops fuel rest constants
        (a :: r.1, r.2)
    | _ =>
      let r := foldLoop ops fuel rest constants
      (a :: r.1, r.2)

/-- The method `doConstantFolding`.  Its first loop fills `constantValues`,
`isConstant` and `constantUsed`, which are not read afterwards, and changes
nothing else. -/
def doConstantFolding {τ : Type} (ops : OpCodes) (o : Optimizer τ) : Optimizer τ :=
  let r := foldLoop ops o.Instructions.length o.Instructions o.Constants
  { o with Instructions := r.1, Constants := r.2 }

/-! ## Name scraping -/

/-- The first loop of `doNameScraping`: the usage counters of global names and
of local slots (`constantUsage` is not read afterwards). -/
def scrapeUsage (ops : OpCodes) :
    List Instruction → List (List Nat × Nat) → List (Int × Nat) →
      List (List Nat × Nat) × List (Int × Nat)
  | [], globalUsage, localUsage => (globalUsage, localUsage)
  | inst :: rest, globalUsage, localUsage =>
    if inst.Op = ops.OpGetGlobal ∨ inst.Op = ops.OpSetGlobal then
      match inst.Arg with
      | .str name => scrapeUsage ops rest (mapIncr globalUsage name) localUsage
      | _ => scrapeUsage ops rest globalUsage localUsage
    else if inst.Op = ops.OpGetLocal ∨ inst.Op = ops.OpSetLocal then
      match inst.Arg with
      | .float idx => scrapeUsage ops rest globalUsage (mapIncr localUsage (f64ToInt64 idx))
      | _ => scrapeUsage ops rest globalUsage localUsage
    else if inst.Op = ops.OpConstant then scrapeUsage ops rest globalUsage localUsage
    else if inst.Op = ops.OpCall then
      match inst.Arg with
      | .str target =>
        if target ≠ [] then scrapeUsage ops rest (mapIncr globalUsage target) localUsage
        else scrapeUsage ops rest globalUsage localUsage
      | _ => scrapeUsage ops rest globalUsage localUsage
    else scrapeUsage ops rest globalUsage localUsage

/-- The inner loop `for j := i + 1; ...` of the sort of `globalList`: `x` is
`globalList[i]`, the list is `globalList[i+1:]`; an entry with a greater usage
is swapped with the one at `i`.  Returns the final `globalList[i]` and
`globalList[i+1:]`. -/
def sortPass (x : List Nat × Nat) :
    List (List Nat × Nat) → (List Nat × Nat) × List (List Nat × Nat)
  | [] => (x, [])
  | y :: ys =>
    if y.2 > x.2 then
      let r := sortPass y ys
      (r.1, x :: r.2)
    else
      let r := sortPass x ys
      (r.1, y :: r.2)

/-- The outer loop `for i := 0; ...` of the sort of `globalList`, from the
position `i` on; the first argument bounds the number of iterations left. -/
def sortLoop : Nat → List (List Nat × Nat) → List (List Nat × Nat)
  | 0, l => l
  | _ + 1, [] => []
  | fuel + 1, x :: xs =>
    let r := sortPass x xs
    r.1 :: sortLoop fuel r.2

/-- The loop `for _, info := range globalList` that assigns `g1`, `g2`, ... -/
def assignGlobals :
    List (List Nat × Nat) → Nat → List (List Nat × List Nat) → List (List Nat × List Nat)
  | [], _, globalNameMap => globalNameMap
  | info :: rest, globalCounter, globalNameMap =>
    assignGlobals rest (globalCounter + 1)
      (mapSet globalNameMap info.1 (ascii "g" ++ itoa globalCounter))

/-- The loop `for localIdx := range localUsage` that assigns `l1`, `l2`, ... -/
def assignLocals :
    List (Int × Nat) → Nat → List (Int × List Nat) → List (Int × List Nat)
  | [], _, localNameMap => localNameMap
  | e :: rest, localCounter, localNameMap =>
    assignLocals rest (localCounter + 1)
      (mapSet localNameMap e.1 (ascii "l" ++ itoa localCounter))

/-- The list `globalList` before it is sorted: the entries of `globalUsage` in
the order of the visit, without the built-in names. -/
def globalList (ops : OpCodes) (ord : IterOrder) (instructions : List Instruction) :
    List (List Nat × Nat) :=
  (ord.globalUsage (scrapeUsage ops instructions [] []).1).filter
    fun e => decide (e.1 ∉ Builtins)

/-- The map `globalNameMap` of `doNameScraping`. -/
def globalNameMap (ops : OpCodes) (ord : IterOrder) (instructions : List Instruction) :
    List (List Nat × List Nat) :=
  let l := globalList ops ord instructions
  assignGlobals (sortLoop l.length l) 1 []

/-- The map `localNameMap` of `doNameScraping`. -/
def localNameMap (ops : OpCodes) (ord : IterOrder) (instructions : List Instruction) :
    List (Int × List Nat) :=
  assignLocals (ord.localUsage (scrapeUsage ops instructions [] []).2) 1 []

/-- The body of the loop of `doNameScraping` that rewrites the operands. -/
def renameInstruction (ops : OpCodes) (globalNameMap : List (List Nat × List Nat))
    (inst : Instruction) : Instruction :=
  if inst.Op = ops.OpGetGlobal ∨ inst.Op = ops.OpSetGlobal then
    match inst.Arg with
    | .str name =>
      match mapGet globalNameMap name with
      | some newName => { inst with Arg := .str newName }
      | none => inst
    | _ => inst
  else if inst.Op = ops.OpCall then
    match inst.Arg with
    | .str target =>
      match mapGet globalNameMap target with
      | some newName => { inst with Arg := .str newName }
      | none => inst
    | _ => inst
  else inst

/-- The loop `for oldName, newName := range globalNameMap` over the symbol
table: the type tag moves to the new key of the same map. -/
def moveGlobals {τ : Type} :
    List (List Nat × List Nat) → List (List Nat × τ) → List (List Nat × τ)
  | [], globals => globals
  | (oldName, newName) :: rest, globals =>
    match mapGet globals oldName with
    | some typ => moveGlobals rest (mapDel (mapSet globals newName typ) oldName)
    | none => moveGlobals rest globals

/-- The loop `for oldName, idx := range oldNameToIdx` that fills `newLocals`. -/
def rebuildLocals (localNameMap : List (Int × List Nat)) :
    List (List Nat × Int) → List (List Nat × Int) → List (List Nat × Int)
  | [], newLocals => newLocals
  | (oldName, idx) :: rest, newLocals =>
    match mapGet localNameMap idx with
    | some newName => rebuildLocals localNameMap rest (mapSet newLocals newName idx)
    | none => rebuildLocals localNameMap rest (mapSet newLocals oldName idx)

/-- The part of `doNameScraping` under `if o.SymbolTable != nil`; `oldNameToIdx`
is a copy of `Locals`. -/
def renameSymbols {τ : Type} (ord : IterOrder) (globalNameMap : List (List Nat × List Nat))
    (localNameMap : List (Int × List Nat)) (sym : SymbolTable τ) : SymbolTable τ :=
  let globals := moveGlobals (ord.globalNameMap globalNameMap) sym.Globals
  if localNameMap.length > 0 then
    ⟨globals, rebuildLocals localNameMap (ord.oldNameToIdx sym.Locals) []⟩
  else ⟨globals, sym.Locals⟩

/-- The method `doNameScraping`. -/
def doNameScraping {τ : Type} (ops : OpCodes) (ord : IterOrder) (o : Optimizer τ) :
    Optimizer τ :=
  let gm := globalNameMap ops ord o.Instructions
  let lm := localNameMap ops ord o.Instructions
  { o with
    Instructions := o.Instructions.map (renameInstruction ops gm)
    SymbolTable := o.SymbolTable.map (renameSymbols ord gm lm) }

/-! ## Dead-store cleanup -/

/-- The first loop of `doCleanup`: the usage counters.  In the `OpMakeFunc`
case the only test before `o.Constants[int(idx)]` is `int(idx) < len`, so the
index expression panics for a negative `int(idx)`; the inner loop of that case
only looks for an `OpReturn` and changes nothing. -/
def cleanupUsage (ops : OpCodes) (constants : List Constant) :
    List Instruction → List (List Nat × Nat) → List (Int × Nat) →
      Option (List (List Nat × Nat) × List (Int × Nat))
  | [], globalUsage, localUsage => some (globalUsage, localUsage)
  | inst :: rest, globalUsage, localUsage =>
    if inst.Op = ops.OpGetGlobal then
      match inst.Arg with
      | .str name => cleanupUsage ops constants rest (mapIncr globalUsage name) localUsage
      | _ => cleanupUsage ops constants rest globalUsage localUsage
    else if inst.Op = ops.OpSetGlobal then
      match inst.Arg with
      | .str name => cleanupUsage ops constants rest (mapInit globalUsage name) localUsage
      | _ => cleanupUsage ops constants rest globalUsage localUsage
    else if inst.Op = ops.OpGetLocal then
      match inst.Arg with
      | .float idx =>
        cleanupUsage ops constants rest globalUsage (mapIncr localUsage (f64ToInt64 idx))
      | _ => cleanupUsage ops constants rest globalUsage localUsage
    else if inst.Op = ops.OpSetLocal then
      match inst.Arg with
      | .float idx =>
        cleanupUsage ops constants rest globalUsage (mapInit localUsage (f64ToInt64 idx))
      | _ => cleanupUsage ops constants rest globalUsage localUsage
    else if inst.Op = ops.OpMakeFunc then
      match inst.Arg with
      | .float idx =>
        if f64ToInt64 idx < constants.length ∧ f64ToInt64 idx < 0 then none
        else cleanupUsage ops constants rest globalUsage localUsage
      | _ => cleanupUsage ops constants rest globalUsage localUsage
    else if inst.Op = ops.OpCall then
      match inst.Arg with
      | .str target =>
        if target ≠ [] then cleanupUsage ops constants rest (mapIncr globalUsage target) localUsage
        else cleanupUsage ops constants rest globalUsage localUsage
      | _ => cleanupUsage ops constants rest globalUsage localUsage
    else cleanupUsage ops constants rest globalUsage localUsage

/-- The value of `keep` for `inst = Instructions[i]` in the second loop of
`doCleanup`; `next` is `Instructions[i+1]` when `i + 1 < len`. -/
def cleanupKeep (ops : OpCodes) (globalUsage : List (List Nat × Nat))
    (localUsage : List (Int × Nat)) (inst : Instruction) (next : Option Instruction) : Bool :=
  if inst.Op = ops.OpSetGlobal then
    match inst.Arg with
    | .str name =>
      match mapGet globalUsage name with
      | some count =>
        let isFuncDef := match next with
          | some n => decide (n.Op = ops.OpMakeFunc)
          | none => false
        if count = 0 ∧ isFuncDef = false then false else true
      | none => true
    | _ => true
  else if inst.Op = ops.OpSetLocal then
    match inst.Arg with
    | .float idx =>
      match mapGet localUsage (f64ToInt64 idx) with
      | some count => if count = 0 then false else true
      | none => true
    | _ => true
  else true

/-- The second loop of `doCleanup` from the index `i` on, with the number of
iterations left as the first argument: the array `toKeep`.  When a store is
not kept and the instruction before it is an `OpConstant`, `toKeep[i-1]` is
cleared as well. -/
def cleanupMark (ops : OpCodes) (instructions : List Instruction)
    (globalUsage : List (List Nat × Nat)) (localUsage : List (Int × Nat)) :
    Nat → Nat → List Bool → List Bool
  | 0, _, toKeep => toKeep
  | n + 1, i, toKeep =>
    match instructions[i]? with
    | none => toKeep
    | some inst =>
      let keep := cleanupKeep ops globalUsage localUsage inst instructions[i + 1]?
      let toKeep :=
        if keep = false ∧ 0 < i ∧ (instructions[i - 1]?).any (fun p => p.Op = ops.OpConstant)
        then toKeep.set (i - 1) false else toKeep
      cleanupMark ops instructions globalUsage localUsage n (i + 1) (toKeep.set i keep)

/-- The last loop of `doCleanup`: the instructions whose mark is set. -/
def cleanupSelect : List Instruction → List Bool → List Instruction
  | inst :: rest, keep :: marks =>
    if keep then inst :: cleanupSelect rest marks else cleanupSelect rest marks
  | _, _ => []

/-- The method `doCleanup`; `none` when it panics. -/
def doCleanup {τ : Type} (ops : OpCodes) (o : Optimizer τ) : Option (Optimizer τ) :=
  match cleanupUsage ops o.Constants o.Instructions [] [] with
  | none => none
  | some (globalUsage, localUsage) =>
    let toKeep := cleanupMark ops o.Instructions globalUsage localUsage o.Instructions.length 0
      (List.replicate o.Instructions.length false)
    some { o with Instructions := cleanupSelect o.Instructions toKeep }

/-! ## Garbage collection of the constant pool -/

/-- The index `int(idx)` of a `float64` operand when it passes the test
`constIdx >= 0 && constIdx < n`. -/
def poolIndex (n : Nat) (arg : Value) : Option Nat :=
  match arg with
  | .float idx =>
    if 0 ≤ f64ToInt64 idx ∧ f64ToInt64 idx < n then some (f64ToInt64 idx).toNat else none
  | _ => none

/-- The statement `constantUsed[constIdx] = true` under the tests on the
operand that guard it. -/
def gcMarkArg (len : Nat) (arg : Value) (constantUsed : List Bool) : List Bool :=
  match poolIndex len arg with
  | some constIdx => constantUsed.set constIdx true
  | none => constantUsed

/-- The first loop of `doGarbageCollection`: the array `constantUsed`. -/
def gcMark (ops : OpCodes) (len : Nat) : List Instruction → List Bool → List Bool
  | [], constantUsed => constantUsed
  | inst :: rest, constantUsed =>
    let constantUsed :=
      if inst.Op = ops.OpConstant then gcMarkArg len inst.Arg constantUsed else constantUsed
    let constantUsed :=
      if inst.Op = ops.OpMakeFunc then gcMarkArg len inst.Arg constantUsed else constantUsed
    gcMark ops len rest constantUsed

/-- The second loop of `doGarbageCollection` from an index on, with
`len(newConstants)` as the last argument: the rest of `oldToNew` and what is
appended to `newConstants`. -/
def gcCompact : List Bool → List Constant → Nat → List Int × List Constant
  | used :: restUsed, c :: rest, newLen =>
    if used then
      let r := gcCompact restUsed rest (newLen + 1)
      ((newLen : Int) :: r.1, c :: r.2)
    else
      let r := gcCompact restUsed rest newLen
      (-1 :: r.1, r.2)
  | _, _, _ => ([], [])

/-- The test `oldIdx >= 0 && oldIdx < len(oldToNew) && oldToNew[oldIdx] != -1`
of the third loop of `doGarbageCollection`. -/
def gcLive (oldToNew : List Int) (oldIdx : Int) : Prop :=
  0 ≤ oldIdx ∧ oldIdx < oldToNew.length ∧ oldToNew[oldIdx.toNat]? ≠ some (-1)

instance (oldToNew : List Int) (oldIdx : Int) : Decidable (gcLive oldToNew oldIdx) := by
  unfold gcLive; infer_instance

/-- The third loop of `doGarbageCollection` on an `OpConstant` instruction. -/
def gcRewriteConstant (oldToNew : List Int) (inst : Instruction) : Instruction :=
  match inst.Arg with
  | .float idx =>
    if gcLive oldToNew (f64ToInt64 idx) then
      { inst with Arg := .float (f64OfInt (oldToNew.getD (f64ToInt64 idx).toNat 0)) }
    else { inst with Arg := .float (f64OfInt 0) }
  | _ => inst

/-- The third loop of `doGarbageCollection` on an `OpMakeFunc` instruction. -/
def gcRewriteMakeFunc (oldToNew : List Int) (inst : Instruction) : Instruction :=
  match inst.Arg with
  | .float idx =>
    if gcLive oldToNew (f64ToInt64 idx) then
      { inst with Arg := .float (f64OfInt (oldToNew.getD (f64ToInt64 idx).toNat 0)) }
    else inst
  | _ => inst

/-- The body of the third loop of `doGarbageCollection`: its two `if`
statements, one after the other. -/
def gcRewrite (ops : OpCodes) (oldToNew : List Int) (inst : Instruction) : Instruction :=
  let inst := if inst.Op = ops.OpConstant then gcRewriteConstant oldToNew inst else inst
  if inst.Op = ops.OpMakeFunc then gcRewriteMakeFunc oldToNew inst else inst

/-- The method `doGarbageCollection`. -/
def doGarbageCollection {τ : Type} (ops : OpCodes) (o : Optimizer τ) : Optimizer τ :=
  let constantUsed :=
    gcMark ops o.Constants.length o.Instructions (List.replicate o.Constants.length false)
  let r := gcCompact constantUsed o.Constants 0
  { o with Instructions := o.Instructions.map (gcRewrite ops r.1), Constants := r.2 }

/-! ## The driver -/

/-- The loop of `Optimize`; the first argument bounds the number of iterations
(`none` when it is used up, or when `doCleanup` panics), the second counts
them, the orders of the map visits being those of `ord` at that count. -/
def optimizeLoop {τ : Type} (ops : OpCodes) (ord : Nat → IterOrder) :
    Nat → Nat → Optimizer τ → Option (Optimizer τ)
  | 0, _, _ => none
  | fuel + 1, n, o =>
    match doCleanup ops (doNameScraping ops (ord n) (doConstantFolding ops o)) with
    | none => none
    | some o' =>
      if o'.Instructions.length = o.Instructions.length then some o'
      else optimizeLoop ops ord fuel (n + 1) o'

/-- The method `Optimize`, with the optimizer left behind: every iteration that
does not end the loop makes the stream shorter, so `len + 1` iterations are
enough. -/
def Optimizer.run {τ : Type} (ops : OpCodes) (ord : Nat → IterOrder) (o : Optimizer τ) :
    Option (Optimizer τ) :=
  (optimizeLoop ops ord (o.Instructions.length + 1) 0 o).map (doGarbageCollection ops)

/-- The method `Optimize`: the returned instructions and constants. -/
def Optimizer.Optimize {τ : Type} (ops : OpCodes) (ord : Nat → IterOrder) (o : Optimizer τ) :
    Option (List Instruction × List Constant) :=
  (o.run ops ord).map fun o' => (o'.Instructions, o'.Constants)

/-- The function `OptimizeBytecode`. -/
def OptimizeBytecode {τ : Type} (ops : OpCodes) (ord : Nat → IterOrder)
    (instructions : List Instruction) (constants : List Constant)
    (sym : Option (SymbolTable τ)) : Option (List Instruction × List Constant) :=
  Optimizer.Optimize ops ord ⟨instructions, constants, sym⟩

/-! ## Properties of streams and pools -/

/-- The instruction takes a constant-pool index as its operand. -/
def PoolRef (ops : OpCodes) (inst : Instruction) : Prop :=
  inst.Op = ops.OpConstant ∨ inst.Op = ops.OpMakeFunc

/-- Every `Constant` and `MakeFunc` instruction of the stream has a `float64`
operand whose integer part is an index into a pool of `n` constants. -/
def PoolRefsValid (ops : OpCodes) (instructions : List Instruction) (n : Nat) : Prop :=
  ∀ inst ∈ instructions, PoolRef ops inst → ∃ i, poolIndex n inst.Arg = some i

/-- No `MakeFunc` instruction of the stream has a `float64` operand whose
integer part is negative. -/
def MakeFuncSafe (ops : OpCodes) (instructions : List Instruction) : Prop :=
  ∀ inst ∈ instructions, inst.Op = ops.OpMakeFunc →
    ∀ idx, inst.Arg = .float idx → 0 ≤ f64ToInt64 idx

/-- The instruction is a `GetGlobal`, `SetGlobal` or `Call` whose string
operand is a built-in name. -/
def isBuiltinRef (ops : OpCodes) (inst : Instruction) : Bool :=
  (inst.Op = ops.OpGetGlobal || inst.Op = ops.OpSetGlobal || inst.Op = ops.OpCall) &&
    match inst.Arg with
    | .str name => decide (name ∈ Builtins)
    | _ => false

/-- The number written in decimal digits, the inverse of `itoa`. -/
def atoi (digits : List Nat) : Nat := digits.foldl (fun acc d => 10 * acc + (d - 48)) 0

/-- The instruction adds one to `globalUsage[name]` in the first loop of
`doNameScraping`. -/
def countsGlobal (ops : OpCodes) (name : List Nat) (inst : Instruction) : Bool :=
  if inst.Op = ops.OpGetGlobal ∨ inst.Op = ops.OpSetGlobal then decide (inst.Arg = .str name)
  else if inst.Op = ops.OpGetLocal ∨ inst.Op = ops.OpSetLocal then false
  else if inst.Op = ops.OpConstant then false
  else if inst.Op = ops.OpCall then decide (inst.Arg = .str name ∧ name ≠ [])
  else false

/-- The usage of the global `name` in the stream, as `doNameScraping` counts it. -/
def globalUsageOf (ops : OpCodes) (instructions : List Instruction) (name : List Nat) : Nat :=
  (instructions.filter (countsGlobal ops name)).length

/-- No `GetGlobal` or `SetGlobal` instruction has the empty string as operand. -/
def NoEmptyGlobal (ops : OpCodes) (instructions : List Instruction) : Prop :=
  ∀ inst ∈ instructions, inst.Op = ops.OpGetGlobal ∨ inst.Op = ops.OpSetGlobal →
    inst.Arg ≠ .str []

/-- No two global names of the stream that are not built-ins have the same
usage. -/
def NoUsageTies (ops : OpCodes) (instructions : List Instruction) : Prop :=
  ∀ a b : List Nat, a ∉ Builtins → b ∉ Builtins → 0 < globalUsageOf ops instructions a →
    globalUsageOf ops instructions a = globalUsageOf ops instructions b → a = b

/-- The name that renaming puts in the place of `name`. -/
def renameName (globalNameMap : List (List Nat × List Nat)) (name : List Nat) : List Nat :=
  (mapGet globalNameMap name).getD name

/-- No window of three instructions of the stream folds. -/
def NoFold (ops : OpCodes) (constants : List Constant) : List Instruction → Prop
  | a :: b :: c :: rest =>
    foldWindow ops constants a b c = none ∧ NoFold ops constants (b :: c :: rest)
  | _ => True

/-- Two instructions that differ at most in the operand of a `Constant` or
`MakeFunc` instruction. -/
def SameShape (ops : OpCodes) (a b : Instruction) : Prop :=
  a.Op = b.Op ∧ a.Line = b.Line ∧ (a.Op ≠ ops.OpConstant → a.Op ≠ ops.OpMakeFunc → a = b)

/-- The list `globalList` of `doNameScraping` after it is sorted. -/
def sortedGlobals (ops : OpCodes) (ord : IterOrder) (instructions : List Instruction) :
    List (List Nat × Nat) :=
  sortLoop (globalList ops ord instructions).length (globalList ops ord instructions)

/-- The entries of a sorted `globalList` under their new names `g(c)`,
`g(c+1)`, ... -/
def gEntries : Nat → List (List Nat × Nat) → List (List Nat × Nat)
  | _, [] => []
  | c, e :: rest => (ascii "g" ++ itoa c, e.2) :: gEntries (c + 1) rest

/-- The second loop of `doCleanup` keeps every instruction of the stream. -/
def AllKept (ops : OpCodes) (globalUsage : List (List Nat × Nat))
    (localUsage : List (Int × Nat)) (instructions : List Instruction) : Prop :=
  ∀ (i : Nat) (inst : Instruction), instructions[i]? = some inst →
    cleanupKeep ops globalUsage localUsage inst instructions[i + 1]? = true

/-- The stream and the pool refer to each other exactly: every `Constant` and
`MakeFunc` operand is `float64(j)` for an index `j` of the pool, and every
index of the pool is such an operand. -/
def Compact (ops : OpCodes) (instructions : List Instruction) (constants : List Constant) :
    Prop :=
  (∀ inst ∈ instructions, PoolRef ops inst →
    ∃ j : Nat, inst.Arg = .float (f64OfInt j) ∧ j < constants.length) ∧
  (∀ j : Nat, j < constants.length →
    ∃ inst ∈ instructions, PoolRef ops inst ∧ inst.Arg = .float (f64OfInt j)) ∧
  constants.length ≤ 2 ^ 53

/-! ## Properties of runs of the optimizer -/

/-- No two entries of the map `globalUsage` of `doNameScraping` outside the
built-in names have the same count. -/
def TieFree (ops : OpCodes) (instructions : List Instruction) : Prop :=
  ((scrapeUsage ops instructions [] []).1.filter fun e => decide (e.1 ∉ Builtins)).Pairwise
    fun a b => a.2 ≠ b.2

instance (ops : OpCodes) (instructions : List Instruction) :
    Decidable (TieFree ops instructions) := by
  unfold TieFree; infer_instance

/-- The stream that `doNameScraping` meets is `TieFree` in every iteration of
the loop of `Optimize` (the arguments are those of `optimizeLoop`). -/
def tieFreeLoop {τ : Type} (ops : OpCodes) (ord : Nat → IterOrder) :
    Nat → Nat → Optimizer τ → Bool
  | 0, _, _ => true
  | fuel + 1, n, o =>
    decide (TieFree ops (doConstantFolding ops o).Instructions) &&
      match doCleanup ops (doNameScraping ops (ord n) (doConstantFolding ops o)) with
      | none => true
      | some o' =>
        if o'.Instructions.length = o.Instructions.length then true
        else tieFreeLoop ops ord fuel (n + 1) o'

/-- The usage of a global name in the words of the specification: the number
of `GetGlobal`, `SetGlobal` and non-empty-string `Call` instructions of the
stream that carry the name. -/
def usageCount (ops : OpCodes) (instructions : List Instruction) (name : List Nat) : Nat :=
  (instructions.filter fun inst => decide (inst.Arg = .str name ∧
    (inst.Op = ops.OpGetGlobal ∨ inst.Op = ops.OpSetGlobal ∨
      (inst.Op = ops.OpCall ∧ name ≠ [])))).length

/-- The value is the number zero: the integer 0 or a `float64` zero. -/
def isZeroNumber (v : Value) : Prop :=
  v = .int 0 ∨ v = .int64 0 ∨ ∃ bits, v = .float bits ∧ f64IsZero bits = true

/-- The integer `a op b` for `op` one of `Add`, `Sub`, `Mul`. -/
def intResult (ops : OpCodes) (op : Nat) (a b : Int) : Int :=
  if op = ops.OpAdd then a + b else if op = ops.OpSub then a - b else a * b

/-! ## Dead stores in the words of the specification -/

/-- The instruction is a read of the global `name`: `GetGlobal name`, or
`Call name` with a name that is not empty. -/
def readsGlobal (ops : OpCodes) (name : List Nat) (inst : Instruction) : Bool :=
  decide (inst.Arg = .str name ∧
    (inst.Op = ops.OpGetGlobal ∨ (inst.Op = ops.OpCall ∧ name ≠ [])))

/-- The instruction is `SetGlobal name`. -/
def storesGlobal (ops : OpCodes) (name : List Nat) (inst : Instruction) : Bool :=
  decide (inst.Op = ops.OpSetGlobal ∧ inst.Arg = .str name)

/-- The instruction is a `GetLocal` whose `float64` operand has the integer
part `slot`. -/
def readsLocal (ops : OpCodes) (slot : Int) (inst : Instruction) : Bool :=
  match inst.Arg with
  | .float idx => decide (inst.Op = ops.OpGetLocal ∧ f64ToInt64 idx = slot)
  | _ => false

/-- The instruction is a `SetLocal` whose `float64` operand has the integer
part `slot`. -/
def storesLocal (ops : OpCodes) (slot : Int) (inst : Instruction) : Bool :=
  match inst.Arg with
  | .float idx => decide (inst.Op = ops.OpSetLocal ∧ f64ToInt64 idx = slot)
  | _ => false

/-- The number of reads of the global `name` in the stream. -/
def readCount (ops : OpCodes) (instructions : List Instruction) (name : List Nat) : Nat :=
  (instructions.filter (readsGlobal ops name)).length

/-- The number of `GetLocal` instructions for the slot in the stream. -/
def localReadCount (ops : OpCodes) (instructions : List Instruction) (slot : Int) : Nat :=
  (instructions.filter (readsLocal ops slot)).length

/-- The number of `GetGlobal name` and `Call name` instructions in the stream,
a `Call` with the empty name included. -/
def getAndCallCount (ops : OpCodes) (instructions : List Instruction) (name : List Nat) :
    Nat :=
  (instructions.filter fun inst => decide (inst.Arg = .str name ∧
    (inst.Op = ops.OpGetGlobal ∨ inst.Op = ops.OpCall))).length

/-- The instruction at the position `i + 1` is a `MakeFunc`. -/
def nextIsMakeFunc (ops : OpCodes) (instructions : List Instruction) (i : Nat) : Bool :=
  match instructions[i + 1]? with
  | some n => decide (n.Op = ops.OpMakeFunc)
  | none => false

/-- The keep rule of the dead-store cleanup for the instruction at the position
`i`: a `SetGlobal name` is kept when `name` is read or the next instruction is
a `MakeFunc`, a `SetLocal` of a slot when the slot is read, any other
instruction is kept. -/
def keepRule (ops : OpCodes) (instructions : List Instruction) (i : Nat) : Bool :=
  match instructions[i]? with
  | none => true
  | some inst =>
    if inst.Op = ops.OpSetGlobal then
      match inst.Arg with
      | .str name =>
        decide (0 < readCount ops instructions name) || nextIsMakeFunc ops instructions i
      | _ => true
    else if inst.Op = ops.OpSetLocal then
      match inst.Arg with
      | .float idx => decide (0 < localReadCount ops instructions (f64ToInt64 idx))
      | _ => true
    else true

/-- The instruction at the position `i` is removed: it is a store that the keep
rule rejects, or a `Constant` right before such a store. -/
def removedAt (ops : OpCodes) (instructions : List Instruction) (i : Nat) : Bool :=
  !keepRule ops instructions i ||
    ((instructions[i]?).any (fun inst => decide (inst.Op = ops.OpConstant)) &&
      !keepRule ops instructions (i + 1))

/-- The list without the elements at the positions that `drop` selects, the
first element being at the position `i`. -/
def removeAt (drop : Nat → Bool) : Nat → List Instruction → List Instruction
  | _, [] => []
  | i, inst :: rest =>
    if drop i then removeAt drop (i + 1) rest else inst :: removeAt drop (i + 1) rest

/-! ## Names and instructions under renaming -/

/-- The instruction is a `GetGlobal`, a `SetGlobal` or a `Call`: one of those
whose string operand `doNameScraping` looks up in `globalNameMap`. -/
def isGlobalRef (ops : OpCodes) (inst : Instruction) : Bool :=
  decide (inst.Op = ops.OpGetGlobal ∨ inst.Op = ops.OpSetGlobal ∨ inst.Op = ops.OpCall)

/-- The name occurs in the stream: it is the string operand of a `GetGlobal`,
`SetGlobal` or `Call` instruction of the stream. -/
def OccursIn (ops : OpCodes) (instructions : List Instruction) (name : List Nat) : Prop :=
  ∃ inst ∈ instructions, isGlobalRef ops inst = true ∧ inst.Arg = .str name

/-! ## Instructions that no pass removes -/

/-- The op of the instruction is not `Constant`, `SetGlobal`, `SetLocal` or an
arithmetic op. -/
def isProtected (ops : OpCodes) (inst : Instruction) : Bool :=
  !(decide (inst.Op = ops.OpConstant) || decide (inst.Op = ops.OpSetGlobal) ||
    decide (inst.Op = ops.OpSetLocal) || isArithmeticOp ops inst.Op)

/-- The part of an instruction that stays as it is: op, line, and the operand
unless it is the string operand of a `GetGlobal` or `Call` (which renaming
rewrites) or the `float64` operand of a `MakeFunc` (which garbage collection
rewrites). -/
def fixedPart (ops : OpCodes) (inst : Instruction) : Nat × Int × Option Value :=
  (inst.Op, inst.Line,
    match inst.Arg with
    | .str _ => if inst.Op = ops.OpGetGlobal ∨ inst.Op = ops.OpCall then none else some inst.Arg
    | .float _ => if inst.Op = ops.OpMakeFunc then none else some inst.Arg
    | _ => some inst.Arg)

/-- The stream `after` keeps the protected instructions of `before`: all of
them, in their order, each with its fixed part; and where `before` ends with a
protected instruction, `after` ends with it too. -/
def Kept (ops : OpCodes) (before after : List Instruction) : Prop :=
  (after.filter (isProtected ops)).map (fixedPart ops)
      = (before.filter (isProtected ops)).map (fixedPart ops) ∧
  ∀ h, before.getLast? = some h → isProtected ops h = true →
    ∃ x, after.getLast? = some x ∧ isProtected ops x = true ∧ fixedPart ops x = fixedPart ops h

/-! ## The built-in `range` (builtins.go) -/

/-- The result of an operation on values of Go's type `int` (64 bits wide): it
wraps around. -/
def toInt64 (x : Int) : Int :=
  (x + 9223372036854775808) % 18446744073709551616 - 9223372036854775808

/-- Go's `/` on two `int` values, the divisor not being zero: the quotient is
truncated toward zero. -/
def divInt (a b : Int) : Int := toInt64 (Int.tdiv a b)

/-- The function `toFloat64` of builtins.go: a `float64` is returned as it is,
an `int` or `int64` is converted, every other value gives `0.0` (the case
`int32` has no counterpart among the constructors of `Value`). -/
def toFloat64 : Value → Nat
  | .float v => v
  | .int v => f64OfInt v
  | .int64 v => f64OfInt v
  | _ => 0

/-- Errors returned by the built-in `range`: the `fmt.Errorf` values
"range step cannot be 0" and "range expects 1-3 arguments". -/
inductive RangeErr where
  | StepZero
  | ArgCount
  deriving DecidableEq, Repr

/-- The size computed by the `case 3` of the built-in `range`, before the slice
is made. -/
def rangeSize (start stop step : Int) : Int :=
  let size :=
    if step > 0 then divInt (toInt64 (toInt64 (toInt64 (stop - start) + step) - 1)) step
    else divInt (toInt64 (toInt64 (toInt64 (start - stop) - step) - 1)) (toInt64 (-step))
  if size < 0 then 0 else size

/-- The greatest length of a `[]interface{}` that `make` accepts on a 64-bit
platform with 48-bit heap addresses (linux/amd64): the runtime's `makeslice`
panics when `16 * len`, the size of the slice in bytes, exceeds its
`maxAlloc = 2^48`.  Used for runs on concrete arguments only. -/
def maxSliceLen : Nat := 2 ^ 48 / 16

/-- The length of the slice that `make([]interface{}, n)` returns; `none` where
`make` panics with `makeslice: len out of range`: for a negative `n`, and for an
`n` greater than `maxLen`, the greatest length that the runtime allocates. -/
def makeLen (maxLen : Nat) (n : Int) : Option Nat :=
  if n < 0 ∨ (maxLen : Int) < n then none else some n.toNat

/-- The function `Builtins["range"]`; `stop` is the variable `end` of the
source, `maxLen` the greatest length of a slice that `make` allocates.  The
result is `none` where `make` panics.  With two arguments and `end ≤ start`
the loop does not run and the slice keeps its `nil` entries. -/
def rangeBuiltin (maxLen : Nat) (args : List Value) :
    Option (Except RangeErr (List Value)) :=
  match args with
  | [a] =>
    let stop := f64ToInt64 (toFloat64 a)
    match makeLen maxLen stop with
    | none => none
    | some n => some (.ok ((List.range n).map fun (i : Nat) => Value.float (f64OfInt (i : Int))))
  | [a, b] =>
    let start := f64ToInt64 (toFloat64 a)
    let stop := f64ToInt64 (toFloat64 b)
    match makeLen maxLen (toInt64 (stop - start)) with
    | none => none
    | some n =>
      if start < stop then
        some (.ok ((List.range n).map fun (i : Nat) =>
          Value.float (f64OfInt (start + (i : Int)))))
      else some (.ok (List.replicate n Value.nil))
  | [a, b, c] =>
    let start := f64ToInt64 (toFloat64 a)
    let stop := f64ToInt64 (toFloat64 b)
    let step := f64ToInt64 (toFloat64 c)
    if step = 0 then some (.error .StepZero)
    else
      match makeLen maxLen (rangeSize start stop step) with
      | none => none
      | some n =>
        some (.ok ((List.range n).map fun (i : Nat) =>
          Value.float (f64OfInt (toInt64 (start + toInt64 ((i : Int) * step))))))
  | _ => some (.error .ArgCount)

/-- The length of `range(start, end, step)` in the words of the specification:
`max(0, ceil((end - start) / step))`, the quotient being that of the
rationals. -/
def specRangeLength (start stop step : Int) : Nat :=
  (max 0 (Int.ceil (((stop - start : Int) : ℚ) / ((step : Int) : ℚ)))).toNat

/-- The argument passes the integer `x` to a built-in: as an `int`, as an
`int64`, or as a `float64` with that value. -/
def IsIntArg (v : Value) (x : Int) : Prop :=
  v = .int x ∨ v = .int64 x ∨ ∃ bits, v = .float bits ∧ f64ToInt? bits = some x

/-! ## Bit lists and the writer -/

@[simp] theorem nbits_length (v n : Nat) : (nbits v n).length = n := by
  induction n generalizing v with
  | zero => rfl
  | succ n ih => simp [nbits, ih]

theorem bval_nbits (v n : Nat) : bval (nbits v n) = v % 2 ^ n := by
  induction n generalizing v with
  | zero => simp [nbits, bval, Nat.mod_one]
  | succ n ih =>
    simp only [nbits, bval, ih]
    rw [pow_succ, mul_comm (2 ^ n) 2, Nat.mod_mul]
    have := Nat.mod_two_eq_zero_or_one v
    split <;> simp_all

theorem nbits_congr (a b n : Nat) (h : a % 2 ^ n = b % 2 ^ n) : nbits a n = nbits b n := by
  induction n generalizing a b with
  | zero => rfl
  | succ n ih =>
    have h2 : a % 2 = b % 2 := by
      have := congrArg (· % 2) h
      simp only [pow_succ, Nat.mod_mul_left_mod] at this
      exact this
    have h3 : (a / 2) % 2 ^ n = (b / 2) % 2 ^ n := by
      have ha := Nat.mod_mul_left_div_self a 2 (2 ^ n)
      have hb := Nat.mod_mul_left_div_self b 2 (2 ^ n)
      rw [← ha, ← hb, ← pow_succ, h]
    simp only [nbits, h2, ih _ _ h3]

theorem nbits_append (v m n : Nat) : nbits v (m + n) = nbits v m ++ nbits (v / 2 ^ m) n := by
  induction m generalizing v with
  | zero => simp [nbits]
  | succ m ih =>
    rw [show m + 1 + n = (m + n) + 1 by omega]
    simp only [nbits, ih, List.cons_append, pow_succ, Nat.div_div_eq_div_mul, mul_comm]

theorem nbits_zero (n : Nat) : nbits 0 n = List.replicate n false := by
  induction n with
  | zero => rfl
  | succ n ih => simp [nbits, ih, List.replicate_succ]

theorem nbits_of_lt (v m n : Nat) (h : v < 2 ^ m) :
    nbits v (m + n) = nbits v m ++ List.replicate n false := by
  rw [nbits_append, Nat.div_eq_of_lt h, nbits_zero]

theorem bytesBits_append (xs ys : List Nat) :
    bytesBits (xs ++ ys) = bytesBits xs ++ bytesBits ys := by
  induction xs with
  | nil => rfl
  | cons x xs ih => simp [bytesBits, ih]

theorem bytesBits_singleton (x : Nat) : bytesBits [x] = nbits x 8 := by
  simp [bytesBits]

@[simp] theorem bytesBits_length (xs : List Nat) : (bytesBits xs).length = 8 * xs.length := by
  induction xs with
  | nil => rfl
  | cons x xs ih => simp [bytesBits, ih]; omega

theorem bytesBits_take (xs : List Nat) (j : Nat) :
    bytesBits (xs.take j) = (bytesBits xs).take (8 * j) := by
  induction xs generalizing j with
  | nil => simp [bytesBits]
  | cons x xs ih =>
    cases j with
    | zero => simp [bytesBits]
    | succ j =>
      have h1 : (nbits x 8).take (8 * (j + 1)) = nbits x 8 :=
        List.take_of_length_le (by rw [nbits_length]; omega)
      have h2 : 8 * (j + 1) - 8 = 8 * j := by omega
      simp only [List.take_succ_cons, bytesBits, ih]
      rw [List.take_append_eq_append_take, h1, nbits_length, h2]

theorem WB_new : WB NewBitWriter [] := by
  simp [WB, NewBitWriter, wbits, bytesBits, nbits]

theorem or_bit_eq_add (buf bit p : Nat) (hp : p < 8) (hb : buf < 2 ^ p) (hbit : bit < 2) :
    buf ||| ((bit <<< p) % 256) = buf + bit * 2 ^ p := by
  have h1 : bit * 2 ^ p < 256 := by
    have : 2 ^ p ≤ 2 ^ 7 := Nat.pow_le_pow_right (by norm_num) (by omega)
    have : bit * 2 ^ p ≤ 1 * 2 ^ 7 := Nat.mul_le_mul (by omega) this
    omega
  rw [Nat.shiftLeft_eq, Nat.mod_eq_of_lt h1, Nat.lor_comm, Nat.mul_comm,
    ← Nat.mul_add_lt_is_or hb, Nat.add_comm]

theorem WB_writeBit (bw : BitWriter) (bs : List Bool) (value i : Nat) (h : WB bw bs) :
    WB (bw.writeBit value i) (bs ++ [decide ((value >>> i) % 2 = 1)]) := by
  obtain ⟨hp, hb, ho, hw⟩ := h
  have hbit : (value >>> i) &&& 1 < 2 := by
    rw [Nat.and_one_is_mod]; exact Nat.mod_lt _ (by norm_num)
  have hor := or_bit_eq_add bw.buffer ((value >>> i) &&& 1) bw.bitPos hp hb hbit
  have hbits : nbits (bw.buffer + ((value >>> i) &&& 1) * 2 ^ bw.bitPos) (bw.bitPos + 1)
      = nbits bw.buffer bw.bitPos ++ [decide ((value >>> i) % 2 = 1)] := by
    rw [nbits_append]
    congr 1
    · apply nbits_congr
      rw [Nat.add_mul_mod_self_right]
    · rw [Nat.add_mul_div_right _ _ (by positivity), Nat.div_eq_of_lt hb, Nat.zero_add,
        Nat.and_one_is_mod]
      simp [nbits]
  have hlt : bw.buffer + ((value >>> i) &&& 1) * 2 ^ bw.bitPos < 2 ^ (bw.bitPos + 1) := by
    rw [pow_succ]
    have : ((value >>> i) &&& 1) * 2 ^ bw.bitPos ≤ 1 * 2 ^ bw.bitPos :=
      Nat.mul_le_mul_right _ (by omega)
    omega
  unfold BitWriter.writeBit
  simp only [hor]
  by_cases h8 : bw.bitPos + 1 = 8
  · simp only [h8, if_true]
    refine ⟨by norm_num, by norm_num, ?_, ?_⟩
    · intro b hbm
      rcases List.mem_append.mp hbm with hbm | hbm
      · exact ho b hbm
      · rw [List.mem_singleton] at hbm
        rw [hbm]
        rw [h8] at hlt
        exact hlt
    show bytesBits (bw.out ++ [_]) ++ nbits 0 0 = _
    rw [bytesBits_append, bytesBits_singleton, ← h8, hbits, ← hw]
    simp [wbits, nbits]
  · simp only [h8, if_false]
    refine ⟨?_, hlt, ho, ?_⟩
    · show bw.bitPos + 1 < 8
      omega
    · show bytesBits bw.out ++ nbits _ (bw.bitPos + 1) = _
      rw [hbits, ← List.append_assoc, ← hw]
      rfl

theorem WB_writeBitsFrom (bw : BitWriter) (bs : List Bool) (value i n : Nat) (h : WB bw bs) :
    WB (bw.writeBitsFrom value i n) (bs ++ nbits (value >>> i) n) := by
  induction n generalizing bw bs i with
  | zero => simpa [BitWriter.writeBitsFrom, nbits] using h
  | succ n ih =>
    have := ih _ _ (i + 1) (WB_writeBit bw bs value i h)
    simp only [BitWriter.writeBitsFrom, nbits]
    rw [List.append_assoc] at this
    have e : value >>> (i + 1) = value >>> i / 2 := by
      rw [Nat.shiftRight_succ]
    rw [e] at this
    exact this

theorem WB_WriteBits (bw : BitWriter) (bs : List Bool) (value n : Nat) (h : WB bw bs) :
    WB (bw.WriteBits value n) (bs ++ nbits value n) := by
  have := WB_writeBitsFrom bw bs value 0 n h
  simpa [BitWriter.WriteBits] using this

theorem Flush_out (bw : BitWriter) (bs : List Bool) (h : WB bw bs) :
    bytesBits bw.Flush.out = bs ++ List.replicate ((8 - bw.bitPos) % 8) false := by
  obtain ⟨hp, hb, _, hw⟩ := h
  unfold BitWriter.Flush
  by_cases h0 : 0 < bw.bitPos
  · simp only [h0, if_true, bytesBits_append, bytesBits, List.append_nil]
    rw [← hw, wbits, List.append_assoc]
    congr 1
    have : 8 = bw.bitPos + (8 - bw.bitPos) % 8 := by omega
    conv_lhs => rw [this]
    exact nbits_of_lt _ _ _ hb
  · have h00 : bw.bitPos = 0 := by omega
    simp only [h0, if_false]
    rw [← hw, wbits, h00]
    simp [nbits]

theorem Flush_bytes (bw : BitWriter) (bs : List Bool) (h : WB bw bs) :
    ∀ b ∈ bw.Flush.out, b < 256 := by
  obtain ⟨hp, hb, ho, _⟩ := h
  unfold BitWriter.Flush
  by_cases h0 : 0 < bw.bitPos
  · simp only [h0, if_true]
    intro b hbm
    rcases List.mem_append.mp hbm with hbm | hbm
    · exact ho b hbm
    · rw [List.mem_singleton] at hbm
      have : 2 ^ bw.bitPos ≤ 2 ^ 8 := Nat.pow_le_pow_right (by norm_num) (by omega)
      rw [hbm]
      omega
  · simpa only [h0, if_false] using ho

theorem WB_length (bw : BitWriter) (bs : List Bool) (h : WB bw bs) :
    8 * bw.out.length + bw.bitPos = bs.length := by
  obtain ⟨_, _, _, hw⟩ := h
  rw [← hw, wbits, List.length_append, bytesBits_length, nbits_length]

theorem nbits_inj (x y n : Nat) (hx : x < 2 ^ n) (hy : y < 2 ^ n) (h : nbits x n = nbits y n) :
    x = y := by
  have := congrArg bval h
  rwa [bval_nbits, bval_nbits, Nat.mod_eq_of_lt hx, Nat.mod_eq_of_lt hy] at this

theorem bytesBits_inj (xs ys : List Nat) (hx : ∀ b ∈ xs, b < 256) (hy : ∀ b ∈ ys, b < 256)
    (h : bytesBits xs = bytesBits ys) : xs = ys := by
  induction xs generalizing ys with
  | nil =>
    cases ys with
    | nil => rfl
    | cons y ys =>
      have := congrArg List.length h
      simp at this
  | cons x xs ih =>
    cases ys with
    | nil =>
      have := congrArg List.length h
      simp at this
    | cons y ys =>
      simp only [bytesBits] at h
      obtain ⟨h1, h2⟩ := List.append_inj h (by simp)
      have hxy := nbits_inj x y 8 (hx x (by simp)) (hy y (by simp)) h1
      rw [hxy, ih ys (fun b hb => hx b (by simp [hb])) (fun b hb => hy b (by simp [hb])) h2]

/-! ## The reader on bit streams -/

theorem Rd_bind_ok {α β : Type} (F : Rd α) (G : α → Rd β) (br br' : BitReader) (a : α)
    (h : F br = .ok (a, br')) : (F >>= G) br = G a br' := by
  simp only [bind, StateT.bind, Except.bind, h]

theorem Rd_bind_error {α β : Type} (F : Rd α) (G : α → Rd β) (br : BitReader) (e : Err)
    (h : F br = .error e) : (F >>= G) br = .error e := by
  simp only [bind, StateT.bind, Except.bind, h]

theorem Rd_pure {α : Type} (a : α) (br : BitReader) : (pure a : Rd α) br = .ok (a, br) := rfl

theorem Reads_pure {α : Type} (a : α) : Reads (pure a : Rd α) [] a := by
  intro br k rest _ hr
  refine ⟨fun _ => ⟨br, rfl, ‹RInv br›, by simpa using hr⟩, fun h => ?_⟩
  simp at h

theorem Reads_bind {α β : Type} {F : Rd α} {G : α → Rd β} {e d : List Bool} {a : α} {b : β}
    (hF : Reads F e a) (hG : Reads (G a) d b) : Reads (F >>= G) (e ++ d) b := by
  intro br k rest hinv hr
  rw [List.append_assoc] at hr
  obtain ⟨h1, h2⟩ := hF br k (d ++ rest) hinv hr
  by_cases hk : e.length ≤ k
  · obtain ⟨br', hFb, hinv', hr'⟩ := h1 hk
    obtain ⟨h3, h4⟩ := hG br' (k - e.length) rest hinv' hr'
    rw [Rd_bind_ok F G br br' a hFb]
    constructor
    · intro hk2
      rw [List.length_append] at hk2
      obtain ⟨br'', hGb, hinv'', hr''⟩ := h3 (by omega)
      refine ⟨br'', hGb, hinv'', ?_⟩
      rw [hr'', List.length_append, Nat.sub_sub]
    · intro hk2
      rw [List.length_append] at hk2
      exact h4 (by omega)
  · constructor
    · intro hk2
      rw [List.length_append] at hk2
      omega
    · intro _
      exact Rd_bind_error F G br _ (h2 (by omega))

theorem Reads_congr {α : Type} {F : Rd α} {e e' : List Bool} {a a' : α}
    (h : Reads F e a) (he : e = e') (ha : a = a') : Reads F e' a' := by
  subst he; subst ha; exact h

theorem rbits_fill_nil (br : BitReader) (hinv : RInv br) (h : rbits br = []) :
    br.fill = .error Err.UnexpectedEOF := by
  obtain ⟨hp, he⟩ := hinv
  have hlen := congrArg List.length h
  simp only [rbits, List.length_append, nbits_length, bytesBits_length, List.length_nil] at hlen
  have hp0 : br.bitPos = 0 := by omega
  have hin : br.input = [] := by
    cases hi : br.input with
    | nil => rfl
    | cons x xs => rw [hi] at hlen; simp at hlen
  simp [BitReader.fill, hp0, he, hin]

theorem readBit_nil (br : BitReader) (hinv : RInv br) (h : rbits br = []) :
    BitReader.readBit br = .error Err.UnexpectedEOF := by
  simp [BitReader.readBit, rbits_fill_nil br hinv h]

theorem readBit_cons (br : BitReader) (hinv : RInv br) (b : Bool) (bs : List Bool)
    (h : rbits br = b :: bs) :
    ∃ br', BitReader.readBit br = .ok ((if b then 1 else 0), br') ∧ RInv br' ∧ rbits br' = bs := by
  obtain ⟨hp, he⟩ := hinv
  by_cases hp0 : br.bitPos = 0
  · cases hi : br.input with
    | nil =>
      have hr : rbits br = [] := by simp only [rbits, hp0, hi]; rfl
      rw [hr] at h
      exact absurd h (by simp)
    | cons x xs =>
      have hr : rbits br = decide (x % 2 = 1) :: (nbits (x / 2) 7 ++ bytesBits xs) := by
        simp only [rbits, hp0, hi]; rfl
      rw [hr, List.cons.injEq] at h
      obtain ⟨hb, hbs⟩ := h
      refine ⟨{ input := xs, buffer := x % 256, bitPos := 1, eof := br.eof }, ?_, ⟨by norm_num, he⟩, ?_⟩
      · simp only [BitReader.readBit, BitReader.fill, hp0, he, hi, and_self, if_true,
          Nat.shiftRight_zero, Nat.and_one_is_mod]
        have : x % 256 % 2 = x % 2 := by omega
        rw [this, ← hb]
        by_cases hx : x % 2 = 1
        · simp [hx]
        · have : x % 2 = 0 := by omega
          simp [this]
      · rw [← hbs]
        show nbits ((x % 256) >>> 1) 7 ++ bytesBits xs = _
        congr 1
        rw [Nat.shiftRight_succ, Nat.shiftRight_zero]
        exact nbits_congr (x % 256 / 2) (x / 2) 7 (by omega)
  · have hfill : br.fill = .ok br := by
      simp [BitReader.fill, hp0]
    have h8 : (8 - br.bitPos) % 8 = (7 - br.bitPos) + 1 := by omega
    have hr : rbits br = decide (br.buffer >>> br.bitPos % 2 = 1) ::
        (nbits (br.buffer >>> br.bitPos / 2) (7 - br.bitPos) ++ bytesBits br.input) := by
      simp only [rbits, h8]; rfl
    rw [hr, List.cons.injEq] at h
    obtain ⟨hb, hbs⟩ := h
    refine ⟨{ br with bitPos := (br.bitPos + 1) % 8 }, ?_, ⟨Nat.mod_lt _ (by norm_num), he⟩, ?_⟩
    · simp only [BitReader.readBit, hfill, Nat.and_one_is_mod]
      rw [← hb]
      by_cases hx : br.buffer >>> br.bitPos % 2 = 1
      · simp [hx]
      · have : br.buffer >>> br.bitPos % 2 = 0 := by omega
        simp [this]
    · rw [← hbs]
      show nbits (br.buffer >>> ((br.bitPos + 1) % 8)) ((8 - (br.bitPos + 1) % 8) % 8) ++ _ = _
      congr 1
      by_cases h7 : br.bitPos = 7
      · simp [h7, nbits]
      · have e1 : (br.bitPos + 1) % 8 = br.bitPos + 1 := by omega
        have e2 : (8 - (br.bitPos + 1)) % 8 = 7 - br.bitPos := by omega
        rw [e1, e2, Nat.shiftRight_succ]

theorem Reads_readBit (b : Bool) : Reads BitReader.readBit [b] (if b then 1 else 0) := by
  intro br k rest hinv hr
  constructor
  · intro hk
    have : k = (k - 1) + 1 := by simp at hk; omega
    rw [this] at hr
    simp only [List.singleton_append, List.take_succ_cons] at hr
    simpa using readBit_cons br hinv b _ hr
  · intro hk
    have : k = 0 := by simp at hk; omega
    rw [this] at hr
    exact readBit_nil br hinv (by simpa using hr)

/-! ## Fixed-width fields -/

theorem or_shift_eq_add (acc x p : Nat) (h : acc < 2 ^ p) : acc ||| (x <<< p) = acc + x * 2 ^ p := by
  rw [Nat.shiftLeft_eq, Nat.lor_comm, Nat.mul_comm, ← Nat.mul_add_lt_is_or h, Nat.add_comm]

theorem Reads_readBitsFrom (bs : List Bool) :
    ∀ (i result : Nat), result < 2 ^ i → i + bs.length ≤ 64 →
      Reads (BitReader.readBitsFrom i bs.length result) bs (result + bval bs * 2 ^ i) := by
  induction bs with
  | nil =>
    intro i result _ _
    simpa [BitReader.readBitsFrom, bval] using Reads_pure result
  | cons b bs ih =>
    intro i result hres hlen
    simp only [List.length_cons] at hlen ⊢
    have hbit : (if b then 1 else 0 : Nat) < 2 := by split <;> norm_num
    have hpow : (2 : Nat) ^ i * 2 ≤ 2 ^ 64 := by
      rw [← pow_succ]; exact Nat.pow_le_pow_right (by norm_num) (by omega)
    have hsmall : (if b then 1 else 0 : Nat) * 2 ^ i < 18446744073709551616 := by
      have : (if b then 1 else 0 : Nat) * 2 ^ i ≤ 1 * 2 ^ i := Nat.mul_le_mul_right _ (by omega)
      have : (0 : Nat) < 2 ^ i := by positivity
      norm_num at hpow
      omega
    have hstep : result ||| (((if b then 1 else 0 : Nat) <<< i) % 18446744073709551616)
        = result + (if b then 1 else 0 : Nat) * 2 ^ i := by
      rw [Nat.shiftLeft_eq, Nat.mod_eq_of_lt hsmall, ← or_shift_eq_add _ _ _ hres, Nat.shiftLeft_eq]
    have hres' : result + (if b then 1 else 0) * 2 ^ i < 2 ^ (i + 1) := by
      have : (if b then 1 else 0 : Nat) * 2 ^ i ≤ 1 * 2 ^ i := Nat.mul_le_mul_right _ (by omega)
      rw [pow_succ]; omega
    have h2 := ih (i + 1) _ hres' (by omega)
    have h1 := Reads_readBit b
    have := Reads_bind (G := fun bit => BitReader.readBitsFrom (i + 1) bs.length
      (result ||| ((bit <<< i) % 18446744073709551616))) h1 (by simp only [hstep]; exact h2)
    refine Reads_congr this rfl ?_
    simp only [bval, pow_succ]
    ring

theorem Reads_ReadBits (v n : Nat) (hn : n ≤ 64) :
    Reads (BitReader.ReadBits n) (nbits v n) (v % 2 ^ n) := by
  have := Reads_readBitsFrom (nbits v n) 0 0 (by norm_num) (by simpa using hn)
  simp only [nbits_length, bval_nbits, pow_zero, mul_one, zero_add] at this
  exact this

theorem Reads_ReadBits_of_lt (v n : Nat) (hn : n ≤ 64) (hv : v < 2 ^ n) :
    Reads (BitReader.ReadBits n) (nbits v n) v := by
  have := Reads_ReadBits v n hn
  rwa [Nat.mod_eq_of_lt hv] at this

theorem Reads_map {α β : Type} {F : Rd α} {e : List Bool} {a : α} (g : α → β)
    (h : Reads F e a) : Reads (F >>= fun x => pure (g x)) e (g a) := by
  have := Reads_bind (G := fun x => (pure (g x) : Rd β)) h (Reads_pure (g a))
  simpa using this

theorem Reads_ReadUint8 (v : Nat) : Reads BitReader.ReadUint8 (nbits v 8) (v % 256) := by
  have := Reads_map (fun val => val % 256) (Reads_ReadBits v 8 (by norm_num))
  simpa [BitReader.ReadUint8] using this

theorem Reads_ReadUint32 (v : Nat) :
    Reads BitReader.ReadUint32 (nbits v 32) (v % 4294967296) := by
  have := Reads_map (fun val => val % 4294967296) (Reads_ReadBits v 32 (by norm_num))
  simpa [BitReader.ReadUint32] using this

/-! ## Bytes with a continuation bit -/

theorem and_7F (v : Nat) : v &&& 0x7F = v % 128 :=
  Nat.and_pow_two_sub_one_eq_mod v 7

theorem or_80 (x : Nat) (h : x < 128) : x ||| 0x80 = x + 128 := by
  have := or_shift_eq_add x 1 7 (by simpa using h)
  simpa using this

theorem and_80_of_lt (b : Nat) (h : b < 128) : b &&& 0x80 = 0 := by
  apply Nat.eq_of_testBit_eq
  intro i
  rw [Nat.testBit_and, Nat.zero_testBit, show (0x80 : Nat) = 2 ^ 7 by norm_num, Nat.testBit_two_pow]
  by_cases hi : 7 = i
  · subst hi
    simp [Nat.testBit_lt_two_pow (show b < 2 ^ 7 by simpa using h)]
  · simp [hi]

theorem and_80_of_ge (x : Nat) (h : x < 128) : (x + 128) &&& 0x80 ≠ 0 := by
  intro h0
  have := congrArg (fun n => n.testBit 7) h0
  simp only [Nat.testBit_and, Nat.zero_testBit] at this
  rw [show (0x80 : Nat) = 2 ^ 7 by norm_num, Nat.testBit_two_pow_self, Bool.and_true,
    Nat.add_comm, Nat.testBit_two_pow_add_eq,
    Nat.testBit_lt_two_pow (show x < 2 ^ 7 by simpa using h)] at this
  simp at this

/-! ## Variable-length unsigned integers -/

theorem WB_writeVarUintLoop (fuel : Nat) :
    ∀ (bw : BitWriter) (bs : List Bool) (val : Nat), WB bw bs →
      WB (BitWriter.writeVarUintLoop fuel bw val) (bs ++ encVarUintAux fuel val) := by
  induction fuel with
  | zero =>
    intro bw bs val h
    exact WB_WriteBits bw bs val 8 h
  | succ fuel ih =>
    intro bw bs val h
    simp only [BitWriter.writeVarUintLoop, encVarUintAux]
    split
    · rw [← List.append_assoc]
      exact ih _ _ _ (WB_WriteBits bw bs _ 8 h)
    · exact WB_WriteBits bw bs val 8 h

theorem WB_WriteVarUint (bw : BitWriter) (bs : List Bool) (val : Nat) (h : WB bw bs) :
    WB (bw.WriteVarUint val) (bs ++ encVarUint val) :=
  WB_writeVarUintLoop 32 bw bs val h

theorem readVarUintLoop_succ (fuel result shift : Nat) :
    BitReader.readVarUintLoop (fuel + 1) result shift =
      BitReader.ReadUint8 >>= fun b =>
        if b &&& 0x80 = 0 then pure (result ||| (((b &&& 0x7F) <<< shift) % 4294967296))
        else BitReader.readVarUintLoop fuel
          (result ||| (((b &&& 0x7F) <<< shift) % 4294967296)) (shift + 7) := rfl

theorem varuint_acc (result shift d v : Nat) (hres : result < 2 ^ shift)
    (hd : d % 128 * 2 ^ shift ≤ v * 2 ^ shift) (hv : result + v * 2 ^ shift < 4294967296) :
    result ||| (((d &&& 0x7F) <<< shift) % 4294967296) = result + d % 128 * 2 ^ shift := by
  rw [and_7F, Nat.shiftLeft_eq, Nat.mod_eq_of_lt (by omega), ← or_shift_eq_add _ _ _ hres,
    Nat.shiftLeft_eq]

theorem Reads_readVarUintLoop_last (fuel result shift v : Nat) (hv : v < 128)
    (hres : result < 2 ^ shift) (hlt : result + v * 2 ^ shift < 4294967296) :
    Reads (BitReader.readVarUintLoop (fuel + 1) result shift) (nbits v 8)
      (result + v * 2 ^ shift) := by
  rw [readVarUintLoop_succ]
  have h1 := Reads_ReadUint8 v
  have hv256 : v % 256 = v := by omega
  have hv128 : v % 128 = v := by omega
  rw [hv256] at h1
  have := Reads_bind (G := fun b =>
        if b &&& 0x80 = 0 then (pure (result ||| (((b &&& 0x7F) <<< shift) % 4294967296)) : Rd Nat)
        else BitReader.readVarUintLoop fuel
          (result ||| (((b &&& 0x7F) <<< shift) % 4294967296)) (shift + 7)) h1
      (b := result + v * 2 ^ shift) (d := []) (by
        simp only [and_80_of_lt v hv, if_true]
        rw [varuint_acc result shift v v hres (by rw [hv128]) hlt, hv128]
        exact Reads_pure _)
  simpa using this

theorem readVarUintLoop_spec (fuel : Nat) :
    ∀ (v result shift fuelR : Nat) (br : BitReader) (k : Nat) (rest : List Bool),
      v < 128 ^ (fuel + 1) → result < 2 ^ shift → result + v * 2 ^ shift < 4294967296 →
      RInv br → rbits br = (encVarUintAux fuel v ++ rest).take k →
      (rbits br).length < 8 * fuelR →
      ((encVarUintAux fuel v).length ≤ k →
        ∃ br', BitReader.readVarUintLoop fuelR result shift br = .ok (result + v * 2 ^ shift, br')
          ∧ RInv br' ∧ rbits br' = rest.take (k - (encVarUintAux fuel v).length)) ∧
      (k < (encVarUintAux fuel v).length →
        BitReader.readVarUintLoop fuelR result shift br = .error Err.UnexpectedEOF) := by
  induction fuel with
  | zero =>
    intro v result shift fuelR br k rest hv hres hlt hinv hr hfuel
    cases fuelR with
    | zero => omega
    | succ g =>
      exact Reads_readVarUintLoop_last g result shift v (by simpa using hv) hres hlt br k rest hinv hr
  | succ fuel ih =>
    intro v result shift fuelR br k rest hv hres hlt hinv hr hfuel
    cases fuelR with
    | zero => omega
    | succ g =>
      by_cases hge : 0x80 ≤ v
      · simp only [encVarUintAux, hge, if_true] at hr ⊢
        have hx : (v &&& 0x7F) ||| 0x80 = v % 128 + 128 := by
          rw [and_7F, or_80 _ (Nat.mod_lt _ (by norm_num))]
        have hshift : v >>> 7 = v / 128 := by rw [Nat.shiftRight_eq_div_pow]
        rw [hx, hshift] at hr ⊢
        rw [List.append_assoc] at hr
        obtain ⟨h1, h2⟩ := Reads_ReadUint8 (v % 128 + 128) br k _ hinv hr
        have hx256 : (v % 128 + 128) % 256 = v % 128 + 128 := by omega
        rw [hx256] at h1
        clear hx
        have hmul : v % 128 * 2 ^ shift ≤ v * 2 ^ shift :=
          Nat.mul_le_mul_right _ (Nat.mod_le _ _)
        have hacc := varuint_acc result shift (v % 128 + 128) v hres
          (by rw [show (v % 128 + 128) % 128 = v % 128 by omega]; exact hmul) hlt
        rw [show (v % 128 + 128) % 128 = v % 128 by omega] at hacc
        have hsum : result + v % 128 * 2 ^ shift + v / 128 * 2 ^ (shift + 7)
            = result + v * 2 ^ shift := by
          have := Nat.mod_add_div v 128
          calc result + v % 128 * 2 ^ shift + v / 128 * 2 ^ (shift + 7)
              = result + (v % 128 + 128 * (v / 128)) * 2 ^ shift := by rw [pow_add]; ring
            _ = result + v * 2 ^ shift := by rw [this]
        simp only [List.length_append, nbits_length]
        by_cases hk : 8 ≤ k
        · obtain ⟨br', hrd, hinv', hr'⟩ := h1 (by simpa using hk)
          simp only [nbits_length] at hr'
          have hloop : BitReader.readVarUintLoop (g + 1) result shift br
              = BitReader.readVarUintLoop g (result + v % 128 * 2 ^ shift) (shift + 7) br' := by
            rw [readVarUintLoop_succ, Rd_bind_ok _ _ br br' _ hrd]
            simp only [and_80_of_ge _ (Nat.mod_lt v (by norm_num : 128 > 0)), if_false, hacc]
          have hlen' : (rbits br').length < 8 * g := by
            have e1 := congrArg List.length hr
            have e2 := congrArg List.length hr'
            simp only [List.length_take, List.length_append, nbits_length] at e1 e2
            omega
          have hv' : v / 128 < 128 ^ (fuel + 1) := by
            rw [Nat.div_lt_iff_lt_mul (by norm_num), ← pow_succ]; exact hv
          have hres' : result + v % 128 * 2 ^ shift < 2 ^ (shift + 7) := by
            have : v % 128 * 2 ^ shift ≤ 127 * 2 ^ shift :=
              Nat.mul_le_mul_right _ (by omega)
            rw [pow_add]; omega
          obtain ⟨h3, h4⟩ := ih (v / 128) _ (shift + 7) g br' (k - 8) rest hv' hres'
            (by rw [hsum]; exact hlt) hinv' hr' hlen'
          rw [hloop, hsum] at *
          constructor
          · intro hk2
            obtain ⟨br'', hh⟩ := h3 (by omega)
            refine ⟨br'', ?_⟩
            rw [show k - (8 + (encVarUintAux fuel (v / 128)).length)
              = k - 8 - (encVarUintAux fuel (v / 128)).length by omega]
            exact hh
          · intro hk2
            exact h4 (by omega)
        · constructor
          · intro hk2; omega
          · intro _
            rw [readVarUintLoop_succ]
            exact Rd_bind_error _ _ br _ (h2 (by simp; omega))
      · have hv' : v < 128 := by omega
        simp only [encVarUintAux, hge, if_false] at hr ⊢
        exact Reads_readVarUintLoop_last g result shift v hv' hres hlt br k rest hinv hr

theorem rbits_length_lt (br : BitReader) : (rbits br).length < 8 * (br.input.length + 1) := by
  simp only [rbits, List.length_append, nbits_length, bytesBits_length]
  omega

theorem Reads_ReadVarUint (v : Nat) (hv : v < 4294967296) :
    Reads BitReader.ReadVarUint (encVarUint v) v := by
  intro br k rest hinv hr
  have := readVarUintLoop_spec 32 v 0 0 (br.input.length + 1) br k rest
    (by norm_num; omega) (by norm_num) (by simpa using hv) hinv hr (rbits_length_lt br)
  simpa [BitReader.ReadVarUint, encVarUint] using this

/-! ## Running a reader on the bytes of a writer -/

theorem rbits_new (bytes : List Nat) : rbits (NewBitReader bytes) = bytesBits bytes := by
  simp [rbits, NewBitReader, nbits]

theorem RInv_new (bytes : List Nat) : RInv (NewBitReader bytes) := by
  simp [RInv, NewBitReader]

theorem Reads_run {α : Type} {F : Rd α} {e : List Bool} {a : α} (h : Reads F e a)
    (bytes : List Nat) (pad : List Bool) (hb : bytesBits bytes = e ++ pad) :
    ∃ br', F (NewBitReader bytes) = .ok (a, br') := by
  obtain ⟨h1, _⟩ := h (NewBitReader bytes) (e ++ pad).length pad (RInv_new bytes)
    (by rw [rbits_new, hb, List.take_length])
  obtain ⟨br', hbr, _⟩ := h1 (by simp)
  exact ⟨br', hbr⟩

theorem Reads_truncated {α : Type} {F : Rd α} {e : List Bool} {a : α} (h : Reads F e a)
    (bytes : List Nat) (pad : List Bool) (hb : bytesBits bytes = e ++ pad) (j : Nat)
    (hj : 8 * j < e.length) : F (NewBitReader (bytes.take j)) = .error Err.UnexpectedEOF := by
  obtain ⟨_, h2⟩ := h (NewBitReader (bytes.take j)) (8 * j) pad (RInv_new _)
    (by rw [rbits_new, bytesBits_take, hb])
  exact h2 hj

/-! ## Varuint: bytes -/

theorem bytesBits_varuintBytesAux (fuel : Nat) :
    ∀ v, bytesBits (varuintBytesAux fuel v) = encVarUintAux fuel v := by
  induction fuel with
  | zero =>
    intro v
    simp only [varuintBytesAux, encVarUintAux, bytesBits_singleton]
    exact nbits_congr _ _ 8 (by simp)
  | succ fuel ih =>
    intro v
    simp only [varuintBytesAux, encVarUintAux]
    split
    · rw [bytesBits, ih, and_7F, or_80 _ (Nat.mod_lt _ (by norm_num)), Nat.shiftRight_eq_div_pow]
    · rw [bytesBits_singleton]
      exact nbits_congr _ _ 8 (by simp)

theorem varuintBytesAux_lt (fuel : Nat) : ∀ v, ∀ b ∈ varuintBytesAux fuel v, b < 256 := by
  induction fuel with
  | zero =>
    intro v b hb
    simp only [varuintBytesAux, List.mem_singleton] at hb
    omega
  | succ fuel ih =>
    intro v b hb
    simp only [varuintBytesAux] at hb
    split at hb
    · rcases List.mem_cons.mp hb with h | h
      · omega
      · exact ih _ b h
    · simp only [List.mem_singleton] at hb
      omega

theorem varuintBytesAux_length (fuel : Nat) :
    ∀ v n, v < 128 ^ (n + 1) → (varuintBytesAux fuel v).length ≤ n + 1 := by
  induction fuel with
  | zero => intro v n _; simp [varuintBytesAux]
  | succ fuel ih =>
    intro v n hv
    simp only [varuintBytesAux]
    split
    · cases n with
      | zero => simp at hv; omega
      | succ n =>
        have : v / 128 < 128 ^ (n + 1) := by
          rw [Nat.div_lt_iff_lt_mul (by norm_num), ← pow_succ]; exact hv
        simpa using ih _ n this
    · simp

theorem varuintBytesAux_digits (fuel : Nat) :
    ∀ v, v < 128 ^ (fuel + 1) → 0 < v →
      (varuintBytesAux fuel v).map (· % 128) = Nat.digits 128 v := by
  induction fuel with
  | zero =>
    intro v hv h0
    have hv' : v < 128 := by simpa using hv
    rw [Nat.digits_of_lt 128 v (by omega) hv']
    simp only [varuintBytesAux, List.map_cons, List.map_nil]
    congr 1
    omega
  | succ fuel ih =>
    intro v hv h0
    simp only [varuintBytesAux]
    split
    · rename_i hge
      have hv' : v / 128 < 128 ^ (fuel + 1) := by
        rw [Nat.div_lt_iff_lt_mul (by norm_num), ← pow_succ]; exact hv
      rw [Nat.digits_def' (by norm_num) h0, List.map_cons, ih _ hv' (by omega)]
      congr 1
      omega
    · rename_i hlt
      rw [Nat.digits_of_lt 128 v (by omega) (by omega)]
      simp only [List.map_cons, List.map_nil]
      congr 1
      omega

theorem varuintBytesAux_shape (fuel : Nat) :
    ∀ v, v < 128 ^ (fuel + 1) → ∃ init last, varuintBytesAux fuel v = init ++ [last] ∧
      (∀ b ∈ init, 128 ≤ b ∧ b < 256) ∧ last < 128 := by
  induction fuel with
  | zero =>
    intro v hv
    have hv' : v < 128 := by simpa using hv
    exact ⟨[], v, by simp [varuintBytesAux]; omega, by simp, hv'⟩
  | succ fuel ih =>
    intro v hv
    simp only [varuintBytesAux]
    split
    · have hv' : v / 128 < 128 ^ (fuel + 1) := by
        rw [Nat.div_lt_iff_lt_mul (by norm_num), ← pow_succ]; exact hv
      obtain ⟨init, last, h1, h2, h3⟩ := ih _ hv'
      refine ⟨(v % 128 + 128) :: init, last, by rw [h1]; rfl, ?_, h3⟩
      intro b hb
      rcases List.mem_cons.mp hb with h | h
      · omega
      · exact h2 b h
    · exact ⟨[], v, by simp; omega, by simp, by omega⟩

theorem WriteVarUint_bytes (u : Nat) :
    ((NewBitWriter.WriteVarUint u).Flush).out = varuintBytes u := by
  have hW := WB_WriteVarUint NewBitWriter [] u WB_new
  have hlen := WB_length _ _ hW
  have hpos : (NewBitWriter.WriteVarUint u).bitPos = 0 := by
    have h8 : (encVarUint u).length % 8 = 0 := by
      rw [encVarUint, ← bytesBits_varuintBytesAux, bytesBits_length]; omega
    have := hW.1
    simp only [List.nil_append] at hlen
    omega
  refine bytesBits_inj _ (varuintBytesAux 32 u) (Flush_bytes _ _ hW) (varuintBytesAux_lt 32 u) ?_
  show _ = bytesBits (varuintBytesAux 32 u)
  rw [Flush_out _ _ hW, hpos, bytesBits_varuintBytesAux]
  simp [encVarUint]

theorem Flush_aligned (bw : BitWriter) (bs : List Bool) (h : WB bw bs) (h8 : bs.length % 8 = 0) :
    8 * bw.Flush.out.length = bs.length ∧ bytesBits bw.Flush.out = bs := by
  have hlen := WB_length _ _ h
  have hpos : bw.bitPos = 0 := by have := h.1; omega
  have hout := Flush_out _ _ h
  rw [hpos] at hout
  simp only [Nat.sub_zero, Nat.mod_self, List.replicate_zero, List.append_nil] at hout
  refine ⟨?_, hout⟩
  have := congrArg List.length hout
  rw [bytesBits_length] at this
  exact this

theorem map_fst_of_ok {α : Type} {F : Rd α} {br br' : BitReader} {a : α}
    (h : F br = .ok (a, br')) : (F br).map Prod.fst = .ok a := by
  rw [h]; rfl

/-! ## Varuint16 and varint -/

theorem WB_WriteVarUint16 (bw : BitWriter) (bs : List Bool) (val : Nat) (h : WB bw bs) :
    WB (bw.WriteVarUint16 val) (bs ++ encVarUint16 val) := by
  simp only [BitWriter.WriteVarUint16, encVarUint16]
  split
  · exact WB_WriteBits bw bs val 8 h
  · rw [← List.append_assoc]
    exact WB_WriteBits _ _ _ 8 (WB_WriteBits bw bs _ 8 h)

theorem ReadVarUint16_eq :
    BitReader.ReadVarUint16 = BitReader.ReadUint8 >>= fun first =>
      if first < 0x80 then pure first
      else BitReader.ReadUint8 >>= fun second =>
        pure (((first &&& 0x7F) ||| (second <<< 7)) % 65536) := rfl

theorem Reads_ReadVarUint16 (v : Nat) :
    Reads BitReader.ReadVarUint16 (encVarUint16 v) (v % 32768) := by
  rw [ReadVarUint16_eq]
  simp only [encVarUint16]
  split
  · rename_i hlt
    have h1 := Reads_ReadUint8 v
    rw [show v % 256 = v by omega] at h1
    have := Reads_bind (G := fun first =>
      if first < 0x80 then (pure first : Rd Nat)
      else BitReader.ReadUint8 >>= fun second =>
        pure (((first &&& 0x7F) ||| (second <<< 7)) % 65536)) h1 (d := []) (b := v)
        (by simp only [hlt, if_true]; exact Reads_pure v)
    rw [show v % 32768 = v by omega]
    simpa using this
  · rename_i hge
    have hx : (v &&& 0x7F) ||| 0x80 = v % 128 + 128 := by
      rw [and_7F, or_80 _ (Nat.mod_lt _ (by norm_num))]
    rw [hx, Nat.shiftRight_eq_div_pow]
    have h1 := Reads_ReadUint8 (v % 128 + 128)
    rw [show (v % 128 + 128) % 256 = v % 128 + 128 by omega] at h1
    have h2 := Reads_map (fun second => (((v % 128 + 128) &&& 0x7F) ||| (second <<< 7)) % 65536)
      (Reads_ReadUint8 (v / 2 ^ 7))
    have hval : (((v % 128 + 128) &&& 0x7F) ||| ((v / 2 ^ 7 % 256) <<< 7)) % 65536 = v % 32768 := by
      rw [and_7F, or_shift_eq_add _ _ 7 (by norm_num; omega)]
      norm_num
      omega
    simp only [hval] at h2
    exact Reads_bind (G := fun first =>
      if first < 0x80 then (pure first : Rd Nat)
      else BitReader.ReadUint8 >>= fun second =>
        pure (((first &&& 0x7F) ||| (second <<< 7)) % 65536)) h1
        (by simp only [show ¬ (v % 128 + 128 < 0x80) by omega, if_false]; exact h2)

theorem zigzag_eq (s : Int) (h1 : -2147483648 ≤ s) (h2 : s < 2147483648) :
    zigzag s = if s < 0 then (-2 * s - 1).toNat else (2 * s).toNat := by
  unfold zigzag toUint32 not32
  rw [Nat.shiftLeft_eq]
  split <;> omega

theorem zigzag_lt (s : Int) (h1 : -2147483648 ≤ s) (h2 : s < 2147483648) :
    zigzag s < 4294967296 := by
  rw [zigzag_eq s h1 h2]; split <;> omega

theorem zigzagDecode_zigzag (s : Int) (h1 : -2147483648 ≤ s) (h2 : s < 2147483648) :
    zigzagDecode (zigzag s) = s := by
  rw [zigzag_eq s h1 h2]
  unfold zigzagDecode toInt32
  simp only [Nat.and_one_is_mod, Nat.shiftRight_eq_div_pow, Int.ofNat_eq_coe, pow_one]
  split <;> split <;> omega

theorem WriteVarInt_eq (bw : BitWriter) (s : Int) : bw.WriteVarInt s = bw.WriteVarUint (zigzag s) := by
  unfold BitWriter.WriteVarInt zigzag
  split <;> rfl

/-! ## Claims on the variable-length integers -/

/-- C4: for every `u < 2^32`, `WriteVarUint u` on a fresh (byte-aligned) writer
followed by `Flush` yields bytes from which `ReadVarUint` returns `u` without
error; there are at most 5 bytes, their low 7 bits are the base-128 digits of
`u` least significant first, and bit 7 is set on every byte except the last. -/
theorem C4_varuint_roundtrip (u : Nat) (hu : u < 2 ^ 32) :
    (BitReader.ReadVarUint (NewBitReader ((NewBitWriter.WriteVarUint u).Flush).out)).map Prod.fst
        = .ok u ∧
    ((NewBitWriter.WriteVarUint u).Flush).out.length ≤ 5 ∧
    ((NewBitWriter.WriteVarUint u).Flush).out.map (· % 128)
        = (if u = 0 then [0] else Nat.digits 128 u) ∧
    ∃ init last, ((NewBitWriter.WriteVarUint u).Flush).out = init ++ [last] ∧
      (∀ b ∈ init, 128 ≤ b ∧ b < 256) ∧ last < 128 := by
  have hu' : u < 4294967296 := by simpa using hu
  have hW := WB_WriteVarUint NewBitWriter [] u WB_new
  rw [WriteVarUint_bytes]
  refine ⟨?_, ?_, ?_, ?_⟩
  · obtain ⟨br', h⟩ := Reads_run (Reads_ReadVarUint u hu') (varuintBytes u) []
      (by rw [varuintBytes, bytesBits_varuintBytesAux, List.append_nil]; rfl)
    exact map_fst_of_ok h
  · exact varuintBytesAux_length 32 u 4 (by norm_num; omega)
  · by_cases h0 : u = 0
    · subst h0; rfl
    · rw [if_neg h0]
      exact varuintBytesAux_digits 32 u (by norm_num; omega) (by omega)
  · exact varuintBytesAux_shape 32 u (by norm_num; omega)

theorem C4_varuint_roundtrip_witness :
    (BitReader.ReadVarUint (NewBitReader ((NewBitWriter.WriteVarUint 300).Flush).out)).map Prod.fst
      = .ok 300 :=
  (C4_varuint_roundtrip 300 (by norm_num)).1

/-- C5: for every `s` with `-2^31 ≤ s < 2^31`, writing `s` with `WriteVarInt`,
reading the bytes back with `ReadVarUint` and applying the decoder's zigzag
inverse gives `s` again. -/
theorem C5_varint_roundtrip (s : Int) (h1 : -2 ^ 31 ≤ s) (h2 : s < 2 ^ 31) :
    (BitReader.ReadVarUint (NewBitReader ((NewBitWriter.WriteVarInt s).Flush).out)).map
        (fun r => zigzagDecode r.1) = .ok s := by
  have h1' : -2147483648 ≤ s := by simpa using h1
  have h2' : s < 2147483648 := by simpa using h2
  rw [WriteVarInt_eq, WriteVarUint_bytes]
  obtain ⟨br', h⟩ := Reads_run (Reads_ReadVarUint (zigzag s) (zigzag_lt s h1' h2'))
    (varuintBytes (zigzag s)) []
    (by rw [varuintBytes, bytesBits_varuintBytesAux, List.append_nil]; rfl)
  rw [h]
  show Except.ok (zigzagDecode (zigzag s)) = _
  rw [zigzagDecode_zigzag s h1' h2']

theorem C5_varint_roundtrip_witness :
    (BitReader.ReadVarUint (NewBitReader ((NewBitWriter.WriteVarInt (-2 ^ 31)).Flush).out)).map
        (fun r => zigzagDecode r.1) = .ok (-2 ^ 31) :=
  C5_varint_roundtrip (-2 ^ 31) (by norm_num) (by norm_num)

/-- C6: for every `u < 2^14`, `ReadVarUint16` returns `u` from the bytes that
`WriteVarUint16 u` produces; the encoding is one byte when `u < 128` and two
bytes otherwise. -/
theorem C6_varuint16_roundtrip (u : Nat) (hu : u < 2 ^ 14) :
    (BitReader.ReadVarUint16 (NewBitReader ((NewBitWriter.WriteVarUint16 u).Flush).out)).map
        Prod.fst = .ok u ∧
    (u < 128 → ((NewBitWriter.WriteVarUint16 u).Flush).out.length = 1) ∧
    (128 ≤ u → ((NewBitWriter.WriteVarUint16 u).Flush).out.length = 2) := by
  have hu' : u < 16384 := by simpa using hu
  have hW := WB_WriteVarUint16 NewBitWriter [] u WB_new
  rw [List.nil_append] at hW
  have hlen : (encVarUint16 u).length = if u < 128 then 8 else 16 := by
    simp only [encVarUint16]; split <;> simp
  obtain ⟨hl, hb⟩ := Flush_aligned _ _ hW (by rw [hlen]; split <;> rfl)
  refine ⟨?_, ?_, ?_⟩
  · have hR := Reads_ReadVarUint16 u
    rw [show u % 32768 = u by omega] at hR
    obtain ⟨br', h⟩ := Reads_run hR _ [] (by rw [hb, List.append_nil])
    exact map_fst_of_ok h
  · intro h; rw [hlen, if_pos h] at hl; omega
  · intro h; rw [hlen, if_neg (by omega)] at hl; omega

theorem C6_varuint16_roundtrip_witness :
    (BitReader.ReadVarUint16 (NewBitReader ((NewBitWriter.WriteVarUint16 300).Flush).out)).map
        Prod.fst = .ok 300 :=
  (C6_varuint16_roundtrip 300 (by norm_num)).1

/-! ## The writer emits `encBytecode` -/

theorem WB_writeBytes (s : List Nat) :
    ∀ (bw : BitWriter) (bs : List Bool), WB bw bs → WB (bw.writeBytes s) (bs ++ bytesBits s) := by
  induction s with
  | nil => intro bw bs h; simpa [BitWriter.writeBytes, bytesBits] using h
  | cons ch rest ih =>
    intro bw bs h
    have := ih _ _ (WB_WriteBits bw bs ch 8 h)
    simpa [BitWriter.writeBytes, bytesBits, List.append_assoc] using this

theorem WB_writeFloat64From (bits : Nat) (n : Nat) :
    ∀ (i : Nat) (bw : BitWriter) (bs : List Bool), WB bw bs →
      WB (bw.writeFloat64From bits i n) (bs ++ nbits (bits >>> i) n) := by
  induction n with
  | zero => intro i bw bs h; simpa [BitWriter.writeFloat64From, nbits] using h
  | succ n ih =>
    intro i bw bs h
    have h1 := WB_WriteBits bw bs ((bits >>> i) &&& 1) 1 h
    have e1 : nbits ((bits >>> i) &&& 1) 1 = [decide ((bits >>> i) % 2 = 1)] := by
      simp [nbits, Nat.and_one_is_mod]
    rw [e1] at h1
    have := ih (i + 1) _ _ h1
    simp only [BitWriter.writeFloat64From, nbits]
    rw [Nat.shiftRight_succ, List.append_assoc] at this
    exact this

theorem WB_writeFloat64 (bits : Nat) (bw : BitWriter) (bs : List Bool) (h : WB bw bs) :
    WB (bw.writeFloat64 bits) (bs ++ nbits bits 64) := by
  simpa [BitWriter.writeFloat64] using WB_writeFloat64From bits 64 0 bw bs h

theorem WB_writeConstant (bw : BitWriter) (bs : List Bool) (c : Constant) (h : WB bw bs)
    (hc : ConstEnc c) :
    ∃ bw', writeConstant bw c = some bw' ∧ WB bw' (bs ++ encConstant c) := by
  unfold writeConstant encConstant
  by_cases h1 : c.Typ = "number"
  · simp only [h1, if_true]
    cases hv : c.Value with
    | int val =>
      simp only
      split
      · refine ⟨_, rfl, ?_⟩
        have := WB_WriteBits _ _ (toUint64 (toInt8 val) &&& 0x7F) 7
          (WB_WriteBits _ _ 1 1 (WB_WriteBits bw bs ConstTypeNumber 3 h))
        simpa [ConstTypeNumber, List.append_assoc] using this
      · refine ⟨_, rfl, ?_⟩
        have := WB_writeFloat64 (f64OfInt val) _ _
          (WB_WriteBits _ _ 0 1 (WB_WriteBits bw bs ConstTypeNumber 3 h))
        simpa [ConstTypeNumber, List.append_assoc] using this
    | float fval =>
      refine ⟨_, rfl, ?_⟩
      have := WB_writeFloat64 fval _ _
        (WB_WriteBits _ _ 0 1 (WB_WriteBits bw bs ConstTypeNumber 3 h))
      simpa [ConstTypeNumber, List.append_assoc] using this
    | _ =>
      refine ⟨_, rfl, ?_⟩
      have := WB_writeFloat64 0 _ _
        (WB_WriteBits _ _ 0 1 (WB_WriteBits bw bs ConstTypeNumber 3 h))
      simpa [ConstTypeNumber, List.append_assoc] using this
  · by_cases h2 : c.Typ = "string"
    · simp only [h2, if_true]
      rcases hc with hc | ⟨_, s, hs, _⟩ | hc | hc | hc
      · exact absurd hc h1
      · simp only [hs, String.reduceEq, if_false]
        refine ⟨_, rfl, ?_⟩
        split
        · have := WB_writeBytes s _ _ (WB_WriteBits _ _ s.length 8
            (WB_WriteBits _ _ 1 1 (WB_WriteBits bw bs ConstTypeString 3 h)))
          simpa [ConstTypeString, List.append_assoc] using this
        · have := WB_writeBytes s _ _ (WB_WriteVarUint _ _ (s.length % 4294967296)
            (WB_WriteBits _ _ 0 1 (WB_WriteBits bw bs ConstTypeString 3 h)))
          simpa [ConstTypeString, List.append_assoc] using this
      · rw [h2] at hc; exact absurd hc (by decide)
      · rw [h2] at hc; exact absurd hc (by decide)
      · rw [h2] at hc; exact absurd hc (by decide)
    · by_cases h3 : c.Typ = "funcptr"
      · simp only [h3, String.reduceEq, if_false, if_true]
        refine ⟨_, rfl, ?_⟩
        have := WB_WriteVarUint _ _ (funcptrVal c.Value) (WB_WriteBits bw bs ConstTypeFuncPtr 3 h)
        simp only [ConstTypeFuncPtr, List.append_assoc] at this
        convert this using 2
      · by_cases h4 : c.Typ = "bool"
        · simp only [h4, String.reduceEq, if_false, if_true]
          refine ⟨_, rfl, ?_⟩
          have := WB_WriteBits _ _ (if c.Value = .bool true then 1 else 0) 1
            (WB_WriteBits bw bs ConstTypeBool 3 h)
          simpa [ConstTypeBool, List.append_assoc] using this
        · by_cases h5 : c.Typ = "nil"
          · simp only [h5, String.reduceEq, if_false, if_true]
            exact ⟨_, rfl, by simpa [ConstTypeNil] using WB_WriteBits bw bs ConstTypeNil 3 h⟩
          · rcases hc with hc | ⟨hc, _⟩ | hc | hc | hc <;> contradiction

theorem WB_writeConstants (cs : List Constant) :
    ∀ (bw : BitWriter) (bs : List Bool), WB bw bs → (∀ c ∈ cs, ConstEnc c) →
      ∃ bw', writeConstants bw cs = some bw' ∧ WB bw' (bs ++ encConstants cs) := by
  induction cs with
  | nil => intro bw bs h _; exact ⟨bw, rfl, by simpa [encConstants] using h⟩
  | cons c rest ih =>
    intro bw bs h hc
    obtain ⟨bw1, h1, hw1⟩ := WB_writeConstant bw bs c h (hc c (by simp))
    obtain ⟨bw2, h2, hw2⟩ := ih bw1 _ hw1 (fun c' hc' => hc c' (by simp [hc']))
    refine ⟨bw2, ?_, ?_⟩
    · simp [writeConstants, h1, h2]
    · simpa [encConstants, List.append_assoc] using hw2

theorem WB_writeArg (bw : BitWriter) (bs : List Bool) (inst : Instruction) (h : WB bw bs)
    (ha : ArgEnc inst.Arg) :
    WB (writeInstruction bw inst) (bs ++ encInstruction inst) := by
  have h0 := WB_WriteVarUint16 _ _ (toUint16 inst.Line) (WB_WriteBits bw bs (opByte inst) 8 h)
  rw [List.append_assoc] at h0
  unfold writeInstruction encInstruction
  cases hv : inst.Arg with
  | nil =>
    simp only [hv, opByte, ne_eq, not_true_eq_false, if_false, encArg, List.append_nil] at h0 ⊢
    exact h0
  | float arg =>
    simp only [hv, opByte, ne_eq, reduceCtorEq, not_false_eq_true, if_true, encArg] at h0 ⊢
    split
    · have := WB_WriteVarUint _ _ (zigzag (f64ToInt32 arg)) (WB_WriteBits _ _ ArgTypeInt 2 h0)
      rw [WriteVarInt_eq]
      simpa [ArgTypeInt, List.append_assoc] using this
    · have := WB_writeFloat64 arg _ _ (WB_WriteBits _ _ ArgTypeFloat 2 h0)
      simpa [ArgTypeFloat, List.append_assoc] using this
  | int arg =>
    simp only [hv, opByte, ne_eq, reduceCtorEq, not_false_eq_true, if_true, encArg] at h0 ⊢
    have := WB_WriteVarUint _ _ (zigzag (toInt32 arg)) (WB_WriteBits _ _ ArgTypeInt 2 h0)
    rw [WriteVarInt_eq]
    simpa [ArgTypeInt, List.append_assoc] using this
  | str arg =>
    simp only [hv, opByte, ne_eq, reduceCtorEq, not_false_eq_true, if_true, encArg] at h0 ⊢
    have := WB_writeBytes arg _ _ (WB_WriteVarUint _ _ (arg.length % 4294967296)
      (WB_WriteBits _ _ ArgTypeString 2 h0))
    simpa [ArgTypeString, List.append_assoc] using this
  | int64 v => rw [hv] at ha; exact absurd ha (by simp [ArgEnc])
  | bool b => rw [hv] at ha; exact absurd ha (by simp [ArgEnc])

theorem WB_writeInstructions (is : List Instruction) :
    ∀ (bw : BitWriter) (bs : List Bool), WB bw bs → (∀ inst ∈ is, ArgEnc inst.Arg) →
      WB (writeInstructions bw is) (bs ++ encInstructions is) := by
  induction is with
  | nil => intro bw bs h _; simpa [writeInstructions, encInstructions] using h
  | cons inst rest ih =>
    intro bw bs h ha
    have h1 := WB_writeArg bw bs inst h (ha inst (by simp))
    have := ih _ _ h1 (fun i hi => ha i (by simp [hi]))
    simpa [writeInstructions, encInstructions, List.append_assoc] using this

theorem WriteBytecode_bits (is : List Instruction) (cs : List Constant) (h : Encodable is cs) :
    ∃ bytes pad, WriteBytecode is cs = some bytes ∧ (∀ b ∈ bytes, b < 256) ∧
      bytesBits bytes = encBytecode is cs ++ pad ∧ pad.length < 8 := by
  obtain ⟨hcl, hil, hc, hi⟩ := h
  have h0 := WB_WriteVarUint _ _ (is.length % 4294967296) (WB_WriteVarUint _ _
    (cs.length % 4294967296) (WB_WriteBits _ _ VersionCombined 8
      (WB_WriteBits _ _ MagicHeader 32 WB_new)))
  obtain ⟨bw1, h1, hw1⟩ := WB_writeConstants cs _ _ h0 hc
  have hw2 := WB_writeInstructions is _ _ hw1 hi
  refine ⟨((writeInstructions bw1 is).Flush).out,
    List.replicate ((8 - (writeInstructions bw1 is).bitPos) % 8) false, ?_,
    Flush_bytes _ _ hw2, ?_, ?_⟩
  · unfold WriteBytecode
    simp only [BitWriter.WriteUint32, BitWriter.WriteUint8]
    rw [h1]; rfl
  · rw [Flush_out _ _ hw2, Nat.mod_eq_of_lt hcl, Nat.mod_eq_of_lt hil]
    simp only [encBytecode, List.nil_append, List.append_assoc]
  · rw [List.length_replicate]
    exact Nat.mod_lt _ (by norm_num)

/-! ## The reader decodes `encBytecode` -/

theorem Reads_readBytes (s : List Nat) :
    Reads (readBytes s.length) (bytesBits s) (s.map (· % 256)) := by
  induction s with
  | nil => simpa [readBytes, bytesBits] using Reads_pure ([] : List Nat)
  | cons ch rest ih =>
    simp only [List.length_cons, readBytes, bytesBits, List.map_cons]
    refine Reads_bind (Reads_ReadBits ch 8 (by norm_num)) ?_
    have := Reads_map (fun r => ch % 2 ^ 8 % 256 :: r) ih
    simpa using this

theorem Reads_ReadBits_one (b : Bool) : Reads (BitReader.ReadBits 1) [b] (if b then 1 else 0) := by
  have := Reads_readBitsFrom [b] 0 0 (by norm_num) (by simp)
  simpa [bval, BitReader.ReadBits] using this

theorem Reads_readFloat64From (bs : List Bool) :
    ∀ (i acc : Nat), acc < 2 ^ i → i + bs.length ≤ 64 →
      Reads (readFloat64From i bs.length acc) bs (acc + bval bs * 2 ^ i) := by
  induction bs with
  | nil =>
    intro i acc _ _
    simpa [readFloat64From, bval] using Reads_pure acc
  | cons b bs ih =>
    intro i acc hacc hlen
    simp only [List.length_cons] at hlen ⊢
    have hsmall : (if b then 1 else 0 : Nat) * 2 ^ i < 18446744073709551616 := by
      have h1 : (if b then 1 else 0 : Nat) * 2 ^ i ≤ 1 * 2 ^ i :=
        Nat.mul_le_mul_right _ (by split <;> norm_num)
      have h2 : (2 : Nat) ^ i < 2 ^ 64 := Nat.pow_lt_pow_right (by norm_num) (by omega)
      norm_num at h2
      omega
    have hstep : acc ||| (((if b then 1 else 0 : Nat) <<< i) % 18446744073709551616)
        = acc + (if b then 1 else 0 : Nat) * 2 ^ i := by
      rw [Nat.shiftLeft_eq, Nat.mod_eq_of_lt hsmall, ← or_shift_eq_add _ _ _ hacc, Nat.shiftLeft_eq]
    have hacc' : acc + (if b then 1 else 0 : Nat) * 2 ^ i < 2 ^ (i + 1) := by
      have : (if b then 1 else 0 : Nat) * 2 ^ i ≤ 1 * 2 ^ i :=
        Nat.mul_le_mul_right _ (by split <;> norm_num)
      rw [pow_succ]; omega
    have h2 := ih (i + 1) _ hacc' (by omega)
    have := Reads_bind (G := fun bit => readFloat64From (i + 1) bs.length
      (acc ||| ((bit <<< i) % 18446744073709551616))) (Reads_ReadBits_one b)
      (by simp only [hstep]; exact h2)
    refine Reads_congr this rfl ?_
    simp only [bval, pow_succ]
    ring

theorem Reads_readFloat64 (f : Nat) : Reads readFloat64 (nbits f 64) (f % 2 ^ 64) := by
  have := Reads_readFloat64From (nbits f 64) 0 0 (by norm_num) (by simp)
  simpa [bval_nbits, readFloat64] using this

theorem smallInt_bits (v : Int) (h1 : -64 ≤ v) (h2 : v ≤ 63) :
    toUint64 (toInt8 v) &&& 0x7F = (v % 128).toNat := by
  rw [and_7F]
  unfold toUint64 toInt8
  omega

theorem smallInt_decode (v : Int) (h1 : -64 ≤ v) (h2 : v ≤ 63) :
    (if (v % 128).toNat &&& 0x40 ≠ 0 then
        toInt8 (Int.ofNat ((toUint64 (toInt8 (Int.ofNat (v % 128).toNat)) % 256) ||| 0x80))
      else toInt8 (Int.ofNat (v % 128).toNat)) = v := by
  interval_cases v <;> rfl

theorem Reads_readConstant_number (c : Constant) (h1 : c.Typ = "number") :
    Reads readConstant (encConstant c) (decConstant c) := by
  unfold readConstant encConstant decConstant
  simp only [h1, if_true]
  cases hv : c.Value with
  | int val =>
    simp only
    split
    · rename_i hr
      refine Reads_bind (Reads_ReadBits_of_lt 0 3 (by norm_num) (by norm_num)) ?_
      simp only [ConstTypeNumber, Nat.zero_mod, if_true]
      refine Reads_bind (Reads_ReadBits_of_lt 1 1 (by norm_num) (by norm_num)) ?_
      simp only [if_true]
      rw [smallInt_bits val hr.1 hr.2]
      have hlt : (val % 128).toNat < 2 ^ 7 := by norm_num; omega
      have := Reads_map (fun valBits => ({ Value := .int (if valBits &&& 0x40 ≠ 0 then
          toInt8 (Int.ofNat ((toUint64 (toInt8 (Int.ofNat valBits)) % 256) ||| 0x80))
          else toInt8 (Int.ofNat valBits)), Typ := "number" } : Constant))
        (Reads_ReadBits_of_lt (val % 128).toNat 7 (by norm_num) hlt)
      simp only [smallInt_decode val hr.1 hr.2] at this
      exact this
    · refine Reads_bind (Reads_ReadBits_of_lt 0 3 (by norm_num) (by norm_num)) ?_
      simp only [ConstTypeNumber, Nat.zero_mod, if_true]
      refine Reads_bind (Reads_ReadBits_of_lt 0 1 (by norm_num) (by norm_num)) ?_
      simp only [zero_ne_one, if_false]
      exact Reads_map (fun bits => ({ Value := .float bits, Typ := "number" } : Constant))
        (Reads_readFloat64 (f64OfInt val))
  | float fval =>
    refine Reads_bind (Reads_ReadBits_of_lt 0 3 (by norm_num) (by norm_num)) ?_
    simp only [ConstTypeNumber, Nat.zero_mod, if_true]
    refine Reads_bind (Reads_ReadBits_of_lt 0 1 (by norm_num) (by norm_num)) ?_
    simp only [zero_ne_one, if_false]
    exact Reads_map (fun bits => ({ Value := .float bits, Typ := "number" } : Constant))
      (Reads_readFloat64 fval)
  | _ =>
    refine Reads_bind (Reads_ReadBits_of_lt 0 3 (by norm_num) (by norm_num)) ?_
    simp only [ConstTypeNumber, Nat.zero_mod, if_true]
    refine Reads_bind (Reads_ReadBits_of_lt 0 1 (by norm_num) (by norm_num)) ?_
    simp only [zero_ne_one, if_false]
    exact Reads_map (fun bits => ({ Value := .float bits, Typ := "number" } : Constant))
      (Reads_readFloat64 0)

theorem Reads_readConstant_string (c : Constant) (s : List Nat) (h1 : c.Typ = "string")
    (hs : c.Value = .str s) (hlen : s.length < 4294967296) :
    Reads readConstant (encConstant c) (decConstant c) := by
  unfold readConstant encConstant decConstant
  simp only [h1, hs, String.reduceEq, if_false, if_true]
  split
  · rename_i hshort
    refine Reads_bind (Reads_ReadBits_of_lt 1 3 (by norm_num) (by norm_num)) ?_
    simp only [ConstTypeNumber, ConstTypeString, Nat.one_mod, one_ne_zero, if_false, if_true]
    refine Reads_bind (Reads_ReadBits_of_lt 1 1 (by norm_num) (by norm_num)) ?_
    simp only [if_true]
    refine Reads_bind (a := s.length) ?_ ?_
    · have := Reads_map (fun lenBits => lenBits % 4294967296)
        (Reads_ReadBits_of_lt s.length 8 (by norm_num) (by norm_num; omega))
      exact Reads_congr this rfl (Nat.mod_eq_of_lt hlen)
    · exact Reads_map (fun b => ({ Value := .str b, Typ := "string" } : Constant))
        (Reads_readBytes s)
  · refine Reads_bind (Reads_ReadBits_of_lt 1 3 (by norm_num) (by norm_num)) ?_
    simp only [ConstTypeNumber, ConstTypeString, Nat.one_mod, one_ne_zero, if_false, if_true]
    refine Reads_bind (Reads_ReadBits_of_lt 0 1 (by norm_num) (by norm_num)) ?_
    simp only [zero_ne_one, if_false]
    rw [Nat.mod_eq_of_lt hlen]
    refine Reads_bind (Reads_ReadVarUint s.length hlen) ?_
    exact Reads_map (fun b => ({ Value := .str b, Typ := "string" } : Constant))
      (Reads_readBytes s)

theorem funcptrVal_lt (v : Value) : funcptrVal v < 4294967296 := by
  unfold funcptrVal
  split
  · unfold f64ToUint32 toUint32
    split
    · norm_num
    · simp only
      split <;> split <;> omega
  · unfold toUint32; omega
  · norm_num

theorem Reads_readConstant_other (c : Constant)
    (h : c.Typ = "funcptr" ∨ c.Typ = "bool" ∨ c.Typ = "nil") :
    Reads readConstant (encConstant c) (decConstant c) := by
  unfold readConstant encConstant decConstant
  rcases h with h | h | h
  · simp only [h, String.reduceEq, if_false, if_true]
    refine Reads_bind (Reads_ReadBits_of_lt 2 3 (by norm_num) (by norm_num)) ?_
    simp only [ConstTypeNumber, ConstTypeString, ConstTypeFuncPtr, Nat.reduceMod,
      OfNat.ofNat_ne_zero, OfNat.ofNat_ne_one, if_false, if_true]
    exact Reads_map (fun val => (⟨.float (f64OfInt (Int.ofNat val)), "funcptr"⟩ : Constant))
      (Reads_ReadVarUint _ (funcptrVal_lt c.Value))
  · simp only [h, String.reduceEq, if_false, if_true]
    refine Reads_bind (Reads_ReadBits_of_lt 3 3 (by norm_num) (by norm_num)) ?_
    simp only [ConstTypeNumber, ConstTypeString, ConstTypeFuncPtr, ConstTypeBool, Nat.reduceMod,
      OfNat.ofNat_ne_zero, OfNat.ofNat_ne_one, Nat.reduceEqDiff, if_false, if_true]
    have := Reads_map (fun val => ({ Value := .bool (decide (val = 1)), Typ := "bool" } : Constant))
      (Reads_ReadBits_of_lt (if c.Value = .bool true then 1 else 0) 1 (by norm_num)
        (by split <;> norm_num))
    refine Reads_congr this rfl ?_
    by_cases hb : c.Value = .bool true <;> simp [hb]
  · simp only [h, String.reduceEq, if_false, if_true]
    refine Reads_congr (Reads_bind (Reads_ReadBits_of_lt 4 3 (by norm_num) (by norm_num))
      (d := []) ?_) (List.append_nil _) rfl
    simp only [ConstTypeNumber, ConstTypeString, ConstTypeFuncPtr, ConstTypeBool, ConstTypeNil,
      Nat.reduceMod, OfNat.ofNat_ne_zero, OfNat.ofNat_ne_one, Nat.reduceEqDiff, if_false, if_true]
    exact Reads_pure _

theorem Reads_readConstant (c : Constant) (hc : ConstEnc c) :
    Reads readConstant (encConstant c) (decConstant c) := by
  by_cases h1 : c.Typ = "number"
  · exact Reads_readConstant_number c h1
  · by_cases h2 : c.Typ = "string"
    · rcases hc with hc | ⟨_, s, hs, hlen⟩ | hc | hc | hc
      · exact absurd hc h1
      · exact Reads_readConstant_string c s h2 hs hlen
      · rw [h2] at hc; exact absurd hc (by decide)
      · rw [h2] at hc; exact absurd hc (by decide)
      · rw [h2] at hc; exact absurd hc (by decide)
    · rcases hc with hc | ⟨hc, _⟩ | hc | hc | hc
      · exact absurd hc h1
      · exact absurd hc h2
      · exact Reads_readConstant_other c (Or.inl hc)
      · exact Reads_readConstant_other c (Or.inr (Or.inl hc))
      · exact Reads_readConstant_other c (Or.inr (Or.inr hc))

theorem and_clear_80 (b : Nat) (h : b < 256) : b &&& 0xFFFFFFFFFFFFFF7F = b % 128 := by
  interval_cases b <;> rfl

theorem toInt32_range (x : Int) : -2147483648 ≤ toInt32 x ∧ toInt32 x < 2147483648 := by
  unfold toInt32; omega

theorem f64ToInt32_range (b : Nat) : -2147483648 ≤ f64ToInt32 b ∧ f64ToInt32 b < 2147483648 := by
  unfold f64ToInt32
  split
  · norm_num
  · simp only
    split <;> omega

theorem Reads_readArg_int (t : Int) (h1 : -2147483648 ≤ t) (h2 : t < 2147483648) :
    Reads (readArg true) (nbits 1 2 ++ encVarUint (zigzag t)) (.float (f64OfInt t)) := by
  unfold readArg
  simp only [if_true]
  refine Reads_bind (Reads_ReadBits_of_lt 1 2 (by norm_num) (by norm_num)) ?_
  simp only [ArgTypeConst, ArgTypeInt, one_ne_zero, if_false, if_true]
  have := Reads_map (fun uval => Value.float (f64OfInt (zigzagDecode uval)))
    (Reads_ReadVarUint (zigzag t) (zigzag_lt t h1 h2))
  simp only [zigzagDecode_zigzag t h1 h2] at this
  exact this

theorem Reads_readArg (v : Value) (ha : ArgEnc v) :
    Reads (readArg (decide (v ≠ .nil))) (encArg v) (decArg v) := by
  cases v with
  | nil =>
    simp only [ne_eq, not_true_eq_false, decide_False, readArg, Bool.false_eq_true, if_false,
      encArg, decArg]
    exact Reads_pure _
  | float arg =>
    simp only [ne_eq, reduceCtorEq, not_false_eq_true, decide_True, encArg, decArg]
    split
    · exact Reads_readArg_int _ (f64ToInt32_range arg).1 (f64ToInt32_range arg).2
    · unfold readArg
      simp only [if_true]
      refine Reads_bind (Reads_ReadBits_of_lt 2 2 (by norm_num) (by norm_num)) ?_
      simp only [ArgTypeConst, ArgTypeInt, ArgTypeFloat, OfNat.ofNat_ne_zero, OfNat.ofNat_ne_one,
        if_false, if_true]
      exact Reads_map (fun bits => Value.float bits) (Reads_readFloat64 arg)
  | int arg =>
    simp only [ne_eq, reduceCtorEq, not_false_eq_true, decide_True, encArg, decArg]
    exact Reads_readArg_int _ (toInt32_range arg).1 (toInt32_range arg).2
  | str arg =>
    simp only [ne_eq, reduceCtorEq, not_false_eq_true, decide_True, encArg, decArg]
    have hlen : arg.length < 4294967296 := ha
    unfold readArg
    simp only [if_true]
    refine Reads_bind (Reads_ReadBits_of_lt 3 2 (by norm_num) (by norm_num)) ?_
    simp only [ArgTypeConst, ArgTypeInt, ArgTypeFloat, ArgTypeString, OfNat.ofNat_ne_zero,
      OfNat.ofNat_ne_one, Nat.reduceEqDiff, if_false, if_true]
    rw [Nat.mod_eq_of_lt hlen]
    refine Reads_bind (Reads_ReadVarUint arg.length hlen) ?_
    exact Reads_map (fun b => Value.str b) (Reads_readBytes arg)
  | int64 v => exact absurd ha (by simp [ArgEnc])
  | bool b => exact absurd ha (by simp [ArgEnc])

theorem opByte_lt (inst : Instruction) : opByte inst < 256 := by
  unfold opByte
  have h := Nat.mod_lt (inst.Op % 18446744073709551616) (show 128 > 0 by norm_num)
  split
  · rw [and_7F, or_80 _ h]; omega
  · rw [and_7F]; omega

theorem opByte_hasArg (inst : Instruction) :
    decide (opByte inst &&& 0x80 ≠ 0) = decide (inst.Arg ≠ .nil) := by
  unfold opByte
  have h := Nat.mod_lt (inst.Op % 18446744073709551616) (show 128 > 0 by norm_num)
  by_cases ha : inst.Arg = .nil
  · simp only [ha, ne_eq, not_true_eq_false, if_false, and_7F, and_80_of_lt _ h, decide_False]
  · simp only [ha, ne_eq, not_false_eq_true, if_true, and_7F, or_80 _ h, decide_True,
      decide_eq_true_eq]
    exact and_80_of_ge _ h

theorem opByte_op (inst : Instruction) : opByte inst &&& 0xFFFFFFFFFFFFFF7F = inst.Op % 128 := by
  rw [and_clear_80 _ (opByte_lt inst)]
  unfold opByte
  have h := Nat.mod_lt (inst.Op % 18446744073709551616) (show 128 > 0 by norm_num)
  split
  · rw [and_7F, or_80 _ h]; omega
  · rw [and_7F]; omega

theorem Reads_readInstruction (inst : Instruction) (ha : ArgEnc inst.Arg) :
    Reads readInstruction (encInstruction inst) (decInstruction inst) := by
  unfold readInstruction encInstruction decInstruction
  refine Reads_bind (Reads_ReadBits_of_lt (opByte inst) 8 (by norm_num)
    (by simpa using opByte_lt inst)) ?_
  simp only [opByte_hasArg, opByte_op]
  refine Reads_bind (Reads_ReadVarUint16 (toUint16 inst.Line)) ?_
  exact Reads_map (fun arg => (⟨inst.Op % 128, arg, Int.ofNat (toUint16 inst.Line % 32768)⟩ :
    Instruction)) (Reads_readArg inst.Arg ha)

theorem Reads_readConstants (cs : List Constant) (hc : ∀ c ∈ cs, ConstEnc c) :
    Reads (readConstants cs.length) (encConstants cs) (cs.map decConstant) := by
  induction cs with
  | nil => simpa [readConstants, encConstants] using Reads_pure ([] : List Constant)
  | cons c rest ih =>
    simp only [List.length_cons, readConstants, encConstants, List.map_cons]
    refine Reads_bind (Reads_readConstant c (hc c (by simp))) ?_
    exact Reads_map (fun r => decConstant c :: r) (ih (fun c' hc' => hc c' (by simp [hc'])))

theorem Reads_readInstructions (is : List Instruction) (ha : ∀ inst ∈ is, ArgEnc inst.Arg) :
    Reads (readInstructions is.length) (encInstructions is) (is.map decInstruction) := by
  induction is with
  | nil => simpa [readInstructions, encInstructions] using Reads_pure ([] : List Instruction)
  | cons inst rest ih =>
    simp only [List.length_cons, readInstructions, encInstructions, List.map_cons]
    refine Reads_bind (Reads_readInstruction inst (ha inst (by simp))) ?_
    exact Reads_map (fun r => decInstruction inst :: r) (ih (fun i hi => ha i (by simp [hi])))

theorem Reads_readBytecode (is : List Instruction) (cs : List Constant) (h : Encodable is cs) :
    Reads readBytecode (encBytecode is cs) (is.map decInstruction, cs.map decConstant) := by
  obtain ⟨hcl, hil, hc, hi⟩ := h
  unfold readBytecode encBytecode
  refine Reads_bind (a := MagicHeader) ?_ ?_
  · exact Reads_congr (Reads_ReadUint32 MagicHeader) rfl (by decide)
  simp only [ne_eq, not_true_eq_false, if_false]
  refine Reads_bind (a := VersionCombined) ?_ ?_
  · exact Reads_congr (Reads_ReadUint8 VersionCombined) rfl (by decide)
  have hmaj : VersionCombined >>> 4 = VersionMajor := by decide
  simp only [hmaj, ne_eq, not_true_eq_false, if_false]
  refine Reads_bind (Reads_ReadVarUint cs.length hcl) ?_
  refine Reads_bind (Reads_ReadVarUint is.length hil) ?_
  refine Reads_bind (Reads_readConstants cs hc) ?_
  exact Reads_map (fun instructions => (instructions, cs.map decConstant))
    (Reads_readInstructions is hi)

/-! ## Integers as `float64` -/

theorem ilog2_spec (fuel : Nat) :
    ∀ n, 1 ≤ n → n < 2 ^ (fuel + 1) → 2 ^ ilog2 fuel n ≤ n ∧ n < 2 ^ (ilog2 fuel n + 1) := by
  induction fuel with
  | zero =>
    intro n h1 h2
    simp only [ilog2]
    norm_num at h2 ⊢
    omega
  | succ fuel ih =>
    intro n h1 h2
    simp only [ilog2]
    split
    · rename_i h
      have hlt : n / 2 < 2 ^ (fuel + 1) := by
        rw [Nat.div_lt_iff_lt_mul (by norm_num), ← pow_succ]; exact h2
      obtain ⟨ha, hb⟩ := ih (n / 2) (by omega) hlt
      rw [pow_succ, pow_succ]
      rw [pow_succ] at hb
      omega
    · norm_num
      omega

theorem f64_fields (s e m : Nat) (hs : s = 0 ∨ s = 2 ^ 63) (he : e ≤ 52) (hm : m < 2 ^ 52) :
    f64Exp (s + (e + 1023) * 2 ^ 52 + m) = e + 1023 ∧
    f64Frac (s + (e + 1023) * 2 ^ 52 + m) = m ∧
    (f64Neg (s + (e + 1023) * 2 ^ 52 + m) = true ↔ s = 2 ^ 63) := by
  unfold f64Exp f64Frac f64Neg
  norm_num at hs hm ⊢
  rcases hs with hs | hs <;> subst hs <;> refine ⟨?_, ?_, ?_⟩ <;> omega

theorem f64ToInt_zero (b : Nat) (h : f64IsZero b = true) : f64ToInt? b = some 0 := by
  unfold f64IsZero at h
  simp only [decide_eq_true_eq] at h
  obtain ⟨h1, h2⟩ := h
  unfold f64ToInt? f64TruncMag f64E f64Sig
  simp only [h1, h2, if_true, Nat.zero_mod, Nat.zero_div, or_true, Nat.zero_mul,
    show ¬ (0 = 2047) by norm_num, if_false, show ¬ (1075 ≤ 1) by norm_num, Nat.cast_zero,
    neg_zero, ite_self]

theorem f64ToInt_ofInt (v : Int) (h : v.natAbs < 2 ^ 53) : f64ToInt? (f64OfInt v) = some v := by
  by_cases h0 : v.natAbs = 0
  · have : v = 0 := Int.natAbs_eq_zero.mp h0
    subst this
    exact f64ToInt_zero 0 (by decide)
  · obtain ⟨hlo, hhi⟩ := ilog2_spec 64 v.natAbs (by omega)
      (lt_trans h (Nat.pow_lt_pow_right (by norm_num) (by norm_num)))
    generalize he : ilog2 64 v.natAbs = e at hlo hhi
    have he52 : e ≤ 52 := by
      by_contra hc
      have : 2 ^ 53 ≤ 2 ^ e := Nat.pow_le_pow_right (by norm_num) (by omega)
      omega
    have hP : 2 ^ e * 2 ^ (52 - e) = 2 ^ 52 := by
      rw [← pow_add]; congr 1; omega
    have hPpos : 0 < 2 ^ (52 - e) := by positivity
    have hge : 2 ^ 52 ≤ v.natAbs * 2 ^ (52 - e) := by
      rw [← hP]; exact Nat.mul_le_mul_right _ hlo
    have hlt : v.natAbs * 2 ^ (52 - e) < 2 ^ 53 := by
      have : v.natAbs * 2 ^ (52 - e) < 2 ^ (e + 1) * 2 ^ (52 - e) :=
        Nat.mul_lt_mul_of_pos_right hhi hPpos
      rwa [pow_succ, mul_assoc, mul_comm 2, ← mul_assoc, hP, ← pow_succ] at this
    have hbits : f64OfInt v = (if v < 0 then 2 ^ 63 else 0) + (e + 1023) * 2 ^ 52
        + (v.natAbs * 2 ^ (52 - e) - 2 ^ 52) := by
      unfold f64OfInt
      simp only [h0, if_false, he, he52, if_true]
    obtain ⟨hE, hF, hN⟩ := f64_fields (if v < 0 then 2 ^ 63 else 0) e
      (v.natAbs * 2 ^ (52 - e) - 2 ^ 52) (by split <;> simp) he52 (by omega)
    rw [← hbits] at hE hF hN
    have hsig : f64Sig (f64OfInt v) = v.natAbs * 2 ^ (52 - e) := by
      unfold f64Sig; rw [hE, hF, if_neg (by omega)]; omega
    have hEe : f64E (f64OfInt v) = e + 1023 := by
      unfold f64E; rw [hE, if_neg (by omega)]
    have hneg : f64Neg (f64OfInt v) = true ↔ v < 0 := by
      rw [hN]
      by_cases hv : v < 0 <;> simp [hv]
    have htr : f64TruncMag (f64OfInt v) = v.natAbs := by
      unfold f64TruncMag
      rw [hEe, hsig]
      by_cases h52 : e = 52
      · subst h52; simp
      · rw [if_neg (by omega), show 1075 - (e + 1023) = 52 - e by omega,
          Nat.mul_div_cancel _ hPpos]
    unfold f64ToInt?
    rw [hE, if_neg (by omega), hEe, hsig, htr]
    have hdiv : 1075 ≤ e + 1023 ∨ v.natAbs * 2 ^ (52 - e) % 2 ^ (1075 - (e + 1023)) = 0 := by
      right
      rw [show 1075 - (e + 1023) = 52 - e by omega, Nat.mul_mod_left]
    rw [if_pos hdiv]
    congr 1
    by_cases hv : v < 0
    · rw [if_pos (hneg.mpr hv)]; omega
    · rw [if_neg (fun hc => hv (hneg.mp hc))]; omega

theorem f64Eq_cases (a b : Nat) (h : f64Eq a b = true) :
    a = b ∨ (f64IsZero a = true ∧ f64IsZero b = true) := by
  unfold f64Eq at h
  simp only [Bool.and_eq_true, Bool.or_eq_true, decide_eq_true_eq] at h
  exact h.2

/-! ## Round trip and truncation for every pair the container can carry -/

theorem map_fst_readBytecode (bytes : List Nat) (r : List Instruction × List Constant)
    (br' : BitReader) (h : readBytecode (NewBitReader bytes) = .ok (r, br')) :
    ReadBytecode bytes = .ok r := by
  unfold ReadBytecode; rw [h]; rfl

theorem roundtrip_general (is : List Instruction) (cs : List Constant) (h : Encodable is cs) :
    ∃ bytes, WriteBytecode is cs = some bytes ∧ (∀ b ∈ bytes, b < 256) ∧
      ReadBytecode bytes = .ok (is.map decInstruction, cs.map decConstant) := by
  obtain ⟨bytes, pad, hw, hb, hbits, _⟩ := WriteBytecode_bits is cs h
  obtain ⟨br', hr⟩ := Reads_run (Reads_readBytecode is cs h) bytes pad hbits
  exact ⟨bytes, hw, hb, map_fst_readBytecode bytes _ br' hr⟩

theorem truncated_general (is : List Instruction) (cs : List Constant) (h : Encodable is cs) :
    ∃ bytes, WriteBytecode is cs = some bytes ∧
      ∀ j, j < bytes.length → ReadBytecode (bytes.take j) = .error Err.UnexpectedEOF := by
  obtain ⟨bytes, pad, hw, hb, hbits, hpad⟩ := WriteBytecode_bits is cs h
  refine ⟨bytes, hw, ?_⟩
  intro j hj
  have hlen := congrArg List.length hbits
  rw [bytesBits_length, List.length_append] at hlen
  have := Reads_truncated (Reads_readBytecode is cs h) bytes pad hbits j (by omega)
  unfold ReadBytecode
  rw [this]; rfl

/-! ## Well-formed pairs decode to themselves -/

theorem map_mod_256 (s : List Nat) (h : ∀ b ∈ s, b < 256) : s.map (· % 256) = s := by
  induction s with
  | nil => rfl
  | cons x xs ih =>
    simp only [List.map_cons]
    rw [ih (fun b hb => h b (by simp [hb])), Nat.mod_eq_of_lt (h x (by simp))]

theorem WFArg_enc (v : Value) (h : WFArg v) : ArgEnc v := by
  cases v with
  | str s => exact (by simpa using h.1 : s.length < 4294967296)
  | nil => trivial
  | float b => trivial
  | int v => trivial
  | int64 v => exact h
  | bool b => exact h

theorem toInt32_of_range (v : Int) (h1 : -2 ^ 31 ≤ v) (h2 : v < 2 ^ 31) : toInt32 v = v := by
  unfold toInt32
  norm_num at h1 h2
  omega

theorem ArgSame_decArg (v : Value) (h : WFArg v) : ArgSame v (decArg v) := by
  cases v with
  | nil => trivial
  | str s => simp only [decArg, ArgSame]; exact (map_mod_256 s h.2).symm
  | int v =>
    simp only [decArg, ArgSame]
    rw [toInt32_of_range v h.1 h.2]
    apply f64ToInt_ofInt
    have h1 := h.1
    have h2 := h.2
    norm_num at h1 h2 ⊢
    omega
  | float b =>
    simp only [decArg]
    split
    · rename_i heq
      simp only [ArgSame]
      rcases f64Eq_cases _ _ heq with h1 | ⟨h1, h2⟩
      · exact Or.inl h1
      · exact Or.inr ⟨0, f64ToInt_zero _ h1, f64ToInt_zero _ h2⟩
    · simp only [ArgSame]
      exact Or.inl (Nat.mod_eq_of_lt h).symm
  | int64 v => exact absurd h (by simp [WFArg])
  | bool b => exact absurd h (by simp [WFArg])

theorem InstrSame_decInstruction (inst : Instruction) (h : WFInstruction inst) :
    InstrSame inst (decInstruction inst) := by
  obtain ⟨hop, hl0, hl1, ha⟩ := h
  refine ⟨Nat.mod_eq_of_lt hop, ?_, ArgSame_decArg _ ha⟩
  simp only [decInstruction, toUint16]
  norm_num at hl1
  simp only [Int.ofNat_eq_coe]
  omega

theorem WFConstant_enc (c : Constant) (h : WFConstant c) : ConstEnc c := by
  rcases h with ⟨h, _⟩ | ⟨h, s, hs, hl, _⟩ | ⟨h, _⟩ | ⟨h, _⟩ | ⟨h, _⟩
  · exact Or.inl h
  · exact Or.inr (Or.inl ⟨h, s, hs, by simpa using hl⟩)
  · exact Or.inr (Or.inr (Or.inl h))
  · exact Or.inr (Or.inr (Or.inr (Or.inl h)))
  · exact Or.inr (Or.inr (Or.inr (Or.inr h)))

theorem funcptrVal_holds (v : Value) (n : Nat) (hn : n < 2 ^ 32) (h : v.holdsInt n) :
    funcptrVal v = n := by
  norm_num at hn
  cases v with
  | int k =>
    simp only [Value.holdsInt] at h
    subst h
    simp only [funcptrVal, toUint32]
    omega
  | float b =>
    obtain ⟨_, h⟩ := h
    unfold f64ToInt? at h
    simp only [funcptrVal, f64ToUint32]
    split at h
    · exact absurd h (by simp)
    · rename_i hexp
      rw [if_neg hexp]
      split at h
      · simp only [Option.some.injEq] at h
        rw [h]
        simp only [toUint32]
        rw [if_pos (by omega)]
        omega
      · exact absurd h (by simp)
  | nil => exact absurd h (by simp [Value.holdsInt])
  | int64 k => exact absurd h (by simp [Value.holdsInt])
  | str s => exact absurd h (by simp [Value.holdsInt])
  | bool b => exact absurd h (by simp [Value.holdsInt])

theorem f64OfInt_nat_lt (n : Nat) (hn : n < 2 ^ 53) : f64OfInt (Int.ofNat n) < 2 ^ 64 := by
  by_cases h0 : n = 0
  · subst h0; decide
  · have hna : (Int.ofNat n).natAbs = n := rfl
    obtain ⟨hlo, hhi⟩ := ilog2_spec 64 n (by omega)
      (lt_trans hn (Nat.pow_lt_pow_right (by norm_num) (by norm_num)))
    generalize he : ilog2 64 n = e at hlo hhi
    have he52 : e ≤ 52 := by
      by_contra hc
      have : 2 ^ 53 ≤ 2 ^ e := Nat.pow_le_pow_right (by norm_num) (by omega)
      omega
    have hP : 2 ^ e * 2 ^ (52 - e) = 2 ^ 52 := by
      rw [← pow_add]; congr 1; omega
    have hlt : n * 2 ^ (52 - e) < 2 ^ 53 := by
      have : n * 2 ^ (52 - e) < 2 ^ (e + 1) * 2 ^ (52 - e) :=
        Nat.mul_lt_mul_of_pos_right hhi (by positivity)
      rwa [pow_succ, mul_assoc, mul_comm 2, ← mul_assoc, hP, ← pow_succ] at this
    unfold f64OfInt
    simp only [hna, h0, if_false, he, he52, if_true]
    have hneg : ¬ (Int.ofNat n < 0) := by simp
    rw [if_neg hneg]
    norm_num at hlt ⊢
    omega

theorem ConstSame_decConstant (c : Constant) (h : WFConstant c) : ConstSame c (decConstant c) := by
  rcases h with ⟨h, hv | hv⟩ | ⟨h, s, hs, hl, hb⟩ | ⟨h, n, hn, hv⟩ | ⟨h, b, hv⟩ | ⟨h, hv⟩
  · obtain ⟨v, hv, h1, h2⟩ := hv
    simp [ConstSame, decConstant, h, hv, h1, h2]
  · obtain ⟨b, hv, hb⟩ := hv
    simp only [ConstSame, decConstant, h, hv, if_true, String.reduceEq, if_false, true_and]
    rw [Nat.mod_eq_of_lt hb]
  · simp only [ConstSame, decConstant, h, hs, String.reduceEq, if_true, if_false, true_and]
    rw [map_mod_256 s hb]
  · simp only [ConstSame, decConstant, h, String.reduceEq, if_true, if_false, true_and]
    refine ⟨n, hv, ?_⟩
    rw [funcptrVal_holds _ n hn hv]
    have hn53 : n < 2 ^ 53 := lt_trans hn (Nat.pow_lt_pow_right (by norm_num) (by norm_num))
    exact ⟨f64OfInt_nat_lt n hn53, f64ToInt_ofInt _ hn53⟩
  · cases b <;> simp [ConstSame, decConstant, h, hv]
  · simp [ConstSame, decConstant, h, hv]

theorem WF_encodable (is : List Instruction) (cs : List Constant)
    (hil : is.length < 2 ^ 32) (hcl : cs.length < 2 ^ 32)
    (hi : ∀ inst ∈ is, WFArg inst.Arg) (hc : ∀ c ∈ cs, WFConstant c) : Encodable is cs :=
  ⟨by simpa using hcl, by simpa using hil, fun c h => WFConstant_enc c (hc c h),
    fun i h => WFArg_enc _ (hi i h)⟩

/-! ## Claims on the container -/

/-- C1: for every instruction list in which each opcode is below 128, each line is
a non-negative number below `2^14` and each operand is absent, a `float64`, an
`int` in the 32-bit signed range or a byte string, and for every well-formed
constant pool (both with fewer than `2^32` entries, the width of the count
fields), `WriteBytecode` succeeds and `ReadBytecode` on its bytes succeeds and
returns the same number of instructions in the same order, each with the same op,
the same line and the same operand (`InstrSame`: absent iff absent, the same
string, or the same numeric value, possibly retagged as a `float64`). -/
theorem C1_instruction_roundtrip (is : List Instruction) (cs : List Constant)
    (hil : is.length < 2 ^ 32) (hcl : cs.length < 2 ^ 32)
    (hi : ∀ inst ∈ is, WFInstruction inst) (hc : ∀ c ∈ cs, WFConstant c) :
    ∃ (bytes : List Nat) (is' : List Instruction) (cs' : List Constant), WriteBytecode is cs = some bytes ∧ ReadBytecode bytes = .ok (is', cs') ∧
      is'.length = is.length ∧
      ∀ (i : Nat) (inst : Instruction), is[i]? = some inst → ∃ inst', is'[i]? = some inst' ∧ InstrSame inst inst' := by
  obtain ⟨bytes, hw, _, hr⟩ := roundtrip_general is cs
    (WF_encodable is cs hil hcl (fun i h => (hi i h).2.2.2) hc)
  refine ⟨bytes, _, _, hw, hr, by simp, ?_⟩
  intro i inst hget
  refine ⟨decInstruction inst, by simp [List.getElem?_map, hget], ?_⟩
  exact InstrSame_decInstruction inst (hi inst (List.getElem?_mem hget))

theorem C1_instruction_roundtrip_witness :
    ∃ (bytes : List Nat) (is' : List Instruction) (cs' : List Constant),
      WriteBytecode [⟨1, .float 0, 1⟩, ⟨3, .str [120], 2⟩, ⟨5, .int (-5), 300⟩, ⟨0, .nil, 301⟩]
        [⟨.int 2, "number"⟩] = some bytes ∧
      ReadBytecode bytes = .ok (is', cs') ∧ is'.length = 4 ∧
      ∀ (i : Nat) (inst : Instruction), ([⟨1, .float 0, 1⟩, ⟨3, .str [120], 2⟩, ⟨5, .int (-5), 300⟩, ⟨0, .nil, 301⟩] :
        List Instruction)[i]? = some inst → ∃ inst', is'[i]? = some inst' ∧ InstrSame inst inst' :=
  C1_instruction_roundtrip
    [⟨1, .float 0, 1⟩, ⟨3, .str [120], 2⟩, ⟨5, .int (-5), 300⟩, ⟨0, .nil, 301⟩]
    [⟨.int 2, "number"⟩] (by simp) (by simp)
    (by simp [WFInstruction, WFArg]) (by simp [WFConstant])

/-- C2: for every constant pool whose entries are a number holding an `int` in
`[-64, 63]` or a `float64`, a string of any length below `2^32`, a funcptr
holding a non-negative integer below `2^32`, a bool, or nil (and every list of
instructions with operands of the data model), `ReadBytecode` on the bytes of
`WriteBytecode` returns a pool of the same length whose entry at every index has
the same type and the same value (`ConstSame`) as the original entry. -/
theorem C2_constant_roundtrip (is : List Instruction) (cs : List Constant)
    (hil : is.length < 2 ^ 32) (hcl : cs.length < 2 ^ 32)
    (hi : ∀ inst ∈ is, WFArg inst.Arg) (hc : ∀ c ∈ cs, WFConstant c) :
    ∃ (bytes : List Nat) (is' : List Instruction) (cs' : List Constant), WriteBytecode is cs = some bytes ∧ ReadBytecode bytes = .ok (is', cs') ∧
      cs'.length = cs.length ∧
      ∀ (i : Nat) (c : Constant), cs[i]? = some c → ∃ c', cs'[i]? = some c' ∧ ConstSame c c' := by
  obtain ⟨bytes, hw, _, hr⟩ := roundtrip_general is cs (WF_encodable is cs hil hcl hi hc)
  refine ⟨bytes, _, _, hw, hr, by simp, ?_⟩
  intro i c hget
  refine ⟨decConstant c, by simp [List.getElem?_map, hget], ?_⟩
  exact ConstSame_decConstant c (hc c (List.getElem?_mem hget))

theorem C2_constant_roundtrip_witness :
    ∃ (bytes : List Nat) (is' : List Instruction) (cs' : List Constant),
      WriteBytecode [⟨0, .nil, 1⟩] [⟨.int (-1), "number"⟩, ⟨.float 4609434218613702656, "number"⟩,
        ⟨.str [104, 105], "string"⟩, ⟨.int 7, "funcptr"⟩, ⟨.bool true, "bool"⟩, ⟨.nil, "nil"⟩]
        = some bytes ∧
      ReadBytecode bytes = .ok (is', cs') ∧ cs'.length = 6 ∧
      ∀ (i : Nat) (c : Constant), ([⟨.int (-1), "number"⟩, ⟨.float 4609434218613702656, "number"⟩,
        ⟨.str [104, 105], "string"⟩, ⟨.int 7, "funcptr"⟩, ⟨.bool true, "bool"⟩, ⟨.nil, "nil"⟩] :
        List Constant)[i]? = some c → ∃ c', cs'[i]? = some c' ∧ ConstSame c c' :=
  C2_constant_roundtrip [⟨0, .nil, 1⟩] [⟨.int (-1), "number"⟩,
    ⟨.float 4609434218613702656, "number"⟩, ⟨.str [104, 105], "string"⟩, ⟨.int 7, "funcptr"⟩,
    ⟨.bool true, "bool"⟩, ⟨.nil, "nil"⟩] (by simp) (by simp)
    (by simp [WFArg])
    (by simp only [WFConstant, Value.holdsInt, List.forall_mem_cons]; simp; exact ⟨7, by norm_num, rfl⟩)

/-- C9: for every pair the container can carry (`Encodable`: known constant
types, operands of the data model, counts and string lengths below `2^32`; this
includes every well-formed pair, with any line number), `ReadBytecode` on every
strict prefix `bytes.take j`, `j < bytes.length`, of the bytes produced by
`WriteBytecode` (the empty prefix `j = 0` included) returns the error
`UnexpectedEOF`, hence no instructions and no constants. -/
theorem C9_truncated_rejected (is : List Instruction) (cs : List Constant)
    (h : Encodable is cs) :
    ∃ bytes, WriteBytecode is cs = some bytes ∧
      ∀ j, j < bytes.length → ReadBytecode (bytes.take j) = .error Err.UnexpectedEOF :=
  truncated_general is cs h

theorem C9_truncated_rejected_witness :
    ∃ bytes, WriteBytecode [⟨1, .float 0, 1⟩, ⟨0, .nil, 40000⟩] [⟨.int 2, "number"⟩] = some bytes ∧
      ∀ j, j < bytes.length → ReadBytecode (bytes.take j) = .error Err.UnexpectedEOF :=
  C9_truncated_rejected [⟨1, .float 0, 1⟩, ⟨0, .nil, 40000⟩] [⟨.int 2, "number"⟩]
    (by simp [Encodable, ConstEnc, ArgEnc])

theorem nbits_le_word (b0 b1 b2 b3 : Nat) (h0 : b0 < 256) (h1 : b1 < 256) (h2 : b2 < 256) :
    nbits (b0 + 256 * b1 + 65536 * b2 + 16777216 * b3) 32
      = bytesBits [b0, b1, b2, b3] := by
  have e1 := nbits_append (b0 + 256 * b1 + 65536 * b2 + 16777216 * b3) 8 24
  have e2 := nbits_append (b1 + 256 * b2 + 65536 * b3) 8 16
  have e3 := nbits_append (b2 + 256 * b3) 8 8
  have c1 := nbits_congr (b0 + 256 * b1 + 65536 * b2 + 16777216 * b3) b0 8 (by simp only [Nat.reducePow]; omega)
  have c2 := nbits_congr (b1 + 256 * b2 + 65536 * b3) b1 8 (by simp only [Nat.reducePow]; omega)
  have c3 := nbits_congr (b2 + 256 * b3) b2 8 (by simp only [Nat.reducePow]; omega)
  have d1 : (b0 + 256 * b1 + 65536 * b2 + 16777216 * b3) / 2 ^ 8 = b1 + 256 * b2 + 65536 * b3 := by
    norm_num; omega
  have d2 : (b1 + 256 * b2 + 65536 * b3) / 2 ^ 8 = b2 + 256 * b3 := by simp only [Nat.reducePow]; omega
  have d3 : (b2 + 256 * b3) / 2 ^ 8 = b3 := by simp only [Nat.reducePow]; omega
  rw [d1, c1] at e1
  rw [d2, c2] at e2
  rw [d3, c3] at e3
  simp only [Nat.reduceAdd] at e1 e2 e3
  rw [e1, e2, e3]
  simp [bytesBits]

/-- C10: for every byte sequence of at least 4 bytes whose first four bytes,
taken as a little-endian 32-bit word, differ from `0x4C4C4243`, `ReadBytecode`
returns the bad-magic error (and so no result); in particular for every input
that starts with four zero bytes. -/
theorem C10_bad_magic (b0 b1 b2 b3 : Nat) (rest : List Nat)
    (h0 : b0 < 256) (h1 : b1 < 256) (h2 : b2 < 256) (h3 : b3 < 256)
    (hne : b0 + 256 * b1 + 65536 * b2 + 16777216 * b3 ≠ MagicHeader) :
    ReadBytecode (b0 :: b1 :: b2 :: b3 :: rest) = .error Err.BadMagic ∧
      ∀ tail, ReadBytecode (0 :: 0 :: 0 :: 0 :: tail) = .error Err.BadMagic := by
  have key : ∀ (c0 c1 c2 c3 : Nat) (tl : List Nat), c0 < 256 → c1 < 256 → c2 < 256 → c3 < 256 →
      c0 + 256 * c1 + 65536 * c2 + 16777216 * c3 ≠ MagicHeader →
      ReadBytecode (c0 :: c1 :: c2 :: c3 :: tl) = .error Err.BadMagic := by
    intro c0 c1 c2 c3 tl g0 g1 g2 g3 gne
    have hR := Reads_ReadUint32 (c0 + 256 * c1 + 65536 * c2 + 16777216 * c3)
    rw [Nat.mod_eq_of_lt (by omega)] at hR
    obtain ⟨br', hbr⟩ := Reads_run hR (c0 :: c1 :: c2 :: c3 :: tl) (bytesBits tl) (by
      rw [nbits_le_word c0 c1 c2 c3 g0 g1 g2]
      simp [bytesBits])
    unfold ReadBytecode readBytecode
    rw [Rd_bind_ok _ _ _ br' _ hbr, if_pos gne]
    rfl
  exact ⟨key b0 b1 b2 b3 rest h0 h1 h2 h3 hne,
    fun tail => key 0 0 0 0 tail (by norm_num) (by norm_num) (by norm_num) (by norm_num)
      (by decide)⟩

theorem C10_bad_magic_witness :
    ReadBytecode [0x43, 0x42, 0x4C, 0x4D, 0x30, 0, 0] = .error Err.BadMagic :=
  (C10_bad_magic 0x43 0x42 0x4C 0x4D [0x30, 0, 0] (by norm_num) (by norm_num) (by norm_num)
    (by norm_num) (by decide)).1

/-- C7 (as the claim states it, refuted): an instruction at line 40000, which is
in `[1, 65535]`, is written and read back with line 7232. -/
theorem C7_line_40000_counterexample :
    WriteBytecode [⟨0, .nil, 40000⟩] [] = some [0x43, 0x42, 0x4C, 0x4C, 0x30, 0, 1, 0, 0xC0, 0x38] ∧
    ReadBytecode [0x43, 0x42, 0x4C, 0x4C, 0x30, 0, 1, 0, 0xC0, 0x38] = .ok ([⟨0, .nil, 7232⟩], []) := by
  decide!

/-- C3 (as the claim states it, refuted): for one instruction at line 32768 the
first encoding spends two bytes on the line (`0x80 0x00`), decoding gives line
0, and encoding the decoded pair spends one byte (`0x00`): the byte sequences
differ, also in length. -/
theorem C3_line_32768_counterexample :
    WriteBytecode [⟨0, .nil, 32768⟩] [] = some [0x43, 0x42, 0x4C, 0x4C, 0x30, 0, 1, 0, 0x80, 0] ∧
    ReadBytecode [0x43, 0x42, 0x4C, 0x4C, 0x30, 0, 1, 0, 0x80, 0] = .ok ([⟨0, .nil, 0⟩], []) ∧
    WriteBytecode [⟨0, .nil, 0⟩] [] = some [0x43, 0x42, 0x4C, 0x4C, 0x30, 0, 1, 0, 0] := by
  decide!

/-! ## The line field carries 15 bits

The two-byte line field carries the low 15 bits of the `uint16` handed to
`WriteVarUint16`: a line survives the codec exactly when it is below `2^15`,
and encoding is stable under decoding unless the line is in `[32768, 32895]`
(written in two bytes, read back below 128, rewritten in one byte). -/

theorem WriteBits_8_congr (bw : BitWriter) (x y : Nat) (h : x % 256 = y % 256) :
    bw.WriteBits x 8 = bw.WriteBits y 8 := by
  have h0 : (x >>> 0) &&& 1 = (y >>> 0) &&& 1 := by
    simp only [Nat.shiftRight_eq_div_pow, Nat.and_one_is_mod, Nat.reducePow]; omega
  have h1 : (x >>> 1) &&& 1 = (y >>> 1) &&& 1 := by
    simp only [Nat.shiftRight_eq_div_pow, Nat.and_one_is_mod, Nat.reducePow]; omega
  have h2 : (x >>> 2) &&& 1 = (y >>> 2) &&& 1 := by
    simp only [Nat.shiftRight_eq_div_pow, Nat.and_one_is_mod, Nat.reducePow]; omega
  have h3 : (x >>> 3) &&& 1 = (y >>> 3) &&& 1 := by
    simp only [Nat.shiftRight_eq_div_pow, Nat.and_one_is_mod, Nat.reducePow]; omega
  have h4 : (x >>> 4) &&& 1 = (y >>> 4) &&& 1 := by
    simp only [Nat.shiftRight_eq_div_pow, Nat.and_one_is_mod, Nat.reducePow]; omega
  have h5 : (x >>> 5) &&& 1 = (y >>> 5) &&& 1 := by
    simp only [Nat.shiftRight_eq_div_pow, Nat.and_one_is_mod, Nat.reducePow]; omega
  have h6 : (x >>> 6) &&& 1 = (y >>> 6) &&& 1 := by
    simp only [Nat.shiftRight_eq_div_pow, Nat.and_one_is_mod, Nat.reducePow]; omega
  have h7 : (x >>> 7) &&& 1 = (y >>> 7) &&& 1 := by
    simp only [Nat.shiftRight_eq_div_pow, Nat.and_one_is_mod, Nat.reducePow]; omega
  simp only [BitWriter.WriteBits, BitWriter.writeBitsFrom, BitWriter.writeBit, Nat.reduceAdd,
    h0, h1, h2, h3, h4, h5, h6, h7]

theorem WriteVarUint16_low15 (bw : BitWriter) (u : Nat) (hu : u < 65536)
    (h : u < 32768 ∨ 32896 ≤ u) : bw.WriteVarUint16 (u % 32768) = bw.WriteVarUint16 u := by
  rcases h with h | h
  · rw [Nat.mod_eq_of_lt h]
  · unfold BitWriter.WriteVarUint16
    rw [if_neg (by omega), if_neg (by omega), and_7F, and_7F,
      show u % 32768 % 128 = u % 128 by omega]
    exact WriteBits_8_congr _ _ _ (by
      simp only [Nat.shiftRight_eq_div_pow, Nat.reducePow]; omega)

theorem f64ToInt_some (b : Nat) (n : Int) (h : f64ToInt? b = some n) :
    f64Exp b ≠ 2047 ∧
      n = (if f64Neg b then -(f64TruncMag b : Int) else (f64TruncMag b : Int)) := by
  unfold f64ToInt? at h
  split at h
  · exact absurd h (by simp)
  · rename_i hexp
    split at h
    · simp only [Option.some.injEq] at h
      exact ⟨hexp, h.symm⟩
    · exact absurd h (by simp)

theorem f64ToInt32_of_holds (b : Nat) (n : Int) (h : f64ToInt? b = some n)
    (h1 : -2147483648 ≤ n) (h2 : n < 2147483648) : f64ToInt32 b = n := by
  obtain ⟨hexp, hn⟩ := f64ToInt_some b n h
  unfold f64ToInt32
  rw [if_neg hexp]
  simp only
  rw [← hn, if_pos ⟨h1, h2⟩]

theorem f64Eq_self_of_holds (b : Nat) (n : Int) (h : f64ToInt? b = some n) : f64Eq b b = true := by
  obtain ⟨hexp, _⟩ := f64ToInt_some b n h
  unfold f64Eq f64IsNaN
  simp [hexp]

theorem f64_int32_fixed (t : Int) (h1 : -2147483648 ≤ t) (h2 : t < 2147483648) :
    f64ToInt32 (f64OfInt t) = t ∧ f64Eq (f64OfInt t) (f64OfInt (f64ToInt32 (f64OfInt t))) = true := by
  have hh := f64ToInt_ofInt t (by norm_num; omega)
  have e := f64ToInt32_of_holds _ t hh h1 h2
  exact ⟨e, by rw [e]; exact f64Eq_self_of_holds _ t hh⟩

theorem writeInstruction_int (bw : BitWriter) (op1 op2 : Nat) (l1 l2 : Int) (t : Int)
    (hop : op1 % 128 = op2 % 128)
    (hl : ∀ w : BitWriter, w.WriteVarUint16 (toUint16 l1) = w.WriteVarUint16 (toUint16 l2))
    (h1 : -2147483648 ≤ t) (h2 : t < 2147483648) :
    writeInstruction bw ⟨op1, .float (f64OfInt t), l1⟩
      = ((bw.WriteBits ((op2 % 18446744073709551616 &&& 0x7F) ||| 0x80) 8).WriteVarUint16
          (toUint16 l2) |>.WriteBits ArgTypeInt 2).WriteVarInt t := by
  obtain ⟨e1, e2⟩ := f64_int32_fixed t h1 h2
  have hop' : op1 % 18446744073709551616 &&& 0x7F = op2 % 18446744073709551616 &&& 0x7F := by
    rw [and_7F, and_7F]; omega
  rw [e1] at e2
  unfold writeInstruction
  simp only [ne_eq, reduceCtorEq, not_false_eq_true, if_true, e2, e1, hop', hl]

theorem writeInstruction_dec (bw : BitWriter) (inst : Instruction) (ha : WFArg inst.Arg)
    (hl : LineStable inst.Line) :
    writeInstruction bw (decInstruction inst) = writeInstruction bw inst := by
  have hline : ∀ w : BitWriter,
      w.WriteVarUint16 (toUint16 (Int.ofNat (toUint16 inst.Line % 32768)))
        = w.WriteVarUint16 (toUint16 inst.Line) := by
    intro w
    obtain ⟨hl0, hl1, hl2⟩ := hl
    have e : toUint16 (Int.ofNat (toUint16 inst.Line % 32768)) = toUint16 inst.Line % 32768 := by
      simp only [toUint16, Int.ofNat_eq_coe]; omega
    rw [e]
    exact WriteVarUint16_low15 w _ (by simp only [toUint16]; omega)
      (by simp only [toUint16]; omega)
  have hop : inst.Op % 128 % 128 = inst.Op % 128 := by omega
  have hop' : inst.Op % 128 % 18446744073709551616 &&& 0x7F
      = inst.Op % 18446744073709551616 &&& 0x7F := by
    rw [and_7F, and_7F]; omega
  obtain ⟨op, arg, line⟩ := inst
  simp only at ha hline hop hop'
  cases arg with
  | nil =>
    simp only [decInstruction, decArg, writeInstruction, ne_eq, not_true_eq_false, if_false,
      hline, hop']
  | str s =>
    simp only [decInstruction, decArg, map_mod_256 s ha.2, writeInstruction, ne_eq, reduceCtorEq,
      not_false_eq_true, if_true, hline, hop']
  | int v =>
    simp only [decInstruction, decArg]
    rw [writeInstruction_int bw _ op _ line _ hop hline (toInt32_range v).1 (toInt32_range v).2]
    simp only [writeInstruction, ne_eq, reduceCtorEq, not_false_eq_true, if_true]
  | float b =>
    simp only [decInstruction, decArg]
    split
    · rename_i heq
      rw [writeInstruction_int bw _ op _ line _ hop hline (f64ToInt32_range b).1
        (f64ToInt32_range b).2]
      simp only [writeInstruction, ne_eq, reduceCtorEq, not_false_eq_true, if_true, heq]
    · have hb : b % 2 ^ 64 = b := Nat.mod_eq_of_lt ha
      rw [hb]
      simp only [writeInstruction, ne_eq, reduceCtorEq, not_false_eq_true, if_true, hline, hop']
  | int64 v => exact absurd ha (by simp [WFArg])
  | bool v => exact absurd ha (by simp [WFArg])

theorem writeConstant_funcptr (bw : BitWriter) (v : Value) :
    writeConstant bw ⟨v, "funcptr"⟩
      = some ((bw.WriteBits ConstTypeFuncPtr 3).WriteVarUint (funcptrVal v)) := by
  cases v <;> simp [writeConstant, funcptrVal]

theorem writeConstant_dec (bw : BitWriter) (c : Constant) (h : WFConstant c) :
    writeConstant bw (decConstant c) = writeConstant bw c := by
  obtain ⟨val, typ⟩ := c
  rcases h with ⟨h, hv | hv⟩ | ⟨h, s, hs, hl, hb⟩ | ⟨h, n, hn, hv⟩ | ⟨h, b, hv⟩ | ⟨h, hv⟩
  · obtain ⟨v, hv, h1, h2⟩ := hv
    simp only at h hv
    subst h; subst hv
    simp [decConstant, h1, h2]
  · obtain ⟨b, hv, hb⟩ := hv
    simp only at h hv
    subst h; subst hv
    have hb' : b % 18446744073709551616 = b := Nat.mod_eq_of_lt (by simpa using hb)
    simp [decConstant, hb']
  · simp only at h hs
    subst h; subst hs
    simp [decConstant, map_mod_256 s hb]
  · simp only at h hv
    subst h
    have hn53 : n < 2 ^ 53 := lt_trans hn (Nat.pow_lt_pow_right (by norm_num) (by norm_num))
    have e1 := funcptrVal_holds val n hn hv
    have e2 := funcptrVal_holds (.float (f64OfInt (Int.ofNat n))) n hn
      ⟨f64OfInt_nat_lt n hn53, f64ToInt_ofInt _ hn53⟩
    simp only [decConstant, String.reduceEq, if_false, if_true]
    rw [writeConstant_funcptr, writeConstant_funcptr, e1, e2]
  · simp only at h hv
    subst h; subst hv
    cases b <;> simp [decConstant]
  · simp only at h hv
    subst h; subst hv
    simp [decConstant]

theorem writeConstants_dec (cs : List Constant) (h : ∀ c ∈ cs, WFConstant c) :
    ∀ bw, writeConstants bw (cs.map decConstant) = writeConstants bw cs := by
  induction cs with
  | nil => intro bw; rfl
  | cons c rest ih =>
    intro bw
    simp only [List.map_cons, writeConstants, writeConstant_dec bw c (h c (by simp))]
    cases writeConstant bw c with
    | none => rfl
    | some bw' => exact ih (fun c' hc' => h c' (by simp [hc'])) bw'

theorem writeInstructions_dec (is : List Instruction)
    (h : ∀ inst ∈ is, WFArg inst.Arg ∧ LineStable inst.Line) :
    ∀ bw, writeInstructions bw (is.map decInstruction) = writeInstructions bw is := by
  induction is with
  | nil => intro bw; rfl
  | cons inst rest ih =>
    intro bw
    obtain ⟨ha, hl⟩ := h inst (by simp)
    simp only [List.map_cons, writeInstructions, writeInstruction_dec bw inst ha hl]
    exact ih (fun i hi => h i (by simp [hi])) _

/-- C3 (amended): for every well-formed pair whose line numbers are in the
16-bit range `0..65535` but not in `32768..32895` (`LineStable`),
`WriteBytecode` of the pair that `ReadBytecode` returns from the bytes of
`WriteBytecode` produces exactly those bytes again. -/
theorem C3_encode_stable (is : List Instruction) (cs : List Constant)
    (hil : is.length < 2 ^ 32) (hcl : cs.length < 2 ^ 32)
    (hi : ∀ inst ∈ is, WFArg inst.Arg ∧ LineStable inst.Line)
    (hc : ∀ c ∈ cs, WFConstant c) :
    ∃ (bytes : List Nat) (is' : List Instruction) (cs' : List Constant),
      WriteBytecode is cs = some bytes ∧ ReadBytecode bytes = .ok (is', cs') ∧
      WriteBytecode is' cs' = some bytes := by
  obtain ⟨bytes, hw, _, hr⟩ := roundtrip_general is cs
    (WF_encodable is cs hil hcl (fun i h => (hi i h).1) hc)
  refine ⟨bytes, _, _, hw, hr, ?_⟩
  rw [← hw]
  unfold WriteBytecode
  simp only [List.length_map, writeConstants_dec cs hc, writeInstructions_dec is hi]

theorem C3_encode_stable_witness :
    ∃ (bytes : List Nat) (is' : List Instruction) (cs' : List Constant),
      WriteBytecode [⟨1, .float 0, 1⟩, ⟨5, .int (-5), 40000⟩, ⟨0, .nil, 301⟩]
        [⟨.int 2, "number"⟩, ⟨.int 7, "funcptr"⟩] = some bytes ∧
      ReadBytecode bytes = .ok (is', cs') ∧ WriteBytecode is' cs' = some bytes :=
  C3_encode_stable [⟨1, .float 0, 1⟩, ⟨5, .int (-5), 40000⟩, ⟨0, .nil, 301⟩]
    [⟨.int 2, "number"⟩, ⟨.int 7, "funcptr"⟩] (by simp) (by simp)
    (by simp [WFArg, LineStable])
    (by simp only [WFConstant, Value.holdsInt, List.forall_mem_cons]; simp;
        exact ⟨7, by norm_num, rfl⟩)

/-- C7 (amended): for every pair the container can carry and every instruction
of it whose line is in `[1, 32767]`, the instruction that
`ReadBytecode (WriteBytecode ...)` returns at the same index has the same line. -/
theorem C7_line_survives_below_2_15 (is : List Instruction) (cs : List Constant)
    (h : Encodable is cs) :
    ∃ (bytes : List Nat) (is' : List Instruction) (cs' : List Constant),
      WriteBytecode is cs = some bytes ∧ ReadBytecode bytes = .ok (is', cs') ∧
      ∀ (i : Nat) (inst : Instruction), is[i]? = some inst → 1 ≤ inst.Line →
        inst.Line ≤ 32767 → ∃ inst', is'[i]? = some inst' ∧ inst'.Line = inst.Line := by
  obtain ⟨bytes, hw, _, hr⟩ := roundtrip_general is cs h
  refine ⟨bytes, _, _, hw, hr, ?_⟩
  intro i inst hget hl0 hl1
  refine ⟨decInstruction inst, by simp [List.getElem?_map, hget], ?_⟩
  simp only [decInstruction, toUint16, Int.ofNat_eq_coe]
  omega

theorem C7_line_survives_below_2_15_witness :
    ∃ (bytes : List Nat) (is' : List Instruction) (cs' : List Constant),
      WriteBytecode [⟨0, .nil, 32767⟩, ⟨0, .nil, 40000⟩] [] = some bytes ∧
      ReadBytecode bytes = .ok (is', cs') ∧
      ∀ (i : Nat) (inst : Instruction),
        ([⟨0, .nil, 32767⟩, ⟨0, .nil, 40000⟩] : List Instruction)[i]? = some inst →
        1 ≤ inst.Line → inst.Line ≤ 32767 →
        ∃ inst', is'[i]? = some inst' ∧ inst'.Line = inst.Line :=
  C7_line_survives_below_2_15 [⟨0, .nil, 32767⟩, ⟨0, .nil, 40000⟩] []
    (by simp [Encodable, ArgEnc])

/-! ## The loop counter of `ReadVarUint` never runs out

`ReadVarUint` starts its loop with a counter above the number of unread bytes.
Every iteration takes eight bits, so a larger counter gives the same result:
the counter only makes the recursion structural. -/

theorem nbits_bval (l : List Bool) : nbits (bval l) l.length = l := by
  induction l with
  | nil => rfl
  | cons b bs ih =>
    simp only [List.length_cons, nbits, bval]
    have h1 : ((if b then 1 else 0) + 2 * bval bs) / 2 = bval bs := by split <;> omega
    have h2 : decide (((if b then 1 else 0) + 2 * bval bs) % 2 = 1) = b := by
      cases b <;> simp
    rw [h1, h2, ih]

theorem bval_lt (l : List Bool) : bval l < 2 ^ l.length := by
  induction l with
  | nil => simp [bval]
  | cons b bs ih =>
    simp only [bval, List.length_cons, pow_succ]
    split <;> omega

theorem ReadUint8_consumes (br br' : BitReader) (b : Nat) (hinv : RInv br)
    (h : BitReader.ReadUint8 br = .ok (b, br')) :
    RInv br' ∧ (rbits br').length + 8 = (rbits br).length := by
  by_cases hlen : 8 ≤ (rbits br).length
  · have h8 : ((rbits br).take 8).length = 8 := by simp [hlen]
    have hsplit : rbits br
        = (nbits (bval ((rbits br).take 8)) 8 ++ (rbits br).drop 8).take (rbits br).length := by
      have := nbits_bval ((rbits br).take 8)
      rw [h8] at this
      rw [this, List.take_append_drop, List.take_length]
    obtain ⟨h1, _⟩ := Reads_ReadUint8 (bval ((rbits br).take 8)) br _ _ hinv hsplit
    obtain ⟨br2, hr2, hinv2, hb2⟩ := h1 (by simpa using hlen)
    rw [h] at hr2
    simp only [Except.ok.injEq, Prod.mk.injEq] at hr2
    obtain ⟨_, rfl⟩ := hr2
    refine ⟨hinv2, ?_⟩
    rw [hb2]
    simp only [nbits_length, List.length_take, List.length_drop]
    omega
  · have hlt : (rbits br).length < 8 := by omega
    have hsplit : rbits br
        = (nbits (bval (rbits br)) 8 ++ []).take (rbits br).length := by
      have e : 8 = (rbits br).length + (8 - (rbits br).length) := by omega
      rw [List.append_nil]
      conv_rhs => rw [e, nbits_of_lt _ _ _ (bval_lt _), nbits_bval]
      simp
    obtain ⟨_, h2⟩ := Reads_ReadUint8 (bval (rbits br)) br _ _ hinv hsplit
    rw [h2 (by simpa using hlt)] at h
    exact absurd h (by simp)

theorem readVarUintLoop_fuel (fuel : Nat) :
    ∀ (result shift extra : Nat) (br : BitReader), RInv br → (rbits br).length < 8 * fuel →
      BitReader.readVarUintLoop (fuel + extra) result shift br
        = BitReader.readVarUintLoop fuel result shift br := by
  induction fuel with
  | zero => intro _ _ _ br _ h; omega
  | succ fuel ih =>
    intro result shift extra br hinv hlen
    rw [show fuel + 1 + extra = (fuel + extra) + 1 by omega, readVarUintLoop_succ,
      readVarUintLoop_succ]
    cases hrd : BitReader.ReadUint8 br with
    | error e => rw [Rd_bind_error _ _ br e hrd, Rd_bind_error _ _ br e hrd]
    | ok r =>
      obtain ⟨b, br'⟩ := r
      rw [Rd_bind_ok _ _ br br' b hrd, Rd_bind_ok _ _ br br' b hrd]
      obtain ⟨hinv', hlen'⟩ := ReadUint8_consumes br br' b hinv hrd
      by_cases hb : b &&& 0x80 = 0
      · simp only [hb, if_true]
      · simp only [hb, if_false]
        exact ih _ _ extra br' hinv' (by omega)

/-- The result of `ReadVarUint` does not depend on the loop counter: any counter
above the number of unread bytes gives the same result. -/
theorem ReadVarUint_counter_irrelevant (br : BitReader) (hinv : RInv br) (extra : Nat) :
    BitReader.readVarUintLoop (br.input.length + 1 + extra) 0 0 br = BitReader.ReadVarUint br :=
  readVarUintLoop_fuel (br.input.length + 1) 0 0 extra br hinv (rbits_length_lt br)

/-- The loop of `WriteVarUint` ends by itself for a `uint32`: any counter of at
least 5 gives the same writer state as the counter 32 used by `WriteVarUint`. -/
theorem WriteVarUint_counter_irrelevant (fuel : Nat) :
    ∀ (n : Nat) (bw : BitWriter) (val : Nat), val < 128 ^ (n + 1) → n ≤ fuel →
      BitWriter.writeVarUintLoop fuel bw val = BitWriter.writeVarUintLoop n bw val := by
  induction fuel with
  | zero =>
    intro n bw val _ hn
    have : n = 0 := by omega
    subst this; rfl
  | succ fuel ih =>
    intro n bw val hv hn
    cases n with
    | zero =>
      have hv' : val < 128 := by simpa using hv
      simp only [BitWriter.writeVarUintLoop, show ¬ (0x80 ≤ val) by omega, if_false]
    | succ n =>
      simp only [BitWriter.writeVarUintLoop]
      split
      · have : val >>> 7 < 128 ^ (n + 1) := by
          rw [Nat.shiftRight_eq_div_pow, Nat.div_lt_iff_lt_mul (by norm_num)]
          rw [pow_succ] at hv
          simpa using hv
        exact ih n _ _ this (by omega)
      · rfl

/-! ## After the header only `UnexpectedEOF` can go wrong -/

theorem EofOnly_pure {α : Type} (a : α) : EofOnly (pure a : Rd α) := by
  intro br e h
  exact absurd h (by simp [Rd_pure])

theorem EofOnly_bind {α β : Type} {F : Rd α} {G : α → Rd β} (hF : EofOnly F)
    (hG : ∀ a, EofOnly (G a)) : EofOnly (F >>= G) := by
  intro br e h
  cases hr : F br with
  | error e' =>
    rw [Rd_bind_error F G br e' hr] at h
    simp only [Except.error.injEq] at h
    rw [← h]
    exact hF br e' hr
  | ok r =>
    obtain ⟨a, br'⟩ := r
    rw [Rd_bind_ok F G br br' a hr] at h
    exact hG a br' e h

theorem EofOnly_ite {α : Type} {c : Prop} [Decidable c] {A B : Rd α} (hA : EofOnly A)
    (hB : EofOnly B) : EofOnly (if c then A else B) := by
  split
  · exact hA
  · exact hB

theorem fill_error (br : BitReader) (e : Err) (h : br.fill = .error e) :
    e = Err.UnexpectedEOF := by
  unfold BitReader.fill at h
  split at h
  · cases hi : br.input with
    | nil =>
      rw [hi] at h
      simp only [Except.error.injEq] at h
      exact h.symm
    | cons b rest =>
      rw [hi] at h
      exact absurd h (by simp)
  · exact absurd h (by simp)

theorem EofOnly_readBit : EofOnly BitReader.readBit := by
  intro br e h
  unfold BitReader.readBit at h
  cases hf : br.fill with
  | error e' =>
    rw [hf] at h
    simp only [Except.error.injEq] at h
    rw [← h]
    exact fill_error br e' hf
  | ok br' =>
    rw [hf] at h
    exact absurd h (by simp)

theorem EofOnly_readBitsFrom (n : Nat) : ∀ i result, EofOnly (BitReader.readBitsFrom i n result) := by
  induction n with
  | zero => intro i result; exact EofOnly_pure result
  | succ n ih =>
    intro i result
    exact EofOnly_bind EofOnly_readBit (fun bit => ih _ _)

theorem EofOnly_ReadBits (n : Nat) : EofOnly (BitReader.ReadBits n) :=
  EofOnly_readBitsFrom n 0 0

theorem EofOnly_ReadUint8 : EofOnly BitReader.ReadUint8 :=
  EofOnly_bind (EofOnly_ReadBits 8) (fun _ => EofOnly_pure _)

theorem EofOnly_readVarUintLoop (fuel : Nat) :
    ∀ result shift, EofOnly (BitReader.readVarUintLoop fuel result shift) := by
  induction fuel with
  | zero =>
    intro result shift br e h
    simp only [BitReader.readVarUintLoop, Except.error.injEq] at h
    exact h.symm
  | succ fuel ih =>
    intro result shift
    rw [readVarUintLoop_succ]
    exact EofOnly_bind EofOnly_ReadUint8 (fun b => EofOnly_ite (EofOnly_pure _) (ih _ _))

theorem EofOnly_ReadVarUint : EofOnly BitReader.ReadVarUint := by
  intro br e h
  exact EofOnly_readVarUintLoop _ 0 0 br e h

theorem EofOnly_ReadVarUint16 : EofOnly BitReader.ReadVarUint16 := by
  rw [ReadVarUint16_eq]
  exact EofOnly_bind EofOnly_ReadUint8 (fun first => EofOnly_ite (EofOnly_pure _)
    (EofOnly_bind EofOnly_ReadUint8 (fun _ => EofOnly_pure _)))

theorem EofOnly_readBytes (n : Nat) : EofOnly (readBytes n) := by
  induction n with
  | zero => exact EofOnly_pure _
  | succ n ih =>
    exact EofOnly_bind (EofOnly_ReadBits 8) (fun ch => EofOnly_bind ih (fun _ => EofOnly_pure _))

theorem EofOnly_readFloat64From (n : Nat) : ∀ i bits, EofOnly (readFloat64From i n bits) := by
  induction n with
  | zero => intro i bits; exact EofOnly_pure bits
  | succ n ih =>
    intro i bits
    exact EofOnly_bind (EofOnly_ReadBits 1) (fun bit => ih _ _)

theorem EofOnly_readFloat64 : EofOnly readFloat64 := EofOnly_readFloat64From 64 0 0

theorem EofOnly_readConstant : EofOnly readConstant := by
  unfold readConstant
  refine EofOnly_bind (EofOnly_ReadBits 3) (fun constType => ?_)
  refine EofOnly_ite ?_ (EofOnly_ite ?_ (EofOnly_ite ?_ (EofOnly_ite ?_
    (EofOnly_ite (EofOnly_pure _) (EofOnly_pure _)))))
  · exact EofOnly_bind (EofOnly_ReadBits 1) (fun isSmall => EofOnly_ite
      (EofOnly_bind (EofOnly_ReadBits 7) (fun _ => EofOnly_pure _))
      (EofOnly_bind EofOnly_readFloat64 (fun _ => EofOnly_pure _)))
  · exact EofOnly_bind (EofOnly_ReadBits 1) (fun isShort => EofOnly_bind
      (EofOnly_ite (EofOnly_bind (EofOnly_ReadBits 8) (fun _ => EofOnly_pure _))
        EofOnly_ReadVarUint)
      (fun strLen => EofOnly_bind (EofOnly_readBytes strLen) (fun _ => EofOnly_pure _)))
  · exact EofOnly_bind EofOnly_ReadVarUint (fun _ => EofOnly_pure _)
  · exact EofOnly_bind (EofOnly_ReadBits 1) (fun _ => EofOnly_pure _)

theorem EofOnly_readConstants (n : Nat) : EofOnly (readConstants n) := by
  induction n with
  | zero => exact EofOnly_pure _
  | succ n ih =>
    exact EofOnly_bind EofOnly_readConstant (fun c => EofOnly_bind ih (fun _ => EofOnly_pure _))

theorem EofOnly_readArg (hasArg : Bool) : EofOnly (readArg hasArg) := by
  unfold readArg
  refine EofOnly_ite ?_ (EofOnly_pure _)
  refine EofOnly_bind (EofOnly_ReadBits 2) (fun argType => ?_)
  refine EofOnly_ite ?_ (EofOnly_ite ?_ (EofOnly_ite ?_ (EofOnly_ite ?_ (EofOnly_pure _))))
  · exact EofOnly_bind EofOnly_ReadVarUint (fun _ => EofOnly_pure _)
  · exact EofOnly_bind EofOnly_ReadVarUint (fun _ => EofOnly_pure _)
  · exact EofOnly_bind EofOnly_readFloat64 (fun _ => EofOnly_pure _)
  · exact EofOnly_bind EofOnly_ReadVarUint (fun strLen =>
      EofOnly_bind (EofOnly_readBytes strLen) (fun _ => EofOnly_pure _))

theorem EofOnly_readInstruction : EofOnly readInstruction := by
  unfold readInstruction
  exact EofOnly_bind (EofOnly_ReadBits 8) (fun opcode => EofOnly_bind EofOnly_ReadVarUint16
    (fun line => EofOnly_bind (EofOnly_readArg _) (fun _ => EofOnly_pure _)))

theorem EofOnly_readInstructions (n : Nat) : EofOnly (readInstructions n) := by
  induction n with
  | zero => exact EofOnly_pure _
  | succ n ih =>
    exact EofOnly_bind EofOnly_readInstruction
      (fun c => EofOnly_bind ih (fun _ => EofOnly_pure _))

/-- What `readBytecode` does after the version check. -/
theorem EofOnly_body : EofOnly (BitReader.ReadVarUint >>= fun constantCount =>
    BitReader.ReadVarUint >>= fun instructionCount =>
    readConstants constantCount >>= fun constants =>
    readInstructions instructionCount >>= fun instructions =>
    (pure (instructions, constants) : Rd (List Instruction × List Constant))) :=
  EofOnly_bind EofOnly_ReadVarUint (fun _ => EofOnly_bind EofOnly_ReadVarUint (fun _ =>
    EofOnly_bind (EofOnly_readConstants _) (fun _ =>
      EofOnly_bind (EofOnly_readInstructions _) (fun _ => EofOnly_pure _))))

/-! ## The writer only appends -/

theorem Extends_refl (bw : BitWriter) : Extends bw bw := ⟨[], by simp⟩

theorem Extends_trans {a b c : BitWriter} (h1 : Extends a b) (h2 : Extends b c) : Extends a c := by
  obtain ⟨l1, e1⟩ := h1
  obtain ⟨l2, e2⟩ := h2
  exact ⟨l1 ++ l2, by rw [e2, e1, List.append_assoc]⟩

theorem Extends_writeBit (bw : BitWriter) (value i : Nat) : Extends bw (bw.writeBit value i) := by
  unfold BitWriter.writeBit
  simp only
  split
  · exact ⟨_, rfl⟩
  · exact ⟨[], by simp⟩

theorem Extends_writeBitsFrom (value n : Nat) :
    ∀ (i : Nat) (bw : BitWriter), Extends bw (bw.writeBitsFrom value i n) := by
  induction n with
  | zero => intro i bw; exact Extends_refl bw
  | succ n ih =>
    intro i bw
    show Extends bw ((bw.writeBit value i).writeBitsFrom value (i + 1) n)
    exact Extends_trans (Extends_writeBit bw value i) (ih (i + 1) (bw.writeBit value i))

theorem Extends_WriteBits (bw : BitWriter) (value n : Nat) : Extends bw (bw.WriteBits value n) :=
  Extends_writeBitsFrom value n 0 bw

theorem Extends_writeVarUintLoop (fuel : Nat) :
    ∀ (bw : BitWriter) (val : Nat), Extends bw (BitWriter.writeVarUintLoop fuel bw val) := by
  induction fuel with
  | zero => intro bw val; exact Extends_WriteBits bw val 8
  | succ fuel ih =>
    intro bw val
    simp only [BitWriter.writeVarUintLoop]
    split
    · exact Extends_trans (Extends_WriteBits bw _ 8) (ih _ _)
    · exact Extends_WriteBits bw val 8

theorem Extends_WriteVarUint (bw : BitWriter) (val : Nat) : Extends bw (bw.WriteVarUint val) :=
  Extends_writeVarUintLoop 32 bw val

theorem Extends_WriteVarUint16 (bw : BitWriter) (val : Nat) :
    Extends bw (bw.WriteVarUint16 val) := by
  unfold BitWriter.WriteVarUint16
  split
  · exact Extends_WriteBits bw val 8
  · exact Extends_trans (Extends_WriteBits bw _ 8) (Extends_WriteBits _ _ 8)

theorem Extends_WriteVarInt (bw : BitWriter) (val : Int) : Extends bw (bw.WriteVarInt val) := by
  rw [WriteVarInt_eq]; exact Extends_WriteVarUint bw _

theorem Extends_writeBytes (s : List Nat) : ∀ bw : BitWriter, Extends bw (bw.writeBytes s) := by
  induction s with
  | nil => intro bw; exact Extends_refl bw
  | cons ch rest ih =>
    intro bw
    have h1 : Extends bw (bw.WriteBits ch 8) := Extends_WriteBits bw ch 8
    have h2 : Extends (bw.WriteBits ch 8) ((bw.WriteBits ch 8).writeBytes rest) := ih _
    rw [BitWriter.writeBytes]
    exact Extends_trans h1 h2

theorem Extends_writeFloat64From (bits n : Nat) :
    ∀ (i : Nat) (bw : BitWriter), Extends bw (bw.writeFloat64From bits i n) := by
  induction n with
  | zero => intro i bw; exact Extends_refl bw
  | succ n ih =>
    intro i bw
    show Extends bw ((bw.WriteBits ((bits >>> i) &&& 1) 1).writeFloat64From bits (i + 1) n)
    exact Extends_trans (Extends_WriteBits bw _ 1) (ih (i + 1) (bw.WriteBits ((bits >>> i) &&& 1) 1))

theorem Extends_writeFloat64 (bw : BitWriter) (bits : Nat) : Extends bw (bw.writeFloat64 bits) :=
  Extends_writeFloat64From bits 64 0 bw

theorem Extends_number (bw : BitWriter) (flag bits : Nat) :
    Extends bw (((bw.WriteBits ConstTypeNumber 3).WriteBits flag 1).writeFloat64 bits) :=
  Extends_trans (Extends_trans (Extends_WriteBits bw _ 3) (Extends_WriteBits _ _ 1))
    (Extends_writeFloat64 _ _)

theorem Extends_writeConstant (bw bw' : BitWriter) (c : Constant)
    (h : writeConstant bw c = some bw') : Extends bw bw' := by
  unfold writeConstant at h
  split at h
  · split at h
    · split at h
      · simp only [Option.some.injEq] at h
        rw [← h]
        exact Extends_trans (Extends_trans (Extends_WriteBits bw _ 3) (Extends_WriteBits _ _ 1))
          (Extends_WriteBits _ _ 7)
      · simp only [Option.some.injEq] at h
        rw [← h]; exact Extends_number bw 0 _
    · simp only [Option.some.injEq] at h
      rw [← h]; exact Extends_number bw 0 _
    · simp only [Option.some.injEq] at h
      rw [← h]; exact Extends_number bw 0 _
  · split at h
    · split at h
      · simp only [Option.some.injEq] at h
        rw [← h]
        refine Extends_trans ?_ (Extends_writeBytes _ _)
        split
        · exact Extends_trans (Extends_trans (Extends_WriteBits bw _ 3)
            (Extends_WriteBits _ _ 1)) (Extends_WriteBits _ _ 8)
        · exact Extends_trans (Extends_trans (Extends_WriteBits bw _ 3)
            (Extends_WriteBits _ _ 1)) (Extends_WriteVarUint _ _)
      · exact absurd h (by simp)
    · split at h
      · simp only [Option.some.injEq] at h
        rw [← h]
        exact Extends_trans (Extends_WriteBits bw _ 3) (Extends_WriteVarUint _ _)
      · split at h
        · simp only [Option.some.injEq] at h
          rw [← h]
          exact Extends_trans (Extends_WriteBits bw _ 3) (Extends_WriteBits _ _ 1)
        · split at h
          · simp only [Option.some.injEq] at h
            rw [← h]; exact Extends_WriteBits bw _ 3
          · simp only [Option.some.injEq] at h
            rw [← h]; exact Extends_refl bw

theorem Extends_writeConstants (cs : List Constant) :
    ∀ (bw bw' : BitWriter), writeConstants bw cs = some bw' → Extends bw bw' := by
  induction cs with
  | nil =>
    intro bw bw' h
    simp only [writeConstants, Option.some.injEq] at h
    rw [← h]; exact Extends_refl bw
  | cons c rest ih =>
    intro bw bw' h
    simp only [writeConstants] at h
    cases h1 : writeConstant bw c with
    | none => rw [h1] at h; exact absurd h (by simp)
    | some bw1 =>
      rw [h1] at h
      exact Extends_trans (Extends_writeConstant bw bw1 c h1) (ih bw1 bw' h)

theorem Extends_writeInstruction (bw : BitWriter) (inst : Instruction) :
    Extends bw (writeInstruction bw inst) := by
  have h0 : ∀ op, Extends bw ((bw.WriteBits op 8).WriteVarUint16 (toUint16 inst.Line)) :=
    fun op => Extends_trans (Extends_WriteBits bw _ 8) (Extends_WriteVarUint16 _ _)
  unfold writeInstruction
  simp only
  split
  · split
    · split
      · exact Extends_trans (h0 _) (Extends_trans (Extends_WriteBits _ _ 2)
          (Extends_WriteVarInt _ _))
      · exact Extends_trans (h0 _) (Extends_trans (Extends_WriteBits _ _ 2)
          (Extends_writeFloat64 _ _))
    · exact Extends_trans (h0 _) (Extends_trans (Extends_WriteBits _ _ 2)
        (Extends_WriteVarInt _ _))
    · exact Extends_trans (h0 _) (Extends_trans (Extends_trans (Extends_WriteBits _ _ 2)
        (Extends_WriteVarUint _ _)) (Extends_writeBytes _ _))
    · exact h0 _
  · exact h0 _

theorem Extends_writeInstructions (is : List Instruction) :
    ∀ bw : BitWriter, Extends bw (writeInstructions bw is) := by
  induction is with
  | nil => intro bw; exact Extends_refl bw
  | cons inst rest ih => intro bw; exact Extends_trans (Extends_writeInstruction bw inst) (ih _)

theorem Extends_Flush (bw : BitWriter) : Extends bw bw.Flush := by
  unfold BitWriter.Flush
  split
  · exact ⟨_, rfl⟩
  · exact Extends_refl bw

theorem WriteBytecode_header (is : List Instruction) (cs : List Constant) (bytes : List Nat)
    (h : WriteBytecode is cs = some bytes) : bytes.take 5 = [0x43, 0x42, 0x4C, 0x4C, 0x30] := by
  have hdr : (NewBitWriter.WriteUint32 MagicHeader).WriteUint8 VersionCombined
      = ⟨[0x43, 0x42, 0x4C, 0x4C, 0x30], 0, 0⟩ := by decide!
  unfold WriteBytecode at h
  simp only [] at h
  generalize hb0 : (NewBitWriter.WriteUint32 MagicHeader).WriteUint8 VersionCombined = bw0
    at h hdr
  cases h1 : writeConstants ((bw0.WriteVarUint
      (cs.length % 4294967296)).WriteVarUint (is.length % 4294967296)) cs with
  | none => rw [h1] at h; exact absurd h (by simp)
  | some bw1 =>
    rw [h1] at h
    simp only [Option.map_some', Option.some.injEq] at h
    obtain ⟨l, hl⟩ := Extends_trans (Extends_trans (Extends_trans (Extends_WriteVarUint bw0 _)
      (Extends_WriteVarUint _ _)) (Extends_writeConstants cs _ bw1 h1))
      (Extends_trans (Extends_writeInstructions is bw1) (Extends_Flush _))
    rw [← h, hl, hdr]
    rfl

/-! ## The header: magic and version byte -/

theorem header_read (v : Nat) (rest : List Nat) (hv : v < 256) :
    ∃ br1 br2, BitReader.ReadUint32 (NewBitReader (0x43 :: 0x42 :: 0x4C :: 0x4C :: v :: rest))
        = .ok (MagicHeader, br1) ∧ BitReader.ReadUint8 br1 = .ok (v, br2) := by
  have hb : bytesBits (0x43 :: 0x42 :: 0x4C :: 0x4C :: v :: rest)
      = nbits MagicHeader 32 ++ (nbits v 8 ++ bytesBits rest) := by
    have hm : nbits MagicHeader 32 = bytesBits [0x43, 0x42, 0x4C, 0x4C] := by
      have := nbits_le_word 0x43 0x42 0x4C 0x4C (by norm_num) (by norm_num) (by norm_num)
      rw [← this]; rfl
    rw [hm]
    simp [bytesBits]
  have hR := Reads_ReadUint32 MagicHeader
  rw [show MagicHeader % 4294967296 = MagicHeader from by decide] at hR
  obtain ⟨h1, _⟩ := hR (NewBitReader (0x43 :: 0x42 :: 0x4C :: 0x4C :: v :: rest))
    (nbits MagicHeader 32 ++ (nbits v 8 ++ bytesBits rest)).length (nbits v 8 ++ bytesBits rest)
    (RInv_new _) (by rw [rbits_new, hb, List.take_length])
  obtain ⟨br1, hbr1, hinv1, hr1⟩ := h1 (by simp)
  have hR8 := Reads_ReadUint8 v
  rw [Nat.mod_eq_of_lt hv] at hR8
  obtain ⟨h2, _⟩ := hR8 br1 _ (bytesBits rest) hinv1 hr1
  obtain ⟨br2, hbr2, _, _⟩ := h2 (by simp [nbits_length])
  exact ⟨br1, br2, hbr1, hbr2⟩

theorem version_check (v : Nat) (rest : List Nat) (hv : v < 256) :
    (v / 16 ≠ 3 → ReadBytecode (0x43 :: 0x42 :: 0x4C :: 0x4C :: v :: rest)
        = .error (Err.IncompatibleVersion (v / 16) (v % 16))) ∧
    (v / 16 = 3 → ∀ major minor, ReadBytecode (0x43 :: 0x42 :: 0x4C :: 0x4C :: v :: rest)
        ≠ .error (Err.IncompatibleVersion major minor)) := by
  obtain ⟨br1, br2, h1, h2⟩ := header_read v rest hv
  have hs : v >>> 4 = v / 16 := by rw [Nat.shiftRight_eq_div_pow]
  have hm : v &&& 0x0F = v % 16 := Nat.and_pow_two_sub_one_eq_mod v 4
  unfold ReadBytecode readBytecode
  rw [Rd_bind_ok _ _ _ br1 _ h1, if_neg (by simp), Rd_bind_ok _ _ _ br2 _ h2]
  simp only [hs, hm, VersionMajor]
  constructor
  · intro hne
    rw [if_pos hne]
    rfl
  · intro heq major minor
    rw [if_neg (by simp [heq])]
    intro hbad
    cases hbody : (BitReader.ReadVarUint >>= fun constantCount =>
        BitReader.ReadVarUint >>= fun instructionCount =>
        readConstants constantCount >>= fun constants =>
        readInstructions instructionCount >>= fun instructions =>
        (pure (instructions, constants) : Rd (List Instruction × List Constant))) br2 with
    | error e =>
      have he := EofOnly_body br2 e hbody
      rw [hbody] at hbad
      simp only [Except.map] at hbad
      rw [he] at hbad
      exact absurd hbad (by simp)
    | ok r =>
      rw [hbody] at hbad
      simp only [Except.map] at hbad
      exact absurd hbad (by simp)

/-- C11: for every input of at least 5 bytes that starts with the magic bytes
`0x43 0x42 0x4C 0x4C`, `ReadBytecode` returns an incompatible-version error if
and only if the high nibble of the fifth byte `v` is not 3, and the error then
reports major `v / 16` and minor `v % 16`; with high nibble 3 no value of the
low nibble gives that error, whatever follows.  Every byte sequence
`WriteBytecode` produces starts with `0x43 0x42 0x4C 0x4C 0x30`. -/
theorem C11_version_check (v : Nat) (rest : List Nat) (hv : v < 256) :
    ((∃ major minor, ReadBytecode (0x43 :: 0x42 :: 0x4C :: 0x4C :: v :: rest)
        = .error (Err.IncompatibleVersion major minor)) ↔ v / 16 ≠ 3) ∧
    (v / 16 ≠ 3 → ReadBytecode (0x43 :: 0x42 :: 0x4C :: 0x4C :: v :: rest)
        = .error (Err.IncompatibleVersion (v / 16) (v % 16))) ∧
    (∀ (is : List Instruction) (cs : List Constant) (bytes : List Nat),
      WriteBytecode is cs = some bytes → bytes.take 5 = [0x43, 0x42, 0x4C, 0x4C, 0x30]) := by
  obtain ⟨hbad, hgood⟩ := version_check v rest hv
  refine ⟨⟨?_, fun hne => ⟨_, _, hbad hne⟩⟩, hbad, WriteBytecode_header⟩
  rintro ⟨major, minor, h⟩ heq
  exact hgood heq major minor h

theorem C11_version_check_witness :
    ((∃ major minor, ReadBytecode [0x43, 0x42, 0x4C, 0x4C, 0x3F, 0, 0]
        = .error (Err.IncompatibleVersion major minor)) ↔ 0x3F / 16 ≠ 3) ∧
    (0x3F / 16 ≠ 3 → ReadBytecode [0x43, 0x42, 0x4C, 0x4C, 0x3F, 0, 0]
        = .error (Err.IncompatibleVersion (0x3F / 16) (0x3F % 16))) ∧
    (∀ (is : List Instruction) (cs : List Constant) (bytes : List Nat),
      WriteBytecode is cs = some bytes → bytes.take 5 = [0x43, 0x42, 0x4C, 0x4C, 0x30]) :=
  C11_version_check 0x3F [0, 0] (by norm_num)

/-! ## Small integer constants -/

/-- C12: for every `number` constant holding an int `v` in `[-64, 63]`, the
writer appends exactly the 11 bits `0,0,0` (tag), `1` (small flag) and the 7 low
bits of the two's-complement form of `v`, least significant first, to what it
has written; the decoder reads these 11 bits back as the int `v` of type
`number`; `WriteBytecode` and `ReadBytecode` round-trip the one-constant pool;
and for `v = -1` the seven payload bits are all 1. -/
theorem C12_small_int_constant (v : Int) (h1 : -64 ≤ v) (h2 : v ≤ 63) :
    (∀ (bw : BitWriter) (bs : List Bool), WB bw bs →
      ∃ bw', writeConstant bw ⟨.int v, "number"⟩ = some bw' ∧
        WB bw' (bs ++ ([false, false, false, true] ++ nbits (v % 128).toNat 7))) ∧
    ([false, false, false, true] ++ nbits (v % 128).toNat 7).length = 11 ∧
    Reads readConstant ([false, false, false, true] ++ nbits (v % 128).toNat 7)
      ⟨.int v, "number"⟩ ∧
    (∃ bytes, WriteBytecode [] [⟨.int v, "number"⟩] = some bytes ∧
      ReadBytecode bytes = .ok ([], [⟨.int v, "number"⟩])) ∧
    nbits ((-1 : Int) % 128).toNat 7 = [true, true, true, true, true, true, true] := by
  have henc : encConstant ⟨.int v, "number"⟩
      = [false, false, false, true] ++ nbits (v % 128).toNat 7 := by
    simp only [encConstant, if_true, h1, h2, and_self, smallInt_bits v h1 h2, ConstTypeNumber]
    rfl
  have hdec : decConstant ⟨.int v, "number"⟩ = ⟨.int v, "number"⟩ := by
    simp only [decConstant, if_true, h1, h2, and_self, smallInt_bits v h1 h2]
  refine ⟨?_, by simp [nbits_length], ?_, ?_, by decide⟩
  · intro bw bs hw
    obtain ⟨bw', hw1, hw2⟩ := WB_writeConstant bw bs ⟨.int v, "number"⟩ hw (by simp [ConstEnc])
    rw [henc] at hw2
    exact ⟨bw', hw1, hw2⟩
  · have := Reads_readConstant_number ⟨.int v, "number"⟩ rfl
    rw [henc, hdec] at this
    exact this
  · obtain ⟨bytes, hw, _, hr⟩ := roundtrip_general [] [⟨.int v, "number"⟩]
      (by simp [Encodable, ConstEnc])
    simp only [List.map_nil, List.map_cons, hdec] at hr
    exact ⟨bytes, hw, hr⟩

theorem C12_small_int_constant_witness :
    (∀ (bw : BitWriter) (bs : List Bool), WB bw bs →
      ∃ bw', writeConstant bw ⟨.int (-1), "number"⟩ = some bw' ∧
        WB bw' (bs ++ ([false, false, false, true] ++ nbits ((-1 : Int) % 128).toNat 7))) ∧
    ([false, false, false, true] ++ nbits ((-1 : Int) % 128).toNat 7).length = 11 ∧
    Reads readConstant ([false, false, false, true] ++ nbits ((-1 : Int) % 128).toNat 7)
      ⟨.int (-1), "number"⟩ ∧
    (∃ bytes, WriteBytecode [] [⟨.int (-1), "number"⟩] = some bytes ∧
      ReadBytecode bytes = .ok ([], [⟨.int (-1), "number"⟩])) ∧
    nbits ((-1 : Int) % 128).toNat 7 = [true, true, true, true, true, true, true] :=
  C12_small_int_constant (-1) (by norm_num) (by norm_num)

/-! ## Integer operands outside the 32-bit range -/

/-- C13 (the code at the failing input): the instruction with the int operand
`2147483648 = 2^31` is written with `arg_type = 1` and the wrapped value
`int32(2^31) = -2^31`, in 8 bytes after the header and counts, and is read back
as the number `-2147483648` (the float64 with bit pattern
`0xC1E0000000000000`), not as `2147483648`. -/
theorem C13_int_operand_wraps :
    WriteBytecode [⟨1, .int 2147483648, 1⟩] []
      = some [0x43, 0x42, 0x4C, 0x4C, 0x30, 0, 1, 129, 1, 253, 255, 255, 255, 63, 0] ∧
    ReadBytecode [0x43, 0x42, 0x4C, 0x4C, 0x30, 0, 1, 129, 1, 253, 255, 255, 255, 63, 0]
      = .ok ([⟨1, .float (f64OfInt (-2147483648)), 1⟩], []) ∧
    f64OfInt (-2147483648) = 0xC1E0000000000000 ∧
    f64OfInt 2147483648 = 0x41E0000000000000 ∧
    f64ToInt? (f64OfInt (-2147483648)) = some (-2147483648) := by
  refine ⟨by decide!, by decide!, by decide!, by decide!, by decide!⟩

/-! ## Garbage collection -/

theorem poolIndex_some (n : Nat) (arg : Value) (i : Nat) (h : poolIndex n arg = some i) :
    ∃ idx, arg = .float idx ∧ 0 ≤ f64ToInt64 idx ∧ f64ToInt64 idx < n ∧
      (f64ToInt64 idx).toNat = i := by
  unfold poolIndex at h
  split at h
  · rename_i idx
    split at h
    · rename_i hc
      simp only [Option.some.injEq] at h
      exact ⟨idx, rfl, hc.1, hc.2, h⟩
    · exact absurd h (by simp)
  · exact absurd h (by simp)

theorem poolIndex_lt (n : Nat) (arg : Value) (i : Nat) (h : poolIndex n arg = some i) : i < n := by
  obtain ⟨idx, _, h0, h1, h2⟩ := poolIndex_some n arg i h
  omega

theorem poolIndex_float (n : Nat) (idx : Nat) (h0 : 0 ≤ f64ToInt64 idx)
    (h1 : f64ToInt64 idx < n) : poolIndex n (.float idx) = some (f64ToInt64 idx).toNat := by
  simp only [poolIndex, h0, h1, and_self, if_true]

theorem poolIndex_mono (n m : Nat) (arg : Value) (i : Nat) (h : poolIndex n arg = some i)
    (hnm : n ≤ m) : poolIndex m arg = some i := by
  obtain ⟨idx, ha, h0, h1, h2⟩ := poolIndex_some n arg i h
  subst ha
  rw [poolIndex_float m idx h0 (by omega), h2]

theorem f64ToInt64_of_holds (b : Nat) (n : Int) (h : f64ToInt? b = some n)
    (h1 : -9223372036854775808 ≤ n) (h2 : n < 9223372036854775808) : f64ToInt64 b = n := by
  obtain ⟨hexp, hn⟩ := f64ToInt_some b n h
  unfold f64ToInt64
  rw [if_neg hexp]
  simp only
  rw [← hn, if_pos ⟨h1, h2⟩]

theorem f64ToInt64_ofNat (j : Nat) (hj : j < 2 ^ 53) : f64ToInt64 (f64OfInt j) = j := by
  have hh := f64ToInt_ofInt (j : Int) (by simpa using hj)
  exact f64ToInt64_of_holds _ _ hh (by omega) (by norm_num at hj ⊢; omega)

theorem poolIndex_ofNat (n j : Nat) (hj : j < n) (hn : n ≤ 2 ^ 53) :
    poolIndex n (.float (f64OfInt j)) = some j := by
  have e := f64ToInt64_ofNat j (by omega)
  have := poolIndex_float n (f64OfInt j) (by rw [e]; omega) (by rw [e]; exact_mod_cast hj)
  rw [this, e]
  rfl

theorem gcCompact_spec : ∀ (used : List Bool) (cs : List Constant) (k j : Nat),
    j < (gcCompact used cs k).2.length →
    ∃ i : Nat, used[i]? = some true ∧ (gcCompact used cs k).1[i]? = some ((k + j : Nat) : Int) ∧
      (gcCompact used cs k).2[j]? = cs[i]? := by
  intro used
  induction used with
  | nil => intro cs k j h; simp [gcCompact] at h
  | cons u us ih =>
    intro cs k j h
    cases cs with
    | nil => simp [gcCompact] at h
    | cons c cs' =>
      cases u with
      | true =>
        simp only [gcCompact, if_true] at h ⊢
        cases j with
        | zero => exact ⟨0, by simp, by simp, by simp⟩
        | succ j' =>
          simp only [List.length_cons, Nat.add_lt_add_iff_right] at h
          obtain ⟨i, h1, h2, h3⟩ := ih cs' (k + 1) j' h
          refine ⟨i + 1, by simpa using h1, ?_, by simpa using h3⟩
          simp only [List.getElem?_cons_succ, h2]
          congr 2
          omega
      | false =>
        simp only [gcCompact, Bool.false_eq_true, if_false] at h ⊢
        obtain ⟨i, h1, h2, h3⟩ := ih cs' k j h
        exact ⟨i + 1, by simpa using h1, by simpa using h2, by simpa using h3⟩

theorem gcCompact_used : ∀ (used : List Bool) (cs : List Constant) (k i : Nat),
    used.length = cs.length → used[i]? = some true →
    ∃ j : Nat, (gcCompact used cs k).1[i]? = some ((k + j : Nat) : Int) ∧
      j < (gcCompact used cs k).2.length ∧ (gcCompact used cs k).2[j]? = cs[i]? := by
  intro used
  induction used with
  | nil => intro cs k i _ h; simp at h
  | cons u us ih =>
    intro cs k i hl h
    cases cs with
    | nil => simp at hl
    | cons c cs' =>
      simp only [List.length_cons, Nat.add_right_cancel_iff] at hl
      cases i with
      | zero =>
        simp only [List.getElem?_cons_zero, Option.some.injEq] at h
        subst h
        exact ⟨0, by simp [gcCompact], by simp [gcCompact], by simp [gcCompact]⟩
      | succ i' =>
        simp only [List.getElem?_cons_succ] at h
        cases u with
        | true =>
          obtain ⟨j, h1, h2, h3⟩ := ih cs' (k + 1) i' hl h
          refine ⟨j + 1, ?_, by simpa [gcCompact] using h2, by simpa [gcCompact] using h3⟩
          simp only [gcCompact, if_true, List.getElem?_cons_succ, h1]
          congr 2
          omega
        | false =>
          obtain ⟨j, h1, h2, h3⟩ := ih cs' k i' hl h
          exact ⟨j, by simpa [gcCompact] using h1, by simpa [gcCompact] using h2,
            by simpa [gcCompact] using h3⟩

theorem gcCompact_length : ∀ (used : List Bool) (cs : List Constant) (k : Nat),
    (gcCompact used cs k).2.length ≤ cs.length := by
  intro used
  induction used with
  | nil => intro cs k; simp [gcCompact]
  | cons u us ih =>
    intro cs k
    cases cs with
    | nil => simp [gcCompact]
    | cons c cs' =>
      cases u with
      | true => simpa [gcCompact] using ih cs' (k + 1)
      | false =>
        have := ih cs' k
        simp only [gcCompact, Bool.false_eq_true, if_false, List.length_cons]
        omega

theorem gcCompact_sublist : ∀ (used : List Bool) (cs : List Constant) (k : Nat),
    (gcCompact used cs k).2.Sublist cs := by
  intro used
  induction used with
  | nil => intro cs k; simp [gcCompact]
  | cons u us ih =>
    intro cs k
    cases cs with
    | nil => simp [gcCompact]
    | cons c cs' =>
      cases u with
      | true => simpa [gcCompact] using ih cs' (k + 1)
      | false =>
        simp only [gcCompact, Bool.false_eq_true, if_false]
        exact List.Sublist.cons c (ih cs' k)

theorem gcMarkArg_length (n : Nat) (arg : Value) (u : List Bool) :
    (gcMarkArg n arg u).length = u.length := by
  unfold gcMarkArg
  split <;> simp

theorem gcMarkArg_mono (n : Nat) (arg : Value) (u : List Bool) (i : Nat)
    (h : u[i]? = some true) : (gcMarkArg n arg u)[i]? = some true := by
  unfold gcMarkArg
  split
  · rename_i j _
    rw [List.getElem?_set]
    split
    · rename_i hji
      subst hji
      have : j < u.length := by
        by_contra hc
        rw [List.getElem?_eq_none (by omega)] at h
        exact absurd h (by simp)
      simp [this]
    · exact h
  · exact h

theorem gcMarkArg_sets (n : Nat) (arg : Value) (u : List Bool) (i : Nat)
    (hi : poolIndex n arg = some i) (hl : i < u.length) :
    (gcMarkArg n arg u)[i]? = some true := by
  unfold gcMarkArg
  rw [hi]
  simp only
  rw [List.getElem?_set]
  simp [hl]

theorem gcMarkArg_true (n : Nat) (arg : Value) (u : List Bool) (i : Nat)
    (h : (gcMarkArg n arg u)[i]? = some true) :
    u[i]? = some true ∨ poolIndex n arg = some i := by
  unfold gcMarkArg at h
  split at h
  · rename_i j hj
    rw [List.getElem?_set] at h
    split at h
    · rename_i hji
      right; rw [hj, hji]
    · left; exact h
  · left; exact h

theorem gcMark_cons (ops : OpCodes) (n : Nat) (inst : Instruction) (rest : List Instruction)
    (u : List Bool) :
    gcMark ops n (inst :: rest) u = gcMark ops n rest
      (if inst.Op = ops.OpMakeFunc then
        gcMarkArg n inst.Arg (if inst.Op = ops.OpConstant then gcMarkArg n inst.Arg u else u)
      else (if inst.Op = ops.OpConstant then gcMarkArg n inst.Arg u else u)) := rfl

theorem gcMark_length (ops : OpCodes) (n : Nat) (is : List Instruction) :
    ∀ u : List Bool, (gcMark ops n is u).length = u.length := by
  induction is with
  | nil => intro u; rfl
  | cons inst rest ih =>
    intro u
    rw [gcMark_cons, ih]
    split_ifs <;> (try simp only [gcMarkArg_length])

theorem gcMark_mono (ops : OpCodes) (n : Nat) (is : List Instruction) (i : Nat) :
    ∀ u : List Bool, u[i]? = some true → (gcMark ops n is u)[i]? = some true := by
  induction is with
  | nil => intro u h; exact h
  | cons inst rest ih =>
    intro u h
    rw [gcMark_cons]
    apply ih
    have h1 : (if inst.Op = ops.OpConstant then gcMarkArg n inst.Arg u else u)[i]? = some true := by
      by_cases hc : inst.Op = ops.OpConstant
      · rw [if_pos hc]; exact gcMarkArg_mono n _ u i h
      · rw [if_neg hc]; exact h
    by_cases hm : inst.Op = ops.OpMakeFunc
    · rw [if_pos hm]; exact gcMarkArg_mono n _ _ i h1
    · rw [if_neg hm]; exact h1

theorem gcMark_sets (ops : OpCodes) (n : Nat) (is : List Instruction) (i : Nat) :
    ∀ (u : List Bool) (inst : Instruction), inst ∈ is → PoolRef ops inst →
      poolIndex n inst.Arg = some i → i < u.length → (gcMark ops n is u)[i]? = some true := by
  induction is with
  | nil => intro u inst hm; simp at hm
  | cons a rest ih =>
    intro u inst hm hp hi hl
    rw [gcMark_cons]
    rcases List.mem_cons.mp hm with hm | hm
    · subst hm
      apply gcMark_mono
      rcases hp with hp | hp
      · have h1 : (if inst.Op = ops.OpConstant then gcMarkArg n inst.Arg u else u)[i]?
            = some true := by
          rw [if_pos hp]; exact gcMarkArg_sets n _ u i hi hl
        by_cases hmf : inst.Op = ops.OpMakeFunc
        · rw [if_pos hmf]; exact gcMarkArg_mono n _ _ i h1
        · rw [if_neg hmf]; exact h1
      · rw [if_pos hp]
        refine gcMarkArg_sets n _ _ i hi ?_
        by_cases hc : inst.Op = ops.OpConstant
        · rw [if_pos hc, gcMarkArg_length]; exact hl
        · rw [if_neg hc]; exact hl
    · refine ih _ inst hm hp hi ?_
      split_ifs <;> (try simp only [gcMarkArg_length]) <;> exact hl

theorem gcMark_true (ops : OpCodes) (n : Nat) (is : List Instruction) (i : Nat) :
    ∀ (u : List Bool), (gcMark ops n is u)[i]? = some true →
      u[i]? = some true ∨ ∃ inst ∈ is, PoolRef ops inst ∧ poolIndex n inst.Arg = some i := by
  induction is with
  | nil => intro u h; left; exact h
  | cons a rest ih =>
    intro u h
    rw [gcMark_cons] at h
    rcases ih _ h with g | ⟨inst, hm, hp, hi⟩
    · have h1 : (if a.Op = ops.OpConstant then gcMarkArg n a.Arg u else u)[i]? = some true →
          u[i]? = some true ∨ ∃ inst ∈ a :: rest, PoolRef ops inst ∧
            poolIndex n inst.Arg = some i := by
        intro g1
        by_cases hop : a.Op = ops.OpConstant
        · rw [if_pos hop] at g1
          rcases gcMarkArg_true n _ u i g1 with g2 | g2
          · left; exact g2
          · right; exact ⟨a, List.mem_cons_self _ _, Or.inl hop, g2⟩
        · rw [if_neg hop] at g1
          left; exact g1
      by_cases hop : a.Op = ops.OpMakeFunc
      · rw [if_pos hop] at g
        rcases gcMarkArg_true n _ _ i g with g2 | g2
        · exact h1 g2
        · right; exact ⟨a, List.mem_cons_self _ _, Or.inr hop, g2⟩
      · rw [if_neg hop] at g
        exact h1 g
    · right; exact ⟨inst, List.mem_cons_of_mem _ hm, hp, hi⟩

theorem gcRewriteConstant_Op (oldToNew : List Int) (inst : Instruction) :
    (gcRewriteConstant oldToNew inst).Op = inst.Op := by
  unfold gcRewriteConstant
  split
  · split <;> rfl
  · rfl

theorem gcRewriteConstant_Line (oldToNew : List Int) (inst : Instruction) :
    (gcRewriteConstant oldToNew inst).Line = inst.Line := by
  unfold gcRewriteConstant
  split
  · split <;> rfl
  · rfl

theorem gcRewriteMakeFunc_Op (oldToNew : List Int) (inst : Instruction) :
    (gcRewriteMakeFunc oldToNew inst).Op = inst.Op := by
  unfold gcRewriteMakeFunc
  split
  · split <;> rfl
  · rfl

theorem gcRewriteMakeFunc_Line (oldToNew : List Int) (inst : Instruction) :
    (gcRewriteMakeFunc oldToNew inst).Line = inst.Line := by
  unfold gcRewriteMakeFunc
  split
  · split <;> rfl
  · rfl

theorem gcRewrite_eq (ops : OpCodes) (oldToNew : List Int) (inst : Instruction) :
    gcRewrite ops oldToNew inst =
      if inst.Op = ops.OpConstant then
        (if inst.Op = ops.OpMakeFunc then
          gcRewriteMakeFunc oldToNew (gcRewriteConstant oldToNew inst)
        else gcRewriteConstant oldToNew inst)
      else (if inst.Op = ops.OpMakeFunc then gcRewriteMakeFunc oldToNew inst else inst) := by
  unfold gcRewrite
  by_cases hc : inst.Op = ops.OpConstant
  · rw [if_pos hc, if_pos hc]
    simp only [gcRewriteConstant_Op]
  · rw [if_neg hc, if_neg hc]

theorem gcRewrite_Op (ops : OpCodes) (oldToNew : List Int) (inst : Instruction) :
    (gcRewrite ops oldToNew inst).Op = inst.Op := by
  rw [gcRewrite_eq]
  split_ifs <;> (try simp only [gcRewriteConstant_Op, gcRewriteMakeFunc_Op])

theorem gcRewrite_Line (ops : OpCodes) (oldToNew : List Int) (inst : Instruction) :
    (gcRewrite ops oldToNew inst).Line = inst.Line := by
  rw [gcRewrite_eq]
  split_ifs <;> (try simp only [gcRewriteConstant_Line, gcRewriteMakeFunc_Line])

theorem gcLive_of (oldToNew : List Int) (i j : Nat) (idx : Nat)
    (h0 : 0 ≤ f64ToInt64 idx) (h2 : (f64ToInt64 idx).toNat = i)
    (hj : oldToNew[i]? = some (j : Int)) :
    gcLive oldToNew (f64ToInt64 idx) ∧ oldToNew.getD (f64ToInt64 idx).toNat 0 = (j : Int) := by
  have hlen : i < oldToNew.length := by
    by_contra hc
    rw [List.getElem?_eq_none (by omega)] at hj
    exact absurd hj (by simp)
  refine ⟨⟨h0, by omega, ?_⟩, ?_⟩
  · rw [h2, hj]
    simp only [ne_eq, Option.some.injEq]
    omega
  · rw [h2, List.getD_eq_getElem?_getD, hj]
    rfl

/-- The third loop of `doGarbageCollection` on an instruction whose operand is
the valid index `i`, when `oldToNew[i]` is the new index `j`. -/
theorem gcRewrite_valid (ops : OpCodes) (hd : ops.OpConstant ≠ ops.OpMakeFunc)
    (oldToNew : List Int) (inst : Instruction) (n i j : Nat) (hp : PoolRef ops inst)
    (hi : poolIndex n inst.Arg = some i) (hj : oldToNew[i]? = some (j : Int)) :
    gcRewrite ops oldToNew inst = { inst with Arg := .float (f64OfInt j) } := by
  obtain ⟨idx, ha, h0, _, h2⟩ := poolIndex_some n inst.Arg i hi
  obtain ⟨hlive, hget⟩ := gcLive_of oldToNew i j idx h0 h2 hj
  rw [gcRewrite_eq]
  rcases hp with hp | hp
  · have hne : ¬ inst.Op = ops.OpMakeFunc := by rw [hp]; exact hd
    rw [if_pos hp, if_neg hne]
    unfold gcRewriteConstant
    rw [ha]
    simp only [hlive, if_true, hget]
  · have hne : ¬ inst.Op = ops.OpConstant := by rw [hp]; exact fun h => hd h.symm
    rw [if_neg hne, if_pos hp]
    unfold gcRewriteMakeFunc
    rw [ha]
    simp only [hlive, if_true, hget]

theorem replicate_false_get (n i : Nat) : (List.replicate n false)[i]? ≠ some true := by
  intro h
  have := List.getElem?_mem h
  simp [List.mem_replicate] at this

theorem gc_Instructions {τ : Type} (ops : OpCodes) (o : Optimizer τ) :
    (doGarbageCollection ops o).Instructions = o.Instructions.map (gcRewrite ops
      (gcCompact (gcMark ops o.Constants.length o.Instructions
        (List.replicate o.Constants.length false)) o.Constants 0).1) := rfl

theorem gc_Constants {τ : Type} (ops : OpCodes) (o : Optimizer τ) :
    (doGarbageCollection ops o).Constants =
      (gcCompact (gcMark ops o.Constants.length o.Instructions
        (List.replicate o.Constants.length false)) o.Constants 0).2 := rfl

theorem gc_SymbolTable {τ : Type} (ops : OpCodes) (o : Optimizer τ) :
    (doGarbageCollection ops o).SymbolTable = o.SymbolTable := rfl

/-- After `doGarbageCollection` every index of the pool is the operand of a
`Constant` or `MakeFunc` instruction. -/
theorem gc_live {τ : Type} (ops : OpCodes) (hd : ops.OpConstant ≠ ops.OpMakeFunc)
    (o : Optimizer τ) (j : Nat) (hj : j < (doGarbageCollection ops o).Constants.length) :
    ∃ inst ∈ (doGarbageCollection ops o).Instructions,
      PoolRef ops inst ∧ inst.Arg = .float (f64OfInt j) := by
  rw [gc_Constants] at hj
  obtain ⟨i, h1, h2, _⟩ := gcCompact_spec _ _ 0 j hj
  rcases gcMark_true ops _ _ i _ h1 with g | ⟨inst, hm, hp, hi⟩
  · exact absurd g (replicate_false_get _ _)
  · rw [Nat.zero_add] at h2
    have e := gcRewrite_valid ops hd _ inst _ i j hp hi h2
    refine ⟨gcRewrite ops (gcCompact (gcMark ops o.Constants.length o.Instructions
      (List.replicate o.Constants.length false)) o.Constants 0).1 inst, ?_, ?_, ?_⟩
    · rw [gc_Instructions]
      exact List.mem_map_of_mem _ hm
    · unfold PoolRef
      rw [gcRewrite_Op]
      exact hp
    · rw [e]

/-- After `doGarbageCollection` the operands that were valid indices are valid
indices of the new pool. -/
theorem gc_valid {τ : Type} (ops : OpCodes) (hd : ops.OpConstant ≠ ops.OpMakeFunc)
    (o : Optimizer τ) (hsize : o.Constants.length ≤ 2 ^ 53)
    (hv : PoolRefsValid ops o.Instructions o.Constants.length) :
    PoolRefsValid ops (doGarbageCollection ops o).Instructions
      (doGarbageCollection ops o).Constants.length := by
  intro inst' hm' hp'
  rw [gc_Instructions] at hm'
  obtain ⟨inst, hm, rfl⟩ := List.mem_map.mp hm'
  have hp : PoolRef ops inst := by
    unfold PoolRef at hp' ⊢
    rw [gcRewrite_Op] at hp'
    exact hp'
  obtain ⟨i, hi⟩ := hv inst hm hp
  have hlt := poolIndex_lt _ _ _ hi
  have hu := gcMark_sets ops o.Constants.length o.Instructions i
    (List.replicate o.Constants.length false) inst hm hp hi (by simpa using hlt)
  obtain ⟨j, h1, h2, _⟩ := gcCompact_used _ o.Constants 0 i
    (by rw [gcMark_length]; simp) hu
  rw [Nat.zero_add] at h1
  rw [gcRewrite_valid ops hd _ inst _ i j hp hi h1, gc_Constants]
  refine ⟨j, poolIndex_ofNat _ j h2 ?_⟩
  exact le_trans (gcCompact_length _ _ _) hsize

theorem gc_sublist {τ : Type} (ops : OpCodes) (o : Optimizer τ) :
    (doGarbageCollection ops o).Constants.Sublist o.Constants :=
  gcCompact_sublist _ _ _

theorem gc_length {τ : Type} (ops : OpCodes) (o : Optimizer τ) :
    (doGarbageCollection ops o).Instructions.length = o.Instructions.length := by
  rw [gc_Instructions, List.length_map]

/-! ## Constant folding -/

theorem foldLoop_zero (ops : OpCodes) (is : List Instruction) (cs : List Constant) :
    foldLoop ops 0 is cs = (is, cs) := by
  cases is <;> rfl

theorem foldLoop_nil (ops : OpCodes) (fuel : Nat) (cs : List Constant) :
    foldLoop ops fuel [] cs = ([], cs) := by
  cases fuel <;> rfl

theorem foldLoop_one (ops : OpCodes) (fuel : Nat) (a : Instruction) (cs : List Constant) :
    foldLoop ops (fuel + 1) [a] cs
      = (a :: (foldLoop ops fuel [] cs).1, (foldLoop ops fuel [] cs).2) := rfl

theorem foldLoop_two (ops : OpCodes) (fuel : Nat) (a b : Instruction) (cs : List Constant) :
    foldLoop ops (fuel + 1) [a, b] cs
      = (a :: (foldLoop ops fuel [b] cs).1, (foldLoop ops fuel [b] cs).2) := rfl

theorem foldLoop_fold (ops : OpCodes) (fuel : Nat) (a b c : Instruction)
    (rest : List Instruction) (cs : List Constant) (result : Value)
    (h : foldWindow ops cs a b c = some result) :
    foldLoop ops (fuel + 1) (a :: b :: c :: rest) cs
      = foldLoop ops fuel (⟨ops.OpConstant, .float (f64OfInt cs.length), a.Line⟩ :: rest)
          (cs ++ [⟨result, getTypeString result⟩]) := by
  simp only [foldLoop, h]

theorem foldLoop_skip (ops : OpCodes) (fuel : Nat) (a b c : Instruction)
    (rest : List Instruction) (cs : List Constant) (h : foldWindow ops cs a b c = none) :
    foldLoop ops (fuel + 1) (a :: b :: c :: rest) cs
      = (a :: (foldLoop ops fuel (b :: c :: rest) cs).1,
          (foldLoop ops fuel (b :: c :: rest) cs).2) := by
  simp only [foldLoop, h]

/-- Induction along the run of the folding loop: a property of (stream, pool,
result) that holds when the loop stops, is kept when the loop steps over an
instruction (a window that does not fold, or the last two positions), and is
kept when a window folds, holds of every run. -/
theorem foldLoop_induct (ops : OpCodes)
    (P : List Instruction → List Constant → List Instruction × List Constant → Prop)
    (hstop : ∀ is cs, P is cs (is, cs))
    (hskip : ∀ a rest cs r,
      (∀ b c rest', rest = b :: c :: rest' → foldWindow ops cs a b c = none) →
      P rest cs r → P (a :: rest) cs (a :: r.1, r.2))
    (hfold : ∀ a b c rest cs result r, foldWindow ops cs a b c = some result →
      P (⟨ops.OpConstant, .float (f64OfInt cs.length), a.Line⟩ :: rest)
        (cs ++ [⟨result, getTypeString result⟩]) r →
      P (a :: b :: c :: rest) cs r) :
    ∀ fuel is cs, P is cs (foldLoop ops fuel is cs) := by
  intro fuel
  induction fuel with
  | zero => intro is cs; rw [foldLoop_zero]; exact hstop is cs
  | succ fuel ih =>
    intro is cs
    match is with
    | [] => rw [foldLoop_nil]; exact hstop [] cs
    | [a] =>
      rw [foldLoop_one]
      exact hskip a [] cs _ (by intro b c rest' h; simp at h) (ih [] cs)
    | [a, b] =>
      rw [foldLoop_two]
      exact hskip a [b] cs _ (by intro b c rest' h; simp at h) (ih [b] cs)
    | a :: b :: c :: rest =>
      cases hw : foldWindow ops cs a b c with
      | none =>
        rw [foldLoop_skip ops fuel a b c rest cs hw]
        refine hskip a (b :: c :: rest) cs _ ?_ (ih _ cs)
        intro b' c' rest' h
        simp only [List.cons.injEq] at h
        obtain ⟨rfl, rfl, rfl⟩ := h
        exact hw
      | some result =>
        rw [foldLoop_fold ops fuel a b c rest cs result hw]
        exact hfold a b c rest cs result _ hw (ih _ _)

theorem getTypeString_arithResult (r : Nat) : getTypeString (arithResult r) = "number" := by
  unfold arithResult
  split
  · split <;> rfl
  · rfl

theorem performArithmetic_number (ops : OpCodes) (a b : Value) (op : Nat) (result : Value)
    (h : performArithmetic ops a b op = some result) : getTypeString result = "number" := by
  unfold performArithmetic at h
  split at h
  · exact absurd h (by simp)
  · split at h
    · exact absurd h (by simp)
    · split_ifs at h
      all_goals
        simp only [Option.some.injEq] at h
        rw [← h]
        exact getTypeString_arithResult _

theorem foldWindow_number (ops : OpCodes) (cs : List Constant) (a b c : Instruction)
    (result : Value) (h : foldWindow ops cs a b c = some result) :
    getTypeString result = "number" := by
  unfold foldWindow at h
  split at h
  · split at h
    · simp only at h
      split at h
      · split at h
        · exact performArithmetic_number ops _ _ _ _ h
        · exact absurd h (by simp)
      · exact absurd h (by simp)
    · exact absurd h (by simp)
  · exact absurd h (by simp)

/-- What the folding loop does to the pool and to the length of the stream: the
pool grows at its end by constants of type `number`, and the stream loses two
instructions for each of them. -/
theorem foldLoop_pool (ops : OpCodes) (fuel : Nat) (is : List Instruction) (cs : List Constant) :
    ∃ extra, (foldLoop ops fuel is cs).2 = cs ++ extra ∧ (∀ c ∈ extra, c.Typ = "number") ∧
      (foldLoop ops fuel is cs).1.length + 2 * extra.length = is.length := by
  refine foldLoop_induct ops
    (fun is cs r => ∃ extra, r.2 = cs ++ extra ∧ (∀ c ∈ extra, c.Typ = "number") ∧
      r.1.length + 2 * extra.length = is.length) ?_ ?_ ?_ fuel is cs
  · intro is cs
    exact ⟨[], by simp, by simp, by simp⟩
  · intro a rest cs r _ ⟨extra, h1, h2, h3⟩
    exact ⟨extra, h1, h2, by simp only [List.length_cons]; omega⟩
  · intro a b c rest cs result r hw ⟨extra, h1, h2, h3⟩
    refine ⟨⟨result, getTypeString result⟩ :: extra, by simpa using h1, ?_, ?_⟩
    · intro x hx
      rcases List.mem_cons.mp hx with hx | hx
      · rw [hx]; exact foldWindow_number ops cs a b c result hw
      · exact h2 x hx
    · simp only [List.length_cons] at h3 ⊢
      omega

/-- Every instruction of the folded stream is an instruction of the input or a
`Constant` instruction whose operand is `float64(k)` for the index `k` of an
appended constant. -/
theorem foldLoop_mem (ops : OpCodes) (fuel : Nat) (is : List Instruction) (cs : List Constant) :
    ∀ inst ∈ (foldLoop ops fuel is cs).1, inst ∈ is ∨
      (inst.Op = ops.OpConstant ∧ ∃ k : Nat, inst.Arg = .float (f64OfInt k) ∧
        cs.length ≤ k ∧ k < (foldLoop ops fuel is cs).2.length) := by
  refine foldLoop_induct ops
    (fun is cs r => (cs.length ≤ r.2.length) ∧ ∀ inst ∈ r.1, inst ∈ is ∨
      (inst.Op = ops.OpConstant ∧ ∃ k : Nat, inst.Arg = .float (f64OfInt k) ∧
        cs.length ≤ k ∧ k < r.2.length)) ?_ ?_ ?_ fuel is cs |>.2
  · intro is cs
    exact ⟨le_refl _, fun inst h => Or.inl h⟩
  · intro a rest cs r _ ⟨h0, h⟩
    refine ⟨h0, ?_⟩
    intro inst hm
    rcases List.mem_cons.mp hm with hm | hm
    · left; rw [hm]; exact List.mem_cons_self _ _
    · rcases h inst hm with g | g
      · left; exact List.mem_cons_of_mem _ g
      · right; exact g
  · intro a b c rest cs result r _ ⟨h0, h⟩
    simp only [List.length_append, List.length_singleton] at h0 h
    refine ⟨by omega, ?_⟩
    intro inst hm
    rcases h inst hm with g | ⟨g1, k, g2, g3, g4⟩
    · rcases List.mem_cons.mp g with g | g
      · right
        rw [g]
        exact ⟨rfl, cs.length, rfl, le_refl _, by omega⟩
      · left
        exact List.mem_cons_of_mem _ (List.mem_cons_of_mem _ (List.mem_cons_of_mem _ g))
    · right
      exact ⟨g1, k, g2, by omega, g4⟩

/-- The instructions of one kind `p` that no fold creates: those of the folded
stream are among those of the input, in the same order. -/
theorem foldLoop_filter (ops : OpCodes) (p : Instruction → Bool)
    (hp : ∀ (arg : Nat) (line : Int), p ⟨ops.OpConstant, .float arg, line⟩ = false)
    (fuel : Nat) (is : List Instruction) (cs : List Constant) :
    ((foldLoop ops fuel is cs).1.filter p).Sublist (is.filter p) := by
  refine foldLoop_induct ops (fun is _ r => (r.1.filter p).Sublist (is.filter p)) ?_ ?_ ?_
    fuel is cs
  · intro is cs
    exact List.Sublist.refl _
  · intro a rest cs r _ h
    simp only [List.filter_cons]
    split
    · exact List.Sublist.cons₂ _ h
    · exact h
  · intro a b c rest cs result r _ h
    simp only [List.filter_cons, hp, Bool.false_eq_true, if_false] at h
    refine List.Sublist.trans h ?_
    exact List.Sublist.filter p
      (List.Sublist.cons _ (List.Sublist.cons _ (List.Sublist.cons _ (List.Sublist.refl _))))

/-! ## Distinct opcodes -/

theorem Distinct_ne (ops : OpCodes) (hd : ops.Distinct) :
    ops.OpConstant ≠ ops.OpMakeFunc ∧ ops.OpConstant ≠ ops.OpGetGlobal ∧
    ops.OpConstant ≠ ops.OpSetGlobal ∧ ops.OpConstant ≠ ops.OpCall ∧
    ops.OpMakeFunc ≠ ops.OpGetGlobal ∧ ops.OpMakeFunc ≠ ops.OpSetGlobal ∧
    ops.OpMakeFunc ≠ ops.OpCall := by
  unfold OpCodes.Distinct at hd
  refine ⟨?_, ?_, ?_, ?_, ?_, ?_, ?_⟩ <;> (intro h; rw [h] at hd; simp at hd)

/-! ## Renaming -/

theorem renameInstruction_Op (ops : OpCodes) (gm : List (List Nat × List Nat))
    (inst : Instruction) : (renameInstruction ops gm inst).Op = inst.Op := by
  unfold renameInstruction
  split_ifs <;> first | rfl | (split <;> first | rfl | (split <;> rfl))

theorem renameInstruction_Line (ops : OpCodes) (gm : List (List Nat × List Nat))
    (inst : Instruction) : (renameInstruction ops gm inst).Line = inst.Line := by
  unfold renameInstruction
  split_ifs <;> first | rfl | (split <;> first | rfl | (split <;> rfl))

/-- The operand after renaming: unchanged, or the new name of a string operand
that is a key of `globalNameMap`, on a `GetGlobal`, `SetGlobal` or `Call`. -/
theorem renameInstruction_Arg (ops : OpCodes) (gm : List (List Nat × List Nat))
    (inst : Instruction) :
    renameInstruction ops gm inst = inst ∨
      ((inst.Op = ops.OpGetGlobal ∨ inst.Op = ops.OpSetGlobal ∨ inst.Op = ops.OpCall) ∧
        ∃ old new, inst.Arg = .str old ∧ mapGet gm old = some new ∧
          renameInstruction ops gm inst = { inst with Arg := .str new }) := by
  unfold renameInstruction
  by_cases h1 : inst.Op = ops.OpGetGlobal ∨ inst.Op = ops.OpSetGlobal
  · rw [if_pos h1]
    cases ha : inst.Arg with
    | str name =>
      simp only
      cases hg : mapGet gm name with
      | none => left; rfl
      | some new =>
        right
        exact ⟨by tauto, name, new, rfl, hg, rfl⟩
    | _ => left; rfl
  · rw [if_neg h1]
    by_cases h2 : inst.Op = ops.OpCall
    · rw [if_pos h2]
      cases ha : inst.Arg with
      | str name =>
        simp only
        cases hg : mapGet gm name with
        | none => left; rfl
        | some new =>
          right
          exact ⟨by tauto, name, new, rfl, hg, rfl⟩
      | _ => left; rfl
    · rw [if_neg h2]
      left; rfl

theorem renameInstruction_poolRef (ops : OpCodes) (hd : ops.Distinct)
    (gm : List (List Nat × List Nat)) (inst : Instruction) (hp : PoolRef ops inst) :
    renameInstruction ops gm inst = inst := by
  obtain ⟨d1, d2, d3, d4, d5, d6, d7⟩ := Distinct_ne ops hd
  rcases renameInstruction_Arg ops gm inst with h | ⟨hop, _⟩
  · exact h
  · exfalso
    rcases hp with hp | hp <;> rw [hp] at hop <;> tauto

theorem doNameScraping_Instructions {τ : Type} (ops : OpCodes) (ord : IterOrder)
    (o : Optimizer τ) :
    (doNameScraping ops ord o).Instructions
      = o.Instructions.map (renameInstruction ops (globalNameMap ops ord o.Instructions)) := rfl

theorem doNameScraping_Constants {τ : Type} (ops : OpCodes) (ord : IterOrder)
    (o : Optimizer τ) : (doNameScraping ops ord o).Constants = o.Constants := rfl

theorem doNameScraping_length {τ : Type} (ops : OpCodes) (ord : IterOrder) (o : Optimizer τ) :
    (doNameScraping ops ord o).Instructions.length = o.Instructions.length := by
  rw [doNameScraping_Instructions, List.length_map]

theorem doNameScraping_valid {τ : Type} (ops : OpCodes) (hd : ops.Distinct) (ord : IterOrder)
    (o : Optimizer τ) (n : Nat) (hv : PoolRefsValid ops o.Instructions n) :
    PoolRefsValid ops (doNameScraping ops ord o).Instructions n := by
  intro inst' hm' hp'
  rw [doNameScraping_Instructions] at hm'
  obtain ⟨inst, hm, rfl⟩ := List.mem_map.mp hm'
  have hp : PoolRef ops inst := by
    unfold PoolRef at hp' ⊢
    rw [renameInstruction_Op] at hp'
    exact hp'
  rw [renameInstruction_poolRef ops hd _ inst hp]
  exact hv inst hm hp

theorem doNameScraping_safe {τ : Type} (ops : OpCodes) (ord : IterOrder) (o : Optimizer τ)
    (hs : MakeFuncSafe ops o.Instructions) :
    MakeFuncSafe ops (doNameScraping ops ord o).Instructions := by
  intro inst' hm' hop idx ha
  rw [doNameScraping_Instructions] at hm'
  obtain ⟨inst, hm, rfl⟩ := List.mem_map.mp hm'
  rw [renameInstruction_Op] at hop
  rcases renameInstruction_Arg ops (globalNameMap ops ord o.Instructions) inst with h | ⟨_, old, new, _, _, h⟩
  · rw [h] at ha
    exact hs inst hm hop idx ha
  · rw [h] at ha
    exact absurd ha (by simp)

/-! ## Cleanup -/

theorem cleanupSelect_sublist : ∀ (is : List Instruction) (marks : List Bool),
    (cleanupSelect is marks).Sublist is := by
  intro is
  induction is with
  | nil => intro marks; cases marks <;> simp [cleanupSelect]
  | cons inst rest ih =>
    intro marks
    cases marks with
    | nil => simp [cleanupSelect]
    | cons keep marks =>
      cases keep with
      | true => simpa [cleanupSelect] using ih marks
      | false =>
        simp only [cleanupSelect, Bool.false_eq_true, if_false]
        exact List.Sublist.cons _ (ih marks)

theorem MakeFuncSafe_cons (ops : OpCodes) (inst : Instruction) (rest : List Instruction)
    (h : MakeFuncSafe ops (inst :: rest)) : MakeFuncSafe ops rest :=
  fun x hx => h x (List.mem_cons_of_mem _ hx)

theorem MakeFuncSafe_sublist (ops : OpCodes) (l l' : List Instruction) (hs : l'.Sublist l)
    (h : MakeFuncSafe ops l) : MakeFuncSafe ops l' :=
  fun x hx => h x (hs.subset hx)

theorem PoolRefsValid_sublist (ops : OpCodes) (l l' : List Instruction) (n : Nat)
    (hs : l'.Sublist l) (h : PoolRefsValid ops l n) : PoolRefsValid ops l' n :=
  fun x hx => h x (hs.subset hx)

/-- The first loop of `doCleanup` runs through when no `MakeFunc` instruction
has a negative index as its operand. -/
theorem cleanupUsage_safe (ops : OpCodes) (cs : List Constant) (is : List Instruction) :
    MakeFuncSafe ops is → ∀ gu lu, ∃ r, cleanupUsage ops cs is gu lu = some r := by
  induction is with
  | nil => intro _ gu lu; exact ⟨_, rfl⟩
  | cons inst rest ih =>
    intro hs gu lu
    have ih' := ih (MakeFuncSafe_cons ops inst rest hs)
    unfold cleanupUsage
    split_ifs with h1 h2 h3 h4 h5 h6
    · split <;> exact ih' _ _
    · split <;> exact ih' _ _
    · split <;> exact ih' _ _
    · split <;> exact ih' _ _
    · split
      · rename_i idx ha
        have := hs inst (List.mem_cons_self _ _) h5 idx ha
        rw [if_neg (by omega)]
        exact ih' _ _
      · exact ih' _ _
    · split
      · split <;> exact ih' _ _
      · exact ih' _ _
    · exact ih' _ _

theorem doCleanup_spec {τ : Type} (ops : OpCodes) (o o' : Optimizer τ)
    (h : doCleanup ops o = some o') :
    o'.Constants = o.Constants ∧ o'.SymbolTable = o.SymbolTable ∧
      o'.Instructions.Sublist o.Instructions := by
  unfold doCleanup at h
  split at h
  · exact absurd h (by simp)
  · simp only [Option.some.injEq] at h
    rw [← h]
    exact ⟨rfl, rfl, cleanupSelect_sublist _ _⟩

theorem doCleanup_some {τ : Type} (ops : OpCodes) (o : Optimizer τ)
    (hs : MakeFuncSafe ops o.Instructions) : ∃ o', doCleanup ops o = some o' := by
  obtain ⟨r, hr⟩ := cleanupUsage_safe ops o.Constants o.Instructions hs [] []
  unfold doCleanup
  rw [hr]
  exact ⟨_, rfl⟩

/-! ## One iteration of the loop of `Optimize` -/

theorem doConstantFolding_Instructions {τ : Type} (ops : OpCodes) (o : Optimizer τ) :
    (doConstantFolding ops o).Instructions
      = (foldLoop ops o.Instructions.length o.Instructions o.Constants).1 := rfl

theorem doConstantFolding_Constants {τ : Type} (ops : OpCodes) (o : Optimizer τ) :
    (doConstantFolding ops o).Constants
      = (foldLoop ops o.Instructions.length o.Instructions o.Constants).2 := rfl

theorem doConstantFolding_pool {τ : Type} (ops : OpCodes) (o : Optimizer τ) :
    ∃ extra, (doConstantFolding ops o).Constants = o.Constants ++ extra ∧
      (∀ c ∈ extra, c.Typ = "number") ∧
      (doConstantFolding ops o).Instructions.length + 2 * extra.length
        = o.Instructions.length :=
  foldLoop_pool ops _ _ _

theorem doConstantFolding_safe {τ : Type} (ops : OpCodes) (hd : ops.Distinct) (o : Optimizer τ)
    (hs : MakeFuncSafe ops o.Instructions) :
    MakeFuncSafe ops (doConstantFolding ops o).Instructions := by
  intro inst hm hop idx ha
  rcases foldLoop_mem ops _ _ _ inst hm with g | ⟨g, _⟩
  · exact hs inst g hop idx ha
  · exact absurd (g.symm.trans hop) (Distinct_ne ops hd).1

theorem doConstantFolding_valid {τ : Type} (ops : OpCodes) (o : Optimizer τ)
    (hsize : o.Instructions.length + o.Constants.length ≤ 2 ^ 53)
    (hv : PoolRefsValid ops o.Instructions o.Constants.length) :
    PoolRefsValid ops (doConstantFolding ops o).Instructions
      (doConstantFolding ops o).Constants.length := by
  obtain ⟨extra, h1, _, h3⟩ := doConstantFolding_pool ops o
  have hlen : (doConstantFolding ops o).Constants.length ≤ 2 ^ 53 := by
    rw [h1, List.length_append]
    omega
  intro inst hm hp
  rcases foldLoop_mem ops _ _ _ inst hm with g | ⟨_, k, g2, _, g4⟩
  · obtain ⟨i, hi⟩ := hv inst g hp
    exact ⟨i, poolIndex_mono _ _ _ i hi (by rw [h1, List.length_append]; omega)⟩
  · rw [g2]
    exact ⟨k, poolIndex_ofNat _ k g4 hlen⟩

/-- The three passes of one iteration, when `doCleanup` does not panic: the
stream does not grow, and the pool grows at its end by `number` constants, one
for every two instructions that folding removes. -/
theorem iteration_spec {τ : Type} (ops : OpCodes) (ord : IterOrder) (o o' : Optimizer τ)
    (h : doCleanup ops (doNameScraping ops ord (doConstantFolding ops o)) = some o') :
    ∃ extra, o'.Constants = o.Constants ++ extra ∧ (∀ c ∈ extra, c.Typ = "number") ∧
      o'.Instructions.length + 2 * extra.length ≤ o.Instructions.length := by
  obtain ⟨h1, _, h3⟩ := doCleanup_spec ops _ o' h
  obtain ⟨extra, g1, g2, g3⟩ := doConstantFolding_pool ops o
  refine ⟨extra, by rw [h1, doNameScraping_Constants, g1], g2, ?_⟩
  have := h3.length_le
  rw [doNameScraping_length] at this
  omega

theorem iteration_safe {τ : Type} (ops : OpCodes) (hd : ops.Distinct) (ord : IterOrder)
    (o : Optimizer τ) (hs : MakeFuncSafe ops o.Instructions) :
    ∃ o', doCleanup ops (doNameScraping ops ord (doConstantFolding ops o)) = some o' ∧
      MakeFuncSafe ops o'.Instructions := by
  have s2 := doNameScraping_safe ops ord _ (doConstantFolding_safe ops hd o hs)
  obtain ⟨o', ho'⟩ := doCleanup_some ops _ s2
  exact ⟨o', ho', MakeFuncSafe_sublist ops _ _ (doCleanup_spec ops _ o' ho').2.2 s2⟩

theorem iteration_valid {τ : Type} (ops : OpCodes) (hd : ops.Distinct) (ord : IterOrder)
    (o o' : Optimizer τ)
    (h : doCleanup ops (doNameScraping ops ord (doConstantFolding ops o)) = some o')
    (hsize : o.Instructions.length + o.Constants.length ≤ 2 ^ 53)
    (hv : PoolRefsValid ops o.Instructions o.Constants.length) :
    o'.Instructions.length + o'.Constants.length ≤ 2 ^ 53 ∧
      PoolRefsValid ops o'.Instructions o'.Constants.length := by
  obtain ⟨extra, e1, _, e3⟩ := iteration_spec ops ord o o' h
  obtain ⟨h1, _, h3⟩ := doCleanup_spec ops _ o' h
  refine ⟨by rw [e1, List.length_append]; omega, ?_⟩
  rw [h1, doNameScraping_Constants]
  exact PoolRefsValid_sublist ops _ _ _ h3
    (doNameScraping_valid ops hd ord _ _ (doConstantFolding_valid ops o hsize hv))

/-! ## The loop of `Optimize` -/

/-- A property that every iteration keeps holds when the loop ends. -/
theorem optimizeLoop_inv {τ : Type} (ops : OpCodes) (ord : Nat → IterOrder)
    (I : Optimizer τ → Prop)
    (hstep : ∀ n o o', I o →
      doCleanup ops (doNameScraping ops (ord n) (doConstantFolding ops o)) = some o' → I o') :
    ∀ fuel n o o', I o → optimizeLoop ops ord fuel n o = some o' → I o' := by
  intro fuel
  induction fuel with
  | zero => intro n o o' _ h; exact absurd h (by simp [optimizeLoop])
  | succ fuel ih =>
    intro n o o' hI h
    unfold optimizeLoop at h
    cases hc : doCleanup ops (doNameScraping ops (ord n) (doConstantFolding ops o)) with
    | none => rw [hc] at h; exact absurd h (by simp)
    | some o1 =>
      rw [hc] at h
      simp only at h
      have hI1 := hstep n o o1 hI hc
      split_ifs at h
      · simp only [Option.some.injEq] at h
        rw [← h]; exact hI1
      · exact ih (n + 1) o1 o' hI1 h

/-- The loop ends, with a result, within `len + 1` iterations when no
`MakeFunc` instruction has a negative index as its operand. -/
theorem optimizeLoop_total {τ : Type} (ops : OpCodes) (hd : ops.Distinct)
    (ord : Nat → IterOrder) :
    ∀ fuel n (o : Optimizer τ), MakeFuncSafe ops o.Instructions →
      o.Instructions.length < fuel → ∃ o', optimizeLoop ops ord fuel n o = some o' := by
  intro fuel
  induction fuel with
  | zero => intro n o _ h; exact absurd h (by omega)
  | succ fuel ih =>
    intro n o hs hlen
    obtain ⟨o1, h1, hs1⟩ := iteration_safe ops hd (ord n) o hs
    obtain ⟨extra, _, _, e3⟩ := iteration_spec ops (ord n) o o1 h1
    unfold optimizeLoop
    rw [h1]
    simp only
    split_ifs with heq
    · exact ⟨o1, rfl⟩
    · exact ih (n + 1) o1 hs1 (by omega)

/-- More iterations than `len + 1` change nothing. -/
theorem optimizeLoop_fuel {τ : Type} (ops : OpCodes) (ord : Nat → IterOrder) :
    ∀ fuel fuel' n (o : Optimizer τ), o.Instructions.length < fuel →
      o.Instructions.length < fuel' →
      optimizeLoop ops ord fuel n o = optimizeLoop ops ord fuel' n o := by
  intro fuel
  induction fuel with
  | zero => intro fuel' n o h; exact absurd h (by omega)
  | succ fuel ih =>
    intro fuel' n o h h'
    cases fuel' with
    | zero => exact absurd h' (by omega)
    | succ fuel' =>
      unfold optimizeLoop
      cases hc : doCleanup ops (doNameScraping ops (ord n) (doConstantFolding ops o)) with
      | none => rfl
      | some o1 =>
        simp only
        obtain ⟨extra, _, _, e3⟩ := iteration_spec ops (ord n) o o1 hc
        split_ifs with heq
        · rfl
        · exact ih fuel' (n + 1) o1 (by omega) (by omega)

theorem Optimize_eq {τ : Type} (ops : OpCodes) (ord : Nat → IterOrder) (o : Optimizer τ)
    (out : List Instruction × List Constant) (h : o.Optimize ops ord = some out) :
    ∃ o', optimizeLoop ops ord (o.Instructions.length + 1) 0 o = some o' ∧
      out = ((doGarbageCollection ops o').Instructions,
        (doGarbageCollection ops o').Constants) := by
  unfold Optimizer.Optimize Optimizer.run at h
  cases hl : optimizeLoop ops ord (o.Instructions.length + 1) 0 o with
  | none => rw [hl] at h; exact absurd h (by simp)
  | some o' =>
    rw [hl] at h
    simp only [Option.map_some', Option.some.injEq] at h
    exact ⟨o', rfl, h.symm⟩

theorem Optimize_of_loop {τ : Type} (ops : OpCodes) (ord : Nat → IterOrder) (o o' : Optimizer τ)
    (h : optimizeLoop ops ord (o.Instructions.length + 1) 0 o = some o') :
    o.Optimize ops ord = some ((doGarbageCollection ops o').Instructions,
      (doGarbageCollection ops o').Constants) := by
  unfold Optimizer.Optimize Optimizer.run
  rw [h]
  rfl

theorem Optimize_total {τ : Type} (ops : OpCodes) (hd : ops.Distinct) (ord : Nat → IterOrder)
    (o : Optimizer τ) (hs : MakeFuncSafe ops o.Instructions) :
    ∃ out, o.Optimize ops ord = some out := by
  obtain ⟨o', h⟩ := optimizeLoop_total ops hd ord (o.Instructions.length + 1) 0 o hs (by omega)
  exact ⟨_, Optimize_of_loop ops ord o o' h⟩

theorem PoolRefsValid_safe (ops : OpCodes) (is : List Instruction) (n : Nat)
    (hv : PoolRefsValid ops is n) : MakeFuncSafe ops is := by
  intro inst hm hop idx ha
  obtain ⟨i, hi⟩ := hv inst hm (Or.inr hop)
  obtain ⟨idx', ha', h0, _⟩ := poolIndex_some n inst.Arg i hi
  rw [ha] at ha'
  simp only [Value.float.injEq] at ha'
  rw [ha']
  exact h0

/-! ## The pool after `Optimize` -/

theorem funcptr_example_run :
    Optimizer.Optimize stdOps (fun _ => insertionOrder)
      (⟨[⟨1, .float (f64OfInt 0), 1⟩, ⟨1, .float (f64OfInt 1), 1⟩, ⟨9, .nil, 1⟩,
        ⟨6, .float (f64OfInt 2), 2⟩, ⟨0, .nil, 3⟩],
        [⟨.int 2, "number"⟩, ⟨.int 3, "number"⟩, ⟨.float (f64OfInt 4), "funcptr"⟩],
        none⟩ : Optimizer Nat)
      = some ([⟨1, .float (f64OfInt 1), 1⟩, ⟨6, .float (f64OfInt 0), 2⟩, ⟨0, .nil, 3⟩],
          [⟨.float (f64OfInt 4), "funcptr"⟩, ⟨.int 5, "number"⟩]) := by
  decide!


/-- C14: for every input for which `Optimize` returns (it does whenever no
`MakeFunc` instruction has a `float64` operand with a negative integer part,
the one case in which `doCleanup` panics), every index `j` of the returned
constant pool is the operand `float64(j)` of at least one `Constant` or
`MakeFunc` instruction of the returned stream; for a pool of at most `2^53`
constants that operand is read back as the index `j`. -/
theorem C14_pool_liveness {τ : Type} (ops : OpCodes) (hd : ops.Distinct)
    (ord : Nat → IterOrder) (o : Optimizer τ) :
    (MakeFuncSafe ops o.Instructions → ∃ out, o.Optimize ops ord = some out) ∧
    ∀ out, o.Optimize ops ord = some out → ∀ j, j < out.2.length →
      ∃ inst ∈ out.1, (inst.Op = ops.OpConstant ∨ inst.Op = ops.OpMakeFunc) ∧
        inst.Arg = .float (f64OfInt j) ∧
        (out.2.length ≤ 2 ^ 53 → poolIndex out.2.length inst.Arg = some j) := by
  refine ⟨Optimize_total ops hd ord o, ?_⟩
  intro out h j hj
  obtain ⟨o', _, rfl⟩ := Optimize_eq ops ord o out h
  obtain ⟨inst, hm, hp, ha⟩ := gc_live ops (Distinct_ne ops hd).1 o' j hj
  refine ⟨inst, hm, hp, ha, ?_⟩
  intro hsize
  rw [ha]
  exact poolIndex_ofNat _ j hj hsize

theorem C14_pool_liveness_witness :
    (∃ out, Optimizer.Optimize stdOps (fun _ => insertionOrder)
        (⟨[⟨1, .float (f64OfInt 0), 1⟩, ⟨1, .float (f64OfInt 1), 1⟩, ⟨9, .nil, 1⟩,
          ⟨6, .float (f64OfInt 2), 2⟩, ⟨0, .nil, 3⟩],
          [⟨.int 2, "number"⟩, ⟨.int 3, "number"⟩, ⟨.float (f64OfInt 4), "funcptr"⟩],
          none⟩ : Optimizer Nat) = some out) ∧
    ∃ inst ∈ [(⟨1, .float (f64OfInt 1), 1⟩ : Instruction), ⟨6, .float (f64OfInt 0), 2⟩,
        ⟨0, .nil, 3⟩],
      (inst.Op = stdOps.OpConstant ∨ inst.Op = stdOps.OpMakeFunc) ∧
        inst.Arg = .float (f64OfInt (1 : Nat)) ∧
        (2 ≤ 2 ^ 53 → poolIndex 2 inst.Arg = some 1) :=
  ⟨⟨([⟨1, .float (f64OfInt 1), 1⟩, ⟨6, .float (f64OfInt 0), 2⟩, ⟨0, .nil, 3⟩],
      [⟨.float (f64OfInt 4), "funcptr"⟩, ⟨.int 5, "number"⟩]), by decide!⟩,
    (C14_pool_liveness stdOps (by decide) (fun _ => insertionOrder)
      (⟨[⟨1, .float (f64OfInt 0), 1⟩, ⟨1, .float (f64OfInt 1), 1⟩, ⟨9, .nil, 1⟩,
        ⟨6, .float (f64OfInt 2), 2⟩, ⟨0, .nil, 3⟩],
        [⟨.int 2, "number"⟩, ⟨.int 3, "number"⟩, ⟨.float (f64OfInt 4), "funcptr"⟩],
        none⟩ : Optimizer Nat)).2
      ([⟨1, .float (f64OfInt 1), 1⟩, ⟨6, .float (f64OfInt 0), 2⟩, ⟨0, .nil, 3⟩],
        [⟨.float (f64OfInt 4), "funcptr"⟩, ⟨.int 5, "number"⟩])
      funcptr_example_run 1 (by decide)⟩

/-- C15: for every input of at most `2^53` instructions and constants together
in which every `Constant` and `MakeFunc` instruction has (as a `float64`, the
form in which the optimizer reads operands) a valid index into the constant
pool as its operand, `Optimize` returns, and every `Constant` and `MakeFunc`
instruction of the returned stream has a valid index into the returned pool as
its operand. -/
theorem C15_no_dangling_indices {τ : Type} (ops : OpCodes) (hd : ops.Distinct)
    (ord : Nat → IterOrder) (o : Optimizer τ)
    (hsize : o.Instructions.length + o.Constants.length ≤ 2 ^ 53)
    (hv : PoolRefsValid ops o.Instructions o.Constants.length) :
    ∃ out, o.Optimize ops ord = some out ∧ PoolRefsValid ops out.1 out.2.length := by
  obtain ⟨o', h⟩ := optimizeLoop_total ops hd ord (o.Instructions.length + 1) 0 o
    (PoolRefsValid_safe ops _ _ hv) (by omega)
  have hI := optimizeLoop_inv ops ord
    (fun x => x.Instructions.length + x.Constants.length ≤ 2 ^ 53 ∧
      PoolRefsValid ops x.Instructions x.Constants.length)
    (fun n x x' hx hc => iteration_valid ops hd (ord n) x x' hc hx.1 hx.2)
    _ 0 o o' ⟨hsize, hv⟩ h
  exact ⟨_, Optimize_of_loop ops ord o o' h,
    gc_valid ops (Distinct_ne ops hd).1 o' (by omega) hI.2⟩

theorem C15_no_dangling_indices_witness :
    ∃ out, Optimizer.Optimize stdOps (fun _ => insertionOrder)
        (⟨[⟨1, .float (f64OfInt 0), 1⟩, ⟨1, .float (f64OfInt 1), 1⟩, ⟨9, .nil, 1⟩,
          ⟨6, .float (f64OfInt 2), 2⟩, ⟨0, .nil, 3⟩],
          [⟨.int 2, "number"⟩, ⟨.int 3, "number"⟩, ⟨.float (f64OfInt 4), "funcptr"⟩],
          none⟩ : Optimizer Nat) = some out ∧
      PoolRefsValid stdOps out.1 out.2.length :=
  C15_no_dangling_indices stdOps (by decide) (fun _ => insertionOrder) _ (by decide) (by
    intro inst hm hp
    simp only [List.mem_cons, List.mem_singleton, List.not_mem_nil, or_false] at hm
    rcases hm with rfl | rfl | rfl | rfl | rfl
    · exact ⟨0, by decide!⟩
    · exact ⟨1, by decide!⟩
    · exact absurd hp (by simp [PoolRef, stdOps])
    · exact ⟨2, by decide!⟩
    · exact absurd hp (by simp [PoolRef, stdOps]))

/-! ## Function pointers -/

theorem mapGet_mapSet_self {κ ν : Type} [DecidableEq κ] (m : List (κ × ν)) (k : κ) (v : ν) :
    mapGet (mapSet m k v) k = some v := by
  induction m with
  | nil => simp [mapSet, mapGet]
  | cons e rest ih =>
    obtain ⟨k', v'⟩ := e
    by_cases h : k' = k
    · simp [mapSet, mapGet, h]
    · simp [mapSet, mapGet, h, ih]

theorem mapGet_mapSet_ne {κ ν : Type} [DecidableEq κ] (m : List (κ × ν)) (k k' : κ) (v : ν)
    (hne : k' ≠ k) : mapGet (mapSet m k v) k' = mapGet m k' := by
  induction m with
  | nil => simp [mapSet, mapGet, hne.symm]
  | cons e rest ih =>
    obtain ⟨k0, v0⟩ := e
    by_cases h : k0 = k
    · subst h
      simp [mapSet, mapGet, hne.symm]
    · by_cases h' : k0 = k'
      · subst h'
        simp [mapSet, mapGet, h]
      · simp [mapSet, mapGet, h, h', ih]

theorem mapGet_mem {κ ν : Type} [DecidableEq κ] (m : List (κ × ν)) (k : κ) (v : ν)
    (h : mapGet m k = some v) : (k, v) ∈ m := by
  induction m with
  | nil => simp [mapGet] at h
  | cons e rest ih =>
    obtain ⟨k0, v0⟩ := e
    by_cases h' : k0 = k
    · simp only [mapGet, h', if_true, Option.some.injEq] at h
      rw [h', h]
      exact List.mem_cons_self _ _
    · simp only [mapGet, h', if_false] at h
      exact List.mem_cons_of_mem _ (ih h)

theorem mem_mapSet {κ ν : Type} [DecidableEq κ] (m : List (κ × ν)) (k : κ) (v : ν)
    (e : κ × ν) (h : e ∈ mapSet m k v) : e ∈ m ∨ e = (k, v) := by
  induction m with
  | nil =>
    simp only [mapSet, List.mem_singleton] at h
    right; exact h
  | cons e0 rest ih =>
    obtain ⟨k0, v0⟩ := e0
    by_cases h' : k0 = k
    · simp only [mapSet, h', if_true, List.mem_cons] at h
      rcases h with h | h
      · right; exact h
      · left; exact List.mem_cons_of_mem _ h
    · simp only [mapSet, h', if_false, List.mem_cons] at h
      rcases h with h | h
      · left; rw [h]; exact List.mem_cons_self _ _
      · rcases ih h with g | g
        · left; exact List.mem_cons_of_mem _ g
        · right; exact g

/-! ## The new names -/

theorem itoaAux_head (fuel : Nat) : ∀ (n : Nat) (acc : List Nat),
    (fuel = 0 → ∃ d rest, acc = d :: rest ∧ 48 ≤ d ∧ d ≤ 57) →
    ∃ d rest, itoaAux fuel n acc = d :: rest ∧ 48 ≤ d ∧ d ≤ 57 := by
  induction fuel with
  | zero => intro n acc h; exact h rfl
  | succ fuel ih =>
    intro n acc _
    unfold itoaAux
    split
    · exact ⟨48 + n, acc, rfl, by omega, by omega⟩
    · exact ih _ _ (fun _ => ⟨48 + n % 10, acc, rfl, by omega, by omega⟩)

theorem itoa_head (n : Nat) : ∃ d rest, itoa n = d :: rest ∧ 48 ≤ d ∧ d ≤ 57 :=
  itoaAux_head (n + 1) n [] (fun h => absurd h (by omega))

theorem Builtins_no_digit :
    ∀ b ∈ Builtins, ¬ (48 ≤ b.getD 1 0 ∧ b.getD 1 0 ≤ 57) := by
  decide!

/-- No name `g1`, `g2`, ... (or `l1`, `l2`, ...) is a key of the registry of
built-ins. -/
theorem newName_not_builtin (c n : Nat) : c :: itoa n ∉ Builtins := by
  intro h
  obtain ⟨d, rest, e, h1, h2⟩ := itoa_head n
  rw [e] at h
  exact Builtins_no_digit _ h ⟨h1, h2⟩

theorem gName_not_builtin (n : Nat) : ascii "g" ++ itoa n ∉ Builtins :=
  newName_not_builtin 103 n

/-! ## The sort of `globalList` -/

theorem sortPass_perm : ∀ (l : List (List Nat × Nat)) (x : List Nat × Nat),
    ((sortPass x l).1 :: (sortPass x l).2).Perm (x :: l) := by
  intro l
  induction l with
  | nil => intro x; exact List.Perm.refl _
  | cons y ys ih =>
    intro x
    unfold sortPass
    split
    · exact (List.Perm.swap x _ _).trans (List.Perm.cons x (ih y))
    · exact ((List.Perm.swap y _ _).trans (List.Perm.cons y (ih x))).trans
        (List.Perm.swap x y ys)

theorem sortLoop_perm : ∀ (fuel : Nat) (l : List (List Nat × Nat)),
    (sortLoop fuel l).Perm l := by
  intro fuel
  induction fuel with
  | zero => intro l; cases l <;> exact List.Perm.refl _
  | succ fuel ih =>
    intro l
    cases l with
    | nil => exact List.Perm.refl _
    | cons x xs =>
      simp only [sortLoop]
      exact (List.Perm.cons _ (ih _)).trans (sortPass_perm xs x)

/-! ## The map of new names -/

theorem assignGlobals_mem : ∀ (l : List (List Nat × Nat)) (c : Nat)
    (m : List (List Nat × List Nat)) (e : List Nat × List Nat),
    e ∈ assignGlobals l c m →
      e ∈ m ∨ ((∃ x ∈ l, x.1 = e.1) ∧ ∃ n, e.2 = ascii "g" ++ itoa n) := by
  intro l
  induction l with
  | nil => intro c m e h; left; exact h
  | cons info rest ih =>
    intro c m e h
    simp only [assignGlobals] at h
    rcases ih _ _ e h with g | ⟨⟨x, hx, hx'⟩, g⟩
    · rcases mem_mapSet _ _ _ e g with g' | g'
      · left; exact g'
      · right
        rw [g']
        exact ⟨⟨info, List.mem_cons_self _ _, rfl⟩, c, rfl⟩
    · right
      exact ⟨⟨x, List.mem_cons_of_mem _ hx, hx'⟩, g⟩

/-- The keys of `globalNameMap` are not built-in names, and its values are
names `g1`, `g2`, ..., which are not built-in names either. -/
theorem globalNameMap_spec (ops : OpCodes) (ord : IterOrder) (is : List Instruction)
    (old new : List Nat) (h : mapGet (globalNameMap ops ord is) old = some new) :
    old ∉ Builtins ∧ (∃ n, new = ascii "g" ++ itoa n) ∧ new ∉ Builtins := by
  have hm := mapGet_mem _ _ _ h
  unfold globalNameMap at hm
  rcases assignGlobals_mem _ _ _ _ hm with g | ⟨⟨x, hx, hx'⟩, n, hn⟩
  · simp at g
  · have hx2 := (sortLoop_perm _ _).subset hx
    unfold globalList at hx2
    have := (List.mem_filter.mp hx2).2
    simp only [decide_eq_true_eq] at this hx' hn
    rw [hx'] at this
    refine ⟨this, ⟨n, hn⟩, ?_⟩
    rw [hn]
    exact gName_not_builtin n

theorem isBuiltinRef_iff (ops : OpCodes) (inst : Instruction) :
    isBuiltinRef ops inst = true ↔
      (inst.Op = ops.OpGetGlobal ∨ inst.Op = ops.OpSetGlobal ∨ inst.Op = ops.OpCall) ∧
        ∃ name, inst.Arg = .str name ∧ name ∈ Builtins := by
  unfold isBuiltinRef
  cases ha : inst.Arg <;> simp [or_assoc]

/-- Renaming leaves an instruction that refers to a built-in as it is, and
turns no other instruction into one that does. -/
theorem renameInstruction_builtin (ops : OpCodes) (ord : IterOrder) (is : List Instruction)
    (inst : Instruction) :
    (isBuiltinRef ops inst = true →
      renameInstruction ops (globalNameMap ops ord is) inst = inst) ∧
    isBuiltinRef ops (renameInstruction ops (globalNameMap ops ord is) inst)
      = isBuiltinRef ops inst := by
  rcases renameInstruction_Arg ops (globalNameMap ops ord is) inst with h | ⟨hop, old, new, ha, hg, h⟩
  · exact ⟨fun _ => h, by rw [h]⟩
  · obtain ⟨h1, _, h3⟩ := globalNameMap_spec ops ord is old new hg
    have e1 : isBuiltinRef ops inst = false := by
      rw [Bool.eq_false_iff]
      intro hb
      obtain ⟨_, name, hn, hmem⟩ := (isBuiltinRef_iff ops inst).mp hb
      rw [ha] at hn
      simp only [Value.str.injEq] at hn
      rw [← hn] at hmem
      exact h1 hmem
    have e2 : isBuiltinRef ops (renameInstruction ops (globalNameMap ops ord is) inst)
        = false := by
      rw [Bool.eq_false_iff]
      intro hb
      obtain ⟨_, name, hn, hmem⟩ := (isBuiltinRef_iff ops _).mp hb
      rw [h] at hn
      simp only [Value.str.injEq] at hn
      rw [← hn] at hmem
      exact h3 hmem
    exact ⟨fun hb => by rw [e1] at hb; exact absurd hb (by simp), by rw [e1, e2]⟩

theorem filter_map_fixed {α : Type} (p : α → Bool) (f : α → α) (l : List α)
    (h1 : ∀ x, p x = true → f x = x) (h2 : ∀ x, p (f x) = p x) :
    (l.map f).filter p = l.filter p := by
  induction l with
  | nil => rfl
  | cons a rest ih =>
    simp only [List.map_cons, List.filter_cons, h2, ih]
    split
    · rename_i hp
      rw [h1 a hp]
    · rfl

theorem gcRewrite_Arg (ops : OpCodes) (oldToNew : List Int) (inst : Instruction) :
    gcRewrite ops oldToNew inst = inst ∨
      ∃ v, inst.Arg = .float v ∧ ∃ w, (gcRewrite ops oldToNew inst).Arg = .float w := by
  have hc : ∀ x : Instruction, gcRewriteConstant oldToNew x = x ∨
      ∃ v, x.Arg = .float v ∧ ∃ w, (gcRewriteConstant oldToNew x).Arg = .float w := by
    intro x
    unfold gcRewriteConstant
    cases hx : x.Arg with
    | float idx =>
      right
      refine ⟨idx, rfl, ?_⟩
      simp only
      split <;> exact ⟨_, rfl⟩
    | _ => left; rfl
  have hm : ∀ x : Instruction, gcRewriteMakeFunc oldToNew x = x ∨
      ∃ v, x.Arg = .float v ∧ ∃ w, (gcRewriteMakeFunc oldToNew x).Arg = .float w := by
    intro x
    unfold gcRewriteMakeFunc
    cases hx : x.Arg with
    | float idx =>
      simp only
      split
      · right; exact ⟨idx, rfl, _, rfl⟩
      · left; rfl
    | _ => left; rfl
  rw [gcRewrite_eq]
  split_ifs
  · rcases hc inst with h | ⟨v, hv, w, hw⟩
    · rw [h]; exact hm inst
    · right
      refine ⟨v, hv, ?_⟩
      rcases hm (gcRewriteConstant oldToNew inst) with h | ⟨_, _, w', hw'⟩
      · rw [h]; exact ⟨w, hw⟩
      · exact ⟨w', hw'⟩
  · exact hc inst
  · exact hm inst
  · left; rfl

theorem gcRewrite_builtin (ops : OpCodes) (oldToNew : List Int) (inst : Instruction) :
    (isBuiltinRef ops inst = true → gcRewrite ops oldToNew inst = inst) ∧
    isBuiltinRef ops (gcRewrite ops oldToNew inst) = isBuiltinRef ops inst := by
  rcases gcRewrite_Arg ops oldToNew inst with h | ⟨v, hv, w, hw⟩
  · exact ⟨fun _ => h, by rw [h]⟩
  · have e1 : isBuiltinRef ops inst = false := by
      unfold isBuiltinRef; rw [hv]; simp
    have e2 : isBuiltinRef ops (gcRewrite ops oldToNew inst) = false := by
      unfold isBuiltinRef; rw [hw]; simp
    exact ⟨fun hb => by rw [e1] at hb; exact absurd hb (by simp), by rw [e1, e2]⟩

/-- One iteration of the loop of `Optimize` deletes instructions that refer to
built-ins or leaves them as they are. -/
theorem iteration_builtin {τ : Type} (ops : OpCodes) (ord : IterOrder) (o o' : Optimizer τ)
    (h : doCleanup ops (doNameScraping ops ord (doConstantFolding ops o)) = some o') :
    (o'.Instructions.filter (isBuiltinRef ops)).Sublist
      (o.Instructions.filter (isBuiltinRef ops)) := by
  obtain ⟨_, _, h3⟩ := doCleanup_spec ops _ o' h
  refine (List.Sublist.filter _ h3).trans ?_
  rw [doNameScraping_Instructions, filter_map_fixed _ _ _
    (fun x => (renameInstruction_builtin ops ord _ x).1)
    (fun x => (renameInstruction_builtin ops ord _ x).2)]
  exact foldLoop_filter ops _ (fun arg line => by simp [isBuiltinRef]) _ _ _

theorem Optimize_builtin {τ : Type} (ops : OpCodes) (ord : Nat → IterOrder) (o : Optimizer τ)
    (out : List Instruction × List Constant) (h : o.Optimize ops ord = some out) :
    (out.1.filter (isBuiltinRef ops)).Sublist (o.Instructions.filter (isBuiltinRef ops)) := by
  obtain ⟨o', hl, rfl⟩ := Optimize_eq ops ord o out h
  have hI := optimizeLoop_inv ops ord
    (fun x => (x.Instructions.filter (isBuiltinRef ops)).Sublist
      (o.Instructions.filter (isBuiltinRef ops)))
    (fun n x x' hx hc => (iteration_builtin ops (ord n) x x' hc).trans hx)
    _ 0 o o' (List.Sublist.refl _) hl
  simp only
  rw [gc_Instructions, filter_map_fixed _ _ _
    (fun x => (gcRewrite_builtin ops _ x).1) (fun x => (gcRewrite_builtin ops _ x).2)]
  exact hI

/-! ## Built-in protection -/

/-- C18: for every instruction stream (any opcode values, any order of map
iteration), `doNameScraping` leaves every `GetGlobal`, `SetGlobal` or `Call`
instruction whose string operand is a key of the built-in registry exactly as
it is, at its position; no key of the renaming map is a built-in name and every
new name (`g1`, `g2`, ...) is not a built-in name, so an operand that renaming
changes is never a built-in name afterwards; and the instructions referring to
built-ins in the stream that `Optimize` returns are instructions of the input,
unchanged and in their order (each one is deleted or left as it is). -/
theorem C18_builtin_protection {τ : Type} (ops : OpCodes) (ord : IterOrder)
    (orders : Nat → IterOrder) (o : Optimizer τ) :
    (∀ (i : Nat) (inst : Instruction) (name : List Nat), o.Instructions[i]? = some inst →
      (inst.Op = ops.OpGetGlobal ∨ inst.Op = ops.OpSetGlobal ∨ inst.Op = ops.OpCall) →
      inst.Arg = .str name → name ∈ Builtins →
      (doNameScraping ops ord o).Instructions[i]? = some inst) ∧
    (∀ old new, mapGet (globalNameMap ops ord o.Instructions) old = some new →
      old ∉ Builtins ∧ new ∉ Builtins) ∧
    (∀ (i : Nat) (inst inst' : Instruction), o.Instructions[i]? = some inst →
      (doNameScraping ops ord o).Instructions[i]? = some inst' → inst' ≠ inst →
      ∃ new, inst'.Arg = .str new ∧ new ∉ Builtins) ∧
    (∀ n : Nat, ascii "g" ++ itoa n ∉ Builtins) ∧
    (∀ out, o.Optimize ops orders = some out →
      (out.1.filter (isBuiltinRef ops)).Sublist (o.Instructions.filter (isBuiltinRef ops))) := by
  refine ⟨?_, ?_, ?_, gName_not_builtin, Optimize_builtin ops orders o⟩
  · intro i inst name hi hop ha hb
    rw [doNameScraping_Instructions, List.getElem?_map, hi]
    simp only [Option.map_some', Option.some.injEq]
    exact (renameInstruction_builtin ops ord _ inst).1
      ((isBuiltinRef_iff ops inst).mpr ⟨hop, name, ha, hb⟩)
  · intro old new h
    obtain ⟨h1, _, h3⟩ := globalNameMap_spec ops ord _ old new h
    exact ⟨h1, h3⟩
  · intro i inst inst' hi hi' hne
    rw [doNameScraping_Instructions, List.getElem?_map, hi] at hi'
    simp only [Option.map_some', Option.some.injEq] at hi'
    rcases renameInstruction_Arg ops (globalNameMap ops ord o.Instructions) inst with
      h | ⟨_, old, new, _, hg, h⟩
    · rw [h] at hi'
      exact absurd hi'.symm hne
    · rw [h] at hi'
      rw [← hi']
      exact ⟨new, rfl, (globalNameMap_spec ops ord _ old new hg).2.2⟩

/-! ## The symbol table under renaming -/

/-- C19 (the code at the failing input): with the globals `g1` (type tag 7) and
`g2` (type tag 9) in the symbol table and the stream `GetGlobal g1, GetGlobal
g2, GetGlobal g2`, the renaming map is `g2 ↦ g1, g1 ↦ g2`, and the instructions
are rewritten accordingly.  The loop over the renaming map updates `Globals` in
place: visiting `g2 ↦ g1` first overwrites the entry of `g1` and the second
step moves that same tag back, which leaves `g2 ↦ 9` alone; visiting `g1 ↦ g2`
first leaves `g1 ↦ 7` alone; the order in which `globalUsage` is visited makes
no difference.  In no case does `Globals` map `g2` to 7 and `g1` to 9.  A global
that keeps its name (`g1` alone, renamed to `g1`) loses its entry. -/
theorem C19_global_tags_lost :
    globalNameMap stdOps insertionOrder
        [⟨2, .str (ascii "g1"), 1⟩, ⟨2, .str (ascii "g2"), 1⟩, ⟨2, .str (ascii "g2"), 1⟩]
      = [(ascii "g2", ascii "g1"), (ascii "g1", ascii "g2")] ∧
    (doNameScraping stdOps insertionOrder
        (⟨[⟨2, .str (ascii "g1"), 1⟩, ⟨2, .str (ascii "g2"), 1⟩, ⟨2, .str (ascii "g2"), 1⟩],
          [], some ⟨[(ascii "g1", 7), (ascii "g2", 9)], []⟩⟩ : Optimizer Nat)).Instructions
      = [⟨2, .str (ascii "g2"), 1⟩, ⟨2, .str (ascii "g1"), 1⟩, ⟨2, .str (ascii "g1"), 1⟩] ∧
    (∀ gu ∈ [id, List.reverse],
      ((doNameScraping stdOps ⟨gu, id, id, id⟩
        (⟨[⟨2, .str (ascii "g1"), 1⟩, ⟨2, .str (ascii "g2"), 1⟩, ⟨2, .str (ascii "g2"), 1⟩],
          [], some ⟨[(ascii "g1", 7), (ascii "g2", 9)], []⟩⟩ : Optimizer Nat)).SymbolTable.map
            fun s => s.Globals) = some [(ascii "g2", 9)] ∧
      ((doNameScraping stdOps ⟨gu, id, List.reverse, id⟩
        (⟨[⟨2, .str (ascii "g1"), 1⟩, ⟨2, .str (ascii "g2"), 1⟩, ⟨2, .str (ascii "g2"), 1⟩],
          [], some ⟨[(ascii "g1", 7), (ascii "g2", 9)], []⟩⟩ : Optimizer Nat)).SymbolTable.map
            fun s => s.Globals) = some [(ascii "g1", 7)]) ∧
    ((doNameScraping stdOps insertionOrder
        (⟨[⟨2, .str (ascii "g1"), 1⟩], [], some ⟨[(ascii "g1", 7)], []⟩⟩ :
          Optimizer Nat)).SymbolTable.map fun s => s.Globals) = some [] := by
  refine ⟨by decide!, by decide!, ?_, by decide!⟩
  intro gu hgu
  simp only [List.mem_cons, List.mem_singleton, List.not_mem_nil, or_false] at hgu
  rcases hgu with rfl | rfl
  · exact ⟨by decide!, by decide!⟩
  · exact ⟨by decide!, by decide!⟩

/-- C20 (the code at the failing input): with the locals `l1` (slot 1) and `a`
(slot 0) in the symbol table and the stream `GetLocal 0`, slot 0 gets the new
name `l1`, and `l1`, whose slot does not occur in the stream, keeps its name:
both entries are written to the key `l1` of `newLocals`, so `Locals` ends with
the single slot 0 or the single slot 1, depending on the order of the visit,
instead of the slots 0 and 1.  The same happens to the locals `l1` (slot 0) and
`l2` (slot 1) of an earlier renaming when the stream is `GetLocal 1`. -/
theorem C20_local_slot_lost :
    ((doNameScraping stdOps insertionOrder
        (⟨[⟨4, .float (f64OfInt 0), 1⟩], [],
          some ⟨[], [(ascii "l1", 1), (ascii "a", 0)]⟩⟩ : Optimizer Nat)).SymbolTable.map
            fun s => s.Locals) = some [(ascii "l1", 0)] ∧
    ((doNameScraping stdOps ⟨id, id, id, List.reverse⟩
        (⟨[⟨4, .float (f64OfInt 0), 1⟩], [],
          some ⟨[], [(ascii "l1", 1), (ascii "a", 0)]⟩⟩ : Optimizer Nat)).SymbolTable.map
            fun s => s.Locals) = some [(ascii "l1", 1)] ∧
    ((doNameScraping stdOps insertionOrder
        (⟨[⟨4, .float (f64OfInt 1), 1⟩], [],
          some ⟨[], [(ascii "l1", 0), (ascii "l2", 1)]⟩⟩ : Optimizer Nat)).SymbolTable.map
            fun s => s.Locals) = some [(ascii "l1", 1)] ∧
    ((doNameScraping stdOps ⟨id, id, id, List.reverse⟩
        (⟨[⟨4, .float (f64OfInt 1), 1⟩], [],
          some ⟨[], [(ascii "l1", 0), (ascii "l2", 1)]⟩⟩ : Optimizer Nat)).SymbolTable.map
            fun s => s.Locals) = some [(ascii "l1", 0)] := by
  refine ⟨by decide!, by decide!, by decide!, by decide!⟩

/-! ## The names `g1`, `g2`, ... are pairwise different -/

theorem atoi_itoaAux (fuel : Nat) : ∀ (n : Nat) (acc : List Nat), n < fuel →
    (itoaAux fuel n acc).foldl (fun a d => 10 * a + (d - 48)) 0
      = acc.foldl (fun a d => 10 * a + (d - 48)) n := by
  induction fuel with
  | zero => intro n acc h; exact absurd h (by omega)
  | succ fuel ih =>
    intro n acc h
    unfold itoaAux
    split
    · simp only [List.foldl_cons]
      congr 1
      omega
    · rw [ih _ _ (by omega)]
      simp only [List.foldl_cons]
      congr 1
      omega

theorem atoi_itoa (n : Nat) : atoi (itoa n) = n := by
  unfold atoi itoa
  rw [atoi_itoaAux (n + 1) n [] (by omega)]
  rfl

theorem itoa_injective (a b : Nat) (h : itoa a = itoa b) : a = b := by
  rw [← atoi_itoa a, ← atoi_itoa b, h]

theorem gName_injective (a b : Nat) (h : ascii "g" ++ itoa a = ascii "g" ++ itoa b) : a = b :=
  itoa_injective a b (List.append_cancel_left h)

theorem gName_ne_nil (n : Nat) : ascii "g" ++ itoa n ≠ [] := by
  intro h
  have := congrArg List.length h
  simp [ascii] at this

/-! ## Maps with pairwise different keys -/

theorem keys_mapSet {κ ν : Type} [DecidableEq κ] (m : List (κ × ν)) (k : κ) (v : ν) :
    ∀ x, x ∈ (mapSet m k v).map Prod.fst ↔ x ∈ m.map Prod.fst ∨ x = k := by
  induction m with
  | nil => intro x; simp [mapSet]
  | cons e rest ih =>
    intro x
    obtain ⟨k0, v0⟩ := e
    by_cases h : k0 = k
    · subst h
      simp only [mapSet, if_true, List.map_cons, List.mem_cons]
      tauto
    · simp only [mapSet, h, if_false, List.map_cons, List.mem_cons, ih]
      tauto

theorem nodup_mapSet {κ ν : Type} [DecidableEq κ] (m : List (κ × ν)) (k : κ) (v : ν)
    (h : (m.map Prod.fst).Nodup) : ((mapSet m k v).map Prod.fst).Nodup := by
  induction m with
  | nil => simp [mapSet]
  | cons e rest ih =>
    obtain ⟨k0, v0⟩ := e
    simp only [List.map_cons, List.nodup_cons] at h
    by_cases h' : k0 = k
    · subst h'
      simp only [mapSet, if_true, List.map_cons, List.nodup_cons]
      exact h
    · simp only [mapSet, h', if_false, List.map_cons, List.nodup_cons]
      refine ⟨?_, ih h.2⟩
      intro hm
      rcases (keys_mapSet rest k v k0).mp hm with g | g
      · exact h.1 g
      · exact h' g

theorem mapGet_none_iff {κ ν : Type} [DecidableEq κ] (m : List (κ × ν)) (k : κ) :
    mapGet m k = none ↔ k ∉ m.map Prod.fst := by
  induction m with
  | nil => simp [mapGet]
  | cons e rest ih =>
    obtain ⟨k0, v0⟩ := e
    by_cases h : k0 = k
    · simp [mapGet, h]
    · simp only [mapGet, h, if_false, ih, List.map_cons, List.mem_cons, not_or]
      constructor
      · intro g; exact ⟨fun e => h e.symm, g⟩
      · intro g; exact g.2

theorem mapGet_of_mem {κ ν : Type} [DecidableEq κ] (m : List (κ × ν)) (k : κ) (v : ν)
    (hn : (m.map Prod.fst).Nodup) (h : (k, v) ∈ m) : mapGet m k = some v := by
  induction m with
  | nil => simp at h
  | cons e rest ih =>
    obtain ⟨k0, v0⟩ := e
    simp only [List.map_cons, List.nodup_cons] at hn
    rcases List.mem_cons.mp h with h | h
    · simp only [Prod.mk.injEq] at h
      simp [mapGet, h.1, h.2]
    · have hne : k0 ≠ k := by
        intro e
        apply hn.1
        rw [e]
        exact List.mem_map_of_mem Prod.fst h
      simp only [mapGet, hne, if_false]
      exact ih hn.2 h

theorem mapGet_iff_mem {κ ν : Type} [DecidableEq κ] (m : List (κ × ν)) (k : κ) (v : ν)
    (hn : (m.map Prod.fst).Nodup) : mapGet m k = some v ↔ (k, v) ∈ m :=
  ⟨mapGet_mem m k v, mapGet_of_mem m k v hn⟩

/-- A map with pairwise different keys has pairwise different entries. -/
theorem nodup_of_keys {κ ν : Type} (m : List (κ × ν)) (h : (m.map Prod.fst).Nodup) :
    m.Nodup := List.Nodup.of_map Prod.fst h

/-! ## The assignment of the new names -/

/-- The loop that assigns the new names, on a list with pairwise different
names: the entry at position `i` gets the name `g(c + i)`; other keys keep what
the map held. -/
theorem assignGlobals_spec : ∀ (l : List (List Nat × Nat)) (c : Nat)
    (m : List (List Nat × List Nat)), (l.map Prod.fst).Nodup →
    (∀ (i : Nat) (e : List Nat × Nat), l[i]? = some e →
      mapGet (assignGlobals l c m) e.1 = some (ascii "g" ++ itoa (c + i))) ∧
    (∀ name, name ∉ l.map Prod.fst → mapGet (assignGlobals l c m) name = mapGet m name) := by
  intro l
  induction l with
  | nil =>
    intro c m _
    exact ⟨fun i e h => by simp at h, fun name _ => rfl⟩
  | cons info rest ih =>
    intro c m hn
    simp only [List.map_cons, List.nodup_cons] at hn
    obtain ⟨ih1, ih2⟩ := ih (c + 1) (mapSet m info.1 (ascii "g" ++ itoa c)) hn.2
    simp only [assignGlobals]
    constructor
    · intro i e he
      cases i with
      | zero =>
        simp only [List.getElem?_cons_zero, Option.some.injEq] at he
        subst he
        rw [ih2 _ hn.1, mapGet_mapSet_self]
        rfl
      | succ i =>
        simp only [List.getElem?_cons_succ] at he
        rw [ih1 i e he]
        congr 3
        omega
    · intro name hname
      simp only [List.map_cons, List.mem_cons, not_or] at hname
      rw [ih2 name hname.2, mapGet_mapSet_ne _ _ _ _ hname.1]

/-! ## The sort of `globalList` puts the usages in descending order -/

theorem sortPass_length : ∀ (l : List (List Nat × Nat)) (x : List Nat × Nat),
    (sortPass x l).2.length = l.length := by
  intro l
  induction l with
  | nil => intro x; rfl
  | cons y ys ih =>
    intro x
    unfold sortPass
    split <;> simp [ih]

/-- After the inner loop the entry at position `i` has the greatest usage. -/
theorem sortPass_max : ∀ (l : List (List Nat × Nat)) (x : List Nat × Nat),
    x.2 ≤ (sortPass x l).1.2 ∧ ∀ y ∈ (sortPass x l).2, y.2 ≤ (sortPass x l).1.2 := by
  intro l
  induction l with
  | nil => intro x; exact ⟨le_refl _, fun y hy => by simp [sortPass] at hy⟩
  | cons y ys ih =>
    intro x
    unfold sortPass
    split
    · rename_i hgt
      obtain ⟨h1, h2⟩ := ih y
      refine ⟨by simp only; omega, ?_⟩
      intro z hz
      simp only [List.mem_cons] at hz
      rcases hz with hz | hz
      · rw [hz]; simp only; omega
      · exact h2 z hz
    · rename_i hle
      obtain ⟨h1, h2⟩ := ih x
      refine ⟨h1, ?_⟩
      intro z hz
      simp only [List.mem_cons] at hz
      rcases hz with hz | hz
      · rw [hz]; simp only; omega
      · exact h2 z hz

theorem sortLoop_sorted : ∀ (fuel : Nat) (l : List (List Nat × Nat)), l.length ≤ fuel →
    (sortLoop fuel l).Pairwise (fun a b => b.2 ≤ a.2) := by
  intro fuel
  induction fuel with
  | zero =>
    intro l h
    have : l = [] := List.length_eq_zero.mp (by omega)
    subst this
    simp [sortLoop]
  | succ fuel ih =>
    intro l h
    cases l with
    | nil => simp [sortLoop]
    | cons x xs =>
      simp only [sortLoop, List.pairwise_cons]
      refine ⟨?_, ih _ (by rw [sortPass_length]; simpa using h)⟩
      intro b hb
      exact (sortPass_max xs x).2 b ((sortLoop_perm _ _).subset hb)

/-- Two lists with the same entries, both in strictly descending order of
usage, are equal. -/
theorem strictly_sorted_unique (l₁ l₂ : List (List Nat × Nat)) (hp : l₁.Perm l₂)
    (h1 : l₁.Pairwise (fun a b => b.2 < a.2)) (h2 : l₂.Pairwise (fun a b => b.2 < a.2)) :
    l₁ = l₂ := by
  haveI : IsAntisymm (List Nat × Nat) (fun a b => b.2 < a.2) :=
    ⟨fun a b g1 g2 => absurd g1 (by omega)⟩
  exact List.eq_of_perm_of_sorted hp h1 h2

/-- A list in descending order of usage whose entries have pairwise different
usages is in strictly descending order. -/
theorem sorted_strict (l : List (List Nat × Nat)) (h1 : l.Pairwise (fun a b => b.2 ≤ a.2))
    (h2 : l.Pairwise (fun a b => a.2 ≠ b.2)) : l.Pairwise (fun a b => b.2 < a.2) := by
  have := h1.and h2
  exact this.imp (fun {a b} h => by omega)

/-! ## Usage counters -/

theorem mapGet_mapIncr {κ : Type} [DecidableEq κ] (m : List (κ × Nat)) (n name : κ) :
    mapGet (mapIncr m n) name
      = if name = n then some ((mapGet m n).getD 0 + 1) else mapGet m name := by
  unfold mapIncr
  split
  · rename_i h
    rw [h, mapGet_mapSet_self]
  · rename_i h
    exact mapGet_mapSet_ne _ _ _ _ h

theorem nodup_mapIncr {κ : Type} [DecidableEq κ] (m : List (κ × Nat)) (n : κ)
    (h : (m.map Prod.fst).Nodup) : ((mapIncr m n).map Prod.fst).Nodup :=
  nodup_mapSet m n _ h

/-- One iteration of the first loop of `doNameScraping`: either no global
counter changes, and the instruction counts for no name, or the counter of one
name `n` goes up by one, and the instruction counts for `n` only. -/
theorem scrapeUsage_step (ops : OpCodes) (inst : Instruction)
    (gu : List (List Nat × Nat)) (lu : List (Int × Nat)) :
    ∃ gu' lu', (∀ rest, scrapeUsage ops (inst :: rest) gu lu = scrapeUsage ops rest gu' lu') ∧
      ((gu' = gu ∧ ∀ name, countsGlobal ops name inst = false) ∨
        ∃ n, gu' = mapIncr gu n ∧ ∀ name, countsGlobal ops name inst = decide (name = n)) := by
  by_cases h1 : inst.Op = ops.OpGetGlobal ∨ inst.Op = ops.OpSetGlobal
  · cases ha : inst.Arg with
    | str name =>
      refine ⟨mapIncr gu name, lu, fun rest => by simp only [scrapeUsage, h1, if_true, ha],
        Or.inr ⟨name, rfl, ?_⟩⟩
      intro x
      simp only [countsGlobal, h1, if_true, ha, Value.str.injEq]
      by_cases hx : x = name
      · simp [hx]
      · simp [hx, Ne.symm hx]
    | _ =>
      exact ⟨gu, lu, fun rest => by simp only [scrapeUsage, h1, if_true, ha],
        Or.inl ⟨rfl, fun x => by simp [countsGlobal, h1, ha]⟩⟩
  · by_cases h2 : inst.Op = ops.OpGetLocal ∨ inst.Op = ops.OpSetLocal
    · have hc : ∀ x, countsGlobal ops x inst = false := fun x => by
        simp only [countsGlobal, h1, h2, if_true, if_false]
      cases ha : inst.Arg with
      | float idx =>
        exact ⟨gu, mapIncr lu (f64ToInt64 idx),
          fun rest => by simp only [scrapeUsage, h1, h2, if_true, if_false, ha], Or.inl ⟨rfl, hc⟩⟩
      | _ =>
        exact ⟨gu, lu, fun rest => by simp only [scrapeUsage, h1, h2, if_true, if_false, ha],
          Or.inl ⟨rfl, hc⟩⟩
    · by_cases h3 : inst.Op = ops.OpConstant
      · exact ⟨gu, lu, fun rest => by rw [scrapeUsage, if_neg h1, if_neg h2, if_pos h3],
          Or.inl ⟨rfl, fun x => by unfold countsGlobal; rw [if_neg h1, if_neg h2, if_pos h3]⟩⟩
      · by_cases h4 : inst.Op = ops.OpCall
        · cases ha : inst.Arg with
          | str target =>
            by_cases ht : target = []
            · refine ⟨gu, lu, ?_, Or.inl ⟨rfl, fun x => ?_⟩⟩
              · intro rest
                rw [scrapeUsage, if_neg h1, if_neg h2, if_neg h3, if_pos h4, ha]
                simp only
                rw [if_neg (by simpa using ht)]
              · unfold countsGlobal
                rw [if_neg h1, if_neg h2, if_neg h3, if_pos h4, ha]
                simp only [Value.str.injEq, decide_eq_false_iff_not, not_and, not_not, ht]
                intro hx; exact hx.symm
            · refine ⟨mapIncr gu target, lu, ?_, Or.inr ⟨target, rfl, fun x => ?_⟩⟩
              · intro rest
                rw [scrapeUsage, if_neg h1, if_neg h2, if_neg h3, if_pos h4, ha]
                simp only
                rw [if_pos ht]
              · unfold countsGlobal
                rw [if_neg h1, if_neg h2, if_neg h3, if_pos h4, ha]
                simp only [Value.str.injEq]
                by_cases hx : x = target
                · simp [hx, ht]
                · simp [hx, Ne.symm hx]
          | _ =>
            refine ⟨gu, lu, ?_, Or.inl ⟨rfl, fun x => ?_⟩⟩
            · intro rest
              rw [scrapeUsage, if_neg h1, if_neg h2, if_neg h3, if_pos h4, ha]
            · unfold countsGlobal
              rw [if_neg h1, if_neg h2, if_neg h3, if_pos h4, ha]
              simp
        · exact ⟨gu, lu, fun rest => by rw [scrapeUsage, if_neg h1, if_neg h2, if_neg h3, if_neg h4],
            Or.inl ⟨rfl, fun x => by
              unfold countsGlobal; rw [if_neg h1, if_neg h2, if_neg h3, if_neg h4]⟩⟩

/-- The counter of `name` after the first loop of `doNameScraping`. -/
theorem scrapeUsage_global (ops : OpCodes) (name : List Nat) (is : List Instruction) :
    ∀ (gu : List (List Nat × Nat)) (lu : List (Int × Nat)),
      mapGet (scrapeUsage ops is gu lu).1 name
        = if globalUsageOf ops is name = 0 then mapGet gu name
          else some ((mapGet gu name).getD 0 + globalUsageOf ops is name) := by
  induction is with
  | nil => intro gu lu; simp [scrapeUsage, globalUsageOf]
  | cons inst rest ih =>
    intro gu lu
    obtain ⟨gu', lu', he, hc⟩ := scrapeUsage_step ops inst gu lu
    rw [he rest, ih gu' lu']
    rcases hc with ⟨rfl, hc⟩ | ⟨n, rfl, hc⟩
    · have : globalUsageOf ops (inst :: rest) name = globalUsageOf ops rest name := by
        unfold globalUsageOf
        rw [List.filter_cons, hc name]
        rfl
      rw [this]
    · by_cases hn : name = n
      · subst hn
        have : globalUsageOf ops (inst :: rest) name = globalUsageOf ops rest name + 1 := by
          unfold globalUsageOf
          rw [List.filter_cons, hc name]
          simp
        rw [this, mapGet_mapIncr, if_pos rfl, if_neg (Nat.succ_ne_zero _)]
        split
        · rename_i h0
          rw [h0]
        · simp only [Option.getD_some, Option.some.injEq]
          omega
      · have : globalUsageOf ops (inst :: rest) name = globalUsageOf ops rest name := by
          unfold globalUsageOf
          rw [List.filter_cons, hc name]
          simp [hn]
        rw [this, mapGet_mapIncr, if_neg hn]

theorem scrapeUsage_nodup (ops : OpCodes) (is : List Instruction) :
    ∀ (gu : List (List Nat × Nat)) (lu : List (Int × Nat)), (gu.map Prod.fst).Nodup →
      ((scrapeUsage ops is gu lu).1.map Prod.fst).Nodup := by
  induction is with
  | nil => intro gu lu h; exact h
  | cons inst rest ih =>
    intro gu lu h
    obtain ⟨gu', lu', he, hc⟩ := scrapeUsage_step ops inst gu lu
    rw [he rest]
    rcases hc with ⟨rfl, _⟩ | ⟨n, rfl, _⟩
    · exact ih _ _ h
    · exact ih _ _ (nodup_mapIncr _ _ h)

/-- The entries of `globalList`: the names that are not built-ins and occur in
the stream, each with its usage. -/
theorem mem_globalList (ops : OpCodes) (ord : IterOrder) (hord : ord.Valid)
    (is : List Instruction) (name : List Nat) (c : Nat) :
    (name, c) ∈ globalList ops ord is ↔
      name ∉ Builtins ∧ 0 < c ∧ globalUsageOf ops is name = c := by
  unfold globalList
  rw [List.mem_filter, (hord.1 _).mem_iff,
    ← mapGet_iff_mem _ _ _ (scrapeUsage_nodup ops is [] [] (by simp)), scrapeUsage_global]
  simp only [mapGet, Option.getD_none, Nat.zero_add, decide_eq_true_eq]
  constructor
  · rintro ⟨h1, h2⟩
    split at h1
    · exact absurd h1 (by simp)
    · simp only [Option.some.injEq] at h1
      exact ⟨h2, by omega, h1⟩
  · rintro ⟨h1, h2, h3⟩
    rw [if_neg (by omega), h3]
    exact ⟨rfl, h1⟩

theorem globalList_nodup (ops : OpCodes) (ord : IterOrder) (hord : ord.Valid)
    (is : List Instruction) : ((globalList ops ord is).map Prod.fst).Nodup := by
  unfold globalList
  have h1 := scrapeUsage_nodup ops is [] [] (by simp)
  have h2 : ((ord.globalUsage (scrapeUsage ops is [] []).1).map Prod.fst).Nodup :=
    ((hord.1 _).map Prod.fst).nodup_iff.mpr h1
  exact (List.Sublist.map Prod.fst (List.filter_sublist _)).nodup h2

/-! ## The renaming map -/

theorem globalNameMap_eq (ops : OpCodes) (ord : IterOrder) (is : List Instruction) :
    globalNameMap ops ord is = assignGlobals (sortedGlobals ops ord is) 1 [] := rfl

theorem sortedGlobals_perm (ops : OpCodes) (ord : IterOrder) (is : List Instruction) :
    (sortedGlobals ops ord is).Perm (globalList ops ord is) := sortLoop_perm _ _

theorem sortedGlobals_nodup (ops : OpCodes) (ord : IterOrder) (hord : ord.Valid)
    (is : List Instruction) : ((sortedGlobals ops ord is).map Prod.fst).Nodup :=
  ((sortedGlobals_perm ops ord is).map Prod.fst).nodup_iff.mpr (globalList_nodup ops ord hord is)

theorem mem_sortedGlobals (ops : OpCodes) (ord : IterOrder) (hord : ord.Valid)
    (is : List Instruction) (name : List Nat) (c : Nat) :
    (name, c) ∈ sortedGlobals ops ord is ↔
      name ∉ Builtins ∧ 0 < c ∧ globalUsageOf ops is name = c := by
  rw [(sortedGlobals_perm ops ord is).mem_iff]
  exact mem_globalList ops ord hord is name c

theorem sortedGlobals_sorted (ops : OpCodes) (ord : IterOrder) (is : List Instruction) :
    (sortedGlobals ops ord is).Pairwise (fun a b => b.2 ≤ a.2) :=
  sortLoop_sorted _ _ (le_refl _)

/-- The renaming map sends the name at position `i` of the sorted list to
`g(i+1)` and has no other keys. -/
theorem globalNameMap_get (ops : OpCodes) (ord : IterOrder) (hord : ord.Valid)
    (is : List Instruction) (name v : List Nat) :
    mapGet (globalNameMap ops ord is) name = some v ↔
      ∃ (i : Nat) (c : Nat), (sortedGlobals ops ord is)[i]? = some (name, c) ∧
        v = ascii "g" ++ itoa (1 + i) := by
  obtain ⟨h1, h2⟩ := assignGlobals_spec (sortedGlobals ops ord is) 1 []
    (sortedGlobals_nodup ops ord hord is)
  rw [globalNameMap_eq]
  constructor
  · intro h
    by_cases hk : name ∈ (sortedGlobals ops ord is).map Prod.fst
    · obtain ⟨e, he, hn⟩ := List.mem_map.mp hk
      obtain ⟨i, hi⟩ := List.getElem?_of_mem he
      have := h1 i e hi
      rw [hn, h] at this
      simp only [Option.some.injEq] at this
      refine ⟨i, e.2, ?_, this⟩
      rw [hi, ← hn]
    · rw [h2 name hk] at h
      simp [mapGet] at h
  · rintro ⟨i, c, hi, rfl⟩
    exact h1 i (name, c) hi

theorem globalNameMap_none (ops : OpCodes) (ord : IterOrder) (hord : ord.Valid)
    (is : List Instruction) (name : List Nat)
    (h : name ∈ Builtins ∨ globalUsageOf ops is name = 0) :
    mapGet (globalNameMap ops ord is) name = none := by
  cases hg : mapGet (globalNameMap ops ord is) name with
  | none => rfl
  | some v =>
    obtain ⟨i, c, hi, _⟩ := (globalNameMap_get ops ord hord is name v).mp hg
    obtain ⟨h1, h2, h3⟩ := (mem_sortedGlobals ops ord hord is name c).mp (List.getElem?_mem hi)
    rcases h with h | h
    · exact absurd h h1
    · omega

theorem renameName_of_entry (ops : OpCodes) (ord : IterOrder) (hord : ord.Valid)
    (is : List Instruction) (i : Nat) (name : List Nat) (c : Nat)
    (h : (sortedGlobals ops ord is)[i]? = some (name, c)) :
    renameName (globalNameMap ops ord is) name = ascii "g" ++ itoa (1 + i) := by
  unfold renameName
  rw [(globalNameMap_get ops ord hord is name _).mpr ⟨i, c, h, rfl⟩]
  rfl

/-- Positions in a list with pairwise different keys are determined by the key. -/
theorem index_unique (l : List (List Nat × Nat)) (hn : (l.map Prod.fst).Nodup) (i j : Nat)
    (a b : List Nat × Nat) (hi : l[i]? = some a) (hj : l[j]? = some b) (h : a.1 = b.1) :
    i = j := by
  have hi' : (l.map Prod.fst)[i]? = some a.1 := by rw [List.getElem?_map, hi]; rfl
  have hj' : (l.map Prod.fst)[j]? = some a.1 := by rw [List.getElem?_map, hj, h]; rfl
  have li : i < (l.map Prod.fst).length := by
    by_contra hc
    rw [List.getElem?_eq_none (by omega)] at hi'
    exact absurd hi' (by simp)
  have lj : j < (l.map Prod.fst).length := by
    by_contra hc
    rw [List.getElem?_eq_none (by omega)] at hj'
    exact absurd hj' (by simp)
  rw [List.getElem?_eq_getElem li] at hi'
  rw [List.getElem?_eq_getElem lj] at hj'
  simp only [Option.some.injEq] at hi' hj'
  exact (List.Nodup.getElem_inj_iff hn).mp (hi'.trans hj'.symm)

/-! ## Usage counts under renaming -/

theorem Distinct_call (ops : OpCodes) (hd : ops.Distinct) :
    ops.OpCall ≠ ops.OpGetGlobal ∧ ops.OpCall ≠ ops.OpSetGlobal ∧
    ops.OpCall ≠ ops.OpGetLocal ∧ ops.OpCall ≠ ops.OpSetLocal ∧
    ops.OpCall ≠ ops.OpConstant := by
  unfold OpCodes.Distinct at hd
  refine ⟨?_, ?_, ?_, ?_, ?_⟩ <;> (intro h; rw [h] at hd; simp at hd)

theorem Distinct_local (ops : OpCodes) (hd : ops.Distinct) :
    ops.OpConstant ≠ ops.OpGetLocal ∧ ops.OpConstant ≠ ops.OpSetLocal ∧
    ops.OpMakeFunc ≠ ops.OpGetLocal ∧ ops.OpMakeFunc ≠ ops.OpSetLocal := by
  unfold OpCodes.Distinct at hd
  refine ⟨?_, ?_, ?_, ?_⟩ <;> (intro h; rw [h] at hd; simp at hd)

/-- When the instruction counts for the usage of a name. -/
theorem countsGlobal_iff (ops : OpCodes) (hd : ops.Distinct) (y : List Nat)
    (inst : Instruction) :
    countsGlobal ops y inst = true ↔
      inst.Arg = .str y ∧ ((inst.Op = ops.OpGetGlobal ∨ inst.Op = ops.OpSetGlobal) ∨
        (inst.Op = ops.OpCall ∧ y ≠ [])) := by
  obtain ⟨c1, c2, c3, c4, c5⟩ := Distinct_call ops hd
  unfold countsGlobal
  by_cases h1 : inst.Op = ops.OpGetGlobal ∨ inst.Op = ops.OpSetGlobal
  · rw [if_pos h1]
    simp only [decide_eq_true_eq]
    tauto
  · rw [if_neg h1]
    by_cases h4 : inst.Op = ops.OpCall
    · have h2 : ¬ (inst.Op = ops.OpGetLocal ∨ inst.Op = ops.OpSetLocal) := by
        rw [h4]; tauto
      have h3 : ¬ inst.Op = ops.OpConstant := by rw [h4]; exact c5
      rw [if_neg h2, if_neg h3, if_pos h4]
      simp only [decide_eq_true_eq]
      tauto
    · split_ifs <;> simp <;> tauto

theorem renameInstruction_str (ops : OpCodes) (gm : List (List Nat × List Nat))
    (inst : Instruction) (x : List Nat) (ha : inst.Arg = .str x)
    (hop : inst.Op = ops.OpGetGlobal ∨ inst.Op = ops.OpSetGlobal ∨ inst.Op = ops.OpCall) :
    renameInstruction ops gm inst = { inst with Arg := .str (renameName gm x) } := by
  have key : (match mapGet gm x with
      | some newName => ({ inst with Arg := .str newName } : Instruction)
      | none => inst) = { inst with Arg := .str (renameName gm x) } := by
    unfold renameName
    cases hg : mapGet gm x with
    | none =>
      simp only [Option.getD_none]
      rw [← ha]
    | some v => rfl
  unfold renameInstruction
  by_cases h1 : inst.Op = ops.OpGetGlobal ∨ inst.Op = ops.OpSetGlobal
  · rw [if_pos h1, ha]
    exact key
  · have h4 : inst.Op = ops.OpCall := by tauto
    rw [if_neg h1, if_pos h4, ha]
    exact key

theorem renameInstruction_other (ops : OpCodes) (gm : List (List Nat × List Nat))
    (inst : Instruction)
    (h : ¬ ((inst.Op = ops.OpGetGlobal ∨ inst.Op = ops.OpSetGlobal ∨ inst.Op = ops.OpCall) ∧
      ∃ x, inst.Arg = .str x)) :
    renameInstruction ops gm inst = inst := by
  rcases renameInstruction_Arg ops gm inst with g | ⟨hop, old, _, ha, _⟩
  · exact g
  · exact absurd ⟨hop, old, ha⟩ h

/-- An instruction counts for `y` after renaming exactly when it counted before
for a name that is renamed to `y`. -/
theorem countsGlobal_rename (ops : OpCodes) (hd : ops.Distinct)
    (gm : List (List Nat × List Nat)) (h0 : mapGet gm [] = none)
    (h1 : ∀ k v, mapGet gm k = some v → v ≠ []) (inst : Instruction)
    (hne : inst.Op = ops.OpGetGlobal ∨ inst.Op = ops.OpSetGlobal → inst.Arg ≠ .str [])
    (y : List Nat) :
    countsGlobal ops y (renameInstruction ops gm inst) = true ↔
      ∃ x, countsGlobal ops x inst = true ∧ renameName gm x = y := by
  by_cases hs : (inst.Op = ops.OpGetGlobal ∨ inst.Op = ops.OpSetGlobal ∨
      inst.Op = ops.OpCall) ∧ ∃ x, inst.Arg = .str x
  · obtain ⟨hop, x0, ha⟩ := hs
    have hz : renameName gm x0 = [] ↔ x0 = [] := by
      unfold renameName
      constructor
      · intro hz
        cases hg : mapGet gm x0 with
        | none => rw [hg] at hz; exact hz
        | some v =>
          rw [hg] at hz
          exact absurd hz (h1 x0 v hg)
      · intro hx
        rw [hx, h0]
        rfl
    rw [renameInstruction_str ops gm inst x0 ha hop, countsGlobal_iff ops hd]
    simp only [Value.str.injEq]
    constructor
    · rintro ⟨hy, hc⟩
      refine ⟨x0, (countsGlobal_iff ops hd x0 inst).mpr ⟨ha, ?_⟩, hy⟩
      rcases hc with hc | ⟨hc, hy0⟩
      · left; exact hc
      · right
        refine ⟨hc, ?_⟩
        intro hx
        exact hy0 (by rw [← hy]; exact hz.mpr hx)
    · rintro ⟨x, hx, hxy⟩
      obtain ⟨hax, hc⟩ := (countsGlobal_iff ops hd x inst).mp hx
      rw [ha] at hax
      simp only [Value.str.injEq] at hax
      subst hax
      refine ⟨hxy, ?_⟩
      rcases hc with hc | ⟨hc, hx0⟩
      · left; exact hc
      · right
        refine ⟨hc, ?_⟩
        rw [← hxy]
        intro hzz
        exact hx0 (hz.mp hzz)
  · rw [renameInstruction_other ops gm inst hs]
    constructor
    · intro hc
      exfalso
      obtain ⟨ha, hop⟩ := (countsGlobal_iff ops hd y inst).mp hc
      exact hs ⟨by tauto, y, ha⟩
    · rintro ⟨x, hx, _⟩
      exfalso
      obtain ⟨ha, hop⟩ := (countsGlobal_iff ops hd x inst).mp hx
      exact hs ⟨by tauto, x, ha⟩

theorem globalUsageOf_pos (ops : OpCodes) (is : List Instruction) (name : List Nat) :
    0 < globalUsageOf ops is name ↔ ∃ inst ∈ is, countsGlobal ops name inst = true := by
  unfold globalUsageOf
  rw [List.length_pos_iff_exists_mem]
  constructor
  · rintro ⟨a, ha⟩
    exact ⟨a, (List.mem_filter.mp ha).1, (List.mem_filter.mp ha).2⟩
  · rintro ⟨a, h1, h2⟩
    exact ⟨a, List.mem_filter.mpr ⟨h1, h2⟩⟩

theorem globalUsageOf_congr (ops : OpCodes) (is : List Instruction) (f : Instruction → Instruction)
    (x y : List Nat) (h : ∀ inst ∈ is, countsGlobal ops y (f inst) = countsGlobal ops x inst) :
    globalUsageOf ops (is.map f) y = globalUsageOf ops is x := by
  unfold globalUsageOf
  induction is with
  | nil => rfl
  | cons a rest ih =>
    have ih' := ih (fun inst hm => h inst (List.mem_cons_of_mem _ hm))
    simp only [List.map_cons, List.filter_cons, h a (List.mem_cons_self _ _)]
    split
    · simp only [List.length_cons, ih']
    · exact ih'

/-! ## Renaming a renamed stream -/

theorem gEntries_get : ∀ (l : List (List Nat × Nat)) (c i : Nat),
    (gEntries c l)[i]? = (l[i]?).map (fun a => (ascii "g" ++ itoa (c + i), a.2)) := by
  intro l
  induction l with
  | nil => intro c i; simp [gEntries]
  | cons e rest ih =>
    intro c i
    cases i with
    | zero => simp [gEntries]
    | succ i =>
      simp only [gEntries, List.getElem?_cons_succ, ih]
      congr 1
      funext a
      congr 3
      omega

theorem mem_gEntries (l : List (List Nat × Nat)) (c : Nat) (e : List Nat × Nat) :
    e ∈ gEntries c l ↔ ∃ (i : Nat) (a : List Nat × Nat), l[i]? = some a ∧
      e = (ascii "g" ++ itoa (c + i), a.2) := by
  constructor
  · intro h
    obtain ⟨i, hi⟩ := List.getElem?_of_mem h
    rw [gEntries_get] at hi
    cases ha : l[i]? with
    | none => rw [ha] at hi; simp at hi
    | some a =>
      rw [ha] at hi
      simp only [Option.map_some', Option.some.injEq] at hi
      exact ⟨i, a, ha, hi.symm⟩
  · rintro ⟨i, a, ha, rfl⟩
    apply List.getElem?_mem (n := i)
    rw [gEntries_get, ha]
    rfl

theorem gEntries_snd : ∀ (l : List (List Nat × Nat)) (c : Nat),
    (gEntries c l).map Prod.snd = l.map Prod.snd := by
  intro l
  induction l with
  | nil => intro c; rfl
  | cons e rest ih => intro c; simp [gEntries, ih]

theorem gEntries_nodup (l : List (List Nat × Nat)) (c : Nat) :
    ((gEntries c l).map Prod.fst).Nodup := by
  rw [List.nodup_iff_getElem?_ne_getElem?]
  intro i j hij hj
  rw [List.getElem?_map, List.getElem?_map, gEntries_get, gEntries_get]
  rw [List.length_map] at hj
  have hj' : j < l.length := by
    have := congrArg List.length (gEntries_snd l c)
    simp only [List.length_map] at this
    omega
  rw [List.getElem?_eq_getElem hj', List.getElem?_eq_getElem (by omega : i < l.length)]
  simp only [Option.map_some', ne_eq, Option.some.injEq]
  intro h
  have := gName_injective _ _ h
  omega

theorem gEntries_sorted (l : List (List Nat × Nat)) (c : Nat)
    (h : l.Pairwise (fun a b => b.2 ≤ a.2)) :
    (gEntries c l).Pairwise (fun a b => b.2 ≤ a.2) := by
  have h1 : (l.map Prod.snd).Pairwise (fun a b => b ≤ a) := List.pairwise_map.mpr h
  rw [← gEntries_snd l c] at h1
  exact List.pairwise_map.mp h1

theorem counts_nil (ops : OpCodes) (hd : ops.Distinct) (is : List Instruction)
    (hne : NoEmptyGlobal ops is) : globalUsageOf ops is [] = 0 := by
  by_contra hc
  obtain ⟨inst, hm, hcount⟩ := (globalUsageOf_pos ops is []).mp (by omega)
  obtain ⟨ha, hop⟩ := (countsGlobal_iff ops hd [] inst).mp hcount
  rcases hop with hop | ⟨_, hx⟩
  · exact hne inst hm hop ha
  · exact hx rfl

theorem globalNameMap_values (ops : OpCodes) (ord : IterOrder) (is : List Instruction)
    (k v : List Nat) (h : mapGet (globalNameMap ops ord is) k = some v) : v ≠ [] := by
  obtain ⟨_, ⟨n, hn⟩, _⟩ := globalNameMap_spec ops ord is k v h
  rw [hn]
  exact gName_ne_nil n

/-- The usage of the new name `g(i+1)` in the renamed stream is the usage of
the name at position `i` of the sorted list in the stream before. -/
theorem usage_renamed (ops : OpCodes) (hd : ops.Distinct) (ord : IterOrder) (hord : ord.Valid)
    (is : List Instruction) (hne : NoEmptyGlobal ops is) (i : Nat) (x : List Nat) (c : Nat)
    (hi : (sortedGlobals ops ord is)[i]? = some (x, c)) :
    globalUsageOf ops (is.map (renameInstruction ops (globalNameMap ops ord is)))
      (ascii "g" ++ itoa (1 + i)) = c := by
  have hc := ((mem_sortedGlobals ops ord hord is x c).mp (List.getElem?_mem hi)).2.2
  rw [← hc]
  apply globalUsageOf_congr
  intro inst hm
  rw [Bool.eq_iff_iff, countsGlobal_rename ops hd _
    (globalNameMap_none ops ord hord is [] (Or.inr (counts_nil ops hd is hne)))
    (globalNameMap_values ops ord is) inst (hne inst hm)]
  constructor
  · rintro ⟨x', hx', hr⟩
    have hpos : 0 < globalUsageOf ops is x' := (globalUsageOf_pos ops is x').mpr ⟨inst, hm, hx'⟩
    by_cases hb : x' ∈ Builtins
    · exfalso
      unfold renameName at hr
      rw [globalNameMap_none ops ord hord is x' (Or.inl hb)] at hr
      simp only [Option.getD_none] at hr
      rw [hr] at hb
      exact gName_not_builtin _ hb
    · have hmem := (mem_sortedGlobals ops ord hord is x' _).mpr ⟨hb, hpos, rfl⟩
      obtain ⟨i', hi'⟩ := List.getElem?_of_mem hmem
      rw [renameName_of_entry ops ord hord is i' x' _ hi'] at hr
      have hii : i' = i := by
        have := gName_injective _ _ hr
        omega
      rw [hii, hi] at hi'
      simp only [Option.some.injEq, Prod.mk.injEq] at hi'
      rw [hi'.1]
      exact hx'
  · intro hx
    exact ⟨x, hx, renameName_of_entry ops ord hord is i x c hi⟩

/-- Every name of the renamed stream that is not a built-in and is used is one
of the new names. -/
theorem used_renamed (ops : OpCodes) (hd : ops.Distinct) (ord : IterOrder) (hord : ord.Valid)
    (is : List Instruction) (hne : NoEmptyGlobal ops is) (y : List Nat) (hb : y ∉ Builtins)
    (hpos : 0 < globalUsageOf ops (is.map (renameInstruction ops (globalNameMap ops ord is))) y) :
    ∃ (i : Nat) (a : List Nat × Nat), (sortedGlobals ops ord is)[i]? = some a ∧
      y = ascii "g" ++ itoa (1 + i) := by
  obtain ⟨inst', hm', hcount⟩ := (globalUsageOf_pos ops _ y).mp hpos
  obtain ⟨inst, hm, rfl⟩ := List.mem_map.mp hm'
  rw [countsGlobal_rename ops hd _
    (globalNameMap_none ops ord hord is [] (Or.inr (counts_nil ops hd is hne)))
    (globalNameMap_values ops ord is) inst (hne inst hm)] at hcount
  obtain ⟨x', hx', hr⟩ := hcount
  have hpos' : 0 < globalUsageOf ops is x' := (globalUsageOf_pos ops is x').mpr ⟨inst, hm, hx'⟩
  by_cases hb' : x' ∈ Builtins
  · exfalso
    unfold renameName at hr
    rw [globalNameMap_none ops ord hord is x' (Or.inl hb')] at hr
    simp only [Option.getD_none] at hr
    rw [hr] at hb'
    exact hb hb'
  · have hmem := (mem_sortedGlobals ops ord hord is x' _).mpr ⟨hb', hpos', rfl⟩
    obtain ⟨i', hi'⟩ := List.getElem?_of_mem hmem
    rw [renameName_of_entry ops ord hord is i' x' _ hi'] at hr
    exact ⟨i', _, hi', hr.symm⟩

/-- Entries with pairwise different names, none a built-in, each with its
usage in a stream without ties, have pairwise different usages. -/
theorem usages_differ (ops : OpCodes) (is : List Instruction) (hties : NoUsageTies ops is)
    (l : List (List Nat × Nat)) (hn : (l.map Prod.fst).Nodup)
    (hl : ∀ e ∈ l, e.1 ∉ Builtins ∧ 0 < e.2 ∧ globalUsageOf ops is e.1 = e.2) :
    l.Pairwise (fun a b => a.2 ≠ b.2) := by
  have h1 : l.Pairwise (fun a b => a.1 ≠ b.1) := List.pairwise_map.mp hn
  refine h1.imp_of_mem ?_
  intro a b ha hb hab heq
  obtain ⟨a1, a2, a3⟩ := hl a ha
  obtain ⟨b1, _, b3⟩ := hl b hb
  exact hab (hties a.1 b.1 a1 b1 (by omega) (by omega))

/-- The sorted list of the renamed stream is the sorted list of the stream
before, under the new names. -/
theorem sortedGlobals_renamed (ops : OpCodes) (hd : ops.Distinct) (ord ord' : IterOrder)
    (hord : ord.Valid) (hord' : ord'.Valid) (is : List Instruction)
    (hne : NoEmptyGlobal ops is)
    (hties : NoUsageTies ops (is.map (renameInstruction ops (globalNameMap ops ord is)))) :
    sortedGlobals ops ord' (is.map (renameInstruction ops (globalNameMap ops ord is)))
      = gEntries 1 (sortedGlobals ops ord is) := by
  have hmem : ∀ e : List Nat × Nat,
      e ∈ sortedGlobals ops ord' (is.map (renameInstruction ops (globalNameMap ops ord is))) ↔
        e ∈ gEntries 1 (sortedGlobals ops ord is) := by
    rintro ⟨y, c⟩
    rw [mem_sortedGlobals ops ord' hord', mem_gEntries]
    constructor
    · rintro ⟨hb, hpos, hu⟩
      obtain ⟨i, a, hi, hy⟩ := used_renamed ops hd ord hord is hne y hb (by omega)
      refine ⟨i, a, hi, ?_⟩
      have := usage_renamed ops hd ord hord is hne i a.1 a.2 hi
      rw [← hy, hu] at this
      rw [hy, this]
    · rintro ⟨i, a, hi, he⟩
      simp only [Prod.mk.injEq] at he
      obtain ⟨rfl, rfl⟩ := he
      have := usage_renamed ops hd ord hord is hne i a.1 a.2 hi
      have hpos := ((mem_sortedGlobals ops ord hord is a.1 a.2).mp (List.getElem?_mem hi)).2.1
      exact ⟨gName_not_builtin _, hpos, this⟩
  have hn1 := sortedGlobals_nodup ops ord' hord'
    (is.map (renameInstruction ops (globalNameMap ops ord is)))
  have hn2 := gEntries_nodup (sortedGlobals ops ord is) 1
  have hperm := (List.perm_ext_iff_of_nodup (nodup_of_keys _ hn1) (nodup_of_keys _ hn2)).mpr hmem
  refine strictly_sorted_unique _ _ hperm ?_ ?_
  · refine sorted_strict _ (sortedGlobals_sorted ops ord' _) (usages_differ ops _ hties _ hn1 ?_)
    intro e he
    exact (mem_sortedGlobals ops ord' hord' _ e.1 e.2).mp he
  · refine sorted_strict _ (gEntries_sorted _ 1 (sortedGlobals_sorted ops ord is))
      (usages_differ ops _ hties _ hn2 ?_)
    intro e he
    exact (mem_sortedGlobals ops ord' hord' _ e.1 e.2).mp ((hmem e).mpr he)

/-- Renaming a stream that has just been renamed changes nothing, when no two
names of it have the same usage. -/
theorem rename_renamed (ops : OpCodes) (hd : ops.Distinct) (ord ord' : IterOrder)
    (hord : ord.Valid) (hord' : ord'.Valid) (is : List Instruction)
    (hne : NoEmptyGlobal ops is)
    (hties : NoUsageTies ops (is.map (renameInstruction ops (globalNameMap ops ord is))))
    (inst : Instruction) :
    renameInstruction ops (globalNameMap ops ord'
      (is.map (renameInstruction ops (globalNameMap ops ord is)))) inst = inst := by
  rcases renameInstruction_Arg ops (globalNameMap ops ord'
      (is.map (renameInstruction ops (globalNameMap ops ord is)))) inst with
    h | ⟨_, old, new, ha, hg, h⟩
  · exact h
  · obtain ⟨i, c, hi, hv⟩ := (globalNameMap_get ops ord' hord' _ old new).mp hg
    rw [sortedGlobals_renamed ops hd ord ord' hord hord' is hne hties, gEntries_get] at hi
    cases hl : (sortedGlobals ops ord is)[i]? with
    | none => rw [hl] at hi; simp at hi
    | some a =>
      rw [hl] at hi
      simp only [Option.map_some', Option.some.injEq, Prod.mk.injEq] at hi
      rw [h, hv, hi.1, ← ha]

/-! ## Passes that do not look at the operands of `Constant` and `MakeFunc` -/

theorem Distinct_set (ops : OpCodes) (hd : ops.Distinct) :
    ops.OpSetGlobal ≠ ops.OpConstant ∧ ops.OpSetGlobal ≠ ops.OpMakeFunc ∧
    ops.OpSetLocal ≠ ops.OpConstant ∧ ops.OpSetLocal ≠ ops.OpMakeFunc ∧
    ops.OpSetGlobal ≠ ops.OpSetLocal ∧ ops.OpGetGlobal ≠ ops.OpConstant ∧
    ops.OpGetGlobal ≠ ops.OpMakeFunc ∧ ops.OpGetLocal ≠ ops.OpConstant ∧
    ops.OpGetLocal ≠ ops.OpMakeFunc := by
  unfold OpCodes.Distinct at hd
  refine ⟨?_, ?_, ?_, ?_, ?_, ?_, ?_, ?_, ?_⟩ <;> (intro h; rw [h] at hd; simp at hd)

theorem gcRewrite_shape (ops : OpCodes) (oldToNew : List Int) (inst : Instruction) :
    SameShape ops inst (gcRewrite ops oldToNew inst) := by
  refine ⟨(gcRewrite_Op ops oldToNew inst).symm, (gcRewrite_Line ops oldToNew inst).symm, ?_⟩
  intro h1 h2
  rw [gcRewrite_eq, if_neg h1, if_neg h2]

/-- The first loop of `doNameScraping` on an instruction that is a `Constant`,
a `MakeFunc` or one of the opcodes it does not look at. -/
theorem scrapeUsage_cons_other (ops : OpCodes) (inst : Instruction) (rest : List Instruction)
    (gu : List (List Nat × Nat)) (lu : List (Int × Nat))
    (h1 : ¬ (inst.Op = ops.OpGetGlobal ∨ inst.Op = ops.OpSetGlobal))
    (h2 : ¬ (inst.Op = ops.OpGetLocal ∨ inst.Op = ops.OpSetLocal))
    (h4 : ¬ inst.Op = ops.OpCall) :
    scrapeUsage ops (inst :: rest) gu lu = scrapeUsage ops rest gu lu := by
  rw [scrapeUsage, if_neg h1, if_neg h2, if_neg h4]
  split <;> rfl

theorem poolRef_other (ops : OpCodes) (hd : ops.Distinct) (inst : Instruction)
    (hp : PoolRef ops inst) :
    ¬ (inst.Op = ops.OpGetGlobal ∨ inst.Op = ops.OpSetGlobal) ∧
    ¬ (inst.Op = ops.OpGetLocal ∨ inst.Op = ops.OpSetLocal) ∧
    ¬ inst.Op = ops.OpCall ∧ ¬ inst.Op = ops.OpSetGlobal ∧ ¬ inst.Op = ops.OpSetLocal ∧
    ¬ inst.Op = ops.OpGetGlobal ∧ ¬ inst.Op = ops.OpGetLocal := by
  obtain ⟨d1, d2, d3, d4, d5, d6, d7⟩ := Distinct_ne ops hd
  obtain ⟨e1, e2, e3, e4⟩ := Distinct_local ops hd
  rcases hp with hp | hp <;> rw [hp] <;> tauto

theorem scrapeUsage_map (ops : OpCodes) (hd : ops.Distinct) (f : Instruction → Instruction)
    (hf : ∀ inst, SameShape ops inst (f inst)) (is : List Instruction) :
    ∀ (gu : List (List Nat × Nat)) (lu : List (Int × Nat)),
      scrapeUsage ops (is.map f) gu lu = scrapeUsage ops is gu lu := by
  induction is with
  | nil => intro gu lu; rfl
  | cons a rest ih =>
    intro gu lu
    rw [List.map_cons]
    by_cases hp : PoolRef ops a
    · obtain ⟨h1, h2, h4, _⟩ := poolRef_other ops hd a hp
      have hp' : PoolRef ops (f a) := by
        unfold PoolRef at hp ⊢
        rw [← (hf a).1]
        exact hp
      obtain ⟨h1', h2', h4', _⟩ := poolRef_other ops hd (f a) hp'
      rw [scrapeUsage_cons_other ops (f a) _ gu lu h1' h2' h4',
        scrapeUsage_cons_other ops a _ gu lu h1 h2 h4]
      exact ih gu lu
    · have hfa : f a = a := ((hf a).2.2 (fun h => hp (Or.inl h)) (fun h => hp (Or.inr h))).symm
      rw [hfa, scrapeUsage, scrapeUsage]
      simp only [ih]

theorem globalList_map (ops : OpCodes) (hd : ops.Distinct) (ord : IterOrder)
    (f : Instruction → Instruction) (hf : ∀ inst, SameShape ops inst (f inst))
    (is : List Instruction) : globalList ops ord (is.map f) = globalList ops ord is := by
  unfold globalList
  rw [scrapeUsage_map ops hd f hf]

theorem globalNameMap_map (ops : OpCodes) (hd : ops.Distinct) (ord : IterOrder)
    (f : Instruction → Instruction) (hf : ∀ inst, SameShape ops inst (f inst))
    (is : List Instruction) : globalNameMap ops ord (is.map f) = globalNameMap ops ord is := by
  unfold globalNameMap
  rw [globalList_map ops hd ord f hf]

theorem countsGlobal_shape (ops : OpCodes) (hd : ops.Distinct) (a b : Instruction)
    (h : SameShape ops a b) (y : List Nat) : countsGlobal ops y b = countsGlobal ops y a := by
  by_cases hp : PoolRef ops a
  · have hp' : PoolRef ops b := by
      unfold PoolRef at hp ⊢
      rw [← h.1]
      exact hp
    obtain ⟨h1, h2, h4, _⟩ := poolRef_other ops hd a hp
    obtain ⟨h1', h2', h4', _⟩ := poolRef_other ops hd b hp'
    unfold countsGlobal
    rw [if_neg h1, if_neg h2, if_neg h1', if_neg h2', if_neg h4, if_neg h4']
    simp only [ite_self]
  · rw [h.2.2 (fun h => hp (Or.inl h)) (fun h => hp (Or.inr h))]

theorem globalUsageOf_map (ops : OpCodes) (hd : ops.Distinct) (f : Instruction → Instruction)
    (hf : ∀ inst, SameShape ops inst (f inst)) (is : List Instruction) (y : List Nat) :
    globalUsageOf ops (is.map f) y = globalUsageOf ops is y :=
  globalUsageOf_congr ops is f y y (fun inst _ => countsGlobal_shape ops hd inst (f inst) (hf inst) y)

/-- The first loop of `doCleanup` on an instruction that is a `Constant`, a
`MakeFunc` with an operand that does not make it panic, or one of the opcodes
it does not look at. -/
theorem cleanupUsage_cons_other (ops : OpCodes) (cs : List Constant) (inst : Instruction)
    (rest : List Instruction) (gu : List (List Nat × Nat)) (lu : List (Int × Nat))
    (h1 : ¬ inst.Op = ops.OpGetGlobal) (h2 : ¬ inst.Op = ops.OpSetGlobal)
    (h3 : ¬ inst.Op = ops.OpGetLocal) (h4 : ¬ inst.Op = ops.OpSetLocal)
    (h6 : ¬ inst.Op = ops.OpCall)
    (hs : inst.Op = ops.OpMakeFunc → ∀ idx, inst.Arg = .float idx → 0 ≤ f64ToInt64 idx) :
    cleanupUsage ops cs (inst :: rest) gu lu = cleanupUsage ops cs rest gu lu := by
  rw [cleanupUsage, if_neg h1, if_neg h2, if_neg h3, if_neg h4]
  by_cases h5 : inst.Op = ops.OpMakeFunc
  · rw [if_pos h5]
    cases ha : inst.Arg with
    | float idx =>
      simp only
      rw [if_neg]
      have := hs h5 idx ha
      omega
    | _ => rfl
  · rw [if_neg h5, if_neg h6]

theorem cleanupUsage_map (ops : OpCodes) (hd : ops.Distinct) (f : Instruction → Instruction)
    (hf : ∀ inst, SameShape ops inst (f inst)) (cs cs' : List Constant)
    (is : List Instruction) (hs : MakeFuncSafe ops is) (hs' : MakeFuncSafe ops (is.map f)) :
    ∀ (gu : List (List Nat × Nat)) (lu : List (Int × Nat)),
      cleanupUsage ops cs' (is.map f) gu lu = cleanupUsage ops cs is gu lu := by
  induction is with
  | nil => intro gu lu; rfl
  | cons a rest ih =>
    intro gu lu
    have ih' := ih (MakeFuncSafe_cons ops a rest hs)
      (MakeFuncSafe_cons ops (f a) (rest.map f) (by rw [← List.map_cons]; exact hs'))
    rw [List.map_cons]
    by_cases hp : PoolRef ops a
    · obtain ⟨_, _, h6, h2, h4, h1, h3⟩ := poolRef_other ops hd a hp
      have hp' : PoolRef ops (f a) := by
        unfold PoolRef at hp ⊢
        rw [← (hf a).1]
        exact hp
      obtain ⟨_, _, h6', h2', h4', h1', h3'⟩ := poolRef_other ops hd (f a) hp'
      rw [cleanupUsage_cons_other ops cs' (f a) _ gu lu h1' h2' h3' h4' h6'
          (hs' (f a) (by rw [List.map_cons]; exact List.mem_cons_self _ _)),
        cleanupUsage_cons_other ops cs a _ gu lu h1 h2 h3 h4 h6
          (hs a (List.mem_cons_self _ _))]
      exact ih' gu lu
    · have hfa : f a = a := ((hf a).2.2 (fun h => hp (Or.inl h)) (fun h => hp (Or.inr h))).symm
      have h5 : ¬ a.Op = ops.OpMakeFunc := fun h => hp (Or.inr h)
      rw [hfa, cleanupUsage, cleanupUsage]
      simp only [ih', h5, if_false]

/-! ## A cleanup that removes nothing -/

theorem cleanupMark_succ (ops : OpCodes) (is : List Instruction) (gu : List (List Nat × Nat))
    (lu : List (Int × Nat)) (n i : Nat) (tk : List Bool) (inst : Instruction)
    (h : is[i]? = some inst) :
    cleanupMark ops is gu lu (n + 1) i tk
      = cleanupMark ops is gu lu n (i + 1)
          ((if cleanupKeep ops gu lu inst is[i + 1]? = false ∧ 0 < i ∧
              (is[i - 1]?).any (fun p => p.Op = ops.OpConstant)
            then tk.set (i - 1) false else tk).set i
            (cleanupKeep ops gu lu inst is[i + 1]?)) := by
  rw [cleanupMark, h]

theorem cleanupMark_length (ops : OpCodes) (is : List Instruction) (gu : List (List Nat × Nat))
    (lu : List (Int × Nat)) : ∀ (n i : Nat) (tk : List Bool),
    (cleanupMark ops is gu lu n i tk).length = tk.length := by
  intro n
  induction n with
  | zero => intro i tk; rfl
  | succ n ih =>
    intro i tk
    cases h : is[i]? with
    | none => rw [cleanupMark, h]
    | some inst =>
      rw [cleanupMark_succ ops is gu lu n i tk inst h, ih]
      split <;> simp

/-- When every instruction is kept, every mark is set. -/
theorem cleanupMark_allKept (ops : OpCodes) (is : List Instruction)
    (gu : List (List Nat × Nat)) (lu : List (Int × Nat)) (h : AllKept ops gu lu is) :
    ∀ (n i : Nat) (tk : List Bool), tk.length = is.length → i + n = is.length →
      (∀ j, j < i → tk[j]? = some true) →
      ∀ j, j < is.length → (cleanupMark ops is gu lu n i tk)[j]? = some true := by
  intro n
  induction n with
  | zero =>
    intro i tk _ hin hpre j hj
    exact hpre j (by omega)
  | succ n ih =>
    intro i tk hlen hin hpre j hj
    have hi : i < is.length := by omega
    have hget : is[i]? = some is[i] := List.getElem?_eq_getElem hi
    have hk := h i is[i] hget
    rw [cleanupMark_succ ops is gu lu n i tk is[i] hget, hk]
    simp only [Bool.true_eq_false, false_and, if_false]
    refine ih (i + 1) (tk.set i true) (by simpa using hlen) (by omega) ?_ j hj
    intro j' hj'
    by_cases hji : j' = i
    · subst hji
      rw [List.getElem?_set_self]
      simp [hlen, hi]
    · rw [List.getElem?_set_ne (fun e => hji e.symm)]
      exact hpre j' (by omega)

theorem cleanupSelect_all : ∀ (is : List Instruction) (marks : List Bool),
    (∀ j, j < is.length → marks[j]? = some true) → cleanupSelect is marks = is := by
  intro is
  induction is with
  | nil => intro marks _; cases marks <;> rfl
  | cons inst rest ih =>
    intro marks h
    cases marks with
    | nil =>
      have := h 0 (by simp)
      simp at this
    | cons m ms =>
      have h0 := h 0 (by simp)
      simp only [List.getElem?_cons_zero, Option.some.injEq] at h0
      subst h0
      simp only [cleanupSelect, if_true, List.cons.injEq, true_and]
      refine ih ms ?_
      intro j hj
      have := h (j + 1) (by simpa using hj)
      simpa using this

/-- A mark that is cleared stays cleared. -/
theorem cleanupMark_stays (ops : OpCodes) (is : List Instruction) (gu : List (List Nat × Nat))
    (lu : List (Int × Nat)) (j : Nat) : ∀ (n i : Nat) (tk : List Bool), j < i →
    tk[j]? = some false → (cleanupMark ops is gu lu n i tk)[j]? = some false := by
  intro n
  induction n with
  | zero => intro i tk _ h; exact h
  | succ n ih =>
    intro i tk hji h
    have hjl : j < tk.length := by
      by_contra hc
      rw [List.getElem?_eq_none (by omega)] at h
      exact absurd h (by simp)
    cases hg : is[i]? with
    | none => rw [cleanupMark, hg]; exact h
    | some inst =>
      rw [cleanupMark_succ ops is gu lu n i tk inst hg]
      refine ih (i + 1) _ (by omega) ?_
      rw [List.getElem?_set_ne (by omega)]
      split
      · by_cases hij : i - 1 = j
        · rw [hij, List.getElem?_set_self]
          simp [hjl]
        · rw [List.getElem?_set_ne hij]
          exact h
      · exact h

/-- The mark of an instruction that is not kept ends cleared. -/
theorem cleanupMark_dropped (ops : OpCodes) (is : List Instruction)
    (gu : List (List Nat × Nat)) (lu : List (Int × Nat)) (j : Nat) (instj : Instruction)
    (hj : is[j]? = some instj) (hk : cleanupKeep ops gu lu instj is[j + 1]? = false) :
    ∀ (n i : Nat) (tk : List Bool), i ≤ j → j < i + n → tk.length = is.length →
      (cleanupMark ops is gu lu n i tk)[j]? = some false := by
  have hjl : j < is.length := by
    by_contra hc
    rw [List.getElem?_eq_none (by omega)] at hj
    exact absurd hj (by simp)
  intro n
  induction n with
  | zero => intro i tk h1 h2; exact absurd h2 (by omega)
  | succ n ih =>
    intro i tk h1 h2 hlen
    have hi : i < is.length := by omega
    have hget : is[i]? = some is[i] := List.getElem?_eq_getElem hi
    rw [cleanupMark_succ ops is gu lu n i tk is[i] hget]
    by_cases hij : i = j
    · subst hij
      rw [hget] at hj
      simp only [Option.some.injEq] at hj
      rw [hj, hk]
      refine cleanupMark_stays ops is gu lu i n (i + 1) _ (by omega) ?_
      rw [List.getElem?_set_self]
      split <;> simp [hlen, hi]
    · refine ih (i + 1) _ (by omega) (by omega) ?_
      split <;> simp [hlen]

theorem cleanupSelect_dropped : ∀ (is : List Instruction) (marks : List Bool) (j : Nat),
    j < is.length → marks[j]? = some false → (cleanupSelect is marks).length < is.length := by
  intro is
  induction is with
  | nil => intro marks j hj; exact absurd hj (by simp)
  | cons inst rest ih =>
    intro marks j hj hm
    cases marks with
    | nil => simp at hm
    | cons m ms =>
      have hle := (cleanupSelect_sublist rest ms).length_le
      cases j with
      | zero =>
        simp only [List.getElem?_cons_zero, Option.some.injEq] at hm
        subst hm
        simp only [cleanupSelect, Bool.false_eq_true, if_false, List.length_cons]
        omega
      | succ j =>
        simp only [List.getElem?_cons_succ] at hm
        have := ih ms j (by simpa using hj) hm
        cases m with
        | true => simp only [cleanupSelect, if_true, List.length_cons]; omega
        | false =>
          simp only [cleanupSelect, Bool.false_eq_true, if_false, List.length_cons]
          omega

/-- A run of `doCleanup` that does not shorten the stream keeps every
instruction. -/
theorem doCleanup_fixed {τ : Type} (ops : OpCodes) (o o' : Optimizer τ)
    (h : doCleanup ops o = some o')
    (hlen : o'.Instructions.length = o.Instructions.length) :
    ∃ gu lu, cleanupUsage ops o.Constants o.Instructions [] [] = some (gu, lu) ∧
      AllKept ops gu lu o.Instructions := by
  unfold doCleanup at h
  cases hu : cleanupUsage ops o.Constants o.Instructions [] [] with
  | none => rw [hu] at h; exact absurd h (by simp)
  | some r =>
    obtain ⟨gu, lu⟩ := r
    rw [hu] at h
    simp only [Option.some.injEq] at h
    refine ⟨gu, lu, rfl, ?_⟩
    intro i inst hi
    by_contra hk
    have hk' : cleanupKeep ops gu lu inst o.Instructions[i + 1]? = false := by
      simpa using hk
    have hil : i < o.Instructions.length := by
      by_contra hc
      rw [List.getElem?_eq_none (by omega)] at hi
      exact absurd hi (by simp)
    have hm := cleanupMark_dropped ops o.Instructions gu lu i inst hi hk'
      o.Instructions.length 0 (List.replicate o.Instructions.length false)
      (by omega) (by omega) (by simp)
    have := cleanupSelect_dropped o.Instructions _ i hil hm
    rw [← h] at hlen
    simp only at hlen
    omega

/-- When every instruction is kept, `doCleanup` returns the optimizer as it is. -/
theorem doCleanup_allKept {τ : Type} (ops : OpCodes) (o : Optimizer τ)
    (gu : List (List Nat × Nat)) (lu : List (Int × Nat))
    (hu : cleanupUsage ops o.Constants o.Instructions [] [] = some (gu, lu))
    (hk : AllKept ops gu lu o.Instructions) : doCleanup ops o = some o := by
  unfold doCleanup
  rw [hu]
  simp only
  rw [cleanupSelect_all o.Instructions _
    (cleanupMark_allKept ops o.Instructions gu lu hk o.Instructions.length 0 _
      (by simp) (by omega) (fun j hj => absurd hj (by omega)))]

theorem cleanupKeep_shape (ops : OpCodes) (hd : ops.Distinct) (gu : List (List Nat × Nat))
    (lu : List (Int × Nat)) (f : Instruction → Instruction)
    (hf : ∀ inst, SameShape ops inst (f inst)) (inst : Instruction)
    (next : Option Instruction) :
    cleanupKeep ops gu lu (f inst) (next.map f) = cleanupKeep ops gu lu inst next := by
  obtain ⟨d1, d2, d3, d4, d5, _⟩ := Distinct_set ops hd
  by_cases h1 : inst.Op = ops.OpSetGlobal
  · have hfa : f inst = inst :=
      ((hf inst).2.2 (by rw [h1]; exact d1) (by rw [h1]; exact d2)).symm
    rw [hfa]
    unfold cleanupKeep
    rw [if_pos h1, if_pos h1]
    cases next with
    | none => rfl
    | some n => simp only [Option.map_some', ← (hf n).1]
  · by_cases h2 : inst.Op = ops.OpSetLocal
    · have hfa : f inst = inst :=
        ((hf inst).2.2 (by rw [h2]; exact d3) (by rw [h2]; exact d4)).symm
      rw [hfa]
      unfold cleanupKeep
      rw [if_neg h1, if_neg h1, if_pos h2]
    · have h1' : ¬ (f inst).Op = ops.OpSetGlobal := by rw [← (hf inst).1]; exact h1
      have h2' : ¬ (f inst).Op = ops.OpSetLocal := by rw [← (hf inst).1]; exact h2
      unfold cleanupKeep
      rw [if_neg h1, if_neg h2, if_neg h1', if_neg h2']

theorem AllKept_map (ops : OpCodes) (hd : ops.Distinct) (gu : List (List Nat × Nat))
    (lu : List (Int × Nat)) (f : Instruction → Instruction)
    (hf : ∀ inst, SameShape ops inst (f inst)) (is : List Instruction)
    (h : AllKept ops gu lu is) : AllKept ops gu lu (is.map f) := by
  intro i inst' hi
  rw [List.getElem?_map] at hi
  cases hg : is[i]? with
  | none => rw [hg] at hi; simp at hi
  | some inst =>
    rw [hg] at hi
    simp only [Option.map_some', Option.some.injEq] at hi
    rw [← hi, List.getElem?_map, cleanupKeep_shape ops hd gu lu f hf]
    exact h i inst hg

/-! ## A folding pass that folds nothing -/

theorem NoFold_cons (ops : OpCodes) (cs : List Constant) (a b c : Instruction)
    (rest : List Instruction) :
    NoFold ops cs (a :: b :: c :: rest) ↔
      foldWindow ops cs a b c = none ∧ NoFold ops cs (b :: c :: rest) := by
  rw [NoFold]

theorem NoFold_short (ops : OpCodes) (cs : List Constant) (is : List Instruction)
    (h : is.length < 3) : NoFold ops cs is := by
  match is, h with
  | [], _ => simp [NoFold]
  | [_], _ => simp [NoFold]
  | [_, _], _ => simp [NoFold]

/-- A stream without a window that folds comes out of the folding loop as it
went in, with the pool. -/
theorem foldLoop_noFold (ops : OpCodes) (cs : List Constant) :
    ∀ (fuel : Nat) (is : List Instruction), NoFold ops cs is →
      foldLoop ops fuel is cs = (is, cs) := by
  intro fuel
  induction fuel with
  | zero => intro is _; exact foldLoop_zero ops is cs
  | succ fuel ih =>
    intro is h
    match is, h with
    | [], _ => exact foldLoop_nil ops _ cs
    | [a], _ => rw [foldLoop_one, ih [] (NoFold_short ops cs [] (by simp))]
    | [a, b], _ => rw [foldLoop_two, ih [b] (NoFold_short ops cs [b] (by simp))]
    | a :: b :: c :: rest, h =>
      obtain ⟨h1, h2⟩ := (NoFold_cons ops cs a b c rest).mp h
      rw [foldLoop_skip ops fuel a b c rest cs h1, ih _ h2]

/-- A run of the folding loop over the whole stream that leaves the pool at its
length has folded nothing: no window of the stream folds. -/
theorem foldLoop_fixed (ops : OpCodes) : ∀ (fuel : Nat) (is : List Instruction)
    (cs : List Constant), is.length ≤ fuel →
    (foldLoop ops fuel is cs).2.length = cs.length → NoFold ops cs is := by
  intro fuel
  induction fuel with
  | zero =>
    intro is cs h _
    exact NoFold_short ops cs is (by omega)
  | succ fuel ih =>
    intro is cs hlen h
    match is, hlen with
    | [], _ => exact NoFold_short ops cs [] (by simp)
    | [a], _ => exact NoFold_short ops cs [a] (by simp)
    | [a, b], _ => exact NoFold_short ops cs [a, b] (by simp)
    | a :: b :: c :: rest, hlen =>
      cases hw : foldWindow ops cs a b c with
      | some result =>
        exfalso
        rw [foldLoop_fold ops fuel a b c rest cs result hw] at h
        obtain ⟨extra, e1, _⟩ := foldLoop_pool ops fuel
          (⟨ops.OpConstant, .float (f64OfInt cs.length), a.Line⟩ :: rest)
          (cs ++ [⟨result, getTypeString result⟩])
        rw [e1] at h
        simp only [List.length_append, List.length_singleton] at h
        omega
      | none =>
        rw [foldLoop_skip ops fuel a b c rest cs hw] at h
        simp only at h
        refine (NoFold_cons ops cs a b c rest).mpr ⟨hw, ih _ cs ?_ h⟩
        simp only [List.length_cons] at hlen ⊢
        omega

theorem foldWindow_none_of_op (ops : OpCodes) (cs : List Constant) (a b c : Instruction)
    (h : ¬ (a.Op = ops.OpConstant ∧ b.Op = ops.OpConstant ∧ isArithmeticOp ops c.Op = true)) :
    foldWindow ops cs a b c = none := by
  unfold foldWindow
  rw [if_neg h]

theorem foldWindow_op (ops : OpCodes) (cs : List Constant) (a b c c' : Instruction)
    (h : c'.Op = c.Op) : foldWindow ops cs a b c' = foldWindow ops cs a b c := by
  unfold foldWindow
  rw [h]

/-- The value of a window of two `Constant` instructions with valid operands
and an arithmetic instruction. -/
theorem foldWindow_eval (ops : OpCodes) (cs : List Constant) (a b c : Instruction)
    (ha : a.Op = ops.OpConstant) (hb : b.Op = ops.OpConstant)
    (hc : isArithmeticOp ops c.Op = true) (i1 i2 : Nat)
    (h1 : poolIndex cs.length a.Arg = some i1) (h2 : poolIndex cs.length b.Arg = some i2)
    (c1 c2 : Constant) (g1 : cs[i1]? = some c1) (g2 : cs[i2]? = some c2) :
    foldWindow ops cs a b c = performArithmetic ops c1.Value c2.Value c.Op := by
  obtain ⟨idx1, e1, p1, q1, r1⟩ := poolIndex_some _ _ _ h1
  obtain ⟨idx2, e2, p2, q2, r2⟩ := poolIndex_some _ _ _ h2
  unfold foldWindow
  rw [if_pos ⟨ha, hb, hc⟩, e1, e2]
  simp only
  rw [if_pos ⟨p1, q1, p2, q2⟩, r1, r2, g1, g2]

theorem foldWindow_rename (ops : OpCodes) (hd : ops.Distinct) (cs : List Constant)
    (gm : List (List Nat × List Nat)) (a b c : Instruction) :
    foldWindow ops cs (renameInstruction ops gm a) (renameInstruction ops gm b)
      (renameInstruction ops gm c) = foldWindow ops cs a b c := by
  rw [foldWindow_op ops cs _ _ c _ (renameInstruction_Op ops gm c)]
  by_cases h : a.Op = ops.OpConstant ∧ b.Op = ops.OpConstant
  · rw [renameInstruction_poolRef ops hd gm a (Or.inl h.1),
      renameInstruction_poolRef ops hd gm b (Or.inl h.2)]
  · rw [foldWindow_none_of_op ops cs a b c (fun g => h ⟨g.1, g.2.1⟩),
      foldWindow_none_of_op ops cs _ _ c (fun g => h (by
        rw [renameInstruction_Op, renameInstruction_Op] at g
        exact ⟨g.1, g.2.1⟩))]

theorem NoFold_rename (ops : OpCodes) (hd : ops.Distinct) (cs : List Constant)
    (gm : List (List Nat × List Nat)) : ∀ (is : List Instruction), NoFold ops cs is →
    NoFold ops cs (is.map (renameInstruction ops gm)) := by
  intro is
  induction is with
  | nil => intro _; exact NoFold_short ops cs _ (by simp)
  | cons a rest ih =>
    intro h
    match rest, h, ih with
    | [], _, _ => exact NoFold_short ops cs _ (by simp)
    | [b], _, _ => exact NoFold_short ops cs _ (by simp)
    | b :: c :: rest', h, ih =>
      obtain ⟨h1, h2⟩ := (NoFold_cons ops cs a b c rest').mp h
      simp only [List.map_cons]
      rw [NoFold_cons, foldWindow_rename ops hd]
      exact ⟨h1, by simpa using ih h2⟩

/-- A window that does not fold does not fold after garbage collection either,
when the operands of its `Constant` instructions are valid: the rewritten
operands refer to the same constants. -/
theorem foldWindow_remap (ops : OpCodes) (cs cs' : List Constant)
    (g : Instruction → Instruction) (hop : ∀ inst, (g inst).Op = inst.Op)
    (a b c : Instruction)
    (hmap : ∀ inst i, inst = a ∨ inst = b → inst.Op = ops.OpConstant →
      poolIndex cs.length inst.Arg = some i →
      ∃ j, poolIndex cs'.length (g inst).Arg = some j ∧ cs'[j]? = cs[i]?)
    (ha : a.Op = ops.OpConstant → ∃ i, poolIndex cs.length a.Arg = some i)
    (hb : b.Op = ops.OpConstant → ∃ i, poolIndex cs.length b.Arg = some i)
    (h : foldWindow ops cs a b c = none) : foldWindow ops cs' (g a) (g b) (g c) = none := by
  by_cases hcond : a.Op = ops.OpConstant ∧ b.Op = ops.OpConstant ∧
      isArithmeticOp ops c.Op = true
  · obtain ⟨i1, h1⟩ := ha hcond.1
    obtain ⟨i2, h2⟩ := hb hcond.2.1
    obtain ⟨j1, k1, e1⟩ := hmap a i1 (Or.inl rfl) hcond.1 h1
    obtain ⟨j2, k2, e2⟩ := hmap b i2 (Or.inr rfl) hcond.2.1 h2
    have l1 := poolIndex_lt _ _ _ h1
    have l2 := poolIndex_lt _ _ _ h2
    rw [foldWindow_eval ops cs a b c hcond.1 hcond.2.1 hcond.2.2 i1 i2 h1 h2 cs[i1] cs[i2]
      (List.getElem?_eq_getElem l1) (List.getElem?_eq_getElem l2)] at h
    rw [foldWindow_eval ops cs' (g a) (g b) (g c) (by rw [hop]; exact hcond.1)
      (by rw [hop]; exact hcond.2.1) (by rw [hop]; exact hcond.2.2) j1 j2 k1 k2 cs[i1] cs[i2]
      (by rw [e1]; exact List.getElem?_eq_getElem l1)
      (by rw [e2]; exact List.getElem?_eq_getElem l2), hop]
    exact h
  · exact foldWindow_none_of_op ops cs' _ _ _ (fun k => hcond (by
      rw [hop, hop, hop] at k
      exact k))

theorem NoFold_remap (ops : OpCodes) (cs cs' : List Constant)
    (g : Instruction → Instruction) (hop : ∀ inst, (g inst).Op = inst.Op)
    (all : List Instruction)
    (hmap : ∀ inst i, inst ∈ all → inst.Op = ops.OpConstant →
      poolIndex cs.length inst.Arg = some i →
      ∃ j, poolIndex cs'.length (g inst).Arg = some j ∧ cs'[j]? = cs[i]?) :
    ∀ (is : List Instruction), (∀ x ∈ is, x ∈ all) → PoolRefsValid ops is cs.length →
      NoFold ops cs is → NoFold ops cs' (is.map g) := by
  intro is
  induction is with
  | nil => intro _ _ _; exact NoFold_short ops cs' _ (by simp)
  | cons a rest ih =>
    intro hsub hv h
    match rest, hsub, hv, h, ih with
    | [], _, _, _, _ => exact NoFold_short ops cs' _ (by simp)
    | [b], _, _, _, _ => exact NoFold_short ops cs' _ (by simp)
    | b :: c :: rest', hsub, hv, h, ih =>
      obtain ⟨h1, h2⟩ := (NoFold_cons ops cs a b c rest').mp h
      simp only [List.map_cons]
      rw [NoFold_cons]
      refine ⟨foldWindow_remap ops cs cs' g hop a b c ?_
        (fun k => hv a (List.mem_cons_self _ _) (Or.inl k))
        (fun k => hv b (List.mem_cons_of_mem _ (List.mem_cons_self _ _)) (Or.inl k)) h1, ?_⟩
      · intro inst i hab
        rcases hab with rfl | rfl
        · exact hmap _ i (hsub _ (List.mem_cons_self _ _))
        · exact hmap _ i (hsub _ (List.mem_cons_of_mem _ (List.mem_cons_self _ _)))
      · have := ih (fun x hx => hsub x (List.mem_cons_of_mem _ hx))
          (fun x hx => hv x (List.mem_cons_of_mem _ hx)) h2
        simpa using this

/-! ## Garbage collection of a pool without garbage -/

theorem gcCompact_all : ∀ (used : List Bool) (cs : List Constant) (k : Nat),
    used.length = cs.length → (∀ u ∈ used, u = true) →
    (gcCompact used cs k).2 = cs ∧
      ∀ j, j < cs.length → (gcCompact used cs k).1[j]? = some ((k + j : Nat) : Int) := by
  intro used
  induction used with
  | nil =>
    intro cs k hl _
    have : cs = [] := List.length_eq_zero.mp (by simpa using hl.symm)
    subst this
    exact ⟨rfl, fun j hj => absurd hj (by simp)⟩
  | cons u us ih =>
    intro cs k hl hu
    cases cs with
    | nil => simp at hl
    | cons c cs' =>
      have hu0 : u = true := hu u (List.mem_cons_self _ _)
      subst hu0
      obtain ⟨h1, h2⟩ := ih cs' (k + 1) (by simpa using hl)
        (fun x hx => hu x (List.mem_cons_of_mem _ hx))
      simp only [gcCompact, if_true]
      refine ⟨by rw [h1], ?_⟩
      intro j hj
      cases j with
      | zero => simp
      | succ j =>
        simp only [List.getElem?_cons_succ]
        rw [h2 j (by simpa using hj)]
        congr 2
        omega

/-- What the third loop of `doGarbageCollection` does to an instruction with a
valid operand `i`: the new operand is `float64(j)` for an index `j` of the new
pool that holds the constant the old pool held at `i`. -/
theorem gc_remap {τ : Type} (ops : OpCodes) (hd : ops.OpConstant ≠ ops.OpMakeFunc)
    (o : Optimizer τ) (inst : Instruction) (hm : inst ∈ o.Instructions)
    (hp : PoolRef ops inst) (i : Nat) (hi : poolIndex o.Constants.length inst.Arg = some i) :
    ∃ j : Nat, gcRewrite ops (gcCompact (gcMark ops o.Constants.length o.Instructions
          (List.replicate o.Constants.length false)) o.Constants 0).1 inst
        = { inst with Arg := .float (f64OfInt j) } ∧
      j < (doGarbageCollection ops o).Constants.length ∧
      (doGarbageCollection ops o).Constants[j]? = o.Constants[i]? := by
  have hlt := poolIndex_lt _ _ _ hi
  have hu := gcMark_sets ops o.Constants.length o.Instructions i
    (List.replicate o.Constants.length false) inst hm hp hi (by simpa using hlt)
  obtain ⟨j, h1, h2, h3⟩ := gcCompact_used _ o.Constants 0 i
    (by rw [gcMark_length]; simp) hu
  rw [Nat.zero_add] at h1
  exact ⟨j, gcRewrite_valid ops hd _ inst _ i j hp hi h1, h2, h3⟩

/-- After `doGarbageCollection` on a stream with valid operands the stream and
the pool refer to each other exactly. -/
theorem gc_compact {τ : Type} (ops : OpCodes) (hd : ops.OpConstant ≠ ops.OpMakeFunc)
    (o : Optimizer τ) (hsize : o.Constants.length ≤ 2 ^ 53)
    (hv : PoolRefsValid ops o.Instructions o.Constants.length) :
    Compact ops (doGarbageCollection ops o).Instructions
      (doGarbageCollection ops o).Constants := by
  refine ⟨?_, fun j hj => gc_live ops hd o j hj, le_trans (gcCompact_length _ _ _) hsize⟩
  intro inst' hm' hp'
  rw [gc_Instructions] at hm'
  obtain ⟨inst, hm, rfl⟩ := List.mem_map.mp hm'
  have hp : PoolRef ops inst := by
    unfold PoolRef at hp' ⊢
    rw [gcRewrite_Op] at hp'
    exact hp'
  obtain ⟨i, hi⟩ := hv inst hm hp
  obtain ⟨j, e, hj, _⟩ := gc_remap ops hd o inst hm hp i hi
  exact ⟨j, by rw [e], hj⟩

theorem gcRewrite_not_poolRef (ops : OpCodes) (oldToNew : List Int) (inst : Instruction)
    (h : ¬ PoolRef ops inst) : gcRewrite ops oldToNew inst = inst := by
  rw [gcRewrite_eq, if_neg (fun k => h (Or.inl k)), if_neg (fun k => h (Or.inr k))]

/-- On a stream and a pool that refer to each other exactly,
`doGarbageCollection` changes nothing. -/
theorem gc_of_compact {τ : Type} (ops : OpCodes) (hd : ops.OpConstant ≠ ops.OpMakeFunc)
    (o : Optimizer τ) (h : Compact ops o.Instructions o.Constants) :
    (doGarbageCollection ops o).Instructions = o.Instructions ∧
      (doGarbageCollection ops o).Constants = o.Constants := by
  obtain ⟨h1, h2, h3⟩ := h
  have hall : ∀ u ∈ gcMark ops o.Constants.length o.Instructions
      (List.replicate o.Constants.length false), u = true := by
    intro u hu
    obtain ⟨j, hj⟩ := List.getElem?_of_mem hu
    have hjl : j < o.Constants.length := by
      by_contra hc
      rw [List.getElem?_eq_none (by rw [gcMark_length]; simp; omega)] at hj
      exact absurd hj (by simp)
    obtain ⟨inst, hm, hp, ha⟩ := h2 j hjl
    have := gcMark_sets ops o.Constants.length o.Instructions j
      (List.replicate o.Constants.length false) inst hm hp
      (by rw [ha]; exact poolIndex_ofNat _ j hjl h3) (by simpa using hjl)
    rw [hj] at this
    simpa using this
  obtain ⟨g1, g2⟩ := gcCompact_all _ o.Constants 0 (by rw [gcMark_length]; simp) hall
  refine ⟨?_, by rw [gc_Constants, g1]⟩
  rw [gc_Instructions]
  conv_rhs => rw [← List.map_id o.Instructions]
  apply List.map_congr_left
  intro inst hm
  by_cases hp : PoolRef ops inst
  · obtain ⟨j, ha, hj⟩ := h1 inst hm hp
    have hi : poolIndex o.Constants.length inst.Arg = some j := by
      rw [ha]; exact poolIndex_ofNat _ j hj h3
    have := g2 j hj
    rw [Nat.zero_add] at this
    rw [gcRewrite_valid ops hd _ inst _ j j hp hi this, ← ha]
    rfl
  · rw [gcRewrite_not_poolRef ops _ inst hp]
    rfl

/-! ## Running `Optimize` on its own result -/

theorem doConstantFolding_noFold {τ : Type} (ops : OpCodes) (o : Optimizer τ)
    (h : NoFold ops o.Constants o.Instructions) : doConstantFolding ops o = o := by
  unfold doConstantFolding
  rw [foldLoop_noFold ops o.Constants _ _ h]

/-- An optimizer on which no pass has anything to do: `Optimize` returns its
stream and its pool. -/
theorem Optimize_fixed {τ : Type} (ops : OpCodes) (hd : ops.OpConstant ≠ ops.OpMakeFunc)
    (ord : Nat → IterOrder) (o : Optimizer τ)
    (hf : NoFold ops o.Constants o.Instructions)
    (hr : ∀ inst, renameInstruction ops (globalNameMap ops (ord 0) o.Instructions) inst = inst)
    (gu : List (List Nat × Nat)) (lu : List (Int × Nat))
    (hu : cleanupUsage ops o.Constants o.Instructions [] [] = some (gu, lu))
    (hk : AllKept ops gu lu o.Instructions)
    (hc : Compact ops o.Instructions o.Constants) :
    o.Optimize ops ord = some (o.Instructions, o.Constants) := by
  have e2 : (doNameScraping ops (ord 0) o).Instructions = o.Instructions := by
    rw [doNameScraping_Instructions]
    conv_rhs => rw [← List.map_id o.Instructions]
    exact List.map_congr_left (fun inst _ => hr inst)
  have e3 : doCleanup ops (doNameScraping ops (ord 0) o)
      = some (doNameScraping ops (ord 0) o) :=
    doCleanup_allKept ops _ gu lu (by rw [doNameScraping_Constants, e2]; exact hu)
      (by rw [e2]; exact hk)
  have e4 : optimizeLoop ops ord (o.Instructions.length + 1) 0 o
      = some (doNameScraping ops (ord 0) o) := by
    rw [optimizeLoop, doConstantFolding_noFold ops o hf, e3]
    simp only
    rw [if_pos (by rw [e2])]
  rw [Optimize_of_loop ops ord o _ e4]
  obtain ⟨g1, g2⟩ := gc_of_compact ops hd (doNameScraping ops (ord 0) o)
    (by rw [e2, doNameScraping_Constants]; exact hc)
  rw [g1, g2, e2, doNameScraping_Constants]

/-- The loop of `Optimize` ends with an iteration that leaves the length of the
stream as it is. -/
theorem optimizeLoop_last {τ : Type} (ops : OpCodes) (ord : Nat → IterOrder)
    (I : Optimizer τ → Prop)
    (hstep : ∀ n o o', I o →
      doCleanup ops (doNameScraping ops (ord n) (doConstantFolding ops o)) = some o' → I o') :
    ∀ fuel n o o', I o → optimizeLoop ops ord fuel n o = some o' →
      ∃ m x, I x ∧
        doCleanup ops (doNameScraping ops (ord m) (doConstantFolding ops x)) = some o' ∧
        o'.Instructions.length = x.Instructions.length := by
  intro fuel
  induction fuel with
  | zero => intro n o o' _ h; exact absurd h (by simp [optimizeLoop])
  | succ fuel ih =>
    intro n o o' hI h
    unfold optimizeLoop at h
    cases hc : doCleanup ops (doNameScraping ops (ord n) (doConstantFolding ops o)) with
    | none => rw [hc] at h; exact absurd h (by simp)
    | some o1 =>
      rw [hc] at h
      simp only at h
      split_ifs at h with heq
      · simp only [Option.some.injEq] at h
        subst h
        exact ⟨n, o, hI, hc, heq⟩
      · exact ih (n + 1) o1 o' (hstep n o o1 hI hc) h

theorem iteration_noEmpty {τ : Type} (ops : OpCodes) (hd : ops.Distinct) (ord : IterOrder)
    (o o' : Optimizer τ)
    (h : doCleanup ops (doNameScraping ops ord (doConstantFolding ops o)) = some o')
    (hne : NoEmptyGlobal ops o.Instructions) : NoEmptyGlobal ops o'.Instructions := by
  obtain ⟨_, d2, d3, _⟩ := Distinct_ne ops hd
  have h1 : NoEmptyGlobal ops (doConstantFolding ops o).Instructions := by
    intro inst hm hop
    rcases foldLoop_mem ops _ _ _ inst hm with g | ⟨g, _⟩
    · exact hne inst g hop
    · rw [g] at hop
      rcases hop with hop | hop
      · exact absurd hop d2
      · exact absurd hop d3
  have h2 : NoEmptyGlobal ops
      (doNameScraping ops ord (doConstantFolding ops o)).Instructions := by
    intro inst' hm' hop
    rw [doNameScraping_Instructions] at hm'
    obtain ⟨inst, hm, rfl⟩ := List.mem_map.mp hm'
    rw [renameInstruction_Op] at hop
    rcases renameInstruction_Arg ops (globalNameMap ops ord
        (doConstantFolding ops o).Instructions) inst with g | ⟨_, old, new, _, hg, g⟩
    · rw [g]; exact h1 inst hm hop
    · rw [g]
      simp only [ne_eq, Value.str.injEq]
      exact globalNameMap_values ops ord _ old new hg
  intro inst hm hop
  exact h2 inst ((doCleanup_spec ops _ o' h).2.2.subset hm) hop

/-- The last iteration of the loop: folding and cleanup found nothing to do, and
the stream is the renamed stream of before. -/
theorem last_iteration {τ : Type} (ops : OpCodes) (ord : IterOrder) (x o' : Optimizer τ)
    (h : doCleanup ops (doNameScraping ops ord (doConstantFolding ops x)) = some o')
    (hlen : o'.Instructions.length = x.Instructions.length) :
    NoFold ops x.Constants x.Instructions ∧
    o'.Instructions
      = x.Instructions.map (renameInstruction ops (globalNameMap ops ord x.Instructions)) ∧
    o'.Constants = x.Constants ∧
    ∃ gu lu, cleanupUsage ops o'.Constants o'.Instructions [] [] = some (gu, lu) ∧
      AllKept ops gu lu o'.Instructions := by
  obtain ⟨c1, _, c3⟩ := doCleanup_spec ops _ o' h
  obtain ⟨extra, e1, _, e3⟩ := doConstantFolding_pool ops x
  have hle := c3.length_le
  rw [doNameScraping_length] at hle
  have hx : extra.length = 0 := by omega
  have hx' : extra = [] := List.length_eq_zero.mp hx
  subst hx'
  rw [List.append_nil] at e1
  have hnf : NoFold ops x.Constants x.Instructions :=
    foldLoop_fixed ops _ _ _ (le_refl _) (by
      rw [← doConstantFolding_Constants, e1])
  have hfold : doConstantFolding ops x = x := doConstantFolding_noFold ops x hnf
  rw [hfold] at h c1 c3
  have hsame : o'.Instructions = (doNameScraping ops ord x).Instructions :=
    c3.eq_of_length (by rw [doNameScraping_length]; exact hlen)
  obtain ⟨gu, lu, hu, hk⟩ := doCleanup_fixed ops _ o' h
    (by rw [doNameScraping_length]; exact hlen)
  refine ⟨hnf, by rw [hsame, doNameScraping_Instructions],
    by rw [c1, doNameScraping_Constants], gu, lu, ?_, ?_⟩
  · rw [c1, hsame]; exact hu
  · rw [hsame]; exact hk

theorem NoUsageTies_map (ops : OpCodes) (hd : ops.Distinct) (f : Instruction → Instruction)
    (hf : ∀ inst, SameShape ops inst (f inst)) (is : List Instruction)
    (h : NoUsageTies ops (is.map f)) : NoUsageTies ops is := by
  intro a b ha hb hpos heq
  have e := globalUsageOf_map ops hd f hf is
  exact h a b ha hb (by rw [e]; exact hpos) (by rw [e, e]; exact heq)

/-- Idempotence of `Optimize` on inputs with valid operands and without ties. -/
theorem Optimize_idempotent {τ : Type} (ops : OpCodes) (hd : ops.Distinct)
    (ord ord' : Nat → IterOrder) (hord : ∀ n, (ord n).Valid) (hord' : (ord' 0).Valid)
    (o : Optimizer τ) (hsize : o.Instructions.length + o.Constants.length ≤ 2 ^ 53)
    (hv : PoolRefsValid ops o.Instructions o.Constants.length)
    (hne : NoEmptyGlobal ops o.Instructions)
    (out : List Instruction × List Constant) (h : o.Optimize ops ord = some out)
    (hties : NoUsageTies ops out.1) (sym : Option (SymbolTable τ)) :
    Optimizer.Optimize ops ord' (⟨out.1, out.2, sym⟩ : Optimizer τ) = some out := by
  have hcm := (Distinct_ne ops hd).1
  obtain ⟨o', hl, rfl⟩ := Optimize_eq ops ord o out h
  obtain ⟨m, x, ⟨hxs, hxv, hxn⟩, hc, hlen⟩ := optimizeLoop_last ops ord
    (fun y => y.Instructions.length + y.Constants.length ≤ 2 ^ 53 ∧
      PoolRefsValid ops y.Instructions y.Constants.length ∧ NoEmptyGlobal ops y.Instructions)
    (fun n y y' hy hc =>
      ⟨(iteration_valid ops hd (ord n) y y' hc hy.1 hy.2.1).1,
        (iteration_valid ops hd (ord n) y y' hc hy.1 hy.2.1).2,
        iteration_noEmpty ops hd (ord n) y y' hc hy.2.2⟩)
    _ 0 o o' ⟨hsize, hv, hne⟩ hl
  obtain ⟨hs', hv'⟩ := iteration_valid ops hd (ord m) x o' hc hxs hxv
  obtain ⟨hnf, hS, hC, gu, lu, hu, hk⟩ := last_iteration ops (ord m) x o' hc hlen
  have hshape := gcRewrite_shape ops (gcCompact (gcMark ops o'.Constants.length o'.Instructions
    (List.replicate o'.Constants.length false)) o'.Constants 0).1
  have hcompact := gc_compact ops hcm o' (by omega) hv'
  have hvalid := gc_valid ops hcm o' (by omega) hv'
  simp only at hties ⊢
  refine Optimize_fixed ops hcm ord' ⟨_, _, sym⟩ ?_ ?_ gu lu ?_ ?_ hcompact
  · -- folding
    show NoFold ops (doGarbageCollection ops o').Constants (doGarbageCollection ops o').Instructions
    rw [gc_Instructions]
    refine NoFold_remap ops o'.Constants _ _ (gcRewrite_Op ops _) o'.Instructions ?_
      o'.Instructions (fun _ hx => hx) hv' ?_
    · intro inst i hm hop hi
      obtain ⟨j, e, hj, hget⟩ := gc_remap ops hcm o' inst hm (Or.inl hop) i hi
      refine ⟨j, ?_, hget⟩
      rw [e]
      exact poolIndex_ofNat _ j hj hcompact.2.2
    · rw [hS, hC]
      exact NoFold_rename ops hd _ _ _ hnf
  · -- renaming
    intro inst
    show renameInstruction ops (globalNameMap ops (ord' 0)
      (doGarbageCollection ops o').Instructions) inst = inst
    rw [gc_Instructions, globalNameMap_map ops hd (ord' 0) _ hshape, hS]
    refine rename_renamed ops hd (ord m) (ord' 0) (hord m) hord' x.Instructions hxn ?_ inst
    rw [← hS]
    refine NoUsageTies_map ops hd _ hshape _ ?_
    rw [← gc_Instructions]
    exact hties
  · -- the usage counters of cleanup
    show cleanupUsage ops (doGarbageCollection ops o').Constants
      (doGarbageCollection ops o').Instructions [] [] = some (gu, lu)
    rw [gc_Instructions, cleanupUsage_map ops hd _ hshape o'.Constants _ o'.Instructions
      (PoolRefsValid_safe ops _ _ hv')
      (by rw [← gc_Instructions]; exact PoolRefsValid_safe ops _ _ hvalid)]
    exact hu
  · show AllKept ops gu lu (doGarbageCollection ops o').Instructions
    rw [gc_Instructions]
    exact AllKept_map ops hd gu lu _ hshape _ hk

theorem idempotent_example_run :
    Optimizer.Optimize stdOps (fun _ => insertionOrder)
      (⟨[⟨1, .float (f64OfInt 0), 1⟩, ⟨1, .float (f64OfInt 1), 1⟩, ⟨9, .nil, 1⟩,
        ⟨3, .str (ascii "total"), 1⟩, ⟨2, .str (ascii "total"), 2⟩,
        ⟨2, .str (ascii "print"), 2⟩, ⟨7, .float (f64OfInt 1), 2⟩, ⟨0, .nil, 3⟩],
        [⟨.int 2, "number"⟩, ⟨.int 3, "number"⟩], none⟩ : Optimizer Nat)
      = some ([⟨1, .float (f64OfInt 0), 1⟩, ⟨3, .str (ascii "g1"), 1⟩,
          ⟨2, .str (ascii "g1"), 2⟩, ⟨2, .str (ascii "print"), 2⟩,
          ⟨7, .float (f64OfInt 1), 2⟩, ⟨0, .nil, 3⟩],
          [⟨.int 5, "number"⟩]) := by
  decide!

theorem idempotent_example_input :
    PoolRefsValid stdOps
      [⟨1, .float (f64OfInt 0), 1⟩, ⟨1, .float (f64OfInt 1), 1⟩, ⟨9, .nil, 1⟩,
        ⟨3, .str (ascii "total"), 1⟩, ⟨2, .str (ascii "total"), 2⟩,
        ⟨2, .str (ascii "print"), 2⟩, ⟨7, .float (f64OfInt 1), 2⟩, ⟨0, .nil, 3⟩] 2 ∧
    NoEmptyGlobal stdOps
      [⟨1, .float (f64OfInt 0), 1⟩, ⟨1, .float (f64OfInt 1), 1⟩, ⟨9, .nil, 1⟩,
        ⟨3, .str (ascii "total"), 1⟩, ⟨2, .str (ascii "total"), 2⟩,
        ⟨2, .str (ascii "print"), 2⟩, ⟨7, .float (f64OfInt 1), 2⟩, ⟨0, .nil, 3⟩] := by
  constructor
  · intro inst hm hp
    simp only [List.mem_cons, List.mem_singleton, List.not_mem_nil, or_false] at hm
    rcases hm with rfl | rfl | rfl | rfl | rfl | rfl | rfl | rfl
    · exact ⟨0, by decide!⟩
    · exact ⟨1, by decide!⟩
    all_goals exact absurd hp (by simp [PoolRef, stdOps])
  · intro inst hm _
    simp only [List.mem_cons, List.mem_singleton, List.not_mem_nil, or_false] at hm
    rcases hm with rfl | rfl | rfl | rfl | rfl | rfl | rfl | rfl <;> simp [ascii]

theorem idempotent_example_ties :
    NoUsageTies stdOps
      [⟨1, .float (f64OfInt 0), 1⟩, ⟨3, .str (ascii "g1"), 1⟩,
        ⟨2, .str (ascii "g1"), 2⟩, ⟨2, .str (ascii "print"), 2⟩,
        ⟨7, .float (f64OfInt 1), 2⟩, ⟨0, .nil, 3⟩] := by
  have key : ∀ a : List Nat, a ∉ Builtins →
      0 < globalUsageOf stdOps
        [⟨1, .float (f64OfInt 0), 1⟩, ⟨3, .str (ascii "g1"), 1⟩,
          ⟨2, .str (ascii "g1"), 2⟩, ⟨2, .str (ascii "print"), 2⟩,
          ⟨7, .float (f64OfInt 1), 2⟩, ⟨0, .nil, 3⟩] a → a = ascii "g1" := by
    intro a ha hpos
    obtain ⟨inst, hm, hc⟩ := (globalUsageOf_pos stdOps _ a).mp hpos
    obtain ⟨harg, hop⟩ := (countsGlobal_iff stdOps (by decide) a inst).mp hc
    simp only [List.mem_cons, List.mem_singleton, List.not_mem_nil, or_false] at hm
    rcases hm with rfl | rfl | rfl | rfl | rfl | rfl
    · simp at harg
    · simp only [Value.str.injEq] at harg; exact harg.symm
    · simp only [Value.str.injEq] at harg; exact harg.symm
    · simp only [Value.str.injEq] at harg
      subst harg
      exact absurd (by decide) ha
    · simp at harg
    · simp at harg
  intro a b ha hb hpos heq
  rw [key a ha hpos, key b hb (by rw [← heq]; exact hpos)]

/-- C17 (as the claim states it, refuted): on the stream
`Constant 0, Constant 99, Constant 99, Add, Halt` with the pool `[1]` the first
run of `Optimize` folds nothing, since the operands 99 are no pool indices, and
its garbage collection rewrites each of them to 0; the second run then folds
`Constant 0, Constant 0, Add` and returns a stream of 3 instructions and a pool
of 2 constants. -/
theorem C17_idempotence_counterexample :
    Optimizer.Optimize stdOps (fun _ => insertionOrder)
      (⟨[⟨1, .float (f64OfInt 0), 1⟩, ⟨1, .float (f64OfInt 99), 1⟩,
        ⟨1, .float (f64OfInt 99), 1⟩, ⟨9, .nil, 1⟩, ⟨0, .nil, 1⟩],
        [⟨.int 1, "number"⟩], none⟩ : Optimizer Nat)
      = some ([⟨1, .float (f64OfInt 0), 1⟩, ⟨1, .float (f64OfInt 0), 1⟩,
          ⟨1, .float (f64OfInt 0), 1⟩, ⟨9, .nil, 1⟩, ⟨0, .nil, 1⟩],
          [⟨.int 1, "number"⟩]) ∧
    Optimizer.Optimize stdOps (fun _ => insertionOrder)
      (⟨[⟨1, .float (f64OfInt 0), 1⟩, ⟨1, .float (f64OfInt 0), 1⟩,
        ⟨1, .float (f64OfInt 0), 1⟩, ⟨9, .nil, 1⟩, ⟨0, .nil, 1⟩],
        [⟨.int 1, "number"⟩], none⟩ : Optimizer Nat)
      = some ([⟨1, .float (f64OfInt 0), 1⟩, ⟨1, .float (f64OfInt 1), 1⟩, ⟨0, .nil, 1⟩],
          [⟨.int 1, "number"⟩, ⟨.int 2, "number"⟩]) := by
  decide!

/-- C17 (amended): let the opcodes be distinct and the maps be iterated in any
orders; let the input hold at most 2^53 instructions and constants together,
let every `Constant` and `MakeFunc` operand be a `float64` index into the pool,
and let no `GetGlobal` or `SetGlobal` have the empty name as operand.  Then
`Optimize` returns, and when no two globals outside the builtins are used
equally often in the returned stream, running `Optimize` on the result, with
any symbol table, returns the same instruction stream and the same constant
pool. -/
theorem C17_idempotent_on_valid_input {τ : Type} (ops : OpCodes) (hd : ops.Distinct)
    (ord ord' : Nat → IterOrder) (hord : ∀ n, (ord n).Valid) (hord' : ∀ n, (ord' n).Valid)
    (instructions : List Instruction) (constants : List Constant)
    (sym : Option (SymbolTable τ))
    (hsize : instructions.length + constants.length ≤ 2 ^ 53)
    (hv : PoolRefsValid ops instructions constants.length)
    (hne : NoEmptyGlobal ops instructions) :
    ∃ out, Optimizer.Optimize ops ord (⟨instructions, constants, sym⟩ : Optimizer τ)
        = some out ∧
      (NoUsageTies ops out.1 → ∀ sym' : Option (SymbolTable τ),
        Optimizer.Optimize ops ord' (⟨out.1, out.2, sym'⟩ : Optimizer τ) = some out) := by
  obtain ⟨out, h⟩ := Optimize_total ops hd ord (⟨instructions, constants, sym⟩ : Optimizer τ)
    (PoolRefsValid_safe ops _ _ hv)
  exact ⟨out, h, fun hties sym' =>
    Optimize_idempotent ops hd ord ord' hord (hord' 0) ⟨instructions, constants, sym⟩
      hsize hv hne out h hties sym'⟩

theorem C17_idempotent_on_valid_input_witness :
    Optimizer.Optimize stdOps (fun _ => insertionOrder)
      (⟨[⟨1, .float (f64OfInt 0), 1⟩, ⟨3, .str (ascii "g1"), 1⟩,
          ⟨2, .str (ascii "g1"), 2⟩, ⟨2, .str (ascii "print"), 2⟩,
          ⟨7, .float (f64OfInt 1), 2⟩, ⟨0, .nil, 3⟩],
        [⟨.int 5, "number"⟩], none⟩ : Optimizer Nat)
      = some ([⟨1, .float (f64OfInt 0), 1⟩, ⟨3, .str (ascii "g1"), 1⟩,
          ⟨2, .str (ascii "g1"), 2⟩, ⟨2, .str (ascii "print"), 2⟩,
          ⟨7, .float (f64OfInt 1), 2⟩, ⟨0, .nil, 3⟩],
          [⟨.int 5, "number"⟩]) := by
  have hvalid : ∀ n : Nat, ((fun _ => insertionOrder) n : IterOrder).Valid :=
    fun _ => ⟨fun _ => List.Perm.refl _, fun _ => List.Perm.refl _,
      fun _ => List.Perm.refl _, fun _ => List.Perm.refl _⟩
  obtain ⟨out, h1, h2⟩ := C17_idempotent_on_valid_input stdOps (by decide)
    (fun _ => insertionOrder) (fun _ => insertionOrder) hvalid hvalid
    [⟨1, .float (f64OfInt 0), 1⟩, ⟨1, .float (f64OfInt 1), 1⟩, ⟨9, .nil, 1⟩,
      ⟨3, .str (ascii "total"), 1⟩, ⟨2, .str (ascii "total"), 2⟩,
      ⟨2, .str (ascii "print"), 2⟩, ⟨7, .float (f64OfInt 1), 2⟩, ⟨0, .nil, 3⟩]
    [⟨.int 2, "number"⟩, ⟨.int 3, "number"⟩] (none : Option (SymbolTable Nat))
    (by norm_num) idempotent_example_input.1 idempotent_example_input.2
  rw [idempotent_example_run] at h1
  simp only [Option.some.injEq] at h1
  subst h1
  exact h2 idempotent_example_ties none

/-- The hypothesis on ties is needed: the globals `a` and `b` are used once each;
the first run, visiting the maps in insertion order, names them `g1` and `g2`,
and a second run that visits the maps in the reverse order swaps the two
names. -/
theorem idempotence_tie_example :
    Optimizer.Optimize stdOps (fun _ => insertionOrder)
      (⟨[⟨2, .str (ascii "a"), 1⟩, ⟨2, .str (ascii "b"), 2⟩, ⟨0, .nil, 3⟩], [], none⟩ :
        Optimizer Nat)
      = some ([⟨2, .str (ascii "g1"), 1⟩, ⟨2, .str (ascii "g2"), 2⟩, ⟨0, .nil, 3⟩], []) ∧
    Optimizer.Optimize stdOps
      (fun _ => ⟨List.reverse, List.reverse, List.reverse, List.reverse⟩)
      (⟨[⟨2, .str (ascii "g1"), 1⟩, ⟨2, .str (ascii "g2"), 2⟩, ⟨0, .nil, 3⟩], [], none⟩ :
        Optimizer Nat)
      = some ([⟨2, .str (ascii "g2"), 1⟩, ⟨2, .str (ascii "g1"), 2⟩, ⟨0, .nil, 3⟩], []) := by
  decide!

/-- The hypothesis on empty names is needed: a `Call` with the empty name is
not counted as a use but is renamed, so the global with the empty name is used
once in the input and three times in the result of the first run, and the
second run, in the same iteration order, swaps `g1` and `g2`. -/
theorem idempotence_empty_name_example :
    Optimizer.Optimize stdOps (fun _ => insertionOrder)
      (⟨[⟨2, .str [], 1⟩, ⟨7, .str [], 1⟩, ⟨7, .str [], 1⟩, ⟨2, .str (ascii "b"), 2⟩,
        ⟨2, .str (ascii "b"), 2⟩, ⟨0, .nil, 3⟩], [], none⟩ : Optimizer Nat)
      = some ([⟨2, .str (ascii "g2"), 1⟩, ⟨7, .str (ascii "g2"), 1⟩,
          ⟨7, .str (ascii "g2"), 1⟩, ⟨2, .str (ascii "g1"), 2⟩, ⟨2, .str (ascii "g1"), 2⟩,
          ⟨0, .nil, 3⟩], []) ∧
    Optimizer.Optimize stdOps (fun _ => insertionOrder)
      (⟨[⟨2, .str (ascii "g2"), 1⟩, ⟨7, .str (ascii "g2"), 1⟩, ⟨7, .str (ascii "g2"), 1⟩,
        ⟨2, .str (ascii "g1"), 2⟩, ⟨2, .str (ascii "g1"), 2⟩, ⟨0, .nil, 3⟩], [], none⟩ :
        Optimizer Nat)
      = some ([⟨2, .str (ascii "g1"), 1⟩, ⟨7, .str (ascii "g1"), 1⟩,
          ⟨7, .str (ascii "g1"), 1⟩, ⟨2, .str (ascii "g2"), 2⟩, ⟨2, .str (ascii "g2"), 2⟩,
          ⟨0, .nil, 3⟩], []) := by
  decide!

/-! ## Dependence on the order of the map visits -/

theorem sortedGlobals_order (ops : OpCodes) (ord ord' : IterOrder) (hord : ord.Valid)
    (hord' : ord'.Valid) (is : List Instruction) (h : TieFree ops is) :
    sortedGlobals ops ord is = sortedGlobals ops ord' is := by
  have key : ∀ o : IterOrder, o.Valid →
      (sortedGlobals ops o is).Perm
        ((scrapeUsage ops is [] []).1.filter fun e => decide (e.1 ∉ Builtins)) := by
    intro o ho
    exact (sortedGlobals_perm ops o is).trans ((ho.1 _).filter _)
  have strict : ∀ o : IterOrder, o.Valid →
      (sortedGlobals ops o is).Pairwise (fun a b => b.2 < a.2) := by
    intro o ho
    exact sorted_strict _ (sortedGlobals_sorted ops o is)
      (((key o ho).pairwise_iff (fun hab => Ne.symm hab)).mpr h)
  exact strictly_sorted_unique _ _ ((key ord hord).trans (key ord' hord').symm)
    (strict ord hord) (strict ord' hord')

theorem globalNameMap_order (ops : OpCodes) (ord ord' : IterOrder) (hord : ord.Valid)
    (hord' : ord'.Valid) (is : List Instruction) (h : TieFree ops is) :
    globalNameMap ops ord is = globalNameMap ops ord' is := by
  rw [globalNameMap_eq, globalNameMap_eq, sortedGlobals_order ops ord ord' hord hord' is h]

theorem doCleanup_congr {τ : Type} (ops : OpCodes) (o1 o2 : Optimizer τ)
    (hi : o1.Instructions = o2.Instructions) (hc : o1.Constants = o2.Constants) :
    (doCleanup ops o1 = none ∧ doCleanup ops o2 = none) ∨
    ∃ r1 r2, doCleanup ops o1 = some r1 ∧ doCleanup ops o2 = some r2 ∧
      r1.Instructions = r2.Instructions ∧ r1.Constants = r2.Constants := by
  unfold doCleanup
  rw [hi, hc]
  cases cleanupUsage ops o2.Constants o2.Instructions [] [] with
  | none => exact Or.inl ⟨rfl, rfl⟩
  | some r => exact Or.inr ⟨_, _, rfl, rfl, rfl, rfl⟩

/-- One iteration of the loop of `Optimize` on two optimizers with the same
stream and pool, the maps being visited in two orders: without ties the
results have the same stream and pool again. -/
theorem iteration_order {τ : Type} (ops : OpCodes) (ord ord' : IterOrder)
    (o1 o2 : Optimizer τ) (hi : o1.Instructions = o2.Instructions)
    (hc : o1.Constants = o2.Constants)
    (h : globalNameMap ops ord (doConstantFolding ops o1).Instructions
      = globalNameMap ops ord' (doConstantFolding ops o1).Instructions) :
    (doCleanup ops (doNameScraping ops ord (doConstantFolding ops o1)) = none ∧
      doCleanup ops (doNameScraping ops ord' (doConstantFolding ops o2)) = none) ∨
    ∃ r1 r2, doCleanup ops (doNameScraping ops ord (doConstantFolding ops o1)) = some r1 ∧
      doCleanup ops (doNameScraping ops ord' (doConstantFolding ops o2)) = some r2 ∧
      r1.Instructions = r2.Instructions ∧ r1.Constants = r2.Constants := by
  have e1 : (doConstantFolding ops o1).Instructions = (doConstantFolding ops o2).Instructions := by
    rw [doConstantFolding_Instructions, doConstantFolding_Instructions, hi, hc]
  have e2 : (doConstantFolding ops o1).Constants = (doConstantFolding ops o2).Constants := by
    rw [doConstantFolding_Constants, doConstantFolding_Constants, hi, hc]
  refine doCleanup_congr ops _ _ ?_ ?_
  · rw [doNameScraping_Instructions, doNameScraping_Instructions, ← e1, h]
  · rw [doNameScraping_Constants, doNameScraping_Constants, e2]

theorem optimizeLoop_order {τ : Type} (ops : OpCodes) (ord ord' : Nat → IterOrder)
    (hord : ∀ n, (ord n).Valid) (hord' : ∀ n, (ord' n).Valid) :
    ∀ (fuel n : Nat) (o1 o2 : Optimizer τ), o1.Instructions = o2.Instructions →
      o1.Constants = o2.Constants → tieFreeLoop ops ord fuel n o1 = true →
      (optimizeLoop ops ord fuel n o1 = none ∧ optimizeLoop ops ord' fuel n o2 = none) ∨
      ∃ r1 r2, optimizeLoop ops ord fuel n o1 = some r1 ∧
        optimizeLoop ops ord' fuel n o2 = some r2 ∧
        r1.Instructions = r2.Instructions ∧ r1.Constants = r2.Constants := by
  intro fuel
  induction fuel with
  | zero => intro n o1 o2 _ _ _; exact Or.inl ⟨rfl, rfl⟩
  | succ fuel ih =>
    intro n o1 o2 hi hc ht
    unfold tieFreeLoop at ht
    rw [Bool.and_eq_true, decide_eq_true_eq] at ht
    obtain ⟨ht1, ht2⟩ := ht
    unfold optimizeLoop
    rcases iteration_order ops (ord n) (ord' n) o1 o2 hi hc
        (globalNameMap_order ops (ord n) (ord' n) (hord n) (hord' n) _ ht1) with
      ⟨h1, h2⟩ | ⟨r1, r2, h1, h2, hri, hrc⟩
    · rw [h1, h2]; exact Or.inl ⟨rfl, rfl⟩
    · rw [h1] at ht2
      rw [h1, h2]
      simp only at ht2 ⊢
      rw [← hri, ← hi]
      by_cases hl : r1.Instructions.length = o1.Instructions.length
      · rw [if_pos hl, if_pos hl]
        exact Or.inr ⟨r1, r2, rfl, rfl, hri, hrc⟩
      · rw [if_neg hl] at ht2
        rw [if_neg hl, if_neg hl]
        exact ih (n + 1) r1 r2 hri hrc ht2

theorem optimizeLoop_sym {τ : Type} (ops : OpCodes) (ord : Nat → IterOrder) :
    ∀ (fuel n : Nat) (o1 o2 : Optimizer τ), o1.Instructions = o2.Instructions →
      o1.Constants = o2.Constants →
      (optimizeLoop ops ord fuel n o1 = none ∧ optimizeLoop ops ord fuel n o2 = none) ∨
      ∃ r1 r2, optimizeLoop ops ord fuel n o1 = some r1 ∧
        optimizeLoop ops ord fuel n o2 = some r2 ∧
        r1.Instructions = r2.Instructions ∧ r1.Constants = r2.Constants := by
  intro fuel
  induction fuel with
  | zero => intro n o1 o2 _ _; exact Or.inl ⟨rfl, rfl⟩
  | succ fuel ih =>
    intro n o1 o2 hi hc
    unfold optimizeLoop
    rcases iteration_order ops (ord n) (ord n) o1 o2 hi hc rfl with
      ⟨h1, h2⟩ | ⟨r1, r2, h1, h2, hri, hrc⟩
    · rw [h1, h2]; exact Or.inl ⟨rfl, rfl⟩
    · rw [h1, h2]
      simp only
      rw [← hri, ← hi]
      by_cases hl : r1.Instructions.length = o1.Instructions.length
      · rw [if_pos hl, if_pos hl]
        exact Or.inr ⟨r1, r2, rfl, rfl, hri, hrc⟩
      · rw [if_neg hl, if_neg hl]
        exact ih (n + 1) r1 r2 hri hrc

/-- The symbol table has no influence on the stream and the pool that
`Optimize` returns. -/
theorem Optimize_sym {τ : Type} (ops : OpCodes) (ord : Nat → IterOrder)
    (is : List Instruction) (cs : List Constant) (sym sym' : Option (SymbolTable τ)) :
    Optimizer.Optimize ops ord (⟨is, cs, sym⟩ : Optimizer τ)
      = Optimizer.Optimize ops ord (⟨is, cs, sym'⟩ : Optimizer τ) := by
  unfold Optimizer.Optimize Optimizer.run
  rcases optimizeLoop_sym ops ord (is.length + 1) 0 (⟨is, cs, sym⟩ : Optimizer τ)
      ⟨is, cs, sym'⟩ rfl rfl with ⟨h1, h2⟩ | ⟨r1, r2, h1, h2, hri, hrc⟩
  · rw [h1, h2]
  · rw [h1, h2]
    simp only [Option.map_some', Option.some.injEq, Prod.mk.injEq]
    rw [gc_Instructions, gc_Instructions, gc_Constants, gc_Constants, hri, hrc]
    exact ⟨rfl, rfl⟩

/-- When no iteration of the loop meets a tie, the result of `Optimize` is the
same for every order of the map visits. -/
theorem Optimize_order {τ : Type} (ops : OpCodes) (ord ord' : Nat → IterOrder)
    (hord : ∀ n, (ord n).Valid) (hord' : ∀ n, (ord' n).Valid) (o : Optimizer τ)
    (h : tieFreeLoop ops ord (o.Instructions.length + 1) 0 o = true) :
    o.Optimize ops ord' = o.Optimize ops ord := by
  unfold Optimizer.Optimize Optimizer.run
  rcases optimizeLoop_order ops ord ord' hord hord' _ 0 o o rfl rfl h with
    ⟨h1, h2⟩ | ⟨r1, r2, h1, h2, hri, hrc⟩
  · rw [h1, h2]
  · rw [h1, h2]
    simp only [Option.map_some', Option.some.injEq, Prod.mk.injEq]
    rw [gc_Instructions, gc_Instructions, gc_Constants, gc_Constants, hri, hrc]
    exact ⟨rfl, rfl⟩

/-! ## Scenarios -/

theorem reverse_valid : (⟨List.reverse, List.reverse, List.reverse, List.reverse⟩ : IterOrder).Valid :=
  ⟨fun m => List.reverse_perm m, fun m => List.reverse_perm m, fun m => List.reverse_perm m,
    fun m => List.reverse_perm m⟩

theorem insertion_valid : insertionOrder.Valid :=
  ⟨fun _ => List.Perm.refl _, fun _ => List.Perm.refl _, fun _ => List.Perm.refl _,
    fun _ => List.Perm.refl _⟩

/-- C22 (as the claim states it, refuted): on the stream `Constant 0, Constant 1,
Add, SetGlobal x, Halt` with the pool `[2, 3]` the first iteration folds the
window into `Constant 2` (pool `[2, 3, 5]`), renames `x` to `g1` and then
removes the store, which no instruction reads, together with the `Constant`
before it; garbage collection empties the pool.  `Optimize` returns `[Halt]`
and `[]`, not `[Constant 0, SetGlobal g1, Halt]` and `[5]`. -/
theorem C22_folding_scenario_counterexample :
    (doCleanup stdOps (doNameScraping stdOps insertionOrder (doConstantFolding stdOps
      (⟨[⟨1, .float (f64OfInt 0), 1⟩, ⟨1, .float (f64OfInt 1), 1⟩, ⟨9, .nil, 1⟩,
        ⟨3, .str (ascii "x"), 1⟩, ⟨0, .nil, 1⟩],
        [⟨.int 2, "number"⟩, ⟨.int 3, "number"⟩], none⟩ : Optimizer Nat)))).map
          (fun o => (o.Instructions, o.Constants))
      = some ([⟨0, .nil, 1⟩], [⟨.int 2, "number"⟩, ⟨.int 3, "number"⟩, ⟨.int 5, "number"⟩]) ∧
    Optimizer.Optimize stdOps (fun _ => insertionOrder)
      (⟨[⟨1, .float (f64OfInt 0), 1⟩, ⟨1, .float (f64OfInt 1), 1⟩, ⟨9, .nil, 1⟩,
        ⟨3, .str (ascii "x"), 1⟩, ⟨0, .nil, 1⟩],
        [⟨.int 2, "number"⟩, ⟨.int 3, "number"⟩], none⟩ : Optimizer Nat)
      = some ([⟨0, .nil, 1⟩], []) := by
  refine ⟨by decide!, by decide!⟩

/-- C22 (amended): for every order of the map visits and every symbol table,
`Optimize` applied to `Constant 0, Constant 1, Add, SetGlobal x, GetGlobal x,
Halt` (the stream of the claim with a read of `x`) and the pool `[2, 3]`
returns `Constant 0, SetGlobal g1, GetGlobal g1, Halt` and the pool `[5]`, the
sum stored as an integer; applied to the stream of the claim it returns
`[Halt]` and the empty pool. -/
theorem C22_folding_scenario_with_read (ord : Nat → IterOrder) (hord : ∀ n, (ord n).Valid)
    (sym : Option (SymbolTable Nat)) :
    Optimizer.Optimize stdOps ord
      (⟨[⟨1, .float (f64OfInt 0), 1⟩, ⟨1, .float (f64OfInt 1), 1⟩, ⟨9, .nil, 1⟩,
        ⟨3, .str (ascii "x"), 1⟩, ⟨2, .str (ascii "x"), 1⟩, ⟨0, .nil, 1⟩],
        [⟨.int 2, "number"⟩, ⟨.int 3, "number"⟩], sym⟩ : Optimizer Nat)
      = some ([⟨1, .float (f64OfInt 0), 1⟩, ⟨3, .str (ascii "g1"), 1⟩,
          ⟨2, .str (ascii "g1"), 1⟩, ⟨0, .nil, 1⟩], [⟨.int 5, "number"⟩]) ∧
    Optimizer.Optimize stdOps ord
      (⟨[⟨1, .float (f64OfInt 0), 1⟩, ⟨1, .float (f64OfInt 1), 1⟩, ⟨9, .nil, 1⟩,
        ⟨3, .str (ascii "x"), 1⟩, ⟨0, .nil, 1⟩],
        [⟨.int 2, "number"⟩, ⟨.int 3, "number"⟩], sym⟩ : Optimizer Nat)
      = some ([⟨0, .nil, 1⟩], []) := by
  constructor
  · rw [Optimize_sym stdOps ord _ _ sym none,
      Optimize_order stdOps (fun _ => insertionOrder) ord (fun _ => insertion_valid) hord _
        (by decide!)]
    decide!
  · rw [Optimize_sym stdOps ord _ _ sym none,
      Optimize_order stdOps (fun _ => insertionOrder) ord (fun _ => insertion_valid) hord _
        (by decide!)]
    decide!

theorem C22_folding_scenario_with_read_witness :
    Optimizer.Optimize stdOps (fun _ => ⟨List.reverse, List.reverse, List.reverse, List.reverse⟩)
      (⟨[⟨1, .float (f64OfInt 0), 1⟩, ⟨1, .float (f64OfInt 1), 1⟩, ⟨9, .nil, 1⟩,
        ⟨3, .str (ascii "x"), 1⟩, ⟨2, .str (ascii "x"), 1⟩, ⟨0, .nil, 1⟩],
        [⟨.int 2, "number"⟩, ⟨.int 3, "number"⟩],
        some ⟨[(ascii "x", 7)], []⟩⟩ : Optimizer Nat)
      = some ([⟨1, .float (f64OfInt 0), 1⟩, ⟨3, .str (ascii "g1"), 1⟩,
          ⟨2, .str (ascii "g1"), 1⟩, ⟨0, .nil, 1⟩], [⟨.int 5, "number"⟩]) :=
  (C22_folding_scenario_with_read _ (fun _ => reverse_valid) (some ⟨[(ascii "x", 7)], []⟩)).1

/-- C24 (the code at the failing input): the first loop of `doCleanup` tests
the operand of a `MakeFunc` instruction with `int(idx) < len(o.Constants)`
only; for the operand `-1` the test passes and the index expression
`o.Constants[-1]` panics.  `doCleanup` returns nothing, and neither does the
loop of `Optimize`, however many iterations it is given. -/
theorem C24_cleanup_panics :
    f64ToInt64 (f64OfInt (-1)) = -1 ∧
    doCleanup stdOps (doNameScraping stdOps insertionOrder (doConstantFolding stdOps
      (⟨[⟨6, .float (f64OfInt (-1)), 1⟩, ⟨0, .nil, 1⟩], [], none⟩ : Optimizer Nat))) = none ∧
    (∀ fuel n : Nat, optimizeLoop stdOps (fun _ => insertionOrder) fuel n
      (⟨[⟨6, .float (f64OfInt (-1)), 1⟩, ⟨0, .nil, 1⟩], [], none⟩ : Optimizer Nat) = none) ∧
    Optimizer.Optimize stdOps (fun _ => insertionOrder)
      (⟨[⟨6, .float (f64OfInt (-1)), 1⟩, ⟨0, .nil, 1⟩], [], none⟩ : Optimizer Nat) = none := by
  have h : doCleanup stdOps (doNameScraping stdOps insertionOrder (doConstantFolding stdOps
      (⟨[⟨6, .float (f64OfInt (-1)), 1⟩, ⟨0, .nil, 1⟩], [], none⟩ : Optimizer Nat))) = none := by
    have hm : (doCleanup stdOps (doNameScraping stdOps insertionOrder (doConstantFolding stdOps
        (⟨[⟨6, .float (f64OfInt (-1)), 1⟩, ⟨0, .nil, 1⟩], [], none⟩ : Optimizer Nat)))).map
          (fun o => o.Instructions) = none := by
      decide!
    exact Option.map_eq_none'.mp hm
  refine ⟨by decide!, h, ?_, by decide!⟩
  intro fuel n
  cases fuel with
  | zero => rfl
  | succ fuel => rw [optimizeLoop, h]

/-- C30 (the code at the failing input): the instruction `Constant 5`, whose
operand is the `float64` 5, is written after the opcode byte `0x81` and the
line byte with the two bits of `arg_type` 1 and the zigzag varint of 5 (the
byte 10), which makes the bytes `41, 0`; `MakeFunc 5` is written the same way.
The encoding the claim describes, `arg_type` 0 and the varuint 5, would be the
bytes `20, 0`, which the reader decodes to the same instruction. -/
theorem C30_index_written_as_int :
    WriteBytecode [⟨1, .float (f64OfInt 5), 1⟩] []
      = some [0x43, 0x42, 0x4C, 0x4C, 0x30, 0, 1, 0x81, 1, 41, 0] ∧
    WriteBytecode [⟨6, .float (f64OfInt 5), 1⟩] []
      = some [0x43, 0x42, 0x4C, 0x4C, 0x30, 0, 1, 0x86, 1, 41, 0] ∧
    bytesBits [41, 0] = nbits 1 2 ++ encVarUint (zigzag 5) ++ List.replicate 6 false ∧
    bytesBits [20, 0] = nbits 0 2 ++ encVarUint 5 ++ List.replicate 6 false ∧
    ReadBytecode [0x43, 0x42, 0x4C, 0x4C, 0x30, 0, 1, 0x81, 1, 20, 0]
      = .ok ([⟨1, .float (f64OfInt 5), 1⟩], []) := by
  refine ⟨by decide!, by decide!, by decide!, by decide!, by decide!⟩

/-! ## Determinism -/

/-- C25 (as the claim states it, refuted): the globals `a` and `b` are used once
each.  When `globalUsage` is visited in the order of insertion, `a` becomes
`g1` and `b` becomes `g2`; when it is visited in the reverse order, `a` becomes
`g2` and `b` becomes `g1`.  The symbol table depends on the order of the visit
of `localUsage` even without globals: with the locals `a` (slot 0) and `b`
(slot 1) both read, the name `l1` ends at slot 0 in one order and at slot 1 in
the other. -/
theorem C25_order_counterexample :
    Optimizer.Optimize stdOps (fun _ => insertionOrder)
      (⟨[⟨2, .str (ascii "a"), 1⟩, ⟨2, .str (ascii "b"), 2⟩, ⟨0, .nil, 3⟩], [], none⟩ :
        Optimizer Nat)
      = some ([⟨2, .str (ascii "g1"), 1⟩, ⟨2, .str (ascii "g2"), 2⟩, ⟨0, .nil, 3⟩], []) ∧
    Optimizer.Optimize stdOps
      (fun _ => ⟨List.reverse, List.reverse, List.reverse, List.reverse⟩)
      (⟨[⟨2, .str (ascii "a"), 1⟩, ⟨2, .str (ascii "b"), 2⟩, ⟨0, .nil, 3⟩], [], none⟩ :
        Optimizer Nat)
      = some ([⟨2, .str (ascii "g2"), 1⟩, ⟨2, .str (ascii "g1"), 2⟩, ⟨0, .nil, 3⟩], []) ∧
    ((Optimizer.run stdOps (fun _ => insertionOrder)
      (⟨[⟨4, .float (f64OfInt 0), 1⟩, ⟨4, .float (f64OfInt 1), 2⟩, ⟨0, .nil, 3⟩], [],
        some ⟨[], [(ascii "a", 0), (ascii "b", 1)]⟩⟩ : Optimizer Nat)).bind fun o =>
          o.SymbolTable.bind fun s => mapGet s.Locals (ascii "l1")) = some 0 ∧
    ((Optimizer.run stdOps (fun _ => ⟨List.reverse, List.reverse, List.reverse, List.reverse⟩)
      (⟨[⟨4, .float (f64OfInt 0), 1⟩, ⟨4, .float (f64OfInt 1), 2⟩, ⟨0, .nil, 3⟩], [],
        some ⟨[], [(ascii "a", 0), (ascii "b", 1)]⟩⟩ : Optimizer Nat)).bind fun o =>
          o.SymbolTable.bind fun s => mapGet s.Locals (ascii "l1")) = some 1 := by
  refine ⟨by decide!, by decide!, by decide!, by decide!⟩

/-- C25 (amended): when in every iteration of the loop of `Optimize` no two
entries of `globalUsage` outside the built-in names have the same count, two
runs of `Optimize` on the same input return the same instruction stream and
the same constant pool, whatever the orders in which the two runs visit their
maps. -/
theorem C25_deterministic_without_ties {τ : Type} (ops : OpCodes) (ord ord' : Nat → IterOrder)
    (hord : ∀ n, (ord n).Valid) (hord' : ∀ n, (ord' n).Valid)
    (instructions : List Instruction) (constants : List Constant)
    (sym : Option (SymbolTable τ))
    (h : tieFreeLoop ops ord (instructions.length + 1) 0
      (⟨instructions, constants, sym⟩ : Optimizer τ) = true) :
    Optimizer.Optimize ops ord' (⟨instructions, constants, sym⟩ : Optimizer τ)
      = Optimizer.Optimize ops ord (⟨instructions, constants, sym⟩ : Optimizer τ) :=
  Optimize_order ops ord ord' hord hord' ⟨instructions, constants, sym⟩ h

theorem C25_deterministic_without_ties_witness :
    Optimizer.Optimize stdOps (fun _ => ⟨List.reverse, List.reverse, List.reverse, List.reverse⟩)
      (⟨[⟨2, .str (ascii "a"), 1⟩, ⟨3, .str (ascii "b"), 2⟩, ⟨2, .str (ascii "b"), 2⟩,
        ⟨7, .str (ascii "c"), 2⟩, ⟨7, .str (ascii "c"), 2⟩, ⟨7, .str (ascii "c"), 2⟩,
        ⟨0, .nil, 3⟩], [], none⟩ : Optimizer Nat)
      = some ([⟨2, .str (ascii "g3"), 1⟩, ⟨3, .str (ascii "g2"), 2⟩, ⟨2, .str (ascii "g2"), 2⟩,
        ⟨7, .str (ascii "g1"), 2⟩, ⟨7, .str (ascii "g1"), 2⟩, ⟨7, .str (ascii "g1"), 2⟩,
        ⟨0, .nil, 3⟩], []) :=
  (C25_deterministic_without_ties stdOps (fun _ => insertionOrder)
    (fun _ => ⟨List.reverse, List.reverse, List.reverse, List.reverse⟩)
    (fun _ => insertion_valid) (fun _ => reverse_valid) _ _ none (by decide!)).trans
    (by decide!)

/-! ## Garbage collection keeps what the instructions refer to -/

/-- C29: let the opcodes be distinct.  For every `Constant` or `MakeFunc`
instruction, at the position `k` of the stream, whose operand is a `float64`
with integer part `i`, an index into the pool, the instruction at the position
`k` after `doGarbageCollection` has the operand `float64(j)` for an index `j`
of the new pool with `newPool[j] = oldPool[i]`; the new pool is a subsequence
of the old pool (the constants that are kept are in the order they had); and
the stream has the same length, with op and line of every instruction
unchanged. -/
theorem C29_gc_preserves_references {τ : Type} (ops : OpCodes) (hd : ops.Distinct)
    (o : Optimizer τ) :
    (∀ (k i : Nat) (inst : Instruction), o.Instructions[k]? = some inst → PoolRef ops inst →
      poolIndex o.Constants.length inst.Arg = some i →
      ∃ j : Nat, (doGarbageCollection ops o).Instructions[k]?
          = some { inst with Arg := .float (f64OfInt j) } ∧
        j < (doGarbageCollection ops o).Constants.length ∧ i < o.Constants.length ∧
        (doGarbageCollection ops o).Constants[j]? = o.Constants[i]?) ∧
    (doGarbageCollection ops o).Constants.Sublist o.Constants ∧
    (doGarbageCollection ops o).Instructions.map (fun inst => (inst.Op, inst.Line))
      = o.Instructions.map (fun inst => (inst.Op, inst.Line)) := by
  have hcm := (Distinct_ne ops hd).1
  refine ⟨?_, gc_sublist ops o, ?_⟩
  · intro k i inst hk hp hi
    obtain ⟨j, e, hj, hget⟩ := gc_remap ops hcm o inst (List.getElem?_mem hk) hp i hi
    refine ⟨j, ?_, hj, poolIndex_lt _ _ _ hi, hget⟩
    rw [gc_Instructions, List.getElem?_map, hk, Option.map_some', e]
  · rw [gc_Instructions, List.map_map]
    apply List.map_congr_left
    intro inst _
    simp only [Function.comp_apply, gcRewrite_Op, gcRewrite_Line]

theorem C29_gc_preserves_references_witness :
    ∃ j : Nat, [(⟨1, .float (f64OfInt 1), 1⟩ : Instruction), ⟨6, .float (f64OfInt 0), 2⟩,
        ⟨0, .nil, 3⟩][0]? = some ⟨1, .float (f64OfInt j), 1⟩ ∧
      j < 2 ∧ 2 < 3 ∧
      [(⟨.float (f64OfInt 2), "funcptr"⟩ : Constant), ⟨.int 9, "number"⟩][j]?
        = [(⟨.int 7, "number"⟩ : Constant), ⟨.float (f64OfInt 2), "funcptr"⟩,
            ⟨.int 9, "number"⟩][2]? := by
  have h := (C29_gc_preserves_references stdOps (by decide)
    (⟨[⟨1, .float (f64OfInt 2), 1⟩, ⟨6, .float (f64OfInt 1), 2⟩, ⟨0, .nil, 3⟩],
      [⟨.int 7, "number"⟩, ⟨.float (f64OfInt 2), "funcptr"⟩, ⟨.int 9, "number"⟩],
      none⟩ : Optimizer Nat)).1 0 2 ⟨1, .float (f64OfInt 2), 1⟩ rfl (Or.inl rfl) (by decide!)
  have e1 : (doGarbageCollection stdOps
      (⟨[⟨1, .float (f64OfInt 2), 1⟩, ⟨6, .float (f64OfInt 1), 2⟩, ⟨0, .nil, 3⟩],
        [⟨.int 7, "number"⟩, ⟨.float (f64OfInt 2), "funcptr"⟩, ⟨.int 9, "number"⟩],
        none⟩ : Optimizer Nat)).Instructions
      = [⟨1, .float (f64OfInt 1), 1⟩, ⟨6, .float (f64OfInt 0), 2⟩, ⟨0, .nil, 3⟩] := by
    decide!
  have e2 : (doGarbageCollection stdOps
      (⟨[⟨1, .float (f64OfInt 2), 1⟩, ⟨6, .float (f64OfInt 1), 2⟩, ⟨0, .nil, 3⟩],
        [⟨.int 7, "number"⟩, ⟨.float (f64OfInt 2), "funcptr"⟩, ⟨.int 9, "number"⟩],
        none⟩ : Optimizer Nat)).Constants
      = [⟨.float (f64OfInt 2), "funcptr"⟩, ⟨.int 9, "number"⟩] := by
    decide!
  rw [e1, e2] at h
  exact h

/-! ## The order of the new names -/

theorem usageCount_eq (ops : OpCodes) (hd : ops.Distinct) (is : List Instruction)
    (name : List Nat) : usageCount ops is name = globalUsageOf ops is name := by
  unfold usageCount globalUsageOf
  congr 1
  apply List.filter_congr
  intro inst _
  rw [Bool.eq_iff_iff, decide_eq_true_eq, countsGlobal_iff ops hd]
  constructor
  · rintro ⟨h1, h2 | h2 | h2⟩
    · exact ⟨h1, Or.inl (Or.inl h2)⟩
    · exact ⟨h1, Or.inl (Or.inr h2)⟩
    · exact ⟨h1, Or.inr h2⟩
  · rintro ⟨h1, (h2 | h2) | h2⟩
    · exact ⟨h1, Or.inl h2⟩
    · exact ⟨h1, Or.inr (Or.inl h2)⟩
    · exact ⟨h1, Or.inr (Or.inr h2)⟩

/-- The sorted list of `doNameScraping` lists every used name outside the
built-ins once, in the order of decreasing usage, and the name at the index
`i` becomes `g(i+1)`. -/
theorem sortedGlobals_names (ops : OpCodes) (ord : IterOrder) (hord : ord.Valid)
    (is : List Instruction) :
    ((sortedGlobals ops ord is).map Prod.fst).Nodup ∧
    (∀ x, x ∈ (sortedGlobals ops ord is).map Prod.fst ↔
      x ∉ Builtins ∧ 0 < globalUsageOf ops is x) ∧
    (∀ (i : Nat) (x : List Nat), ((sortedGlobals ops ord is).map Prod.fst)[i]? = some x →
      mapGet (globalNameMap ops ord is) x = some (ascii "g" ++ itoa (i + 1))) ∧
    (∀ x, x ∉ (sortedGlobals ops ord is).map Prod.fst →
      mapGet (globalNameMap ops ord is) x = none) ∧
    ((sortedGlobals ops ord is).map Prod.fst).Pairwise
      (fun a b => globalUsageOf ops is b ≤ globalUsageOf ops is a) := by
  have hmem : ∀ x, x ∈ (sortedGlobals ops ord is).map Prod.fst ↔
      x ∉ Builtins ∧ 0 < globalUsageOf ops is x := by
    intro x
    rw [List.mem_map]
    constructor
    · rintro ⟨⟨y, c⟩, hm, rfl⟩
      obtain ⟨h1, h2, h3⟩ := (mem_sortedGlobals ops ord hord is y c).mp hm
      exact ⟨h1, by rw [h3]; exact h2⟩
    · rintro ⟨h1, h2⟩
      exact ⟨(x, globalUsageOf ops is x),
        (mem_sortedGlobals ops ord hord is x _).mpr ⟨h1, h2, rfl⟩, rfl⟩
  refine ⟨sortedGlobals_nodup ops ord hord is, hmem, ?_, ?_, ?_⟩
  · intro i x hi
    rw [List.getElem?_map] at hi
    cases he : (sortedGlobals ops ord is)[i]? with
    | none => rw [he] at hi; exact absurd hi (by simp)
    | some e =>
      rw [he, Option.map_some', Option.some.injEq] at hi
      subst hi
      rw [Nat.add_comm]
      exact (globalNameMap_get ops ord hord is e.1 _).mpr ⟨i, e.2, he, rfl⟩
  · intro x hx
    apply globalNameMap_none ops ord hord is x
    by_contra hc
    rw [not_or] at hc
    exact hx ((hmem x).mpr ⟨hc.1, Nat.pos_of_ne_zero hc.2⟩)
  · rw [List.pairwise_map]
    refine (sortedGlobals_sorted ops ord is).imp_of_mem ?_
    intro a b ha hb hab
    have e1 := ((mem_sortedGlobals ops ord hord is a.1 a.2).mp ha).2.2
    have e2 := ((mem_sortedGlobals ops ord hord is b.1 b.2).mp hb).2.2
    rw [e1, e2]
    exact hab

theorem mapSet_length {κ ν : Type} [DecidableEq κ] (m : List (κ × ν)) (k : κ) (v : ν)
    (h : k ∉ m.map Prod.fst) : (mapSet m k v).length = m.length + 1 := by
  induction m with
  | nil => simp [mapSet]
  | cons e rest ih =>
    obtain ⟨k', v'⟩ := e
    simp only [List.map_cons, List.mem_cons, not_or] at h
    unfold mapSet
    rw [if_neg (fun hc => h.1 hc.symm)]
    simp only [List.length_cons, ih h.2]

theorem assignGlobals_length : ∀ (l : List (List Nat × Nat)) (c : Nat)
    (m : List (List Nat × List Nat)), (l.map Prod.fst).Nodup →
    (∀ x ∈ l.map Prod.fst, x ∉ m.map Prod.fst) →
    (assignGlobals l c m).length = m.length + l.length := by
  intro l
  induction l with
  | nil => intro c m _ _; simp [assignGlobals]
  | cons info rest ih =>
    intro c m hn hdis
    simp only [List.map_cons, List.nodup_cons] at hn
    unfold assignGlobals
    rw [ih (c + 1) _ hn.2, mapSet_length _ _ _ (hdis info.1 (by simp))]
    · simp only [List.length_cons]; omega
    · intro x hx hc
      rcases (keys_mapSet m info.1 _ x).mp hc with h | h
      · exact hdis x (by simp [hx]) h
      · subst h; exact hn.1 hx

theorem globalNameMap_length (ops : OpCodes) (ord : IterOrder) (hord : ord.Valid)
    (is : List Instruction) :
    (globalNameMap ops ord is).length = (sortedGlobals ops ord is).length := by
  rw [globalNameMap_eq, assignGlobals_length _ 1 [] (sortedGlobals_nodup ops ord hord is)
    (fun _ _ => by simp)]
  simp

theorem rename_index_lt (ops : OpCodes) (ord : IterOrder) (hord : ord.Valid)
    (is : List Instruction) (a b : List Nat) (ha : a ∉ Builtins) (hb : b ∉ Builtins)
    (hb0 : 0 < globalUsageOf ops is b)
    (hab : globalUsageOf ops is b < globalUsageOf ops is a) :
    ∃ i j : Nat, mapGet (globalNameMap ops ord is) a = some (ascii "g" ++ itoa i) ∧
      mapGet (globalNameMap ops ord is) b = some (ascii "g" ++ itoa j) ∧
      1 ≤ i ∧ i < j ∧ j ≤ (globalNameMap ops ord is).length := by
  obtain ⟨hn, hmem, hidx, _, hsorted⟩ := sortedGlobals_names ops ord hord is
  obtain ⟨i, hi⟩ := List.mem_iff_getElem?.mp ((hmem a).mpr ⟨ha, by omega⟩)
  obtain ⟨j, hj⟩ := List.mem_iff_getElem?.mp ((hmem b).mpr ⟨hb, hb0⟩)
  have hlen : (globalNameMap ops ord is).length
      = ((sortedGlobals ops ord is).map Prod.fst).length := by
    rw [globalNameMap_length ops ord hord is, List.length_map]
  obtain ⟨hil, hi'⟩ := List.getElem?_eq_some_iff.mp hi
  obtain ⟨hjl, hj'⟩ := List.getElem?_eq_some_iff.mp hj
  refine ⟨i + 1, j + 1, hidx i a hi, hidx j b hj, by omega, ?_, by omega⟩
  by_contra hc
  have hji : j ≤ i := by omega
  rcases Nat.lt_or_eq_of_le hji with hlt | heq
  · have := List.pairwise_iff_getElem.mp hsorted j i hjl hil hlt
    rw [hi', hj'] at this
    omega
  · subst heq
    rw [hi] at hj
    simp only [Option.some.injEq] at hj
    subst hj
    omega

/-- C21: let the opcodes be distinct and let `doNameScraping` visit its maps in
any order.  With the usage of a name being the number of `GetGlobal`,
`SetGlobal` and non-empty-string `Call` instructions that carry it, the names
outside the built-ins with a usage above zero can be listed without repetition
as `names[0], ..., names[n-1]` in the order of decreasing usage so that
`doNameScraping` maps `names[i]` to `g(i+1)` and has no entry for any other
name (the map has `n` entries); the instructions are rewritten with that map.
For two such names `a` and `b` with `usage(a) > usage(b)` the new names are
`g i` and `g j` with `1 ≤ i < j ≤ n`.  In the scenario of the specification,
a stream with the usages `a: 5, b: 2, c: 10`, the map sends `c` to `g1`, `a` to
`g2` and `b` to `g3`. -/
theorem C21_rename_order {τ : Type} (ops : OpCodes) (hd : ops.Distinct) (ord : IterOrder)
    (hord : ord.Valid) (o : Optimizer τ) :
    (doNameScraping ops ord o).Instructions
      = o.Instructions.map (renameInstruction ops (globalNameMap ops ord o.Instructions)) ∧
    (∃ names : List (List Nat), names.Nodup ∧
      (∀ x, x ∈ names ↔ x ∉ Builtins ∧ 0 < usageCount ops o.Instructions x) ∧
      (globalNameMap ops ord o.Instructions).length = names.length ∧
      (∀ (i : Nat) (x : List Nat), names[i]? = some x →
        mapGet (globalNameMap ops ord o.Instructions) x = some (ascii "g" ++ itoa (i + 1))) ∧
      (∀ x, x ∉ names → mapGet (globalNameMap ops ord o.Instructions) x = none) ∧
      names.Pairwise
        (fun a b => usageCount ops o.Instructions b ≤ usageCount ops o.Instructions a)) ∧
    (∀ a b : List Nat, a ∉ Builtins → b ∉ Builtins → 0 < usageCount ops o.Instructions b →
      usageCount ops o.Instructions b < usageCount ops o.Instructions a →
      ∃ i j : Nat,
        mapGet (globalNameMap ops ord o.Instructions) a = some (ascii "g" ++ itoa i) ∧
        mapGet (globalNameMap ops ord o.Instructions) b = some (ascii "g" ++ itoa j) ∧
        1 ≤ i ∧ i < j ∧ j ≤ (globalNameMap ops ord o.Instructions).length) ∧
    (usageCount stdOps (List.replicate 5 ⟨2, .str (ascii "a"), 1⟩ ++
        List.replicate 2 ⟨3, .str (ascii "b"), 1⟩ ++
        List.replicate 10 ⟨7, .str (ascii "c"), 1⟩) (ascii "a") = 5 ∧
      usageCount stdOps (List.replicate 5 ⟨2, .str (ascii "a"), 1⟩ ++
        List.replicate 2 ⟨3, .str (ascii "b"), 1⟩ ++
        List.replicate 10 ⟨7, .str (ascii "c"), 1⟩) (ascii "b") = 2 ∧
      usageCount stdOps (List.replicate 5 ⟨2, .str (ascii "a"), 1⟩ ++
        List.replicate 2 ⟨3, .str (ascii "b"), 1⟩ ++
        List.replicate 10 ⟨7, .str (ascii "c"), 1⟩) (ascii "c") = 10 ∧
      mapGet (globalNameMap stdOps ord (List.replicate 5 ⟨2, .str (ascii "a"), 1⟩ ++
        List.replicate 2 ⟨3, .str (ascii "b"), 1⟩ ++
        List.replicate 10 ⟨7, .str (ascii "c"), 1⟩)) (ascii "c") = some (ascii "g1") ∧
      mapGet (globalNameMap stdOps ord (List.replicate 5 ⟨2, .str (ascii "a"), 1⟩ ++
        List.replicate 2 ⟨3, .str (ascii "b"), 1⟩ ++
        List.replicate 10 ⟨7, .str (ascii "c"), 1⟩)) (ascii "a") = some (ascii "g2") ∧
      mapGet (globalNameMap stdOps ord (List.replicate 5 ⟨2, .str (ascii "a"), 1⟩ ++
        List.replicate 2 ⟨3, .str (ascii "b"), 1⟩ ++
        List.replicate 10 ⟨7, .str (ascii "c"), 1⟩)) (ascii "b") = some (ascii "g3")) := by
  have hu : ∀ x, usageCount ops o.Instructions x = globalUsageOf ops o.Instructions x :=
    usageCount_eq ops hd o.Instructions
  obtain ⟨h1, h2, h3, h4, h5⟩ := sortedGlobals_names ops ord hord o.Instructions
  refine ⟨doNameScraping_Instructions ops ord o,
    ⟨(sortedGlobals ops ord o.Instructions).map Prod.fst, h1, ?_, ?_, h3, h4, ?_⟩, ?_, ?_⟩
  · intro x; rw [hu]; exact h2 x
  · rw [globalNameMap_length ops ord hord, List.length_map]
  · exact h5.imp (fun hab => by rw [hu, hu]; exact hab)
  · intro a b ha hb hb0 hab
    rw [hu] at hb0
    rw [hu, hu] at hab
    exact rename_index_lt ops ord hord o.Instructions a b ha hb hb0 hab
  · rw [globalNameMap_order stdOps ord insertionOrder hord insertion_valid _ (by decide!)]
    refine ⟨by decide!, by decide!, by decide!, by decide!, by decide!, by decide!⟩

theorem C21_rename_order_witness :
    mapGet (globalNameMap stdOps ⟨List.reverse, List.reverse, List.reverse, List.reverse⟩
      (List.replicate 5 ⟨2, .str (ascii "a"), 1⟩ ++
        List.replicate 2 ⟨3, .str (ascii "b"), 1⟩ ++
        List.replicate 10 ⟨7, .str (ascii "c"), 1⟩)) (ascii "c") = some (ascii "g1") ∧
    mapGet (globalNameMap stdOps ⟨List.reverse, List.reverse, List.reverse, List.reverse⟩
      (List.replicate 5 ⟨2, .str (ascii "a"), 1⟩ ++
        List.replicate 2 ⟨3, .str (ascii "b"), 1⟩ ++
        List.replicate 10 ⟨7, .str (ascii "c"), 1⟩)) (ascii "a") = some (ascii "g2") ∧
    mapGet (globalNameMap stdOps ⟨List.reverse, List.reverse, List.reverse, List.reverse⟩
      (List.replicate 5 ⟨2, .str (ascii "a"), 1⟩ ++
        List.replicate 2 ⟨3, .str (ascii "b"), 1⟩ ++
        List.replicate 10 ⟨7, .str (ascii "c"), 1⟩)) (ascii "b") = some (ascii "g3") :=
  (C21_rename_order stdOps (by decide) _ reverse_valid
    (⟨List.replicate 5 ⟨2, .str (ascii "a"), 1⟩ ++ List.replicate 2 ⟨3, .str (ascii "b"), 1⟩ ++
      List.replicate 10 ⟨7, .str (ascii "c"), 1⟩, [], none⟩ : Optimizer Nat)).2.2.2.2.2.2

/-! ## Folding a stream piece by piece -/

theorem foldWindow_third (ops : OpCodes) (cs : List Constant) (a b c : Instruction)
    (h : isArithmeticOp ops c.Op = false) : foldWindow ops cs a b c = none :=
  foldWindow_none_of_op ops cs a b c (fun hc => by rw [h] at hc; exact absurd hc.2.2 (by simp))

/-- The scan of `doConstantFolding` ends within `len` iterations: more of them
change nothing. -/
theorem foldLoop_fuel (ops : OpCodes) : ∀ (f f' : Nat) (is : List Instruction)
    (cs : List Constant), is.length ≤ f → is.length ≤ f' →
    foldLoop ops f is cs = foldLoop ops f' is cs := by
  intro f
  induction f with
  | zero =>
    intro f' is cs h _
    have : is = [] := List.length_eq_zero.mp (by omega)
    subst this
    rw [foldLoop_zero, foldLoop_nil]
  | succ f ih =>
    intro f' is cs h h'
    match is, f', h, h' with
    | [], f', _, _ => rw [foldLoop_nil, foldLoop_nil]
    | [a], f' + 1, _, _ =>
      rw [foldLoop_one, foldLoop_one, foldLoop_nil, foldLoop_nil]
    | [a, b], f' + 1, h, h' =>
      rw [foldLoop_two, foldLoop_two,
        ih f' [b] cs (by simpa using h) (by simpa using h')]
    | a :: b :: c :: rest, f' + 1, h, h' =>
      simp only [List.length_cons] at h h'
      cases hw : foldWindow ops cs a b c with
      | some result =>
        rw [foldLoop_fold ops f a b c rest cs result hw,
          foldLoop_fold ops f' a b c rest cs result hw]
        exact ih f' _ _ (by simp only [List.length_cons]; omega)
          (by simp only [List.length_cons]; omega)
      | none =>
        rw [foldLoop_skip ops f a b c rest cs hw, foldLoop_skip ops f' a b c rest cs hw,
          ih f' (b :: c :: rest) cs (by simp only [List.length_cons]; omega)
            (by simp only [List.length_cons]; omega)]

/-- The scan of `doConstantFolding` over `pre ++ w`, where the first two
instructions of `w` are no arithmetic instructions: no window that starts in
`pre` reaches beyond these two, so the scan treats `pre` as if it stood alone
and goes on with `w` and the pool it has then. -/
theorem foldLoop_append (ops : OpCodes) (w0 w1 : Instruction) (w : List Instruction)
    (h0 : isArithmeticOp ops w0.Op = false) (h1 : isArithmeticOp ops w1.Op = false) :
    ∀ (n : Nat) (pre : List Instruction), pre.length ≤ n → ∀ (cs : List Constant)
      (f1 f2 f3 : Nat), pre.length + (w.length + 2) ≤ f1 → pre.length ≤ f2 →
      w.length + 2 ≤ f3 →
      foldLoop ops f1 (pre ++ w0 :: w1 :: w) cs
        = ((foldLoop ops f2 pre cs).1 ++
            (foldLoop ops f3 (w0 :: w1 :: w) (foldLoop ops f2 pre cs).2).1,
          (foldLoop ops f3 (w0 :: w1 :: w) (foldLoop ops f2 pre cs).2).2) := by
  intro n
  induction n with
  | zero =>
    intro pre hp cs f1 f2 f3 hf1 _ hf3
    have : pre = [] := List.length_eq_zero.mp (by omega)
    subst this
    rw [foldLoop_nil]
    simp only [List.nil_append]
    rw [foldLoop_fuel ops f1 f3 _ cs (by simpa using hf1) (by simpa using hf3)]
  | succ n ih =>
    intro pre hp cs f1 f2 f3 hf1 hf2 hf3
    match pre, f1, f2, hp, hf1, hf2 with
    | [], f1, f2, _, hf1, _ =>
      rw [foldLoop_nil]
      simp only [List.nil_append]
      rw [foldLoop_fuel ops f1 f3 _ cs (by simpa using hf1) (by simpa using hf3)]
    | [a], f1 + 1, f2 + 1, _, hf1, _ =>
      simp only [List.length_cons, List.length_nil] at hf1
      rw [foldLoop_one, foldLoop_nil]
      simp only [List.singleton_append, List.cons_append, List.nil_append]
      rw [foldLoop_skip ops f1 a w0 w1 w cs (foldWindow_third ops cs a w0 w1 h1),
        foldLoop_fuel ops f1 f3 _ cs (by simp only [List.length_cons]; omega)
          (by simpa using hf3)]
    | [a, b], f1 + 1, f2 + 1, hp, hf1, hf2 =>
      simp only [List.length_cons, List.length_nil] at hf1 hf2 hp
      rw [foldLoop_two]
      simp only [List.cons_append, List.nil_append]
      rw [foldLoop_skip ops f1 a b w0 (w1 :: w) cs (foldWindow_third ops cs a b w0 h0)]
      have := ih [b] (by simp; omega) cs f1 f2 f3 (by simp; omega) (by simp; omega) hf3
      simp only [List.cons_append, List.nil_append] at this
      rw [this]
    | a :: b :: c :: rest, f1 + 1, f2 + 1, hp, hf1, hf2 =>
      simp only [List.length_cons] at hf1 hf2 hp
      simp only [List.cons_append]
      cases hw : foldWindow ops cs a b c with
      | some result =>
        rw [foldLoop_fold ops f1 a b c _ cs result hw,
          foldLoop_fold ops f2 a b c rest cs result hw]
        have := ih (⟨ops.OpConstant, .float (f64OfInt cs.length), a.Line⟩ :: rest)
          (by simp only [List.length_cons]; omega) (cs ++ [⟨result, getTypeString result⟩])
          f1 f2 f3 (by simp only [List.length_cons]; omega)
          (by simp only [List.length_cons]; omega) hf3
        simp only [List.cons_append] at this
        exact this
      | none =>
        rw [foldLoop_skip ops f1 a b c _ cs hw, foldLoop_skip ops f2 a b c rest cs hw]
        have := ih (b :: c :: rest) (by simp only [List.length_cons]; omega) cs
          f1 f2 f3 (by simp only [List.length_cons]; omega)
          (by simp only [List.length_cons]; omega) hf3
        simp only [List.cons_append] at this
        rw [this]
        simp only [List.cons_append]

/-! ## Windows that do not fold -/

theorem Distinct_arith (ops : OpCodes) (hd : ops.Distinct) :
    isArithmeticOp ops ops.OpConstant = false ∧
    ops.OpDiv ≠ ops.OpAdd ∧ ops.OpDiv ≠ ops.OpSub ∧ ops.OpDiv ≠ ops.OpMul ∧
    ops.OpDiv ≠ ops.OpConstant ∧ ops.OpSub ≠ ops.OpAdd ∧ ops.OpMul ≠ ops.OpAdd ∧
    ops.OpMul ≠ ops.OpSub := by
  unfold OpCodes.Distinct at hd
  have a1 : ops.OpConstant ≠ ops.OpAdd := by intro h; rw [h] at hd; simp at hd
  have a2 : ops.OpConstant ≠ ops.OpSub := by intro h; rw [h] at hd; simp at hd
  have a3 : ops.OpConstant ≠ ops.OpMul := by intro h; rw [h] at hd; simp at hd
  have a4 : ops.OpConstant ≠ ops.OpDiv := by intro h; rw [h] at hd; simp at hd
  refine ⟨by simp [isArithmeticOp, a1, a2, a3, a4], ?_, ?_, ?_, ?_, ?_, ?_, ?_⟩ <;>
    (intro h; rw [h] at hd; simp at hd)

/-- What a window that folds looks like. -/
theorem foldWindow_some (ops : OpCodes) (cs : List Constant) (a b c : Instruction)
    (r : Value) (h : foldWindow ops cs a b c = some r) :
    a.Op = ops.OpConstant ∧ b.Op = ops.OpConstant ∧ isArithmeticOp ops c.Op = true ∧
    ∃ (i1 i2 : Nat) (c1 c2 : Constant), poolIndex cs.length a.Arg = some i1 ∧
      poolIndex cs.length b.Arg = some i2 ∧ cs[i1]? = some c1 ∧ cs[i2]? = some c2 ∧
      performArithmetic ops c1.Value c2.Value c.Op = some r := by
  unfold foldWindow at h
  split_ifs at h with hg
  refine ⟨hg.1, hg.2.1, hg.2.2, ?_⟩
  split at h
  · rename_i idx1 idx2 e1 e2
    simp only at h
    split_ifs at h with hv
    split at h
    · rename_i c1 c2 g1 g2
      refine ⟨_, _, c1, c2, ?_, ?_, g1, g2, h⟩
      · rw [e1]; exact poolIndex_float _ _ hv.1 hv.2.1
      · rw [e2]; exact poolIndex_float _ _ hv.2.2.1 hv.2.2.2
    · exact absurd h (by simp)
  · exact absurd h (by simp)

theorem foldLoop_head (ops : OpCodes) (f : Nat) (a : Instruction) (rest : List Instruction)
    (cs : List Constant) (h : a.Op ≠ ops.OpConstant) :
    foldLoop ops (f + 1) (a :: rest) cs
      = (a :: (foldLoop ops f rest cs).1, (foldLoop ops f rest cs).2) := by
  match rest with
  | [] => rw [foldLoop_one]
  | [b] => rw [foldLoop_two]
  | b :: c :: rest =>
    exact foldLoop_skip ops f a b c rest cs
      (foldWindow_none_of_op ops cs a b c (fun hc => h hc.1))

theorem foldLoop_second (ops : OpCodes) (f : Nat) (a b : Instruction)
    (rest : List Instruction) (cs : List Constant) (h : b.Op ≠ ops.OpConstant) :
    foldLoop ops (f + 1) (a :: b :: rest) cs
      = (a :: (foldLoop ops f (b :: rest) cs).1, (foldLoop ops f (b :: rest) cs).2) := by
  match rest with
  | [] => rw [foldLoop_two]
  | c :: rest =>
    exact foldLoop_skip ops f a b c rest cs
      (foldWindow_none_of_op ops cs a b c (fun hc => h hc.2.1))

theorem toFloat_zero (z : Value) (hz : isZeroNumber z) (fb : Nat) (h : toFloat z = some fb) :
    f64IsZero fb = true := by
  rcases hz with rfl | rfl | ⟨bits, rfl, hb⟩
  · simp only [toFloat, Option.some.injEq] at h; subst h; decide
  · simp only [toFloat, Option.some.injEq] at h; subst h; decide
  · simp only [toFloat, Option.some.injEq] at h; subst h; exact hb

/-- The function `performArithmetic` reports failure for a division by the
number zero. -/
theorem performArithmetic_div_zero (ops : OpCodes) (hd : ops.Distinct) (a z : Value)
    (hz : isZeroNumber z) : performArithmetic ops a z ops.OpDiv = none := by
  obtain ⟨_, d1, d2, d3, _⟩ := Distinct_arith ops hd
  unfold performArithmetic
  cases ha : toFloat a with
  | none => rfl
  | some fa =>
    cases hb : toFloat z with
    | none => rfl
    | some fb =>
      simp only [if_neg d1, if_neg d2, if_neg d3, if_true, toFloat_zero z hz fb hb]

theorem foldWindow_div_zero (ops : OpCodes) (hd : ops.Distinct) (cs : List Constant)
    (a b c : Instruction) (hc : c.Op = ops.OpDiv) (q : Nat) (z : Constant)
    (hq : poolIndex cs.length b.Arg = some q) (hget : cs[q]? = some z)
    (hz : isZeroNumber z.Value) : foldWindow ops cs a b c = none := by
  cases h : foldWindow ops cs a b c with
  | none => rfl
  | some r =>
    obtain ⟨_, _, _, i1, i2, c1, c2, _, h2, _, g2, hp⟩ := foldWindow_some ops cs a b c r h
    rw [hq] at h2
    simp only [Option.some.injEq] at h2
    subst h2
    rw [hget] at g2
    simp only [Option.some.injEq] at g2
    subst g2
    rw [hc, performArithmetic_div_zero ops hd _ _ hz] at hp
    exact absurd hp (by simp)

/-! ## A division by zero stays in the stream -/

theorem getElem?_foldLoop (ops : OpCodes) (f : Nat) (is : List Instruction)
    (cs : List Constant) (q : Nat) (hq : q < cs.length) :
    (foldLoop ops f is cs).2[q]? = cs[q]? := by
  obtain ⟨extra, e, _, _⟩ := foldLoop_pool ops f is cs
  rw [e, List.getElem?_append_left hq]

theorem length_foldLoop (ops : OpCodes) (f : Nat) (is : List Instruction)
    (cs : List Constant) : cs.length ≤ (foldLoop ops f is cs).2.length := by
  obtain ⟨extra, e, _, _⟩ := foldLoop_pool ops f is cs
  rw [e, List.length_append]; omega

/-- C27: let the opcodes be distinct.  For every value `a`, `performArithmetic`
reports failure for `a / z` when `z` is the number zero (the integer 0 or a
`float64` zero).  For every stream `pre ++ [A, B, C] ++ post` in which `A` and
`B` are `Constant` instructions, `C` is `Div` and the operand of `B` is the
index of a constant that is the number zero (whatever the operand of `A` is),
`doConstantFolding` returns the three instructions in their place, between
what it returns for `pre` alone and what it returns for `post` alone with the
pool it has then, and the pool it returns is the pool of that last scan: no
constant is appended for the window. -/
theorem C27_division_by_zero_not_folded {τ : Type} (ops : OpCodes) (hd : ops.Distinct)
    (pre post : List Instruction) (A B C : Instruction) (cs : List Constant)
    (sym : Option (SymbolTable τ)) (q : Nat) (z : Constant)
    (hA : A.Op = ops.OpConstant) (hB : B.Op = ops.OpConstant) (hC : C.Op = ops.OpDiv)
    (hq : poolIndex cs.length B.Arg = some q) (hget : cs[q]? = some z)
    (hz : isZeroNumber z.Value) :
    (∀ a : Value, performArithmetic ops a z.Value ops.OpDiv = none) ∧
    (doConstantFolding ops (⟨pre ++ A :: B :: C :: post, cs, sym⟩ : Optimizer τ)).Instructions
      = (doConstantFolding ops (⟨pre, cs, sym⟩ : Optimizer τ)).Instructions ++ A :: B :: C ::
          (doConstantFolding ops (⟨post,
            (doConstantFolding ops (⟨pre, cs, sym⟩ : Optimizer τ)).Constants, sym⟩ :
              Optimizer τ)).Instructions ∧
    (doConstantFolding ops (⟨pre ++ A :: B :: C :: post, cs, sym⟩ : Optimizer τ)).Constants
      = (doConstantFolding ops (⟨post,
          (doConstantFolding ops (⟨pre, cs, sym⟩ : Optimizer τ)).Constants, sym⟩ :
            Optimizer τ)).Constants := by
  obtain ⟨ac, _, _, _, dc, _⟩ := Distinct_arith ops hd
  have hCc : C.Op ≠ ops.OpConstant := by rw [hC]; exact dc
  have key := foldLoop_append ops A B (C :: post) (by rw [hA]; exact ac) (by rw [hB]; exact ac)
    pre.length pre (le_refl _) cs (pre ++ A :: B :: C :: post).length pre.length
    (post.length + 3) (by simp) (le_refl _) (by simp)
  have hlt := poolIndex_lt _ _ _ hq
  have hw : foldWindow ops (foldLoop ops pre.length pre cs).2 A B C = none :=
    foldWindow_div_zero ops hd _ A B C hC q z
      (poolIndex_mono _ _ _ _ hq (length_foldLoop ops _ _ _))
      (by rw [getElem?_foldLoop ops _ _ _ q hlt]; exact hget) hz
  rw [foldLoop_skip ops _ A B C post _ hw, foldLoop_second ops _ B C post _ hCc,
    foldLoop_head ops _ C post _ hCc] at key
  refine ⟨fun a => performArithmetic_div_zero ops hd a _ hz, ?_, ?_⟩
  · simp only [doConstantFolding_Instructions, doConstantFolding_Constants]
    rw [key]
  · simp only [doConstantFolding_Constants]
    rw [key]

theorem C27_division_by_zero_not_folded_witness :
    (doConstantFolding stdOps
      (⟨[⟨1, .float (f64OfInt 0), 1⟩, ⟨1, .float (f64OfInt 0), 1⟩, ⟨9, .nil, 1⟩,
        ⟨1, .float (f64OfInt 0), 2⟩, ⟨1, .float (f64OfInt 1), 2⟩, ⟨12, .nil, 2⟩,
        ⟨1, .float (f64OfInt 0), 3⟩, ⟨1, .float (f64OfInt 0), 3⟩, ⟨11, .nil, 3⟩, ⟨0, .nil, 4⟩],
        [⟨.int 7, "number"⟩, ⟨.float 0, "number"⟩], none⟩ : Optimizer Nat)).Instructions
      = [⟨1, .float (f64OfInt 2), 1⟩, ⟨1, .float (f64OfInt 0), 2⟩, ⟨1, .float (f64OfInt 1), 2⟩,
          ⟨12, .nil, 2⟩, ⟨1, .float (f64OfInt 3), 3⟩, ⟨0, .nil, 4⟩] ∧
    (doConstantFolding stdOps
      (⟨[⟨1, .float (f64OfInt 0), 1⟩, ⟨1, .float (f64OfInt 0), 1⟩, ⟨9, .nil, 1⟩,
        ⟨1, .float (f64OfInt 0), 2⟩, ⟨1, .float (f64OfInt 1), 2⟩, ⟨12, .nil, 2⟩,
        ⟨1, .float (f64OfInt 0), 3⟩, ⟨1, .float (f64OfInt 0), 3⟩, ⟨11, .nil, 3⟩, ⟨0, .nil, 4⟩],
        [⟨.int 7, "number"⟩, ⟨.float 0, "number"⟩], none⟩ : Optimizer Nat)).Constants
      = [⟨.int 7, "number"⟩, ⟨.float 0, "number"⟩, ⟨.int 14, "number"⟩,
          ⟨.int 49, "number"⟩] := by
  have h := (C27_division_by_zero_not_folded stdOps (by decide)
    [⟨1, .float (f64OfInt 0), 1⟩, ⟨1, .float (f64OfInt 0), 1⟩, ⟨9, .nil, 1⟩]
    [⟨1, .float (f64OfInt 0), 3⟩, ⟨1, .float (f64OfInt 0), 3⟩, ⟨11, .nil, 3⟩, ⟨0, .nil, 4⟩]
    ⟨1, .float (f64OfInt 0), 2⟩ ⟨1, .float (f64OfInt 1), 2⟩ ⟨12, .nil, 2⟩
    [⟨.int 7, "number"⟩, ⟨.float 0, "number"⟩] (none : Option (SymbolTable Nat)) 1
    ⟨.float 0, "number"⟩ rfl rfl rfl (by decide!) rfl
    (Or.inr (Or.inr ⟨0, rfl, by decide⟩))).2
  have e1 : (doConstantFolding stdOps
      (⟨[⟨1, .float (f64OfInt 0), 1⟩, ⟨1, .float (f64OfInt 0), 1⟩, ⟨9, .nil, 1⟩],
        [⟨.int 7, "number"⟩, ⟨.float 0, "number"⟩], none⟩ : Optimizer Nat)).Instructions
      = [⟨1, .float (f64OfInt 2), 1⟩] := by decide!
  have e2 : (doConstantFolding stdOps
      (⟨[⟨1, .float (f64OfInt 0), 1⟩, ⟨1, .float (f64OfInt 0), 1⟩, ⟨9, .nil, 1⟩],
        [⟨.int 7, "number"⟩, ⟨.float 0, "number"⟩], none⟩ : Optimizer Nat)).Constants
      = [⟨.int 7, "number"⟩, ⟨.float 0, "number"⟩, ⟨.int 14, "number"⟩] := by decide!
  have e3 : (doConstantFolding stdOps
      (⟨[⟨1, .float (f64OfInt 0), 3⟩, ⟨1, .float (f64OfInt 0), 3⟩, ⟨11, .nil, 3⟩, ⟨0, .nil, 4⟩],
        [⟨.int 7, "number"⟩, ⟨.float 0, "number"⟩, ⟨.int 14, "number"⟩], none⟩ :
          Optimizer Nat)).Instructions
      = [⟨1, .float (f64OfInt 3), 3⟩, ⟨0, .nil, 4⟩] := by decide!
  have e4 : (doConstantFolding stdOps
      (⟨[⟨1, .float (f64OfInt 0), 3⟩, ⟨1, .float (f64OfInt 0), 3⟩, ⟨11, .nil, 3⟩, ⟨0, .nil, 4⟩],
        [⟨.int 7, "number"⟩, ⟨.float 0, "number"⟩, ⟨.int 14, "number"⟩], none⟩ :
          Optimizer Nat)).Constants
      = [⟨.int 7, "number"⟩, ⟨.float 0, "number"⟩, ⟨.int 14, "number"⟩,
          ⟨.int 49, "number"⟩] := by decide!
  rw [e2, e1, e3, e4] at h
  exact h

/-! ## Exact arithmetic on small integers -/

/-- The fields of `float64(v)` for a non-zero integer below `2^53` in
magnitude. -/
theorem f64OfInt_fields (v : Int) (h0 : v ≠ 0) (h : v.natAbs < 2 ^ 53) :
    ∃ e : Nat, e = ilog2 64 v.natAbs ∧ e ≤ 52 ∧ 2 ^ e ≤ v.natAbs ∧ v.natAbs < 2 ^ (e + 1) ∧
      2 ^ 52 ≤ v.natAbs * 2 ^ (52 - e) ∧ v.natAbs * 2 ^ (52 - e) < 2 ^ 53 ∧
      f64OfInt v = (if v < 0 then 2 ^ 63 else 0) + (e + 1023) * 2 ^ 52
        + (v.natAbs * 2 ^ (52 - e) - 2 ^ 52) ∧
      f64Exp (f64OfInt v) = e + 1023 ∧ f64Sig (f64OfInt v) = v.natAbs * 2 ^ (52 - e) ∧
      f64E (f64OfInt v) = e + 1023 ∧ (f64Neg (f64OfInt v) = true ↔ v < 0) := by
  have hn0 : v.natAbs ≠ 0 := fun hc => h0 (Int.natAbs_eq_zero.mp hc)
  obtain ⟨hlo, hhi⟩ := ilog2_spec 64 v.natAbs (by omega)
    (lt_trans h (Nat.pow_lt_pow_right (by norm_num) (by norm_num)))
  generalize he : ilog2 64 v.natAbs = e at hlo hhi
  have he52 : e ≤ 52 := by
    by_contra hc
    have : 2 ^ 53 ≤ 2 ^ e := Nat.pow_le_pow_right (by norm_num) (by omega)
    omega
  have hP : 2 ^ e * 2 ^ (52 - e) = 2 ^ 52 := by
    rw [← pow_add]; congr 1; omega
  have hPpos : 0 < 2 ^ (52 - e) := by positivity
  have hge : 2 ^ 52 ≤ v.natAbs * 2 ^ (52 - e) := by
    rw [← hP]; exact Nat.mul_le_mul_right _ hlo
  have hlt : v.natAbs * 2 ^ (52 - e) < 2 ^ 53 := by
    have : v.natAbs * 2 ^ (52 - e) < 2 ^ (e + 1) * 2 ^ (52 - e) :=
      Nat.mul_lt_mul_of_pos_right hhi hPpos
    rwa [pow_succ, mul_assoc, mul_comm 2, ← mul_assoc, hP, ← pow_succ] at this
  have hbits : f64OfInt v = (if v < 0 then 2 ^ 63 else 0) + (e + 1023) * 2 ^ 52
      + (v.natAbs * 2 ^ (52 - e) - 2 ^ 52) := by
    unfold f64OfInt
    simp only [hn0, if_false, he, he52, if_true]
  obtain ⟨hE, hF, hN⟩ := f64_fields (if v < 0 then 2 ^ 63 else 0) e
    (v.natAbs * 2 ^ (52 - e) - 2 ^ 52) (by split <;> simp) he52 (by omega)
  rw [← hbits] at hE hF hN
  refine ⟨e, rfl, he52, hlo, hhi, hge, hlt, hbits, hE, ?_, ?_, ?_⟩
  · unfold f64Sig; rw [hE, hF, if_neg (by omega)]; omega
  · unfold f64E; rw [hE, if_neg (by omega)]
  · rw [hN]
    by_cases hv : v < 0 <;> simp [hv]

/-- The value of `float64(v)` in units of `2^-1074`. -/
theorem f64OfInt_units (v : Int) (h : v.natAbs < 2 ^ 53) :
    f64Exp (f64OfInt v) ≠ 2047 ∧ f64Units (f64OfInt v) = v.natAbs * 2 ^ 1074 ∧
    (f64Neg (f64OfInt v) = true ↔ v < 0) ∧ (f64IsZero (f64OfInt v) = true ↔ v = 0) := by
  by_cases h0 : v = 0
  · subst h0
    have hz : f64OfInt 0 = 0 := by decide
    have hs : f64Sig 0 = 0 := by decide
    refine ⟨by decide, ?_, by decide, by decide⟩
    rw [hz]
    unfold f64Units
    rw [hs, Nat.zero_mul, Int.natAbs_zero, Nat.zero_mul]
  · obtain ⟨e, _, he, _, _, hge, _, _, hE, hS, hEe, hN⟩ := f64OfInt_fields v h0 h
    refine ⟨by rw [hE]; omega, ?_, hN, ?_⟩
    · unfold f64Units
      have hx : 52 - e + (e + 1023 - 1) = 1074 := by omega
      rw [hS, hEe, mul_assoc, ← pow_add, hx]
    · unfold f64IsZero
      rw [hE]
      simp only [h0, iff_false]
      simp

theorem ilog2_unique (fuel n L : Nat) (h1 : 1 ≤ n) (h2 : n < 2 ^ (fuel + 1))
    (hlo : 2 ^ L ≤ n) (hhi : n < 2 ^ (L + 1)) : ilog2 fuel n = L := by
  obtain ⟨a, b⟩ := ilog2_spec fuel n h1 h2
  by_contra hne
  rcases Nat.lt_or_gt_of_ne hne with hlt | hgt
  · have : 2 ^ (ilog2 fuel n + 1) ≤ 2 ^ L := Nat.pow_le_pow_right (by norm_num) hlt
    omega
  · have : 2 ^ (L + 1) ≤ 2 ^ ilog2 fuel n := Nat.pow_le_pow_right (by norm_num) hgt
    omega

/-- Rounding a value that is an integer below `2^53` in magnitude gives that
integer. -/
theorem f64Round_exact (neg : Bool) (N den : Nat) (hN : 1 ≤ N) (hN' : N < 2 ^ 53)
    (hden : 0 < den) :
    f64Round neg (N * 2 ^ 1074 * den) den
      = f64OfInt (if neg then -(N : Int) else (N : Int)) := by
  have hv0 : (if neg then -(N : Int) else (N : Int)) ≠ 0 := by split <;> omega
  have hvabs : (if neg then -(N : Int) else (N : Int)).natAbs = N := by split <;> omega
  obtain ⟨e, -, he, hlo, hhi, hge, hlt, hbits, -⟩ :=
    f64OfInt_fields _ hv0 (by rw [hvabs]; exact hN')
  rw [hvabs] at hlo hhi hge hlt hbits
  have hsign : ((if neg then -(N : Int) else (N : Int)) < 0) ↔ neg = true := by
    cases neg
    · simp
    · simp; omega
  rw [hbits]
  have hsplit : (2 : Nat) ^ 1074 = 2 ^ (52 - e) * 2 ^ (e + 1022) := by
    have hx : 52 - e + (e + 1022) = 1074 := by omega
    rw [← pow_add, hx]
  have hq : N * 2 ^ 1074 * den / den = N * 2 ^ 1074 := Nat.mul_div_cancel _ hden
  have hpow : (2 : Nat) ^ 53 ≤ 2 ^ 1074 :=
    Nat.pow_le_pow_right (show 0 < 2 by omega) (show 53 ≤ 1074 by omega)
  have hbig : (2 : Nat) ^ 53 ≤ N * 2 ^ 1074 :=
    le_trans hpow (Nat.le_mul_of_pos_left _ hN)
  have hlog : ilog2 4096 (N * 2 ^ 1074) = e + 1074 := by
    apply ilog2_unique
    · exact le_trans (Nat.one_le_two_pow) hbig
    · calc N * 2 ^ 1074 < 2 ^ 53 * 2 ^ 1074 :=
            Nat.mul_lt_mul_of_pos_right hN' (by positivity)
        _ = 2 ^ 1127 := by rw [← pow_add]
        _ ≤ 2 ^ (4096 + 1) := Nat.pow_le_pow_right (by norm_num) (by norm_num)
    · rw [pow_add]; exact Nat.mul_le_mul_right _ hlo
    · rw [show e + 1074 + 1 = (e + 1) + 1074 by omega, pow_add]
      exact Nat.mul_lt_mul_of_pos_right hhi (by positivity)
  have hnum : N * 2 ^ 1074 * den = N * 2 ^ (52 - e) * (den * 2 ^ (e + 1022)) := by
    rw [hsplit]; ring
  have hdpos : 0 < den * 2 ^ (e + 1022) := by positivity
  unfold f64Round
  simp only [hq, if_neg (not_lt.mpr hbig), hlog, show e + 1074 - 52 = e + 1022 by omega]
  rw [hnum, Nat.mul_div_cancel _ hdpos, Nat.mul_mod_left]
  have hc : ¬ (den * 2 ^ (e + 1022) < 2 * 0 ∨
      (2 * 0 = den * 2 ^ (e + 1022) ∧ N * 2 ^ (52 - e) % 2 = 1)) := by
    rintro (h | ⟨h, _⟩) <;> omega
  rw [if_neg hc]
  generalize N * 2 ^ (52 - e) = M at hge hlt
  have hs : (if (if neg then -(N : Int) else (N : Int)) < 0 then (2 : Nat) ^ 63 else 0)
      = (if neg = true then 2 ^ 63 else 0) := by
    by_cases hn : neg = true
    · rw [if_pos (hsign.mpr hn), if_pos hn]
    · rw [if_neg (fun hc => hn (hsign.mp hc)), if_neg hn]
  rw [hs]
  norm_num at hge hlt ⊢
  rw [min_eq_left (by omega)]
  omega

theorem f64OfInt_signedUnits (v : Int) (h : v.natAbs < 2 ^ 53) :
    f64SignedUnits (f64OfInt v) = v * 2 ^ 1074 := by
  obtain ⟨_, hu, hn, _⟩ := f64OfInt_units v h
  unfold f64SignedUnits
  rw [hu]
  have hc : ((v.natAbs * 2 ^ 1074 : Nat) : Int) = (v.natAbs : Int) * 2 ^ 1074 := by
    rw [Nat.cast_mul, Nat.cast_pow]; rfl
  rw [hc]
  by_cases hv : v < 0
  · rw [if_pos (hn.mpr hv), show (v.natAbs : Int) = -v by omega, neg_mul, neg_neg]
  · rw [if_neg (fun hc => hv (hn.mp hc)), show (v.natAbs : Int) = v by omega]

theorem f64_finite (x : Nat) (h : f64Exp x ≠ 2047) :
    f64IsNaN x = false ∧ f64IsInf x = false := by
  unfold f64IsNaN f64IsInf
  simp [h]

/-- Go's `+` on two finite `float64` values that are integers, with a sum below
`2^53` in magnitude: the sum, exactly. -/
theorem f64Add_exact (x y : Nat) (a b : Int) (hx : f64Exp x ≠ 2047) (hy : f64Exp y ≠ 2047)
    (hxu : f64SignedUnits x = a * 2 ^ 1074) (hyu : f64SignedUnits y = b * 2 ^ 1074)
    (hneg : ¬ (f64Neg x = true ∧ f64Neg y = true ∧ a + b = 0))
    (hsum : (a + b).natAbs < 2 ^ 53) : f64Add x y = f64OfInt (a + b) := by
  have hpos : (0 : Int) < 2 ^ 1074 := by positivity
  have hs : f64SignedUnits x + f64SignedUnits y = (a + b) * 2 ^ 1074 := by
    rw [hxu, hyu, add_mul]
  unfold f64Add
  rw [(f64_finite x hx).1, (f64_finite x hx).2, (f64_finite y hy).1, (f64_finite y hy).2]
  simp only [Bool.false_eq_true, if_false, hs]
  by_cases h0 : a + b = 0
  · rw [h0, zero_mul, if_pos rfl]
    rw [if_neg (fun hc => hneg ⟨hc.1, hc.2, h0⟩)]
    rfl
  · rw [if_neg (by intro hc; rcases mul_eq_zero.mp hc with h | h
                   · exact h0 h
                   · exact absurd h (ne_of_gt hpos))]
    have habs : ((a + b) * 2 ^ 1074).natAbs = (a + b).natAbs * 2 ^ 1074 * 1 := by
      have h2 : (2 : Int).natAbs = 2 := rfl
      rw [Int.natAbs_mul, Int.natAbs_pow, h2, mul_one]
    have hlt : decide ((a + b) * 2 ^ 1074 < 0) = decide (a + b < 0) := by
      congr 1
      rw [eq_iff_iff]
      constructor
      · intro h
        by_contra hc
        exact absurd h (not_lt.mpr (mul_nonneg (not_lt.mp hc) (le_of_lt hpos)))
      · intro h
        exact mul_neg_of_neg_of_pos h hpos
    rw [habs, hlt, f64Round_exact _ _ 1 (by omega) hsum (by omega)]
    congr 1
    by_cases hn : a + b < 0
    · simp only [hn, decide_True, if_true]; omega
    · simp only [hn, decide_False, Bool.false_eq_true, if_false]; omega

theorem f64Negate_ofInt (b : Int) (h0 : b ≠ 0) (h : b.natAbs < 2 ^ 53) :
    f64Negate (f64OfInt b) = f64OfInt (-b) := by
  obtain ⟨e, he, _, _, _, hge, hlt, hbits, _, _, _, hN⟩ := f64OfInt_fields b h0 h
  obtain ⟨e', he', _, _, _, _, _, hbits', _⟩ :=
    f64OfInt_fields (-b) (by omega) (by rw [Int.natAbs_neg]; exact h)
  rw [Int.natAbs_neg] at he' hbits'
  rw [← he] at he'
  rw [he'] at hbits'
  unfold f64Negate
  rw [hbits']
  by_cases hb : b < 0
  · rw [if_pos (hN.mpr hb), hbits, if_pos hb, if_neg (by omega)]
    generalize b.natAbs * 2 ^ (52 - e) = M at hge hlt
    norm_num at hge hlt ⊢
    omega
  · rw [if_neg (fun hc => hb (hN.mp hc)), hbits, if_neg hb, if_pos (by omega)]
    generalize b.natAbs * 2 ^ (52 - e) = M at hge hlt
    norm_num at hge hlt ⊢
    omega

/-- Go's `-` on two integers below `2^52` in magnitude, as `float64`: the
difference, exactly. -/
theorem f64Sub_exact (a b : Int) (ha : a.natAbs < 2 ^ 52) (hb : b.natAbs < 2 ^ 52) :
    f64Sub (f64OfInt a) (f64OfInt b) = f64OfInt (a - b) := by
  obtain ⟨ea, _, na, _⟩ := f64OfInt_units a (by omega)
  obtain ⟨eb, _, nb, _⟩ := f64OfInt_units b (by omega)
  unfold f64Sub
  rw [(f64_finite _ ea).1, (f64_finite _ eb).1]
  simp only [Bool.false_eq_true, if_false]
  by_cases h0 : b = 0
  · subst h0
    have hz : f64Negate (f64OfInt 0) = 2 ^ 63 := by decide
    rw [hz, sub_zero]
    have := f64Add_exact (f64OfInt a) (2 ^ 63) a 0 ea (by decide)
      (f64OfInt_signedUnits a (by omega))
      (by rw [zero_mul]; unfold f64SignedUnits f64Units
          have hs : f64Sig (2 ^ 63) = 0 := by decide
          rw [hs, Nat.zero_mul]; simp)
      (by rintro ⟨h1, _, h3⟩; have := na.mp h1; omega) (by omega)
    rw [add_zero] at this
    exact this
  · obtain ⟨enb, _, nnb, _⟩ := f64OfInt_units (-b) (by omega)
    rw [f64Negate_ofInt b h0 (by omega), sub_eq_add_neg]
    exact f64Add_exact _ _ a (-b) ea enb (f64OfInt_signedUnits a (by omega))
      (f64OfInt_signedUnits (-b) (by omega))
      (by rintro ⟨h1, h2, h3⟩; have := na.mp h1; have := nnb.mp h2; omega) (by omega)

theorem f64Add_ofInt (a b : Int) (ha : a.natAbs < 2 ^ 52) (hb : b.natAbs < 2 ^ 52) :
    f64Add (f64OfInt a) (f64OfInt b) = f64OfInt (a + b) := by
  obtain ⟨ea, _, na, _⟩ := f64OfInt_units a (by omega)
  obtain ⟨eb, _, nb, _⟩ := f64OfInt_units b (by omega)
  exact f64Add_exact _ _ a b ea eb (f64OfInt_signedUnits a (by omega))
    (f64OfInt_signedUnits b (by omega))
    (by rintro ⟨h1, h2, h3⟩; have := na.mp h1; have := nb.mp h2; omega) (by omega)

theorem arithResult_ofInt (n : Int) (h : n.natAbs < 2 ^ 53) :
    arithResult (f64OfInt n) = .int n := by
  unfold arithResult
  rw [f64ToInt_ofInt n h]
  simp only
  rw [if_pos (by constructor <;> omega)]

/-- Go's `*` on two integers below `2^26` in magnitude, as `float64`, and the
result that `performArithmetic` makes of it: the product, exactly. -/
theorem arithResult_mul (a b : Int) (ha : a.natAbs < 2 ^ 26) (hb : b.natAbs < 2 ^ 26) :
    arithResult (f64Mul (f64OfInt a) (f64OfInt b)) = .int (a * b) := by
  obtain ⟨ea, ua, na, za⟩ := f64OfInt_units a (by omega)
  obtain ⟨eb, ub, nb, zb⟩ := f64OfInt_units b (by omega)
  unfold f64Mul
  rw [(f64_finite _ ea).1, (f64_finite _ eb).1, (f64_finite _ ea).2, (f64_finite _ eb).2]
  simp only [Bool.false_eq_true, if_false, or_self]
  by_cases h0 : a = 0 ∨ b = 0
  · have hz : f64IsZero (f64OfInt a) = true ∨ f64IsZero (f64OfInt b) = true := by
      rcases h0 with h | h
      · exact Or.inl (za.mpr h)
      · exact Or.inr (zb.mpr h)
    rw [if_pos hz]
    have hp : a * b = 0 := by rcases h0 with h | h <;> simp [h]
    rw [hp]
    unfold f64Signed
    split
    · decide!
    · decide!
  · rw [not_or] at h0
    have hz : ¬ (f64IsZero (f64OfInt a) = true ∨ f64IsZero (f64OfInt b) = true) := by
      rintro (h | h)
      · exact h0.1 (za.mp h)
      · exact h0.2 (zb.mp h)
    rw [if_neg hz, ua, ub]
    have hN : 1 ≤ a.natAbs * b.natAbs := by
      have h1 : 1 ≤ a.natAbs := by omega
      have h2 : 1 ≤ b.natAbs := by omega
      exact Nat.mul_le_mul h1 h2
    have hN' : a.natAbs * b.natAbs < 2 ^ 53 := by
      have h1 : a.natAbs * b.natAbs ≤ 2 ^ 26 * 2 ^ 26 :=
        Nat.mul_le_mul (le_of_lt ha) (le_of_lt hb)
      norm_num at h1 ⊢
      omega
    have hre : a.natAbs * 2 ^ 1074 * (b.natAbs * 2 ^ 1074)
        = a.natAbs * b.natAbs * 2 ^ 1074 * 2 ^ 1074 := by ring
    rw [hre, f64Round_exact _ _ _ hN hN' (by positivity)]
    have hval : (if (f64Neg (f64OfInt a) != f64Neg (f64OfInt b)) = true
        then -((a.natAbs * b.natAbs : Nat) : Int) else ((a.natAbs * b.natAbs : Nat) : Int))
        = a * b := by
      have hab : ((a.natAbs * b.natAbs : Nat) : Int) = (a * b).natAbs := by
        rw [Int.natAbs_mul]
      rw [hab]
      by_cases h1 : a < 0 <;> by_cases h2 : b < 0
      · have e1 := na.mpr h1
        have e2 := nb.mpr h2
        have hpos : 0 < a * b := mul_pos_of_neg_of_neg h1 h2
        rw [e1, e2]
        simp only [bne_self_eq_false, Bool.false_eq_true, if_false]
        omega
      · have e1 := na.mpr h1
        have e2 : f64Neg (f64OfInt b) = false := by
          rw [Bool.eq_false_iff]; exact fun hc => h2 (nb.mp hc)
        have hneg : a * b < 0 := mul_neg_of_neg_of_pos h1 (by omega)
        rw [e1, e2]
        simp only [Bool.true_bne, Bool.not_false, if_true]
        omega
      · have e1 : f64Neg (f64OfInt a) = false := by
          rw [Bool.eq_false_iff]; exact fun hc => h1 (na.mp hc)
        have e2 := nb.mpr h2
        have hneg : a * b < 0 := mul_neg_of_pos_of_neg (by omega) h2
        rw [e1, e2]
        simp only [Bool.false_bne, if_true]
        omega
      · have e1 : f64Neg (f64OfInt a) = false := by
          rw [Bool.eq_false_iff]; exact fun hc => h1 (na.mp hc)
        have e2 : f64Neg (f64OfInt b) = false := by
          rw [Bool.eq_false_iff]; exact fun hc => h2 (nb.mp hc)
        have hpos : 0 < a * b := mul_pos (by omega) (by omega)
        rw [e1, e2]
        simp only [bne_self_eq_false, Bool.false_eq_true, if_false]
        omega
    rw [hval]
    exact arithResult_ofInt _ (by rw [Int.natAbs_mul]; exact hN')

/-- The function `performArithmetic` on two integers below `2^26` in
magnitude: the sum, the difference and the product as integers. -/
theorem performArithmetic_int (ops : OpCodes) (hd : ops.Distinct) (a b : Int)
    (ha : a.natAbs < 2 ^ 26) (hb : b.natAbs < 2 ^ 26) :
    performArithmetic ops (.int a) (.int b) ops.OpAdd = some (.int (a + b)) ∧
    performArithmetic ops (.int a) (.int b) ops.OpSub = some (.int (a - b)) ∧
    performArithmetic ops (.int a) (.int b) ops.OpMul = some (.int (a * b)) := by
  obtain ⟨_, _, _, _, _, d1, d2, d3⟩ := Distinct_arith ops hd
  unfold performArithmetic
  simp only [toFloat, if_true, if_neg d1, if_neg d2, if_neg d3]
  refine ⟨?_, ?_, ?_⟩
  · rw [f64Add_ofInt a b (by omega) (by omega), arithResult_ofInt _ (by omega)]
  · rw [f64Sub_exact a b (by omega) (by omega), arithResult_ofInt _ (by omega)]
  · rw [arithResult_mul a b ha hb]

/-! ## A window that folds -/

theorem performArithmetic_intResult (ops : OpCodes) (hd : ops.Distinct) (op : Nat) (a b : Int)
    (hop : op = ops.OpAdd ∨ op = ops.OpSub ∨ op = ops.OpMul)
    (ha : a.natAbs < 2 ^ 26) (hb : b.natAbs < 2 ^ 26) :
    isArithmeticOp ops op = true ∧
    performArithmetic ops (.int a) (.int b) op = some (.int (intResult ops op a b)) := by
  obtain ⟨_, _, _, _, _, d1, d2, d3⟩ := Distinct_arith ops hd
  obtain ⟨h1, h2, h3⟩ := performArithmetic_int ops hd a b ha hb
  unfold intResult
  rcases hop with rfl | rfl | rfl
  · exact ⟨by simp [isArithmeticOp], by rw [if_pos rfl]; exact h1⟩
  · exact ⟨by simp [isArithmeticOp], by rw [if_neg d1, if_pos rfl]; exact h2⟩
  · exact ⟨by simp [isArithmeticOp], by rw [if_neg d2, if_neg d3]; exact h3⟩

theorem foldLoop_first (ops : OpCodes) (f : Nat) (a : Instruction) (rest : List Instruction)
    (cs : List Constant)
    (h : ∀ x y tl, rest = x :: y :: tl → foldWindow ops cs a x y = none) :
    foldLoop ops (f + 1) (a :: rest) cs
      = (a :: (foldLoop ops f rest cs).1, (foldLoop ops f rest cs).2) := by
  match rest, h with
  | [], _ => rw [foldLoop_one]
  | [b], _ => rw [foldLoop_two]
  | b :: c :: rest, h => exact foldLoop_skip ops f a b c rest cs (h b c rest rfl)

/-- C26: let the opcodes be distinct.  In a stream `pre ++ [A, B, C] ++ post`
let `A` and `B` be `Constant` instructions whose operands are the indices `p`
and `q` of two constants that hold the integers `a` and `b`, both below `2^26`
in magnitude, and let `C` be `Add`, `Sub` or `Mul`.  Then `doConstantFolding`
scans `pre` as if it stood alone, which leaves a pool that starts with the
pool it was given; it then replaces `A, B, C` by the single instruction
`Constant k` with the line of `A`, where `k` is the length of that pool, and
appends the constant of type `number` that holds the integer `a op b`, so that
`k` is its index; and it goes on with the scan from the new instruction.  When
the new instruction and the two after it are no window that folds, the result
is what the scan of `pre` returns, the new instruction, and what the scan of
`post` returns.  Every pool met is an extension of the one before, and the
stream returned is shorter than the input by two instructions for every
constant appended. -/
theorem C26_window_folded {τ : Type} (ops : OpCodes) (hd : ops.Distinct)
    (pre post : List Instruction) (A B C : Instruction) (cs : List Constant)
    (sym : Option (SymbolTable τ)) (p q : Nat) (a b : Int) (ca cb : Constant)
    (hA : A.Op = ops.OpConstant) (hB : B.Op = ops.OpConstant)
    (hC : C.Op = ops.OpAdd ∨ C.Op = ops.OpSub ∨ C.Op = ops.OpMul)
    (hp : poolIndex cs.length A.Arg = some p) (hq : poolIndex cs.length B.Arg = some q)
    (hca : cs[p]? = some ca) (hcb : cs[q]? = some cb)
    (hva : ca.Value = .int a) (hvb : cb.Value = .int b)
    (ha : a.natAbs < 2 ^ 26) (hb : b.natAbs < 2 ^ 26) :
    (doConstantFolding ops (⟨pre ++ A :: B :: C :: post, cs, sym⟩ : Optimizer τ)).Instructions
      = (doConstantFolding ops (⟨pre, cs, sym⟩ : Optimizer τ)).Instructions ++
        (doConstantFolding ops (⟨⟨ops.OpConstant, .float (f64OfInt
            (doConstantFolding ops (⟨pre, cs, sym⟩ : Optimizer τ)).Constants.length),
              A.Line⟩ :: post,
          (doConstantFolding ops (⟨pre, cs, sym⟩ : Optimizer τ)).Constants ++
            [⟨.int (intResult ops C.Op a b), "number"⟩], sym⟩ : Optimizer τ)).Instructions ∧
    (doConstantFolding ops (⟨pre ++ A :: B :: C :: post, cs, sym⟩ : Optimizer τ)).Constants
      = (doConstantFolding ops (⟨⟨ops.OpConstant, .float (f64OfInt
            (doConstantFolding ops (⟨pre, cs, sym⟩ : Optimizer τ)).Constants.length),
              A.Line⟩ :: post,
          (doConstantFolding ops (⟨pre, cs, sym⟩ : Optimizer τ)).Constants ++
            [⟨.int (intResult ops C.Op a b), "number"⟩], sym⟩ : Optimizer τ)).Constants ∧
    ((∀ x y tl, post = x :: y :: tl →
        foldWindow ops ((doConstantFolding ops (⟨pre, cs, sym⟩ : Optimizer τ)).Constants ++
            [⟨.int (intResult ops C.Op a b), "number"⟩])
          ⟨ops.OpConstant, .float (f64OfInt
            (doConstantFolding ops (⟨pre, cs, sym⟩ : Optimizer τ)).Constants.length), A.Line⟩
          x y = none) →
      (doConstantFolding ops (⟨pre ++ A :: B :: C :: post, cs, sym⟩ : Optimizer τ)).Instructions
        = (doConstantFolding ops (⟨pre, cs, sym⟩ : Optimizer τ)).Instructions ++
          ⟨ops.OpConstant, .float (f64OfInt
            (doConstantFolding ops (⟨pre, cs, sym⟩ : Optimizer τ)).Constants.length), A.Line⟩ ::
          (doConstantFolding ops (⟨post,
            (doConstantFolding ops (⟨pre, cs, sym⟩ : Optimizer τ)).Constants ++
              [⟨.int (intResult ops C.Op a b), "number"⟩], sym⟩ : Optimizer τ)).Instructions) ∧
    (∃ extra extra', (doConstantFolding ops (⟨pre, cs, sym⟩ : Optimizer τ)).Constants
        = cs ++ extra ∧
      (doConstantFolding ops (⟨pre ++ A :: B :: C :: post, cs, sym⟩ : Optimizer τ)).Constants
        = cs ++ extra ++ [⟨.int (intResult ops C.Op a b), "number"⟩] ++ extra' ∧
      (doConstantFolding ops
          (⟨pre ++ A :: B :: C :: post, cs, sym⟩ : Optimizer τ)).Instructions.length
        + 2 * (extra.length + 1 + extra'.length) = (pre ++ A :: B :: C :: post).length) := by
  obtain ⟨ac, _⟩ := Distinct_arith ops hd
  obtain ⟨harith, hperf⟩ := performArithmetic_intResult ops hd C.Op a b hC ha hb
  have key := foldLoop_append ops A B (C :: post) (by rw [hA]; exact ac) (by rw [hB]; exact ac)
    pre.length pre (le_refl _) cs (pre ++ A :: B :: C :: post).length pre.length
    (post.length + 2 + 1) (by simp) (le_refl _) (by simp)
  have hw : foldWindow ops (foldLoop ops pre.length pre cs).2 A B C
      = some (.int (intResult ops C.Op a b)) := by
    rw [foldWindow_eval ops _ A B C hA hB harith p q
      (poolIndex_mono _ _ _ _ hp (length_foldLoop ops _ _ _))
      (poolIndex_mono _ _ _ _ hq (length_foldLoop ops _ _ _)) ca cb
      (by rw [getElem?_foldLoop ops _ _ _ p (poolIndex_lt _ _ _ hp)]; exact hca)
      (by rw [getElem?_foldLoop ops _ _ _ q (poolIndex_lt _ _ _ hq)]; exact hcb),
      hva, hvb, hperf]
  rw [foldLoop_fold ops _ A B C post _ _ hw,
    foldLoop_fuel ops (post.length + 2) (post.length + 1) _ _ (by simp) (by simp)] at key
  simp only [getTypeString] at key
  have e1 : (doConstantFolding ops
      (⟨pre ++ A :: B :: C :: post, cs, sym⟩ : Optimizer τ)).Instructions
      = (doConstantFolding ops (⟨pre, cs, sym⟩ : Optimizer τ)).Instructions ++
        (doConstantFolding ops (⟨⟨ops.OpConstant, .float (f64OfInt
            (doConstantFolding ops (⟨pre, cs, sym⟩ : Optimizer τ)).Constants.length),
              A.Line⟩ :: post,
          (doConstantFolding ops (⟨pre, cs, sym⟩ : Optimizer τ)).Constants ++
            [⟨.int (intResult ops C.Op a b), "number"⟩], sym⟩ : Optimizer τ)).Instructions := by
    simp only [doConstantFolding_Instructions, doConstantFolding_Constants]
    rw [key]
    simp only [List.length_cons]
  have e2 : (doConstantFolding ops
      (⟨pre ++ A :: B :: C :: post, cs, sym⟩ : Optimizer τ)).Constants
      = (doConstantFolding ops (⟨⟨ops.OpConstant, .float (f64OfInt
            (doConstantFolding ops (⟨pre, cs, sym⟩ : Optimizer τ)).Constants.length),
              A.Line⟩ :: post,
          (doConstantFolding ops (⟨pre, cs, sym⟩ : Optimizer τ)).Constants ++
            [⟨.int (intResult ops C.Op a b), "number"⟩], sym⟩ : Optimizer τ)).Constants := by
    simp only [doConstantFolding_Constants]
    rw [key]
    simp only [List.length_cons]
  refine ⟨e1, e2, ?_, ?_⟩
  · intro hn
    rw [e1]
    congr 1
    simp only [doConstantFolding_Instructions, doConstantFolding_Constants, List.length_cons]
    simp only [doConstantFolding_Constants] at hn
    rw [foldLoop_first ops _ _ post _ hn]
  · obtain ⟨extra, x1, _, x3⟩ := doConstantFolding_pool ops (⟨pre, cs, sym⟩ : Optimizer τ)
    obtain ⟨extra', y1, _, y3⟩ := doConstantFolding_pool ops
      (⟨⟨ops.OpConstant, .float (f64OfInt
            (doConstantFolding ops (⟨pre, cs, sym⟩ : Optimizer τ)).Constants.length),
              A.Line⟩ :: post,
          (doConstantFolding ops (⟨pre, cs, sym⟩ : Optimizer τ)).Constants ++
            [⟨.int (intResult ops C.Op a b), "number"⟩], sym⟩ : Optimizer τ)
    refine ⟨extra, extra', x1, ?_, ?_⟩
    · rw [e2, y1]
      simp only [x1]
    · rw [e1, List.length_append]
      simp only [List.length_append, List.length_cons] at x3 y3 ⊢
      omega

theorem C26_window_folded_witness :
    (doConstantFolding stdOps
      (⟨[⟨2, .str (ascii "x"), 1⟩, ⟨1, .float (f64OfInt 0), 2⟩, ⟨1, .float (f64OfInt 1), 3⟩,
        ⟨11, .nil, 4⟩, ⟨0, .nil, 5⟩],
        [⟨.int 6, "number"⟩, ⟨.int (-7), "number"⟩], none⟩ : Optimizer Nat)).Instructions
      = [⟨2, .str (ascii "x"), 1⟩, ⟨1, .float (f64OfInt 2), 2⟩, ⟨0, .nil, 5⟩] ∧
    (doConstantFolding stdOps
      (⟨[⟨2, .str (ascii "x"), 1⟩, ⟨1, .float (f64OfInt 0), 2⟩, ⟨1, .float (f64OfInt 1), 3⟩,
        ⟨11, .nil, 4⟩, ⟨0, .nil, 5⟩],
        [⟨.int 6, "number"⟩, ⟨.int (-7), "number"⟩], none⟩ : Optimizer Nat)).Constants
      = [⟨.int 6, "number"⟩, ⟨.int (-7), "number"⟩, ⟨.int (-42), "number"⟩] := by
  obtain ⟨_, h2, h3, _⟩ := C26_window_folded stdOps (by decide)
    [⟨2, .str (ascii "x"), 1⟩] [⟨0, .nil, 5⟩]
    ⟨1, .float (f64OfInt 0), 2⟩ ⟨1, .float (f64OfInt 1), 3⟩ ⟨11, .nil, 4⟩
    [⟨.int 6, "number"⟩, ⟨.int (-7), "number"⟩] (none : Option (SymbolTable Nat)) 0 1 6 (-7)
    ⟨.int 6, "number"⟩ ⟨.int (-7), "number"⟩ rfl rfl (Or.inr (Or.inr rfl))
    (by decide!) (by decide!) rfl rfl rfl rfl (by decide) (by decide)
  have h3' := h3 (fun x y tl hc => absurd hc (by simp))
  have e1 : (doConstantFolding stdOps
      (⟨[⟨2, .str (ascii "x"), 1⟩],
        [⟨.int 6, "number"⟩, ⟨.int (-7), "number"⟩], none⟩ : Optimizer Nat)).Instructions
      = [⟨2, .str (ascii "x"), 1⟩] := by decide!
  have e2 : (doConstantFolding stdOps
      (⟨[⟨2, .str (ascii "x"), 1⟩],
        [⟨.int 6, "number"⟩, ⟨.int (-7), "number"⟩], none⟩ : Optimizer Nat)).Constants
      = [⟨.int 6, "number"⟩, ⟨.int (-7), "number"⟩] := by decide!
  have e3 : intResult stdOps 11 6 (-7) = -42 := by decide
  rw [e2, e1, e3] at h3'
  rw [e2, e3] at h2
  have e4 : (doConstantFolding stdOps
      (⟨[⟨0, .nil, 5⟩], [⟨.int 6, "number"⟩, ⟨.int (-7), "number"⟩] ++
        [⟨.int (-42), "number"⟩], none⟩ : Optimizer Nat)).Instructions
      = [⟨0, .nil, 5⟩] := by decide!
  have e5 : (doConstantFolding stdOps
      (⟨[⟨stdOps.OpConstant, .float (f64OfInt
          [(⟨.int 6, "number"⟩ : Constant), ⟨.int (-7), "number"⟩].length), 2⟩, ⟨0, .nil, 5⟩],
        [⟨.int 6, "number"⟩, ⟨.int (-7), "number"⟩] ++
        [⟨.int (-42), "number"⟩], none⟩ : Optimizer Nat)).Constants
      = [⟨.int 6, "number"⟩, ⟨.int (-7), "number"⟩, ⟨.int (-42), "number"⟩] := by decide!
  rw [e4] at h3'
  rw [e5] at h2
  exact ⟨h3', h2⟩

/-! ## The usage counters of `doCleanup` -/

theorem mapGet_mapInit {κ : Type} [DecidableEq κ] (m : List (κ × Nat)) (n name : κ) :
    mapGet (mapInit m n) name
      = if name = n then some ((mapGet m n).getD 0) else mapGet m name := by
  unfold mapInit
  cases h : mapGet m n with
  | some c =>
    simp only [Option.getD_some]
    by_cases hn : name = n
    · rw [if_pos hn, hn, h]
    · rw [if_neg hn]
  | none =>
    simp only [Option.getD_none]
    by_cases hn : name = n
    · rw [if_pos hn, hn, mapGet_mapSet_self]
    · rw [if_neg hn, mapGet_mapSet_ne _ _ _ _ hn]

theorem Distinct_six (ops : OpCodes) (hd : ops.Distinct) :
    ops.OpGetGlobal ≠ ops.OpSetGlobal ∧ ops.OpGetGlobal ≠ ops.OpGetLocal ∧
    ops.OpGetGlobal ≠ ops.OpSetLocal ∧ ops.OpGetGlobal ≠ ops.OpMakeFunc ∧
    ops.OpGetGlobal ≠ ops.OpCall ∧ ops.OpSetGlobal ≠ ops.OpGetLocal ∧
    ops.OpSetGlobal ≠ ops.OpSetLocal ∧ ops.OpSetGlobal ≠ ops.OpMakeFunc ∧
    ops.OpSetGlobal ≠ ops.OpCall ∧ ops.OpGetLocal ≠ ops.OpSetLocal ∧
    ops.OpGetLocal ≠ ops.OpMakeFunc ∧ ops.OpGetLocal ≠ ops.OpCall ∧
    ops.OpSetLocal ≠ ops.OpMakeFunc ∧ ops.OpSetLocal ≠ ops.OpCall ∧
    ops.OpMakeFunc ≠ ops.OpCall := by
  unfold OpCodes.Distinct at hd
  refine ⟨?_, ?_, ?_, ?_, ?_, ?_, ?_, ?_, ?_, ?_, ?_, ?_, ?_, ?_, ?_⟩ <;>
    (intro h; rw [h] at hd; simp at hd)

theorem map_incr_spec {κ : Type} [DecidableEq κ] (m : List (κ × Nat)) (n : κ)
    (R S : κ → Bool) (hR : ∀ k, R k = decide (k = n)) (hS : ∀ k, S k = false) :
    ∀ k, mapGet (mapIncr m n) k
      = if R k = true then some ((mapGet m k).getD 0 + 1)
        else if S k = true then some ((mapGet m k).getD 0) else mapGet m k := by
  intro k
  rw [mapGet_mapIncr, hR, hS]
  by_cases hk : k = n
  · subst hk; simp
  · simp [hk]

theorem map_init_spec {κ : Type} [DecidableEq κ] (m : List (κ × Nat)) (n : κ)
    (R S : κ → Bool) (hR : ∀ k, R k = false) (hS : ∀ k, S k = decide (k = n)) :
    ∀ k, mapGet (mapInit m n) k
      = if R k = true then some ((mapGet m k).getD 0 + 1)
        else if S k = true then some ((mapGet m k).getD 0) else mapGet m k := by
  intro k
  rw [mapGet_mapInit, hR, hS]
  by_cases hk : k = n
  · subst hk; simp
  · simp [hk]

theorem map_same_spec {κ : Type} [DecidableEq κ] (m : List (κ × Nat))
    (R S : κ → Bool) (hR : ∀ k, R k = false) (hS : ∀ k, S k = false) :
    ∀ k, mapGet m k
      = if R k = true then some ((mapGet m k).getD 0 + 1)
        else if S k = true then some ((mapGet m k).getD 0) else mapGet m k := by
  intro k
  rw [hR, hS]
  simp

/-- One step of the first loop of `doCleanup`, when it does not panic: what it
does to the two maps. -/
theorem cleanupUsage_step (ops : OpCodes) (hd : ops.Distinct) (cs : List Constant)
    (inst : Instruction) (rest : List Instruction) (gu : List (List Nat × Nat))
    (lu : List (Int × Nat)) (r : List (List Nat × Nat) × List (Int × Nat))
    (h : cleanupUsage ops cs (inst :: rest) gu lu = some r) :
    ∃ gu' lu', cleanupUsage ops cs rest gu' lu' = some r ∧
      (∀ name, mapGet gu' name
        = if readsGlobal ops name inst = true then some ((mapGet gu name).getD 0 + 1)
          else if storesGlobal ops name inst = true then some ((mapGet gu name).getD 0)
          else mapGet gu name) ∧
      (∀ slot, mapGet lu' slot
        = if readsLocal ops slot inst = true then some ((mapGet lu slot).getD 0 + 1)
          else if storesLocal ops slot inst = true then some ((mapGet lu slot).getD 0)
          else mapGet lu slot) := by
  obtain ⟨d1, d2, d3, d4, d5, d6, d7, d8, d9, d10, d11, d12, d13, d14, d15⟩ :=
    Distinct_six ops hd
  have gsame : ∀ (hr : ∀ name, readsGlobal ops name inst = false)
      (hs : ∀ name, storesGlobal ops name inst = false), ∀ name, mapGet gu name
        = if readsGlobal ops name inst = true then some ((mapGet gu name).getD 0 + 1)
          else if storesGlobal ops name inst = true then some ((mapGet gu name).getD 0)
          else mapGet gu name :=
    fun hr hs => map_same_spec gu _ _ hr hs
  have lsame : ∀ (hr : ∀ slot, readsLocal ops slot inst = false)
      (hs : ∀ slot, storesLocal ops slot inst = false), ∀ slot, mapGet lu slot
        = if readsLocal ops slot inst = true then some ((mapGet lu slot).getD 0 + 1)
          else if storesLocal ops slot inst = true then some ((mapGet lu slot).getD 0)
          else mapGet lu slot :=
    fun hr hs => map_same_spec lu _ _ hr hs
  rw [cleanupUsage] at h
  by_cases h1 : inst.Op = ops.OpGetGlobal
  · rw [if_pos h1] at h
    have hl := lsame (by intro slot; unfold readsLocal; split <;> simp [h1, d2])
      (by intro slot; unfold storesLocal; split <;> simp [h1, d3])
    have hs : ∀ name, storesGlobal ops name inst = false := by
      intro name; simp [storesGlobal, h1, d1]
    cases ha : inst.Arg with
    | str n =>
      rw [ha] at h
      exact ⟨_, _, h, map_incr_spec gu n _ _
        (by intro name; simp [readsGlobal, ha, h1, eq_comm]) hs, hl⟩
    | nil => rw [ha] at h; exact ⟨_, _, h, gsame (by simp [readsGlobal, ha]) hs, hl⟩
    | int v => rw [ha] at h; exact ⟨_, _, h, gsame (by simp [readsGlobal, ha]) hs, hl⟩
    | int64 v => rw [ha] at h; exact ⟨_, _, h, gsame (by simp [readsGlobal, ha]) hs, hl⟩
    | bool v => rw [ha] at h; exact ⟨_, _, h, gsame (by simp [readsGlobal, ha]) hs, hl⟩
    | float idx => rw [ha] at h; exact ⟨_, _, h, gsame (by simp [readsGlobal, ha]) hs, hl⟩
  rw [if_neg h1] at h
  by_cases h2 : inst.Op = ops.OpSetGlobal
  · rw [if_pos h2] at h
    have hl := lsame (by intro slot; unfold readsLocal; split <;> simp [h2, d6])
      (by intro slot; unfold storesLocal; split <;> simp [h2, d7])
    have hr : ∀ name, readsGlobal ops name inst = false := by
      intro name; simp [readsGlobal, h2, d1.symm, d9]
    cases ha : inst.Arg with
    | str n =>
      rw [ha] at h
      exact ⟨_, _, h, map_init_spec gu n _ _ hr
        (by intro name; simp [storesGlobal, ha, h2, eq_comm]), hl⟩
    | nil => rw [ha] at h; exact ⟨_, _, h, gsame hr (by simp [storesGlobal, ha]), hl⟩
    | int v => rw [ha] at h; exact ⟨_, _, h, gsame hr (by simp [storesGlobal, ha]), hl⟩
    | int64 v => rw [ha] at h; exact ⟨_, _, h, gsame hr (by simp [storesGlobal, ha]), hl⟩
    | bool v => rw [ha] at h; exact ⟨_, _, h, gsame hr (by simp [storesGlobal, ha]), hl⟩
    | float idx => rw [ha] at h; exact ⟨_, _, h, gsame hr (by simp [storesGlobal, ha]), hl⟩
  rw [if_neg h2] at h
  have hsg : ∀ name, storesGlobal ops name inst = false := by
    intro name; simp [storesGlobal, h2]
  by_cases h3 : inst.Op = ops.OpGetLocal
  · rw [if_pos h3] at h
    have hg := gsame (by intro name; simp [readsGlobal, h3, d2.symm, d12]) hsg
    cases ha : inst.Arg with
    | float idx =>
      rw [ha] at h
      exact ⟨_, _, h, hg, map_incr_spec lu _ _ _
        (by intro slot; simp [readsLocal, ha, h3, eq_comm])
        (by intro slot; simp [storesLocal, ha, h3, d10])⟩
    | nil => rw [ha] at h; exact ⟨_, _, h, hg, lsame (by simp [readsLocal, ha])
        (by simp [storesLocal, ha])⟩
    | int v => rw [ha] at h; exact ⟨_, _, h, hg, lsame (by simp [readsLocal, ha])
        (by simp [storesLocal, ha])⟩
    | int64 v => rw [ha] at h; exact ⟨_, _, h, hg, lsame (by simp [readsLocal, ha])
        (by simp [storesLocal, ha])⟩
    | bool v => rw [ha] at h; exact ⟨_, _, h, hg, lsame (by simp [readsLocal, ha])
        (by simp [storesLocal, ha])⟩
    | str v => rw [ha] at h; exact ⟨_, _, h, hg, lsame (by simp [readsLocal, ha])
        (by simp [storesLocal, ha])⟩
  rw [if_neg h3] at h
  have hrl : ∀ slot, readsLocal ops slot inst = false := by
    intro slot; unfold readsLocal; split <;> simp [h3]
  by_cases h4 : inst.Op = ops.OpSetLocal
  · rw [if_pos h4] at h
    have hg := gsame (by intro name; simp [readsGlobal, h4, d3.symm, d14]) hsg
    cases ha : inst.Arg with
    | float idx =>
      rw [ha] at h
      exact ⟨_, _, h, hg, map_init_spec lu _ _ _ hrl
        (by intro slot; simp [storesLocal, ha, h4, eq_comm])⟩
    | nil => rw [ha] at h; exact ⟨_, _, h, hg, lsame hrl (by simp [storesLocal, ha])⟩
    | int v => rw [ha] at h; exact ⟨_, _, h, hg, lsame hrl (by simp [storesLocal, ha])⟩
    | int64 v => rw [ha] at h; exact ⟨_, _, h, hg, lsame hrl (by simp [storesLocal, ha])⟩
    | bool v => rw [ha] at h; exact ⟨_, _, h, hg, lsame hrl (by simp [storesLocal, ha])⟩
    | str v => rw [ha] at h; exact ⟨_, _, h, hg, lsame hrl (by simp [storesLocal, ha])⟩
  rw [if_neg h4] at h
  have hl := lsame hrl (by intro slot; unfold storesLocal; split <;> simp [h4])
  by_cases h5 : inst.Op = ops.OpMakeFunc
  · rw [if_pos h5] at h
    have hg := gsame (by intro name; simp [readsGlobal, h5, d4.symm, d15]) hsg
    cases ha : inst.Arg with
    | float idx =>
      rw [ha] at h
      simp only at h
      split_ifs at h
      exact ⟨_, _, h, hg, hl⟩
    | nil => rw [ha] at h; exact ⟨_, _, h, hg, hl⟩
    | int v => rw [ha] at h; exact ⟨_, _, h, hg, hl⟩
    | int64 v => rw [ha] at h; exact ⟨_, _, h, hg, hl⟩
    | bool v => rw [ha] at h; exact ⟨_, _, h, hg, hl⟩
    | str v => rw [ha] at h; exact ⟨_, _, h, hg, hl⟩
  rw [if_neg h5] at h
  by_cases h6 : inst.Op = ops.OpCall
  · rw [if_pos h6] at h
    cases ha : inst.Arg with
    | str n =>
      rw [ha] at h
      simp only at h
      by_cases hn : n = []
      · rw [if_neg (by simpa using hn)] at h
        exact ⟨_, _, h, gsame (by
          intro name
          simp only [readsGlobal, ha, h6, d5.symm, Value.str.injEq, false_or, true_and,
            decide_eq_false_iff_not, not_and, not_not]
          intro e; rw [← e]; exact hn) hsg, hl⟩
      · rw [if_pos (by simpa using hn)] at h
        exact ⟨_, _, h, map_incr_spec gu n _ _ (by
          intro name
          simp only [readsGlobal, ha, h6, d5.symm, Value.str.injEq, false_or, true_and]
          by_cases e : n = name
          · subst e; simp [hn]
          · have e2 : ¬ name = n := fun e' => e e'.symm
            simp [e, e2]) hsg, hl⟩
    | nil => rw [ha] at h; exact ⟨_, _, h, gsame (by simp [readsGlobal, ha]) hsg, hl⟩
    | int v => rw [ha] at h; exact ⟨_, _, h, gsame (by simp [readsGlobal, ha]) hsg, hl⟩
    | int64 v => rw [ha] at h; exact ⟨_, _, h, gsame (by simp [readsGlobal, ha]) hsg, hl⟩
    | bool v => rw [ha] at h; exact ⟨_, _, h, gsame (by simp [readsGlobal, ha]) hsg, hl⟩
    | float v => rw [ha] at h; exact ⟨_, _, h, gsame (by simp [readsGlobal, ha]) hsg, hl⟩
  rw [if_neg h6] at h
  exact ⟨_, _, h, gsame (by intro name; simp [readsGlobal, h1, h6]) hsg, hl⟩

theorem count_step (R S anyRest : Bool) (g g' final : Option Nat) (c : Nat)
    (hg : g' = if R = true then some (g.getD 0 + 1) else if S = true then some (g.getD 0) else g)
    (hfinal : final = if anyRest = true then some (g'.getD 0 + c) else g')
    (hc : anyRest = false → c = 0) :
    final = if ((R || S) || anyRest) = true
      then some (g.getD 0 + ((if R = true then 1 else 0) + c)) else g := by
  subst hg hfinal
  cases R <;> cases S <;> cases anyRest <;> simp_all <;> omega

theorem filter_length_cons {α : Type} (p : α → Bool) (a : α) (l : List α) :
    ((a :: l).filter p).length = (if p a = true then 1 else 0) + (l.filter p).length := by
  rw [List.filter_cons]
  split <;> simp <;> omega

theorem filter_length_of_any {α : Type} (p q : α → Bool) (l : List α)
    (h : l.any (fun x => p x || q x) = false) : (l.filter p).length = 0 := by
  rw [List.length_eq_zero, List.filter_eq_nil_iff]
  intro a ha hp
  rw [List.any_eq_false] at h
  have := h a ha
  simp [hp] at this

/-- The maps that the first loop of `doCleanup` returns: a name or slot that is
read or stored in the stream has an entry, which is the number of its reads
above what the map held before. -/
theorem cleanupUsage_counts (ops : OpCodes) (hd : ops.Distinct) (cs : List Constant) :
    ∀ (is : List Instruction) (gu : List (List Nat × Nat)) (lu : List (Int × Nat))
      (r : List (List Nat × Nat) × List (Int × Nat)),
      cleanupUsage ops cs is gu lu = some r →
      (∀ name, mapGet r.1 name
        = if is.any (fun inst => readsGlobal ops name inst || storesGlobal ops name inst) = true
          then some ((mapGet gu name).getD 0 + readCount ops is name) else mapGet gu name) ∧
      (∀ slot, mapGet r.2 slot
        = if is.any (fun inst => readsLocal ops slot inst || storesLocal ops slot inst) = true
          then some ((mapGet lu slot).getD 0 + localReadCount ops is slot)
          else mapGet lu slot) := by
  intro is
  induction is with
  | nil =>
    intro gu lu r h
    simp only [cleanupUsage, Option.some.injEq] at h
    subst h
    exact ⟨fun _ => by simp, fun _ => by simp⟩
  | cons inst rest ih =>
    intro gu lu r h
    obtain ⟨gu', lu', h', hg, hl⟩ := cleanupUsage_step ops hd cs inst rest gu lu r h
    obtain ⟨ihg, ihl⟩ := ih gu' lu' r h'
    constructor
    · intro name
      have := count_step _ _ _ _ _ _ _ (hg name) (ihg name)
        (filter_length_of_any _ _ rest)
      rw [this, List.any_cons]
      unfold readCount
      rw [filter_length_cons]
    · intro slot
      have := count_step _ _ _ _ _ _ _ (hl slot) (ihl slot)
        (filter_length_of_any _ _ rest)
      rw [this, List.any_cons]
      unfold localReadCount
      rw [filter_length_cons]

/-! ## The keep rule and the shape of the cleanup -/

/-- The value `keep` of the second loop of `doCleanup` is the keep rule. -/
theorem cleanupKeep_rule (ops : OpCodes) (hd : ops.Distinct) (cs : List Constant)
    (is : List Instruction) (gu : List (List Nat × Nat)) (lu : List (Int × Nat))
    (h : cleanupUsage ops cs is [] [] = some (gu, lu)) (i : Nat) (inst : Instruction)
    (hi : is[i]? = some inst) :
    cleanupKeep ops gu lu inst is[i + 1]? = keepRule ops is i := by
  obtain ⟨hg, hl⟩ := cleanupUsage_counts ops hd cs is [] [] (gu, lu) h
  have hm : inst ∈ is := List.getElem?_mem hi
  unfold keepRule cleanupKeep
  rw [hi]
  simp only
  by_cases h1 : inst.Op = ops.OpSetGlobal
  · rw [if_pos h1, if_pos h1]
    cases ha : inst.Arg with
    | str name =>
      simp only
      have hany : is.any (fun x => readsGlobal ops name x || storesGlobal ops name x) = true := by
        rw [List.any_eq_true]
        exact ⟨inst, hm, by simp [storesGlobal, h1, ha]⟩
      have := hg name
      rw [if_pos hany] at this
      simp only at this
      rw [this]
      simp only [mapGet, Option.getD_none, Nat.zero_add]
      unfold nextIsMakeFunc
      cases is[i + 1]? with
      | none => by_cases hc : readCount ops is name = 0 <;> simp [hc]; omega
      | some nx =>
        by_cases hc : readCount ops is name = 0 <;> by_cases hx : nx.Op = ops.OpMakeFunc <;>
          simp [hc, hx] <;> omega
    | _ => rfl
  · rw [if_neg h1, if_neg h1]
    by_cases h2 : inst.Op = ops.OpSetLocal
    · rw [if_pos h2, if_pos h2]
      cases ha : inst.Arg with
      | float idx =>
        simp only
        have hany : is.any (fun x => readsLocal ops (f64ToInt64 idx) x ||
            storesLocal ops (f64ToInt64 idx) x) = true := by
          rw [List.any_eq_true]
          exact ⟨inst, hm, by simp [storesLocal, h2, ha]⟩
        have := hl (f64ToInt64 idx)
        rw [if_pos hany] at this
        simp only at this
        rw [this]
        simp only [mapGet, Option.getD_none, Nat.zero_add]
        by_cases hc : localReadCount ops is (f64ToInt64 idx) = 0 <;> simp [hc]; omega
      | _ => rfl
    · rw [if_neg h2, if_neg h2]

/-- The array `toKeep` after the second loop of `doCleanup`, run from the
position `i` on an array that holds `t j` at `j`: the entries before `i - 1`
are untouched, the entry at `i - 1` is cleared when it belongs to a `Constant`
before a store that is not kept, and an entry from `i` on is set when the
instruction is kept and is no `Constant` before a store that is not kept. -/
theorem cleanupMark_final (ops : OpCodes) (is : List Instruction)
    (gu : List (List Nat × Nat)) (lu : List (Int × Nat)) (k : Nat → Bool)
    (hk : ∀ i inst, is[i]? = some inst → cleanupKeep ops gu lu inst is[i + 1]? = k i)
    (hk' : ∀ i, is.length ≤ i → k i = true) :
    ∀ (n i : Nat) (tk : List Bool) (t : Nat → Bool), tk.length = is.length →
      i + n = is.length → (∀ j, j < is.length → tk[j]? = some (t j)) →
      ∀ j, j < is.length → (cleanupMark ops is gu lu n i tk)[j]? = some
        (if j + 1 < i then t j
          else if j + 1 = i then
            t j && !((is[j]?).any (fun p => decide (p.Op = ops.OpConstant)) && !k i)
          else k j && !((is[j]?).any (fun p => decide (p.Op = ops.OpConstant)) && !k (j + 1))) := by
  intro n
  induction n with
  | zero =>
    intro i tk t _ hin ht j hj
    rw [cleanupMark, ht j hj]
    have hi : i = is.length := by omega
    rw [hk' i (by omega)]
    by_cases h1 : j + 1 < i
    · rw [if_pos h1]
    · rw [if_neg h1, if_pos (by omega)]
      simp
  | succ n ih =>
    intro i tk t hlen hin ht j hj
    have hi : i < is.length := by omega
    have hget : is[i]? = some is[i] := List.getElem?_eq_getElem hi
    rw [cleanupMark_succ ops is gu lu n i tk is[i] hget, hk i is[i] hget]
    have hlen1 : (if k i = false ∧ 0 < i ∧
        (is[i - 1]?).any (fun p => decide (p.Op = ops.OpConstant)) = true
        then tk.set (i - 1) false else tk).length = is.length := by
      split <;> simp [hlen]
    have key := ih (i + 1)
      ((if k i = false ∧ 0 < i ∧
        (is[i - 1]?).any (fun p => decide (p.Op = ops.OpConstant)) = true
        then tk.set (i - 1) false else tk).set i (k i))
      (fun j => if j = i then k i
        else if (k i = false ∧ 0 < i ∧
          (is[i - 1]?).any (fun p => decide (p.Op = ops.OpConstant)) = true) ∧ j = i - 1
          then false else t j)
      ((List.length_set _ _ _).trans hlen1) (by omega)
      (by
        intro j' hj'
        beta_reduce
        by_cases hji : j' = i
        · have hlt : i < (if k i = false ∧ 0 < i ∧
              (is[i - 1]?).any (fun p => decide (p.Op = ops.OpConstant)) = true
              then tk.set (i - 1) false else tk).length := by rw [hlen1]; exact hi
          rw [hji, List.getElem?_set, if_pos rfl, if_pos hlt, if_pos rfl]
        · have hne : i ≠ j' := fun e => hji e.symm
          rw [List.getElem?_set_ne hne, if_neg hji]
          by_cases hc : k i = false ∧ 0 < i ∧
              (is[i - 1]?).any (fun p => decide (p.Op = ops.OpConstant)) = true
          · rw [if_pos hc]
            by_cases hj1 : j' = i - 1
            · have hlt : i - 1 < tk.length := by rw [hlen]; omega
              rw [hj1, List.getElem?_set, if_pos rfl, if_pos hlt, if_pos ⟨hc, rfl⟩]
            · have hne1 : i - 1 ≠ j' := fun e => hj1 e.symm
              rw [List.getElem?_set_ne hne1, if_neg (fun e => hj1 e.2)]
              exact ht j' hj'
          · rw [if_neg hc, if_neg (fun e => hc e.1)]
            exact ht j' hj') j hj
    rw [key]
    congr 1
    beta_reduce
    by_cases h1 : j + 1 < i
    · have e1 : j ≠ i := by omega
      have e2 : j ≠ i - 1 := by omega
      rw [if_pos (by omega), if_pos h1, if_neg e1, if_neg (fun e => e2 e.2)]
    · rw [if_neg h1]
      by_cases h2 : j + 1 = i
      · have e1 : j ≠ i := by omega
        have e2 : j = i - 1 := by omega
        rw [if_pos (by omega), if_pos h2, if_neg e1]
        subst e2
        by_cases hc : k i = false ∧ 0 < i ∧
            (is[i - 1]?).any (fun p => decide (p.Op = ops.OpConstant)) = true
        · rw [if_pos ⟨hc, rfl⟩, hc.1, hc.2.2]
          simp
        · rw [if_neg (fun e => hc e.1)]
          by_cases hki : k i = false
          · have : (is[i - 1]?).any (fun p => decide (p.Op = ops.OpConstant)) = false := by
              rw [Bool.eq_false_iff]
              exact fun e => hc ⟨hki, by omega, e⟩
            rw [this]
            simp
          · rw [Bool.not_eq_false] at hki
            rw [hki]
            simp
      · rw [if_neg h2]
        by_cases h3 : j = i
        · subst h3
          rw [if_neg (by omega), if_pos rfl, if_pos rfl]
        · rw [if_neg (by omega), if_neg (by omega)]

/-- The last loop of `doCleanup` on an array of marks that `drop` describes. -/
theorem cleanupSelect_removeAt (drop : Nat → Bool) : ∀ (is : List Instruction)
    (marks : List Bool) (k : Nat),
    (∀ j, j < is.length → marks[j]? = some (!drop (k + j))) →
    cleanupSelect is marks = removeAt drop k is := by
  intro is
  induction is with
  | nil => intro marks k _; cases marks <;> rfl
  | cons inst rest ih =>
    intro marks k h
    cases marks with
    | nil =>
      have := h 0 (by simp)
      simp at this
    | cons m ms =>
      have h0 := h 0 (by simp)
      simp only [List.getElem?_cons_zero, Option.some.injEq, Nat.add_zero] at h0
      have hrest := ih ms (k + 1) (by
        intro j hj
        have := h (j + 1) (by simpa using hj)
        rw [List.getElem?_cons_succ] at this
        rw [this]
        congr 3
        omega)
      unfold cleanupSelect removeAt
      rw [hrest, h0]
      cases drop k <;> simp

/-- The shape of the result of `doCleanup`. -/
theorem doCleanup_shape {τ : Type} (ops : OpCodes) (hd : ops.Distinct) (o o' : Optimizer τ)
    (h : doCleanup ops o = some o') :
    o'.Instructions = removeAt (removedAt ops o.Instructions) 0 o.Instructions := by
  unfold doCleanup at h
  cases hu : cleanupUsage ops o.Constants o.Instructions [] [] with
  | none => rw [hu] at h; exact absurd h (by simp)
  | some r =>
    obtain ⟨gu, lu⟩ := r
    rw [hu] at h
    simp only [Option.some.injEq] at h
    subst h
    simp only
    apply cleanupSelect_removeAt
    intro j hj
    have := cleanupMark_final ops o.Instructions gu lu (keepRule ops o.Instructions)
      (cleanupKeep_rule ops hd o.Constants o.Instructions gu lu hu)
      (by
        intro i hi
        unfold keepRule
        rw [List.getElem?_eq_none hi])
      o.Instructions.length 0 (List.replicate o.Instructions.length false) (fun _ => false)
      (by simp) (by simp)
      (by intro j hj; rw [List.getElem?_replicate, if_pos hj]) j hj
    rw [this, if_neg (by omega), if_neg (by omega), Nat.zero_add]
    congr 1
    unfold removedAt
    simp

/-! ## The keep rule of the dead-store cleanup -/

theorem doCleanup_shape_map {τ : Type} (ops : OpCodes) (hd : ops.Distinct) (o : Optimizer τ)
    (out : List Instruction)
    (h : (doCleanup ops o).map (fun x => x.Instructions) = some out) :
    out = removeAt (removedAt ops o.Instructions) 0 o.Instructions := by
  cases hc : doCleanup ops o with
  | none => rw [hc] at h; exact absurd h (by simp)
  | some o' =>
    rw [hc] at h
    simp only [Option.map_some', Option.some.injEq] at h
    rw [← h]
    exact doCleanup_shape ops hd o o' hc

theorem Distinct_store (ops : OpCodes) (hd : ops.Distinct) :
    ops.OpSetGlobal ≠ ops.OpConstant ∧ ops.OpSetLocal ≠ ops.OpConstant ∧
    ops.OpSetGlobal ≠ ops.OpSetLocal ∧ ops.OpHalt ≠ ops.OpConstant ∧
    ops.OpHalt ≠ ops.OpSetGlobal ∧ ops.OpHalt ≠ ops.OpSetLocal ∧
    ops.OpHalt ≠ ops.OpGetGlobal ∧ ops.OpHalt ≠ ops.OpCall ∧ ops.OpHalt ≠ ops.OpMakeFunc ∧
    ops.OpConstant ≠ ops.OpGetGlobal ∧ ops.OpConstant ≠ ops.OpCall ∧
    ops.OpSetGlobal ≠ ops.OpGetGlobal ∧ ops.OpSetGlobal ≠ ops.OpCall := by
  unfold OpCodes.Distinct at hd
  refine ⟨?_, ?_, ?_, ?_, ?_, ?_, ?_, ?_, ?_, ?_, ?_, ?_, ?_⟩ <;>
    (intro h; rw [h] at hd; simp at hd)

/-- A store is removed exactly when the keep rule rejects it. -/
theorem removedAt_store (ops : OpCodes) (hd : ops.Distinct) (is : List Instruction) (i : Nat)
    (inst : Instruction) (hi : is[i]? = some inst)
    (hs : inst.Op = ops.OpSetGlobal ∨ inst.Op = ops.OpSetLocal) :
    removedAt ops is i = !keepRule ops is i := by
  obtain ⟨d1, d2, _⟩ := Distinct_store ops hd
  have hc : inst.Op ≠ ops.OpConstant := by
    rcases hs with h | h <;> rw [h]
    · exact d1
    · exact d2
  unfold removedAt
  rw [hi]
  simp [hc]

/-- C23 (as the claim states it, refuted): in the stream `SetGlobal "", Call "",
Halt` there is one `Call` instruction with the name of the store, the empty
name, so the usage as the claim counts it is 1; the first loop of `doCleanup`
does not count a `Call` with the empty name, and the store is removed. -/
theorem C23_empty_name_counterexample :
    getAndCallCount stdOps [⟨3, .str [], 1⟩, ⟨7, .str [], 2⟩, ⟨0, .nil, 3⟩] [] = 1 ∧
    nextIsMakeFunc stdOps [⟨3, .str [], 1⟩, ⟨7, .str [], 2⟩, ⟨0, .nil, 3⟩] 0 = false ∧
    (doCleanup stdOps (⟨[⟨3, .str [], 1⟩, ⟨7, .str [], 2⟩, ⟨0, .nil, 3⟩], [], none⟩ :
      Optimizer Nat)).map (fun o => o.Instructions)
      = some [⟨7, .str [], 2⟩, ⟨0, .nil, 3⟩] := by
  refine ⟨by decide, by decide, by decide!⟩

/-- C23 (amended): let the opcodes be distinct and let `doCleanup` return.  The
stream it returns is its input without the instructions at the positions of a
set `drop`, and for the instruction at a position `i` of the input: a
`SetGlobal` with the string operand `name` is kept iff `name` is read, by a
`GetGlobal name` or, when `name` is not empty, a `Call name`, or the
instruction at `i + 1` is a `MakeFunc`; a `SetLocal` with a `float64` operand
is kept iff a `GetLocal` has a `float64` operand with the same integer part;
a `SetGlobal`, whatever its operand, right before a `MakeFunc` is kept. -/
theorem C23_keep_rule {τ : Type} (ops : OpCodes) (hd : ops.Distinct) (o : Optimizer τ)
    (out : List Instruction)
    (h : (doCleanup ops o).map (fun x => x.Instructions) = some out) :
    ∃ drop : Nat → Bool, out = removeAt drop 0 o.Instructions ∧
      ∀ (i : Nat) (inst : Instruction), o.Instructions[i]? = some inst →
        (inst.Op = ops.OpSetGlobal → ∀ name, inst.Arg = .str name →
          (drop i = false ↔ 0 < readCount ops o.Instructions name ∨
            nextIsMakeFunc ops o.Instructions i = true)) ∧
        (inst.Op = ops.OpSetLocal → ∀ idx, inst.Arg = .float idx →
          (drop i = false ↔ 0 < localReadCount ops o.Instructions (f64ToInt64 idx))) ∧
        (inst.Op = ops.OpSetGlobal → nextIsMakeFunc ops o.Instructions i = true →
          drop i = false) := by
  obtain ⟨_, _, d3, _⟩ := Distinct_store ops hd
  refine ⟨removedAt ops o.Instructions, doCleanup_shape_map ops hd o out h, ?_⟩
  intro i inst hi
  refine ⟨?_, ?_, ?_⟩
  · intro hop name ha
    rw [removedAt_store ops hd _ i inst hi (Or.inl hop)]
    unfold keepRule
    rw [hi]
    simp only [if_pos hop, ha, Bool.not_eq_false', Bool.or_eq_true, decide_eq_true_eq]
  · intro hop idx ha
    rw [removedAt_store ops hd _ i inst hi (Or.inr hop)]
    unfold keepRule
    rw [hi]
    have hne : ¬ inst.Op = ops.OpSetGlobal := by rw [hop]; exact fun e => d3 e.symm
    simp only [if_neg hne, if_pos hop, ha, Bool.not_eq_false', decide_eq_true_eq]
  · intro hop hn
    rw [removedAt_store ops hd _ i inst hi (Or.inl hop)]
    unfold keepRule
    rw [hi]
    simp only [if_pos hop]
    cases inst.Arg <;> simp [hn]

theorem C23_keep_rule_witness :
    ∃ drop : Nat → Bool,
      [(⟨1, .float (f64OfInt 0), 1⟩ : Instruction), ⟨3, .str (ascii "f"), 1⟩,
        ⟨6, .float (f64OfInt 0), 1⟩, ⟨1, .float (f64OfInt 0), 3⟩, ⟨3, .str (ascii "y"), 3⟩,
        ⟨7, .str (ascii "y"), 3⟩, ⟨1, .float (f64OfInt 0), 4⟩, ⟨5, .float (f64OfInt 1), 4⟩,
        ⟨4, .float (f64OfInt 1), 4⟩, ⟨0, .nil, 6⟩]
      = removeAt drop 0
        [⟨1, .float (f64OfInt 0), 1⟩, ⟨3, .str (ascii "f"), 1⟩, ⟨6, .float (f64OfInt 0), 1⟩,
          ⟨1, .float (f64OfInt 0), 2⟩, ⟨3, .str (ascii "x"), 2⟩,
          ⟨1, .float (f64OfInt 0), 3⟩, ⟨3, .str (ascii "y"), 3⟩, ⟨7, .str (ascii "y"), 3⟩,
          ⟨1, .float (f64OfInt 0), 4⟩, ⟨5, .float (f64OfInt 1), 4⟩, ⟨4, .float (f64OfInt 1), 4⟩,
          ⟨5, .float (f64OfInt 2), 5⟩, ⟨0, .nil, 6⟩] ∧
      drop 1 = false ∧ drop 4 = true ∧ drop 6 = false ∧ drop 9 = false ∧ drop 11 = true := by
  obtain ⟨drop, h1, h2⟩ := C23_keep_rule stdOps (by decide)
    (⟨[⟨1, .float (f64OfInt 0), 1⟩, ⟨3, .str (ascii "f"), 1⟩, ⟨6, .float (f64OfInt 0), 1⟩,
      ⟨1, .float (f64OfInt 0), 2⟩, ⟨3, .str (ascii "x"), 2⟩,
      ⟨1, .float (f64OfInt 0), 3⟩, ⟨3, .str (ascii "y"), 3⟩, ⟨7, .str (ascii "y"), 3⟩,
      ⟨1, .float (f64OfInt 0), 4⟩, ⟨5, .float (f64OfInt 1), 4⟩, ⟨4, .float (f64OfInt 1), 4⟩,
      ⟨5, .float (f64OfInt 2), 5⟩, ⟨0, .nil, 6⟩],
      [⟨.float (f64OfInt 9), "funcptr"⟩], none⟩ : Optimizer Nat)
    [⟨1, .float (f64OfInt 0), 1⟩, ⟨3, .str (ascii "f"), 1⟩,
      ⟨6, .float (f64OfInt 0), 1⟩, ⟨1, .float (f64OfInt 0), 3⟩, ⟨3, .str (ascii "y"), 3⟩,
      ⟨7, .str (ascii "y"), 3⟩, ⟨1, .float (f64OfInt 0), 4⟩, ⟨5, .float (f64OfInt 1), 4⟩,
      ⟨4, .float (f64OfInt 1), 4⟩, ⟨0, .nil, 6⟩] (by decide!)
  refine ⟨drop, h1, ?_, ?_, ?_, ?_, ?_⟩
  · exact (h2 1 _ rfl).2.2 rfl (by decide!)
  · cases hd : drop 4 with
    | true => rfl
    | false =>
      have := ((h2 4 _ rfl).1 rfl _ rfl).mp hd
      exact absurd this (by decide!)
  · exact ((h2 6 _ rfl).1 rfl _ rfl).mpr (by decide!)
  · exact ((h2 9 _ rfl).2.1 rfl _ rfl).mpr (by decide!)
  · cases hd : drop 11 with
    | true => rfl
    | false =>
      have := ((h2 11 _ rfl).2.1 rfl _ rfl).mp hd
      exact absurd this (by decide!)

/-! ## The dead-store scenario -/

theorem removeAt_dead_store (ops : OpCodes) (hd : ops.Distinct) (C S H : Instruction)
    (n : List Nat) (hC : C.Op = ops.OpConstant) (hS : S.Op = ops.OpSetGlobal)
    (hSa : S.Arg = .str n) (hH : H.Op = ops.OpHalt) :
    removeAt (removedAt ops [C, S, H]) 0 [C, S, H] = [H] := by
  obtain ⟨d1, d2, d3, d4, d5, d6, d7, d8, d9, d10, d11, d12, d13⟩ := Distinct_store ops hd
  have k0 : keepRule ops [C, S, H] 0 = true := by
    simp [keepRule, hC, d1.symm, d2.symm]
  have k1 : keepRule ops [C, S, H] 1 = false := by
    simp [keepRule, hS, hSa, readCount, readsGlobal, nextIsMakeFunc, hC, hH, d10, d11, d12, d13,
      d7, d8, d9, List.filter]
  have k2 : keepRule ops [C, S, H] 2 = true := by
    simp [keepRule, hH, d5, d6]
  have r0 : removedAt ops [C, S, H] 0 = true := by simp [removedAt, k0, k1, hC]
  have r1 : removedAt ops [C, S, H] 1 = true := by simp [removedAt, k1]
  have r2 : removedAt ops [C, S, H] 2 = false := by simp [removedAt, k2, hH, d4]
  simp [removeAt, r0, r1, r2]

theorem removeAt_halt (ops : OpCodes) (hd : ops.Distinct) (H : Instruction)
    (hH : H.Op = ops.OpHalt) : removeAt (removedAt ops [H]) 0 [H] = [H] := by
  obtain ⟨d1, d2, d3, d4, d5, d6, d7, d8, d9, d10, d11, d12, d13⟩ := Distinct_store ops hd
  have k0 : keepRule ops [H] 0 = true := by simp [keepRule, hH, d5, d6]
  have r0 : removedAt ops [H] 0 = false := by simp [removedAt, k0, hH, d4]
  simp [removeAt, r0]

theorem rename_set (ops : OpCodes) (gm : List (List Nat × List Nat)) (name : List Nat)
    (l : Int) : ∃ n, renameInstruction ops gm ⟨ops.OpSetGlobal, .str name, l⟩
      = ⟨ops.OpSetGlobal, .str n, l⟩ := by
  rcases renameInstruction_Arg ops gm ⟨ops.OpSetGlobal, .str name, l⟩ with h | ⟨_, _, new, _, _, h⟩
  · exact ⟨name, h⟩
  · exact ⟨new, h⟩

theorem rename_halt (ops : OpCodes) (hd : ops.Distinct) (gm : List (List Nat × List Nat))
    (a : Value) (l : Int) :
    renameInstruction ops gm ⟨ops.OpHalt, a, l⟩ = ⟨ops.OpHalt, a, l⟩ := by
  obtain ⟨d1, d2, d3, d4, d5, d6, d7, d8, d9, d10, d11, d12, d13⟩ := Distinct_store ops hd
  exact renameInstruction_other ops gm _ (fun h => by
    rcases h.1 with e | e | e
    · exact d7 e
    · exact d5 e
    · exact d8 e)

theorem rename_constant (ops : OpCodes) (hd : ops.Distinct) (gm : List (List Nat × List Nat))
    (a : Value) (l : Int) :
    renameInstruction ops gm ⟨ops.OpConstant, a, l⟩ = ⟨ops.OpConstant, a, l⟩ :=
  renameInstruction_poolRef ops hd gm _ (Or.inl rfl)

theorem safe_of_no_makeFunc (ops : OpCodes) (is : List Instruction)
    (h : ∀ inst ∈ is, inst.Op ≠ ops.OpMakeFunc) : MakeFuncSafe ops is :=
  fun inst hm hop => absurd hop (h inst hm)

/-- One iteration of the loop of `Optimize` on the stream `[Halt]`. -/
theorem iteration_halt {τ : Type} (ops : OpCodes) (hd : ops.Distinct) (ord : IterOrder)
    (o : Optimizer τ) (a : Value) (l : Int) (hi : o.Instructions = [⟨ops.OpHalt, a, l⟩]) :
    ∃ o', doCleanup ops (doNameScraping ops ord (doConstantFolding ops o)) = some o' ∧
      o'.Instructions = [⟨ops.OpHalt, a, l⟩] ∧ o'.Constants = o.Constants := by
  obtain ⟨d1, d2, d3, d4, d5, d6, d7, d8, d9, d10, d11, d12, d13⟩ := Distinct_store ops hd
  have hf : doConstantFolding ops o = o :=
    doConstantFolding_noFold ops o (NoFold_short ops _ _ (by rw [hi]; simp))
  have hr : (doNameScraping ops ord o).Instructions = [⟨ops.OpHalt, a, l⟩] := by
    rw [doNameScraping_Instructions, hi, List.map_singleton, rename_halt ops hd]
  obtain ⟨o', hc⟩ := doCleanup_some ops (doNameScraping ops ord o)
    (safe_of_no_makeFunc ops _ (by
      rw [hr]; intro inst hm
      rw [List.mem_singleton] at hm
      rw [hm]; exact d9))
  refine ⟨o', by rw [hf]; exact hc, ?_, ?_⟩
  · rw [doCleanup_shape ops hd _ o' hc, hr]
    exact removeAt_halt ops hd _ rfl
  · rw [(doCleanup_spec ops _ o' hc).1, doNameScraping_Constants]

/-- The function `Optimize` on a stream that is one dead store: the constant
and the store are removed and the pool is emptied. -/
theorem Optimize_dead_store {τ : Type} (ops : OpCodes) (hd : ops.Distinct)
    (ord : Nat → IterOrder) (name : List Nat) (c : Constant) (l1 l2 l3 : Int)
    (sym : Option (SymbolTable τ)) :
    Optimizer.Optimize ops ord
      (⟨[⟨ops.OpConstant, .float (f64OfInt 0), l1⟩, ⟨ops.OpSetGlobal, .str name, l2⟩,
        ⟨ops.OpHalt, .nil, l3⟩], [c], sym⟩ : Optimizer τ)
      = some ([⟨ops.OpHalt, .nil, l3⟩], []) := by
  obtain ⟨d1, d2, d3, d4, d5, d6, d7, d8, d9, d10, d11, d12, d13⟩ := Distinct_store ops hd
  obtain ⟨e1, _⟩ := Distinct_ne ops hd
  have hf : doConstantFolding ops
      (⟨[⟨ops.OpConstant, .float (f64OfInt 0), l1⟩, ⟨ops.OpSetGlobal, .str name, l2⟩,
        ⟨ops.OpHalt, .nil, l3⟩], [c], sym⟩ : Optimizer τ)
      = ⟨[⟨ops.OpConstant, .float (f64OfInt 0), l1⟩, ⟨ops.OpSetGlobal, .str name, l2⟩,
        ⟨ops.OpHalt, .nil, l3⟩], [c], sym⟩ :=
    doConstantFolding_noFold ops _ ((NoFold_cons ops _ _ _ _ _).mpr
      ⟨foldWindow_none_of_op ops _ _ _ _ (fun h => d1 h.2.1), NoFold_short ops _ _ (by simp)⟩)
  obtain ⟨n, hn⟩ := rename_set ops (globalNameMap ops (ord 0)
    [⟨ops.OpConstant, .float (f64OfInt 0), l1⟩, ⟨ops.OpSetGlobal, .str name, l2⟩,
      ⟨ops.OpHalt, .nil, l3⟩]) name l2
  have hr : (doNameScraping ops (ord 0)
      (⟨[⟨ops.OpConstant, .float (f64OfInt 0), l1⟩, ⟨ops.OpSetGlobal, .str name, l2⟩,
        ⟨ops.OpHalt, .nil, l3⟩], [c], sym⟩ : Optimizer τ)).Instructions
      = [⟨ops.OpConstant, .float (f64OfInt 0), l1⟩, ⟨ops.OpSetGlobal, .str n, l2⟩,
          ⟨ops.OpHalt, .nil, l3⟩] := by
    rw [doNameScraping_Instructions]
    simp only [List.map_cons, List.map_nil, rename_constant ops hd, rename_halt ops hd, hn]
  obtain ⟨o1, hc1⟩ := doCleanup_some ops (doNameScraping ops (ord 0)
      (⟨[⟨ops.OpConstant, .float (f64OfInt 0), l1⟩, ⟨ops.OpSetGlobal, .str name, l2⟩,
        ⟨ops.OpHalt, .nil, l3⟩], [c], sym⟩ : Optimizer τ))
    (safe_of_no_makeFunc ops _ (by
      rw [hr]; intro inst hm
      simp only [List.mem_cons, List.mem_singleton, List.not_mem_nil, or_false] at hm
      rcases hm with rfl | rfl | rfl
      · exact e1
      · exact fun e => (Distinct_six ops hd).2.2.2.2.2.2.2.1 e
      · exact d9))
  have h1i : o1.Instructions = [⟨ops.OpHalt, .nil, l3⟩] := by
    rw [doCleanup_shape ops hd _ o1 hc1, hr]
    exact removeAt_dead_store ops hd _ _ _ n rfl rfl rfl rfl
  have h1c : o1.Constants = [c] := by
    rw [(doCleanup_spec ops _ o1 hc1).1, doNameScraping_Constants]
  obtain ⟨o2, hc2, h2i, h2c⟩ := iteration_halt ops hd (ord 1) o1 .nil l3 h1i
  have hloop : optimizeLoop ops ord
      ((⟨[⟨ops.OpConstant, .float (f64OfInt 0), l1⟩, ⟨ops.OpSetGlobal, .str name, l2⟩,
        ⟨ops.OpHalt, .nil, l3⟩], [c], sym⟩ : Optimizer τ).Instructions.length + 1) 0
      (⟨[⟨ops.OpConstant, .float (f64OfInt 0), l1⟩, ⟨ops.OpSetGlobal, .str name, l2⟩,
        ⟨ops.OpHalt, .nil, l3⟩], [c], sym⟩ : Optimizer τ) = some o2 := by
    simp only [List.length_cons, List.length_nil]
    rw [optimizeLoop, hf, hc1]
    simp only
    rw [if_neg (by rw [h1i]; simp), optimizeLoop, hc2]
    simp only
    rw [if_pos (by rw [h2i, h1i])]
  rw [Optimize_of_loop ops ord _ o2 hloop, gc_Instructions, gc_Constants, h2i, h2c, h1c]
  simp [gcMark, gcCompact, gcRewrite, d4, d9]

/-- C28: let the opcodes be distinct.  When `doCleanup` returns, the stream it
returns is its input without the instructions at the removed positions, the
others in their order, and the pool is the one it was given; the position `i`
is removed when the keep rule rejects the instruction at `i` (a `SetGlobal`
whose name is not read and that is not followed by a `MakeFunc`, or a
`SetLocal` whose slot is not read) or when the instruction at `i` is a
`Constant` and the keep rule rejects the instruction at `i + 1`.  In
particular, for every name, every constant, all line numbers, every symbol
table and every order of the map visits, `Optimize` turns `Constant 0,
SetGlobal name, Halt` with the pool of that one constant into `[Halt]` with
the empty pool. -/
theorem C28_dead_store_shape {τ : Type} (ops : OpCodes) (hd : ops.Distinct)
    (ord : Nat → IterOrder) (o : Optimizer τ) (out : List Instruction)
    (h : (doCleanup ops o).map (fun x => x.Instructions) = some out) :
    out = removeAt (removedAt ops o.Instructions) 0 o.Instructions ∧
    (∀ i, removedAt ops o.Instructions i = true ↔
      keepRule ops o.Instructions i = false ∨
        ((∃ inst, o.Instructions[i]? = some inst ∧ inst.Op = ops.OpConstant) ∧
          keepRule ops o.Instructions (i + 1) = false)) ∧
    (doCleanup ops o).map (fun x => x.Constants) = some o.Constants ∧
    (∀ (name : List Nat) (c : Constant) (l1 l2 l3 : Int) (sym : Option (SymbolTable τ)),
      Optimizer.Optimize ops ord
        (⟨[⟨ops.OpConstant, .float (f64OfInt 0), l1⟩, ⟨ops.OpSetGlobal, .str name, l2⟩,
          ⟨ops.OpHalt, .nil, l3⟩], [c], sym⟩ : Optimizer τ)
        = some ([⟨ops.OpHalt, .nil, l3⟩], [])) := by
  refine ⟨doCleanup_shape_map ops hd o out h, ?_, ?_,
    fun name c l1 l2 l3 sym => Optimize_dead_store ops hd ord name c l1 l2 l3 sym⟩
  · intro i
    unfold removedAt
    cases hi : o.Instructions[i]? with
    | none => simp
    | some inst => simp
  · cases hc : doCleanup ops o with
    | none => rw [hc] at h; exact absurd h (by simp)
    | some o' => rw [Option.map_some', (doCleanup_spec ops o o' hc).1]

theorem C28_dead_store_shape_witness :
    [(⟨2, .str (ascii "a"), 2⟩ : Instruction), ⟨1, .float (f64OfInt 0), 3⟩,
        ⟨3, .str (ascii "a"), 3⟩, ⟨0, .nil, 4⟩]
      = removeAt (removedAt stdOps
          [⟨1, .float (f64OfInt 0), 1⟩, ⟨3, .str (ascii "tmp"), 1⟩, ⟨2, .str (ascii "a"), 2⟩,
            ⟨1, .float (f64OfInt 0), 3⟩, ⟨3, .str (ascii "a"), 3⟩, ⟨0, .nil, 4⟩]) 0
          [⟨1, .float (f64OfInt 0), 1⟩, ⟨3, .str (ascii "tmp"), 1⟩, ⟨2, .str (ascii "a"), 2⟩,
            ⟨1, .float (f64OfInt 0), 3⟩, ⟨3, .str (ascii "a"), 3⟩, ⟨0, .nil, 4⟩] ∧
    Optimizer.Optimize stdOps (fun _ => insertionOrder)
      (⟨[⟨1, .float (f64OfInt 0), 1⟩, ⟨3, .str (ascii "tmp"), 1⟩, ⟨0, .nil, 2⟩],
        [⟨.int 7, "number"⟩], none⟩ : Optimizer Nat)
      = some ([⟨0, .nil, 2⟩], []) := by
  obtain ⟨h1, _, _, h4⟩ := C28_dead_store_shape stdOps (by decide) (fun _ => insertionOrder)
    (⟨[⟨1, .float (f64OfInt 0), 1⟩, ⟨3, .str (ascii "tmp"), 1⟩, ⟨2, .str (ascii "a"), 2⟩,
      ⟨1, .float (f64OfInt 0), 3⟩, ⟨3, .str (ascii "a"), 3⟩, ⟨0, .nil, 4⟩],
      [⟨.int 7, "number"⟩], none⟩ : Optimizer Nat)
    [⟨2, .str (ascii "a"), 2⟩, ⟨1, .float (f64OfInt 0), 3⟩, ⟨3, .str (ascii "a"), 3⟩,
      ⟨0, .nil, 4⟩] (by decide!)
  exact ⟨h1, h4 (ascii "tmp") ⟨.int 7, "number"⟩ 1 1 2 none⟩

/-! ## Supporting facts -/

/-- Where `doCleanup` does not panic, that is, when no `MakeFunc` instruction
has a `float64` operand with a negative integer part: no pass makes the stream
longer, `doNameScraping` keeps its length, the loop of `Optimize` ends within
`len + 1` iterations, and `Optimize` returns. -/
theorem Optimize_terminates {τ : Type} (ops : OpCodes) (hd : ops.Distinct)
    (ord : Nat → IterOrder) (o : Optimizer τ) (hs : MakeFuncSafe ops o.Instructions) :
    (doConstantFolding ops o).Instructions.length ≤ o.Instructions.length ∧
    (∀ n, (doNameScraping ops (ord n) o).Instructions.length = o.Instructions.length) ∧
    (∃ o', doCleanup ops o = some o' ∧ o'.Instructions.length ≤ o.Instructions.length) ∧
    (∃ o', optimizeLoop ops ord (o.Instructions.length + 1) 0 o = some o') ∧
    (∃ out, o.Optimize ops ord = some out ∧ out.1.length ≤ o.Instructions.length) := by
  obtain ⟨extra, _, _, hlen⟩ := doConstantFolding_pool ops o
  obtain ⟨o1, h1⟩ := doCleanup_some ops o hs
  obtain ⟨o2, h2⟩ := optimizeLoop_total ops hd ord (o.Instructions.length + 1) 0 o hs
    (by omega)
  refine ⟨by omega, fun n => doNameScraping_length ops (ord n) o,
    ⟨o1, h1, (doCleanup_spec ops o o1 h1).2.2.length_le⟩, ⟨o2, h2⟩,
    ⟨_, Optimize_of_loop ops ord o o2 h2, ?_⟩⟩
  rw [gc_length]
  exact optimizeLoop_inv ops ord (fun x => x.Instructions.length ≤ o.Instructions.length)
    (fun n x x' hx hc => by
      obtain ⟨_, _, _, h⟩ := iteration_spec ops (ord n) x x' hc
      omega) _ 0 o o2 (le_refl _) h2

/-- A `float64` operand that is an integer of the 32-bit signed range, such as
a constant-pool index, is written with `arg_type` 1 and as a zigzag varint. -/
theorem writeInstruction_index (bw : BitWriter) (bs : List Bool) (op : Nat) (line : Int)
    (k : Int) (h1 : -2147483648 ≤ k) (h2 : k < 2147483648) (h : WB bw bs) :
    WB (writeInstruction bw ⟨op, .float (f64OfInt k), line⟩)
      (bs ++ (nbits (opByte ⟨op, .float (f64OfInt k), line⟩) 8 ++
        (encVarUint16 (toUint16 line) ++ (nbits 1 2 ++ encVarUint (zigzag k))))) := by
  obtain ⟨e1, e2⟩ := f64_int32_fixed k h1 h2
  have := WB_writeArg bw bs ⟨op, .float (f64OfInt k), line⟩ h (by simp [ArgEnc])
  unfold encInstruction encArg at this
  rw [e1] at e2
  simp only [e1, e2, if_true] at this
  exact this

/-! ## The built-in `range` -/

theorem toInt64_of_range (x : Int) (h1 : -9223372036854775808 ≤ x)
    (h2 : x < 9223372036854775808) : toInt64 x = x := by
  unfold toInt64
  omega

theorem natAbs_bound (x : Int) (h : x.natAbs < 2 ^ 53) :
    -9007199254740992 < x ∧ x < 9007199254740992 := by
  norm_num at h
  omega

theorem intArg_value (v : Value) (x : Int) (h : IsIntArg v x) (hx : x.natAbs < 2 ^ 53) :
    f64ToInt64 (toFloat64 v) = x := by
  obtain ⟨b1, b2⟩ := natAbs_bound x hx
  rcases h with h | h | ⟨bits, h, hb⟩
  · subst h
    exact f64ToInt64_of_holds _ _ (f64ToInt_ofInt x hx) (by omega) (by omega)
  · subst h
    exact f64ToInt64_of_holds _ _ (f64ToInt_ofInt x hx) (by omega) (by omega)
  · subst h
    exact f64ToInt64_of_holds _ _ hb (by omega) (by omega)

/-- The ceiling of a quotient of integers with a positive divisor, by the
division that rounds down. -/
theorem ceil_div_pos (d s : Int) (hs : 0 < s) :
    Int.ceil ((d : ℚ) / (s : ℚ)) = (d + s - 1) / s := by
  have h1 := Int.ediv_add_emod (d + s - 1) s
  have h2 := Int.emod_nonneg (d + s - 1) (ne_of_gt hs)
  have h3 := Int.emod_lt_of_pos (d + s - 1) hs
  have hsq : (0 : ℚ) < (s : ℚ) := by exact_mod_cast hs
  rw [Int.ceil_eq_iff]
  generalize (d + s - 1) / s = z at h1
  generalize (d + s - 1) % s = m at h1 h2 h3
  constructor
  · rw [lt_div_iff₀ hsq]
    have : (z - 1) * s < d := by nlinarith
    exact_mod_cast this
  · rw [div_le_iff₀ hsq]
    have : d ≤ z * s := by nlinarith
    exact_mod_cast this

theorem tdiv_nonpos (a s : Int) (ha : a < 0) (hs : 0 < s) :
    Int.tdiv a s ≤ 0 ∧ a ≤ Int.tdiv a s := by
  have e : a = -(-a) := by omega
  rw [e, Int.neg_tdiv, Int.tdiv_eq_ediv (by omega) (by omega)]
  have h1 : 0 ≤ (-a) / s := Int.ediv_nonneg (by omega) (by omega)
  have h2 : (-a) / s ≤ -a := Int.ediv_le_self _ (by omega)
  omega

/-- The size that the source computes for a positive step, and for a negative
one after the change of signs. -/
theorem size_eq_ceil (d s : Int) (hs : 0 < s) (hs2 : s < 9007199254740992)
    (hd1 : -18014398509481984 < d) (hd2 : d < 18014398509481984) :
    (if divInt (d + s - 1) s < 0 then 0 else divInt (d + s - 1) s).toNat
      = (max 0 (Int.ceil ((d : ℚ) / (s : ℚ)))).toNat := by
  rw [ceil_div_pos d s hs]
  unfold divInt
  by_cases hn : 0 ≤ d + s - 1
  · rw [Int.tdiv_eq_ediv hn (by omega)]
    have h1 : 0 ≤ (d + s - 1) / s := Int.ediv_nonneg hn (by omega)
    have h2 : (d + s - 1) / s ≤ d + s - 1 := Int.ediv_le_self _ hn
    rw [toInt64_of_range _ (by omega) (by omega), if_neg (by omega), max_eq_right h1]
  · obtain ⟨h1, h2⟩ := tdiv_nonpos (d + s - 1) s (by omega) hs
    have h3 : (d + s - 1) / s < 0 := Int.ediv_neg' (by omega) hs
    rw [toInt64_of_range _ (by omega) (by omega), max_eq_left (by omega)]
    split
    · rfl
    · have : Int.tdiv (d + s - 1) s = 0 := by omega
      rw [this]

theorem rangeSize_spec (start stop step : Int) (hstep : step ≠ 0)
    (h1 : start.natAbs < 2 ^ 53) (h2 : stop.natAbs < 2 ^ 53) (h3 : step.natAbs < 2 ^ 53) :
    (rangeSize start stop step).toNat = specRangeLength start stop step := by
  obtain ⟨a1, a2⟩ := natAbs_bound start h1
  obtain ⟨b1, b2⟩ := natAbs_bound stop h2
  obtain ⟨c1, c2⟩ := natAbs_bound step h3
  unfold rangeSize specRangeLength
  by_cases hp : step > 0
  · simp only [if_pos hp]
    rw [toInt64_of_range (stop - start) (by omega) (by omega),
      toInt64_of_range (stop - start + step) (by omega) (by omega),
      toInt64_of_range (stop - start + step - 1) (by omega) (by omega)]
    exact size_eq_ceil (stop - start) step hp c2 (by omega) (by omega)
  · simp only [if_neg hp]
    rw [toInt64_of_range (start - stop) (by omega) (by omega),
      toInt64_of_range (start - stop - step) (by omega) (by omega),
      toInt64_of_range (start - stop - step - 1) (by omega) (by omega),
      toInt64_of_range (-step) (by omega) (by omega)]
    have e : start - stop - step - 1 = (start - stop) + (-step) - 1 := by ring
    rw [e, size_eq_ceil (start - stop) (-step) (by omega) (by omega) (by omega) (by omega)]
    have e2 : (((start - stop : Int) : ℚ) / ((-step : Int) : ℚ))
        = (((stop - start : Int) : ℚ) / ((step : Int) : ℚ)) := by
      push_cast
      rw [← neg_div_neg_eq]
      congr 1
      · ring
      · ring
    rw [e2]

/-- The positions below the length of the specification are those whose value
lies strictly before `stop` in the direction of the step. -/
theorem lt_specRangeLength (start stop step : Int) (hstep : step ≠ 0) (i : Nat) :
    i < specRangeLength start stop step ↔
      (0 < step ∧ start + (i : Int) * step < stop) ∨
      (step < 0 ∧ stop < start + (i : Int) * step) := by
  unfold specRangeLength
  rw [Int.lt_toNat, lt_max_iff, Int.lt_ceil]
  have hi : ¬ ((i : Int) < 0) := by omega
  simp only [hi, false_or]
  rcases lt_or_gt_of_ne hstep with hneg | hpos
  · have hq : ((step : Int) : ℚ) < 0 := by exact_mod_cast hneg
    rw [lt_div_iff_of_neg hq]
    have e : (((stop - start : Int) : ℚ) < (((i : Int) : ℚ)) * ((step : Int) : ℚ))
        ↔ stop - start < (i : Int) * step := by
      exact_mod_cast Iff.rfl
    rw [e]
    constructor
    · intro h; right; exact ⟨hneg, by omega⟩
    · rintro (⟨h, _⟩ | ⟨_, h⟩)
      · omega
      · omega
  · have hq : (0 : ℚ) < ((step : Int) : ℚ) := by exact_mod_cast hpos
    rw [lt_div_iff₀ hq]
    have e : ((((i : Int) : ℚ)) * ((step : Int) : ℚ) < ((stop - start : Int) : ℚ))
        ↔ (i : Int) * step < stop - start := by
      exact_mod_cast Iff.rfl
    rw [e]
    constructor
    · intro h; left; exact ⟨hpos, by omega⟩
    · rintro (⟨_, h⟩ | ⟨h, _⟩)
      · omega
      · omega

/-- Every value of the list lies between `start` and `stop`. -/
theorem range_value_bounds (start stop step : Int) (hstep : step ≠ 0) (i : Nat)
    (hi : i < specRangeLength start stop step) :
    (start ≤ start + (i : Int) * step ∧ start + (i : Int) * step < stop) ∨
    (stop < start + (i : Int) * step ∧ start + (i : Int) * step ≤ start) := by
  have hi0 : (0 : Int) ≤ (i : Int) := by omega
  rcases (lt_specRangeLength start stop step hstep i).mp hi with ⟨hp, h⟩ | ⟨hn, h⟩
  · left
    have : 0 ≤ (i : Int) * step := mul_nonneg hi0 (by omega)
    exact ⟨by omega, h⟩
  · right
    have : (i : Int) * step ≤ 0 := mul_nonpos_of_nonneg_of_nonpos hi0 (by omega)
    exact ⟨h, by omega⟩

theorem rangeSize_nonneg (start stop step : Int) : 0 ≤ rangeSize start stop step := by
  unfold rangeSize
  simp only
  split <;> omega

/-- What `make` does with the size that `range` computes, by the length of the
specification. -/
theorem makeLen_rangeSize (maxLen : Nat) (start stop step : Int) (hstep : step ≠ 0)
    (h1 : start.natAbs < 2 ^ 53) (h2 : stop.natAbs < 2 ^ 53) (h3 : step.natAbs < 2 ^ 53) :
    makeLen maxLen (rangeSize start stop step)
      = if maxLen < specRangeLength start stop step then none
        else some (specRangeLength start stop step) := by
  have e := rangeSize_spec start stop step hstep h1 h2 h3
  have h0 := rangeSize_nonneg start stop step
  unfold makeLen
  rw [← e]
  by_cases h : (maxLen : Int) < rangeSize start stop step
  · rw [if_pos (Or.inr h), if_pos (by omega)]
  · rw [if_neg (by omega), if_neg (by omega)]

/-- C33 (amended): for integers `start`, `end` (here `stop`) and `step` below
`2^53` in magnitude (the integers that a `float64` holds one by one), passed as
`int`, `int64` or `float64`, and for every limit `maxLen` of the lengths that
`make` allocates: with `step ≠ 0` and the length
`max(0, ceil((end - start) / step))` within the limit, the built-in `range`
returns without error the list of that length whose `i`-th element is
`float64(start + i*step)`; with a length beyond the limit it does not return
(`make` panics); the positions below the length are exactly those `i ≥ 0`
whose value `start + i*step` lies strictly before `end` in the direction of the
step, for positive and for negative steps, and every such value is held
exactly by its `float64`; with `step = 0` the built-in returns the error
"range step cannot be 0". -/
theorem C33_range_within_bounds (maxLen : Nat) (start stop step : Int) (a b c : Value)
    (ha : IsIntArg a start) (hb : IsIntArg b stop) (hc : IsIntArg c step)
    (h1 : start.natAbs < 2 ^ 53) (h2 : stop.natAbs < 2 ^ 53) (h3 : step.natAbs < 2 ^ 53) :
    (step ≠ 0 →
      (specRangeLength start stop step ≤ maxLen →
        rangeBuiltin maxLen [a, b, c]
          = some (.ok ((List.range (specRangeLength start stop step)).map
              fun (i : Nat) => Value.float (f64OfInt (start + (i : Int) * step))))) ∧
      (maxLen < specRangeLength start stop step → rangeBuiltin maxLen [a, b, c] = none) ∧
      (∀ i : Nat, i < specRangeLength start stop step ↔
        (0 < step ∧ start + (i : Int) * step < stop) ∨
        (step < 0 ∧ stop < start + (i : Int) * step)) ∧
      (∀ i : Nat, i < specRangeLength start stop step →
        f64ToInt? (f64OfInt (start + (i : Int) * step)) = some (start + (i : Int) * step))) ∧
    (step = 0 → rangeBuiltin maxLen [a, b, c] = some (.error .StepZero)) := by
  have ea := intArg_value a start ha h1
  have eb := intArg_value b stop hb h2
  have ec := intArg_value c step hc h3
  obtain ⟨a1, a2⟩ := natAbs_bound start h1
  obtain ⟨b1, b2⟩ := natAbs_bound stop h2
  refine ⟨fun hstep => ⟨?_, ?_, fun i => lt_specRangeLength start stop step hstep i, ?_⟩, ?_⟩
  · intro hlen
    unfold rangeBuiltin
    simp only [ea, eb, ec, if_neg hstep]
    rw [makeLen_rangeSize maxLen start stop step hstep h1 h2 h3, if_neg (by omega)]
    simp only
    have e : ∀ i ∈ List.range (specRangeLength start stop step),
        Value.float (f64OfInt (toInt64 (start + toInt64 ((i : Int) * step))))
          = Value.float (f64OfInt (start + (i : Int) * step)) := by
      intro i hi
      rw [List.mem_range] at hi
      have hb := range_value_bounds start stop step hstep i hi
      rw [toInt64_of_range ((i : Int) * step) (by omega) (by omega),
        toInt64_of_range (start + (i : Int) * step) (by omega) (by omega)]
    rw [List.map_congr_left e]
  · intro hlen
    unfold rangeBuiltin
    simp only [ea, eb, ec, if_neg hstep]
    rw [makeLen_rangeSize maxLen start stop step hstep h1 h2 h3, if_pos hlen]
  · intro i hi
    have hb := range_value_bounds start stop step hstep i hi
    apply f64ToInt_ofInt
    have : (2 : Nat) ^ 53 = 9007199254740992 := by norm_num
    omega
  · intro hstep
    unfold rangeBuiltin
    simp only [ec, hstep, if_true]

/-- C33, on an instance with a negative step: `range(10, 0, -3)` is the list of
the four values `10, 7, 4, 1`. -/
theorem C33_range_within_bounds_witness :
    rangeBuiltin maxSliceLen [.float (f64OfInt 10), .int 0, .float (f64OfInt (-3))]
      = some (.ok ((List.range (specRangeLength 10 0 (-3))).map
          fun (i : Nat) => Value.float (f64OfInt (10 + (i : Int) * (-3))))) ∧
    specRangeLength 10 0 (-3) = 4 ∧
    rangeBuiltin maxSliceLen [.float (f64OfInt 10), .int 0, .float (f64OfInt (-3))]
      = some (.ok [.float (f64OfInt 10), .float (f64OfInt 7), .float (f64OfInt 4),
          .float (f64OfInt 1)]) := by
  have h := ((C33_range_within_bounds maxSliceLen 10 0 (-3) (.float (f64OfInt 10)) (.int 0)
    (.float (f64OfInt (-3))) (Or.inr (Or.inr ⟨_, rfl, by decide!⟩)) (Or.inl rfl)
    (Or.inr (Or.inr ⟨_, rfl, by decide!⟩)) (by decide) (by decide) (by decide)).1
      (by decide)).1 (by decide!)
  exact ⟨h, by decide!, by decide!⟩

/-- C33 (as the claim states it, refuted), on two inputs.  First
`range(-2^62, 2^62, 2^62)`: the three arguments are integers that a `float64`
and an `int` hold exactly, the step is positive, and
`ceil((end - start) / step) = 2`: the list of the claim is `[-2^62, 0]`.  In the
source `end - start` is `2^63`, which wraps around to `-2^63`; the size is
`(-2^63 + 2^62 - 1) / 2^62 = -1`, set to `0`, and the result is the empty list.
Second `range(0, 2^45, 1)`: the list of the claim has `2^45` elements, the
source computes that size, and `make([]interface{}, size)` panics, a slice of
`16 * 2^45` bytes being beyond what the runtime allocates. -/
theorem C33_range_overflow_counterexample :
    IsIntArg (.float (f64OfInt (-4611686018427387904))) (-4611686018427387904) ∧
    IsIntArg (.float (f64OfInt 4611686018427387904)) 4611686018427387904 ∧
    specRangeLength (-4611686018427387904) 4611686018427387904 4611686018427387904 = 2 ∧
    rangeBuiltin maxSliceLen [.float (f64OfInt (-4611686018427387904)),
      .float (f64OfInt 4611686018427387904), .float (f64OfInt 4611686018427387904)]
      = some (.ok []) ∧
    specRangeLength 0 35184372088832 1 = 35184372088832 ∧
    rangeSize 0 35184372088832 1 = 35184372088832 ∧
    rangeBuiltin maxSliceLen [.float (f64OfInt 0), .float (f64OfInt 35184372088832),
      .float (f64OfInt 1)] = none :=
  ⟨Or.inr (Or.inr ⟨_, rfl, by decide!⟩), Or.inr (Or.inr ⟨_, rfl, by decide!⟩),
    by decide!, by decide!, by decide!, by decide!, by decide!⟩

/-! ## Renaming is injective on the names of the stream -/

/-- A name of the stream is renamed, or it is a built-in name, or it is empty
(the target of a `Call` that is not counted). -/
theorem occurs_cases (ops : OpCodes) (hd : ops.Distinct) (ord : IterOrder) (hord : ord.Valid)
    (is : List Instruction) (x : List Nat) (h : OccursIn ops is x) :
    (∃ v, mapGet (globalNameMap ops ord is) x = some v) ∨ x ∈ Builtins ∨ x = [] := by
  obtain ⟨inst, hm, hg, ha⟩ := h
  by_cases hx : x = []
  · exact Or.inr (Or.inr hx)
  by_cases hb : x ∈ Builtins
  · exact Or.inr (Or.inl hb)
  left
  have hop : inst.Op = ops.OpGetGlobal ∨ inst.Op = ops.OpSetGlobal ∨ inst.Op = ops.OpCall := by
    simpa [isGlobalRef] using hg
  have hc : countsGlobal ops x inst = true := by
    rw [countsGlobal_iff ops hd]
    refine ⟨ha, ?_⟩
    rcases hop with h1 | h1 | h1
    · exact Or.inl (Or.inl h1)
    · exact Or.inl (Or.inr h1)
    · exact Or.inr ⟨h1, hx⟩
  have hpos : 0 < globalUsageOf ops is x := (globalUsageOf_pos ops is x).mpr ⟨inst, hm, hc⟩
  obtain ⟨_, hmem, hget, _, _⟩ := sortedGlobals_names ops ord hord is
  have hin := (hmem x).mpr ⟨hb, hpos⟩
  obtain ⟨i, hi⟩ := List.getElem?_of_mem hin
  exact ⟨_, hget i x hi⟩

theorem renameName_some (gm : List (List Nat × List Nat)) (x v : List Nat)
    (h : mapGet gm x = some v) : renameName gm x = v := by
  unfold renameName
  rw [h]
  rfl

theorem renameName_none (gm : List (List Nat × List Nat)) (x : List Nat)
    (h : mapGet gm x = none) : renameName gm x = x := by
  unfold renameName
  rw [h]
  rfl

/-- A new name is not the old name of a global that keeps its name. -/
theorem new_ne_unrenamed (ops : OpCodes) (ord : IterOrder) (is : List Instruction)
    (x v y : List Nat) (hx : mapGet (globalNameMap ops ord is) x = some v)
    (hy : y ∈ Builtins ∨ y = []) : v ≠ y := by
  intro e
  subst e
  rcases hy with hy | hy
  · exact (globalNameMap_spec ops ord is x v hx).2.2 hy
  · exact globalNameMap_values ops ord is x v hx hy

theorem renameName_injective (ops : OpCodes) (hd : ops.Distinct) (ord : IterOrder)
    (hord : ord.Valid) (is : List Instruction) (x y : List Nat)
    (hx : OccursIn ops is x) (hy : OccursIn ops is y)
    (h : renameName (globalNameMap ops ord is) x = renameName (globalNameMap ops ord is) y) :
    x = y := by
  have cx := occurs_cases ops hd ord hord is x hx
  have cy := occurs_cases ops hd ord hord is y hy
  cases ex : mapGet (globalNameMap ops ord is) x with
  | some vx =>
    cases ey : mapGet (globalNameMap ops ord is) y with
    | some vy =>
      rw [renameName_some _ _ _ ex, renameName_some _ _ _ ey] at h
      obtain ⟨i, c, hi, hvi⟩ := (globalNameMap_get ops ord hord is x vx).mp ex
      obtain ⟨j, c', hj, hvj⟩ := (globalNameMap_get ops ord hord is y vy).mp ey
      rw [hvi, hvj] at h
      have hij : 1 + i = 1 + j := gName_injective _ _ h
      have hij' : i = j := by omega
      subst hij'
      rw [hi] at hj
      injection hj with hj
      injection hj
    | none =>
      rw [renameName_some _ _ _ ex, renameName_none _ _ ey] at h
      rcases cy with ⟨v, hv⟩ | cy
      · rw [ey] at hv; cases hv
      · exact absurd h (new_ne_unrenamed ops ord is x vx y ex cy)
  | none =>
    cases ey : mapGet (globalNameMap ops ord is) y with
    | some vy =>
      rw [renameName_none _ _ ex, renameName_some _ _ _ ey] at h
      rcases cx with ⟨v, hv⟩ | cx
      · rw [ex] at hv; cases hv
      · exact absurd h.symm (new_ne_unrenamed ops ord is y vy x ey cx)
    | none =>
      rw [renameName_none _ _ ex, renameName_none _ _ ey] at h
      exact h

/-- What `renameInstruction` does to one instruction. -/
theorem renameInstruction_facts (ops : OpCodes) (gm : List (List Nat × List Nat))
    (a : Instruction) :
    (renameInstruction ops gm a).Op = a.Op ∧ (renameInstruction ops gm a).Line = a.Line ∧
    ((∀ s, a.Arg ≠ .str s) → renameInstruction ops gm a = a) ∧
    (isGlobalRef ops a = false → renameInstruction ops gm a = a) ∧
    (∀ s, isGlobalRef ops a = true → a.Arg = .str s →
      (renameInstruction ops gm a).Arg = .str (renameName gm s)) := by
  refine ⟨renameInstruction_Op ops gm a, renameInstruction_Line ops gm a, ?_, ?_, ?_⟩
  · intro h
    apply renameInstruction_other
    rintro ⟨_, x, hx⟩
    exact h x hx
  · intro h
    apply renameInstruction_other
    rintro ⟨hop, _⟩
    have : isGlobalRef ops a = true := by simpa [isGlobalRef] using hop
    rw [h] at this
    cases this
  · intro s hg hs
    have hop : a.Op = ops.OpGetGlobal ∨ a.Op = ops.OpSetGlobal ∨ a.Op = ops.OpCall := by
      simpa [isGlobalRef] using hg
    rw [renameInstruction_str ops gm a s hs hop]

/-- C31: renaming never merges or splits globals.  For distinct opcodes and
every stream, `doNameScraping` keeps the length of the stream and, at every
position, op and line of the instruction; an operand that is not a string
(the slot index of a `GetLocal` or `SetLocal` among them) is unchanged, an
instruction that is not a `GetGlobal`, `SetGlobal` or `Call` is unchanged as a
whole, and the string operand `s` of a `GetGlobal`, `SetGlobal` or `Call`
becomes `renameName globalNameMap s`.  That map is injective on the names
occurring in the stream: two such operands are equal after renaming iff they
were equal before. -/
theorem C31_renaming_injective {τ : Type} (ops : OpCodes) (hd : ops.Distinct)
    (ord : IterOrder) (hord : ord.Valid) (o : Optimizer τ) :
    (doNameScraping ops ord o).Instructions.length = o.Instructions.length ∧
    (∀ (i : Nat) (a : Instruction), o.Instructions[i]? = some a →
      ∃ r, (doNameScraping ops ord o).Instructions[i]? = some r ∧
        r.Op = a.Op ∧ r.Line = a.Line ∧
        ((∀ s, a.Arg ≠ .str s) → r.Arg = a.Arg) ∧
        (isGlobalRef ops a = false → r = a) ∧
        (∀ s, isGlobalRef ops a = true → a.Arg = .str s →
          r.Arg = .str (renameName (globalNameMap ops ord o.Instructions) s))) ∧
    (∀ x y, OccursIn ops o.Instructions x → OccursIn ops o.Instructions y →
      (renameName (globalNameMap ops ord o.Instructions) x
        = renameName (globalNameMap ops ord o.Instructions) y ↔ x = y)) ∧
    (∀ (i j : Nat) (a b r t : Instruction) (x y : List Nat),
      o.Instructions[i]? = some a → o.Instructions[j]? = some b →
      isGlobalRef ops a = true → isGlobalRef ops b = true →
      a.Arg = .str x → b.Arg = .str y →
      (doNameScraping ops ord o).Instructions[i]? = some r →
      (doNameScraping ops ord o).Instructions[j]? = some t →
      (r.Arg = t.Arg ↔ x = y)) := by
  have hI := doNameScraping_Instructions ops ord o
  have hinj : ∀ x y, OccursIn ops o.Instructions x → OccursIn ops o.Instructions y →
      (renameName (globalNameMap ops ord o.Instructions) x
        = renameName (globalNameMap ops ord o.Instructions) y ↔ x = y) := by
    intro x y hx hy
    exact ⟨renameName_injective ops hd ord hord o.Instructions x y hx hy, fun e => by rw [e]⟩
  refine ⟨doNameScraping_length ops ord o, ?_, hinj, ?_⟩
  · intro i a hi
    refine ⟨renameInstruction ops (globalNameMap ops ord o.Instructions) a, ?_, ?_⟩
    · rw [hI, List.getElem?_map, hi]
      rfl
    · obtain ⟨h1, h2, h3, h4, h5⟩ :=
        renameInstruction_facts ops (globalNameMap ops ord o.Instructions) a
      exact ⟨h1, h2, fun h => by rw [h3 h], h4, h5⟩
  · intro i j a b r t x y hi hj ga gb ha hb hr ht
    rw [hI, List.getElem?_map, hi] at hr
    rw [hI, List.getElem?_map, hj] at ht
    injection hr with hr
    injection ht with ht
    have h5 := (renameInstruction_facts ops (globalNameMap ops ord o.Instructions) a).2.2.2.2
      x ga ha
    have h6 := (renameInstruction_facts ops (globalNameMap ops ord o.Instructions) b).2.2.2.2
      y gb hb
    rw [← hr, ← ht, h5, h6]
    have hx : OccursIn ops o.Instructions x := ⟨a, List.getElem?_mem hi, ga, ha⟩
    have hy : OccursIn ops o.Instructions y := ⟨b, List.getElem?_mem hj, gb, hb⟩
    rw [← hinj x y hx hy]
    constructor
    · intro e; injection e
    · intro e; rw [e]

/-- C31, on an instance: in the stream `SetGlobal g1, GetGlobal x, GetGlobal x,
Call print, Call "", GetLocal 0, Halt` the global `x` (two uses) becomes `g1`
and the global `g1` (one use) becomes `g2`; `print` and the empty name stay; the
four names remain pairwise different. -/
theorem C31_renaming_injective_witness :
    (doNameScraping stdOps insertionOrder
      (⟨[⟨3, .str (ascii "g1"), 1⟩, ⟨2, .str (ascii "x"), 2⟩, ⟨2, .str (ascii "x"), 3⟩,
        ⟨7, .str (ascii "print"), 4⟩, ⟨7, .str [], 5⟩, ⟨4, .float (f64OfInt 0), 6⟩,
        ⟨0, .nil, 7⟩], [], none⟩ : Optimizer Nat)).Instructions
      = [⟨3, .str (ascii "g2"), 1⟩, ⟨2, .str (ascii "g1"), 2⟩, ⟨2, .str (ascii "g1"), 3⟩,
        ⟨7, .str (ascii "print"), 4⟩, ⟨7, .str [], 5⟩, ⟨4, .float (f64OfInt 0), 6⟩,
        ⟨0, .nil, 7⟩] ∧
    ((⟨3, .str (ascii "g2"), 1⟩ : Instruction).Arg = (⟨2, .str (ascii "g1"), 2⟩ : Instruction).Arg
      ↔ ascii "g1" = ascii "x") := by
  have h := (C31_renaming_injective stdOps (by decide) insertionOrder insertion_valid
    (⟨[⟨3, .str (ascii "g1"), 1⟩, ⟨2, .str (ascii "x"), 2⟩, ⟨2, .str (ascii "x"), 3⟩,
        ⟨7, .str (ascii "print"), 4⟩, ⟨7, .str [], 5⟩, ⟨4, .float (f64OfInt 0), 6⟩,
        ⟨0, .nil, 7⟩], [], none⟩ : Optimizer Nat)).2.2.2 0 1
    ⟨3, .str (ascii "g1"), 1⟩ ⟨2, .str (ascii "x"), 2⟩
    ⟨3, .str (ascii "g2"), 1⟩ ⟨2, .str (ascii "g1"), 2⟩ (ascii "g1") (ascii "x")
    rfl rfl (by decide) (by decide) rfl rfl (by decide!) (by decide!)
  exact ⟨by decide!, h⟩

/-! ## Protected instructions through the passes -/

theorem Distinct_halt (ops : OpCodes) (hd : ops.Distinct) :
    ops.OpHalt ≠ ops.OpAdd ∧ ops.OpHalt ≠ ops.OpSub ∧ ops.OpHalt ≠ ops.OpMul ∧
    ops.OpHalt ≠ ops.OpDiv := by
  unfold OpCodes.Distinct at hd
  refine ⟨?_, ?_, ?_, ?_⟩ <;>
    (intro h; rw [h] at hd; simp at hd)

theorem isProtected_congr (ops : OpCodes) (a b : Instruction) (h : a.Op = b.Op) :
    isProtected ops a = isProtected ops b := by
  unfold isProtected
  rw [h]

theorem isProtected_halt (ops : OpCodes) (hd : ops.Distinct) (h : Instruction)
    (hh : h.Op = ops.OpHalt) : isProtected ops h = true := by
  obtain ⟨_, _, _, d1, d2, d3, _⟩ := Distinct_store ops hd
  obtain ⟨e1, e2, e3, e4⟩ := Distinct_halt ops hd
  unfold isProtected isArithmeticOp
  rw [hh]
  simp [d1, d2, d3, e1, e2, e3, e4]

theorem isProtected_false (ops : OpCodes) (a : Instruction)
    (h : a.Op = ops.OpConstant ∨ a.Op = ops.OpSetGlobal ∨ a.Op = ops.OpSetLocal ∨
      isArithmeticOp ops a.Op = true) : isProtected ops a = false := by
  unfold isProtected
  rcases h with h | h | h | h <;> simp [h]

theorem isProtected_true (ops : OpCodes) (a : Instruction) (h : isProtected ops a = true) :
    a.Op ≠ ops.OpConstant ∧ a.Op ≠ ops.OpSetGlobal ∧ a.Op ≠ ops.OpSetLocal ∧
    isArithmeticOp ops a.Op = false := by
  unfold isProtected at h
  simp at h
  obtain ⟨⟨⟨h1, h2⟩, h3⟩, h4⟩ := h
  exact ⟨h1, h2, h3, h4⟩

/-- The fixed part of a `Halt` instruction is the whole instruction. -/
theorem fixedPart_halt (ops : OpCodes) (hd : ops.Distinct) (x h : Instruction)
    (hh : h.Op = ops.OpHalt) (e : fixedPart ops x = fixedPart ops h) : x = h := by
  obtain ⟨_, _, _, _, _, _, d4, d5, d6, _⟩ := Distinct_store ops hd
  have e1 : x.Op = h.Op := congrArg Prod.fst e
  have e2 : x.Line = h.Line := congrArg (fun p => p.2.1) e
  have e3 := congrArg (fun p => p.2.2) e
  have hx : x.Op = ops.OpHalt := e1.trans hh
  have n1 : ¬ (ops.OpHalt = ops.OpGetGlobal ∨ ops.OpHalt = ops.OpCall) := by
    rintro (h' | h')
    · exact d4 h'
    · exact d5 h'
  have f : ∀ y : Instruction, y.Op = ops.OpHalt → (fixedPart ops y).2.2 = some y.Arg := by
    intro y hy
    unfold fixedPart
    rw [hy]
    cases y.Arg <;> simp [n1, d6]
  simp only at e3
  rw [f x hx, f h hh] at e3
  injection e3 with e3
  cases x
  cases h
  simp only at e1 e2 e3
  subst e1 e2 e3
  rfl

theorem Kept_refl (ops : OpCodes) (l : List Instruction) : Kept ops l l :=
  ⟨rfl, fun h hl hp => ⟨h, hl, hp, rfl⟩⟩

theorem Kept_trans (ops : OpCodes) (a b c : List Instruction) (h1 : Kept ops a b)
    (h2 : Kept ops b c) : Kept ops a c := by
  refine ⟨h2.1.trans h1.1, ?_⟩
  intro h hl hp
  obtain ⟨x, hx, px, fx⟩ := h1.2 h hl hp
  obtain ⟨y, hy, py, fy⟩ := h2.2 x hx px
  exact ⟨y, hy, py, fy.trans fx⟩

/-- A pass that rewrites every instruction in place, keeping the op of each and
the fixed part of the protected ones. -/
theorem Kept_map (ops : OpCodes) (f : Instruction → Instruction)
    (hop : ∀ x, (f x).Op = x.Op)
    (hfix : ∀ x, isProtected ops x = true → fixedPart ops (f x) = fixedPart ops x)
    (l : List Instruction) : Kept ops l (l.map f) := by
  have hp : (isProtected ops) ∘ f = isProtected ops := by
    funext x
    exact isProtected_congr ops _ _ (hop x)
  constructor
  · rw [List.filter_map, hp, List.map_map]
    apply List.map_congr_left
    intro x hx
    exact hfix x (List.mem_filter.mp hx).2
  · intro h hl hpr
    refine ⟨f h, ?_, ?_, hfix h hpr⟩
    · rw [List.getLast?_map, hl]
      rfl
    · rw [isProtected_congr ops _ _ (hop h)]
      exact hpr

theorem getLast?_cons_of_some (a h : Instruction) (l : List Instruction)
    (hl : l.getLast? = some h) : (a :: l).getLast? = some h := by
  cases l with
  | nil => cases hl
  | cons b t => rw [List.getLast?_cons_cons]; exact hl

/-- Folding keeps every protected instruction, and the last instruction when it
is protected. -/
theorem foldLoop_protected (ops : OpCodes) (fuel : Nat) (is : List Instruction)
    (cs : List Constant) :
    (foldLoop ops fuel is cs).1.filter (isProtected ops) = is.filter (isProtected ops) ∧
    (is = [] → (foldLoop ops fuel is cs).1 = []) ∧
    (∀ h, is.getLast? = some h → isProtected ops h = true →
      (foldLoop ops fuel is cs).1.getLast? = some h) := by
  refine foldLoop_induct ops
    (fun is _ r => r.1.filter (isProtected ops) = is.filter (isProtected ops) ∧
      (is = [] → r.1 = []) ∧
      (∀ h, is.getLast? = some h → isProtected ops h = true → r.1.getLast? = some h))
    ?_ ?_ ?_ fuel is cs
  · intro is cs
    exact ⟨rfl, fun h => h, fun h hl _ => hl⟩
  · intro a rest cs r _ ih
    obtain ⟨ih1, ih2, ih3⟩ := ih
    refine ⟨?_, (fun h => by cases h), ?_⟩
    · simp only [List.filter_cons, ih1]
    · intro h hl hp
      cases rest with
      | nil =>
        simp only [ih2 rfl]
        exact hl
      | cons b t =>
        rw [List.getLast?_cons_cons] at hl
        exact getLast?_cons_of_some a h r.1 (ih3 h hl hp)
  · intro a b c rest cs result r hw ih
    obtain ⟨ih1, _, ih3⟩ := ih
    obtain ⟨ha, hb, hc, _⟩ := foldWindow_some ops cs a b c result hw
    have pa : isProtected ops a = false := isProtected_false ops a (Or.inl ha)
    have pb : isProtected ops b = false := isProtected_false ops b (Or.inl hb)
    have pc : isProtected ops c = false :=
      isProtected_false ops c (Or.inr (Or.inr (Or.inr hc)))
    have pn : isProtected ops ⟨ops.OpConstant, .float (f64OfInt cs.length), a.Line⟩ = false :=
      isProtected_false ops _ (Or.inl rfl)
    refine ⟨?_, (fun h => by cases h), ?_⟩
    · rw [ih1]
      simp only [List.filter_cons, pa, pb, pc, pn]
      rfl
    · intro h hl hp
      cases rest with
      | nil =>
        rw [List.getLast?_cons_cons, List.getLast?_cons_cons] at hl
        simp only [List.getLast?_singleton] at hl
        injection hl with hl
        rw [← hl, pc] at hp
        cases hp
      | cons d t =>
        rw [List.getLast?_cons_cons, List.getLast?_cons_cons, List.getLast?_cons_cons] at hl
        apply ih3 h _ hp
        rw [List.getLast?_cons_cons]
        exact hl

theorem Kept_of_filter (ops : OpCodes) (a b : List Instruction)
    (h1 : b.filter (isProtected ops) = a.filter (isProtected ops))
    (h2 : ∀ h, a.getLast? = some h → isProtected ops h = true → b.getLast? = some h) :
    Kept ops a b :=
  ⟨by rw [h1], fun h hl hp => ⟨h, h2 h hl hp, hp, rfl⟩⟩

theorem fold_kept {τ : Type} (ops : OpCodes) (o : Optimizer τ) :
    Kept ops o.Instructions (doConstantFolding ops o).Instructions := by
  rw [doConstantFolding_Instructions]
  obtain ⟨h1, _, h3⟩ := foldLoop_protected ops o.Instructions.length o.Instructions o.Constants
  exact Kept_of_filter ops _ _ h1 h3

/-- Renaming keeps the fixed part of every instruction but a `SetGlobal`. -/
theorem rename_fixedPart (ops : OpCodes) (gm : List (List Nat × List Nat)) (x : Instruction)
    (hp : isProtected ops x = true) :
    fixedPart ops (renameInstruction ops gm x) = fixedPart ops x := by
  obtain ⟨_, hs, _, _⟩ := isProtected_true ops x hp
  rcases renameInstruction_Arg ops gm x with h | ⟨hop, old, new, ha, _, h⟩
  · rw [h]
  · have hop' : x.Op = ops.OpGetGlobal ∨ x.Op = ops.OpCall := by
      rcases hop with h1 | h1 | h1
      · exact Or.inl h1
      · exact absurd h1 hs
      · exact Or.inr h1
    rw [h]
    unfold fixedPart
    simp only [ha, hop', if_true]

theorem rename_kept {τ : Type} (ops : OpCodes) (ord : IterOrder) (o : Optimizer τ) :
    Kept ops o.Instructions (doNameScraping ops ord o).Instructions := by
  rw [doNameScraping_Instructions]
  exact Kept_map ops _ (renameInstruction_Op ops _) (rename_fixedPart ops _) _

/-- Garbage collection keeps the fixed part of every instruction but a
`Constant`. -/
theorem gc_fixedPart (ops : OpCodes) (oldToNew : List Int) (x : Instruction)
    (hp : isProtected ops x = true) :
    fixedPart ops (gcRewrite ops oldToNew x) = fixedPart ops x := by
  obtain ⟨hc, _, _, _⟩ := isProtected_true ops x hp
  by_cases hm : x.Op = ops.OpMakeFunc
  · have e1 := gcRewrite_Op ops oldToNew x
    have e2 := gcRewrite_Line ops oldToNew x
    rcases gcRewrite_Arg ops oldToNew x with h | ⟨v, hv, w, hw⟩
    · rw [h]
    · unfold fixedPart
      rw [e1, e2, hw, hv]
      simp only [hm, if_true]
  · rw [gcRewrite_not_poolRef ops oldToNew x (by
      rintro (h | h)
      · exact hc h
      · exact hm h)]

theorem gc_kept {τ : Type} (ops : OpCodes) (o : Optimizer τ) :
    Kept ops o.Instructions (doGarbageCollection ops o).Instructions := by
  rw [gc_Instructions]
  exact Kept_map ops _ (gcRewrite_Op ops _) (gc_fixedPart ops _) _

/-- Cleanup removes stores and `Constant` instructions only. -/
theorem removedAt_unprotected (ops : OpCodes) (is : List Instruction) (i : Nat)
    (inst : Instruction) (hi : is[i]? = some inst) (hr : removedAt ops is i = true) :
    isProtected ops inst = false := by
  unfold removedAt at hr
  rw [hi] at hr
  simp only [Bool.or_eq_true, Bool.not_eq_true', Bool.and_eq_true, Option.any_some,
    decide_eq_true_eq] at hr
  rcases hr with hk | ⟨hc, _⟩
  · unfold keepRule at hk
    rw [hi] at hk
    simp only at hk
    by_cases h1 : inst.Op = ops.OpSetGlobal
    · exact isProtected_false ops inst (Or.inr (Or.inl h1))
    · rw [if_neg h1] at hk
      by_cases h2 : inst.Op = ops.OpSetLocal
      · exact isProtected_false ops inst (Or.inr (Or.inr (Or.inl h2)))
      · rw [if_neg h2] at hk
        cases hk
  · exact isProtected_false ops inst (Or.inl hc)

theorem removeAt_protected (ops : OpCodes) (drop : Nat → Bool) :
    ∀ (is : List Instruction) (k : Nat),
      (∀ j inst, is[j]? = some inst → drop (k + j) = true → isProtected ops inst = false) →
      (removeAt drop k is).filter (isProtected ops) = is.filter (isProtected ops) ∧
      (∀ h, is.getLast? = some h → isProtected ops h = true →
        (removeAt drop k is).getLast? = some h) := by
  intro is
  induction is with
  | nil =>
    intro k _
    exact ⟨rfl, fun h hl _ => by cases hl⟩
  | cons a rest ih =>
    intro k hk
    have hrest : ∀ j inst, rest[j]? = some inst → drop (k + 1 + j) = true →
        isProtected ops inst = false := by
      intro j inst hj hd
      apply hk (j + 1) inst
      · simpa using hj
      · have e : k + (j + 1) = k + 1 + j := by omega
        rw [e]; exact hd
    obtain ⟨ih1, ih2⟩ := ih (k + 1) hrest
    have ha : drop k = true → isProtected ops a = false := by
      intro hd
      exact hk 0 a (by simp) (by simpa using hd)
    constructor
    · unfold removeAt
      by_cases hd : drop k = true
      · rw [if_pos hd, ih1, List.filter_cons, ha hd]
        rfl
      · rw [if_neg hd, List.filter_cons, List.filter_cons, ih1]
    · intro h hl hp
      cases rest with
      | nil =>
        simp only [List.getLast?_singleton] at hl
        injection hl with hl
        subst hl
        have hd : ¬ drop k = true := by
          intro hd
          rw [ha hd] at hp
          cases hp
        unfold removeAt
        rw [if_neg hd]
        unfold removeAt
        rfl
      | cons b t =>
        rw [List.getLast?_cons_cons] at hl
        have hl' := ih2 h hl hp
        unfold removeAt
        by_cases hd : drop k = true
        · rw [if_pos hd]; exact hl'
        · rw [if_neg hd]; exact getLast?_cons_of_some a h _ hl'

theorem cleanup_kept {τ : Type} (ops : OpCodes) (hd : ops.Distinct) (o r : Optimizer τ)
    (h : doCleanup ops o = some r) : Kept ops o.Instructions r.Instructions := by
  rw [doCleanup_shape ops hd o r h]
  obtain ⟨h1, h2⟩ := removeAt_protected ops (removedAt ops o.Instructions) o.Instructions 0
    (fun j inst hj hr => removedAt_unprotected ops o.Instructions j inst hj
      (by simpa using hr))
  exact Kept_of_filter ops _ _ h1 h2

theorem iteration_kept {τ : Type} (ops : OpCodes) (hd : ops.Distinct) (ord : IterOrder)
    (o r : Optimizer τ)
    (h : doCleanup ops (doNameScraping ops ord (doConstantFolding ops o)) = some r) :
    Kept ops o.Instructions r.Instructions :=
  Kept_trans ops _ _ _ (fold_kept ops o)
    (Kept_trans ops _ _ _ (rename_kept ops ord (doConstantFolding ops o))
      (cleanup_kept ops hd _ r h))

theorem Optimize_kept {τ : Type} (ops : OpCodes) (hd : ops.Distinct) (ord : Nat → IterOrder)
    (o : Optimizer τ) (out : List Instruction × List Constant)
    (h : o.Optimize ops ord = some out) : Kept ops o.Instructions out.1 := by
  obtain ⟨r, hr, hout⟩ := Optimize_eq ops ord o out h
  have hk : Kept ops o.Instructions r.Instructions :=
    optimizeLoop_inv ops ord (fun x => Kept ops o.Instructions x.Instructions)
      (fun n x y hx hxy => Kept_trans ops _ _ _ hx (iteration_kept ops hd (ord n) x y hxy))
      _ 0 o r (Kept_refl ops _) hr
  rw [hout]
  exact Kept_trans ops _ _ _ hk (gc_kept ops r)

/-- C32 (amended): the final `Halt` survives optimization, and no pass deletes
an instruction whose op is not `Constant`, `SetGlobal`, `SetLocal` or an
arithmetic op, or changes its op, its line or its place among such
instructions; its operand is unchanged too unless it is the string operand of
a `GetGlobal` or `Call` (renamed by `doNameScraping`) or the `float64` operand
of a `MakeFunc` (remapped by `doGarbageCollection`).  For distinct opcodes:
each of the four passes keeps the protected instructions in this sense, and so
does `Optimize`; when the input ends with a `Halt`, the stream that `Optimize`
returns is not empty and ends with that same instruction; and `Optimize`
returns whenever no `MakeFunc` has a negative operand. -/
theorem C32_protected_instructions_kept {τ : Type} (ops : OpCodes) (hd : ops.Distinct)
    (ord : Nat → IterOrder) (o : Optimizer τ) :
    Kept ops o.Instructions (doConstantFolding ops o).Instructions ∧
    (∀ n, Kept ops o.Instructions (doNameScraping ops (ord n) o).Instructions) ∧
    (∀ r, doCleanup ops o = some r → Kept ops o.Instructions r.Instructions) ∧
    Kept ops o.Instructions (doGarbageCollection ops o).Instructions ∧
    (∀ out, o.Optimize ops ord = some out →
      (out.1.filter (isProtected ops)).map (fixedPart ops)
        = (o.Instructions.filter (isProtected ops)).map (fixedPart ops) ∧
      ∀ h, o.Instructions.getLast? = some h → h.Op = ops.OpHalt →
        out.1 ≠ [] ∧ out.1.getLast? = some h) ∧
    (MakeFuncSafe ops o.Instructions → ∃ out, o.Optimize ops ord = some out) := by
  refine ⟨fold_kept ops o, fun n => rename_kept ops (ord n) o,
    fun r hr => cleanup_kept ops hd o r hr, gc_kept ops o, ?_,
    fun hs => Optimize_total ops hd ord o hs⟩
  intro out hout
  obtain ⟨k1, k2⟩ := Optimize_kept ops hd ord o out hout
  refine ⟨k1, ?_⟩
  intro h hl hh
  obtain ⟨x, hx, _, fx⟩ := k2 h hl (isProtected_halt ops hd h hh)
  have e : x = h := fixedPart_halt ops hd x h hh fx
  rw [e] at hx
  refine ⟨?_, hx⟩
  intro hnil
  rw [hnil] at hx
  cases hx

/-- C32, on an instance: in `Constant 0, SetGlobal x, Call f, Halt` the dead
store and its `Constant` go, `Call f` becomes `Call g1`, and the result ends
with the `Halt` of the input. -/
theorem C32_protected_instructions_kept_witness :
    Optimizer.Optimize stdOps (fun _ => insertionOrder)
      (⟨[⟨1, .float (f64OfInt 0), 1⟩, ⟨3, .str (ascii "x"), 2⟩, ⟨7, .str (ascii "f"), 3⟩,
        ⟨0, .nil, 4⟩], [⟨.int 5, "number"⟩], none⟩ : Optimizer Nat)
      = some ([⟨7, .str (ascii "g1"), 3⟩, ⟨0, .nil, 4⟩], []) ∧
    ([⟨7, .str (ascii "g1"), 3⟩, ⟨0, .nil, 4⟩] : List Instruction) ≠ [] ∧
    ([⟨7, .str (ascii "g1"), 3⟩, ⟨0, .nil, 4⟩] : List Instruction).getLast?
      = some ⟨0, .nil, 4⟩ := by
  have hrun : Optimizer.Optimize stdOps (fun _ => insertionOrder)
      (⟨[⟨1, .float (f64OfInt 0), 1⟩, ⟨3, .str (ascii "x"), 2⟩, ⟨7, .str (ascii "f"), 3⟩,
        ⟨0, .nil, 4⟩], [⟨.int 5, "number"⟩], none⟩ : Optimizer Nat)
      = some ([⟨7, .str (ascii "g1"), 3⟩, ⟨0, .nil, 4⟩], []) := by decide!
  have h := ((C32_protected_instructions_kept stdOps (by decide) (fun _ => insertionOrder)
    (⟨[⟨1, .float (f64OfInt 0), 1⟩, ⟨3, .str (ascii "x"), 2⟩, ⟨7, .str (ascii "f"), 3⟩,
        ⟨0, .nil, 4⟩], [⟨.int 5, "number"⟩], none⟩ : Optimizer Nat)).2.2.2.2.1
    ([⟨7, .str (ascii "g1"), 3⟩, ⟨0, .nil, 4⟩], []) hrun).2 ⟨0, .nil, 4⟩ rfl rfl
  exact ⟨hrun, h⟩

/-- C32 (as the claim states it, refuted): instructions whose op is not
`Constant`, `SetGlobal`, `SetLocal` or arithmetic are altered.  In
`GetGlobal x, Halt` the pass `doNameScraping` rewrites the `GetGlobal` into
`GetGlobal g1`, and so `Optimize` returns it; in `MakeFunc 1, Halt` with a pool
of two constants `doGarbageCollection` rewrites the `MakeFunc` into
`MakeFunc 0`. -/
theorem C32_altered_counterexample :
    (doNameScraping stdOps insertionOrder
      (⟨[⟨2, .str (ascii "x"), 1⟩, ⟨0, .nil, 2⟩], [], none⟩ : Optimizer Nat)).Instructions
      = [⟨2, .str (ascii "g1"), 1⟩, ⟨0, .nil, 2⟩] ∧
    Optimizer.Optimize stdOps (fun _ => insertionOrder)
      (⟨[⟨2, .str (ascii "x"), 1⟩, ⟨0, .nil, 2⟩], [], none⟩ : Optimizer Nat)
      = some ([⟨2, .str (ascii "g1"), 1⟩, ⟨0, .nil, 2⟩], []) ∧
    (doGarbageCollection stdOps
      (⟨[⟨6, .float (f64OfInt 1), 1⟩, ⟨0, .nil, 2⟩],
        [⟨.int 5, "number"⟩, ⟨.int 7, "number"⟩], none⟩ : Optimizer Nat)).Instructions
      = [⟨6, .float (f64OfInt 0), 1⟩, ⟨0, .nil, 2⟩] ∧
    Optimizer.Optimize stdOps (fun _ => insertionOrder)
      (⟨[⟨6, .float (f64OfInt 1), 1⟩, ⟨0, .nil, 2⟩],
        [⟨.int 5, "number"⟩, ⟨.int 7, "number"⟩], none⟩ : Optimizer Nat)
      = some ([⟨6, .float (f64OfInt 0), 1⟩, ⟨0, .nil, 2⟩], [⟨.int 7, "number"⟩]) := by
  refine ⟨?_, ?_, ?_, ?_⟩ <;> decide!

end LightLang
